import Mathlib

/-!
# Turtle graphics: the motion state machine and the command interpreter

A shallow embedding of `TurtleControl` (turtlecontrol.cpp / turtlecontrol.h),
`Obstacle` (obstacle.cpp), `Canvas` (canvas.cpp), `Parser` (parser.cpp) and
`SaveLoadManager` (SaveLoadManager.cpp).

Conventions of the embedding

* Inside `TurtleControl`, `Obstacle`, `Canvas` and `SaveLoadManager` the C++
  `float` / `qreal` values are exact rationals (`ℚ`): the rounding of their
  arithmetic is not modelled.  One place where it shows is the loop of `arc` over
  the steps, see `arc_step_keys`.
* The `float` values of `Parser` are values of the format IEEE 754 binary32
  (`Float32`), because their decimal text is part of what the parser returns:
  `std::stof` rounds the number it reads to the nearest `float`, the sum and the
  product of the assignments are rounded and overflow to infinity, the sign of
  zero is kept, and `std::to_string` prints the `float` that is stored.  The
  number handed to a slot of `TurtleControl` is the value of that `float`.
* Qt itself is not part of the repository.  What the code takes from Qt is made
  explicit: the trigonometric functions and the polygon intersection test are the
  fields of a `Host`, and the animation engine is the function `tick`, which
  delivers one sample of the running animation group the way
  `QParallelAnimationGroup` / `QPropertyAnimation` do (write the animated
  properties in the order the animations were added, raise `valueChanged` when the
  value differs from the previous one, stop the group when the end is reached).
* Lengths are square roots, which `ℚ` does not have: a length is stored as its
  square, and two lengths are compared through their squares (both are `≥ 0`).
* Time is not modelled: the duration that `forward`, `turn` and `arc` return is
  left out, and a run of an animation is a finite list of samples, at progress
  values between `0` and `1`, followed by the sample at the end.  Which samples a
  motion receives is decided by the host; the statements hold for every such
  list unless they say otherwise.
* Signals are recorded in a log (`signals_`) in the order they are emitted; only
  `on_movement_completed` and `on_collision` are recorded, the `*_changed`
  notifications carry no data and are left out.
* The connections between the signals of `Parser` and the slots of
  `TurtleControl` are made outside the C++ sources; they are the definitions
  `dispatch` and `deliver_completions`.
* A call that does not return a value ends in a `Stop`: it throws, it waits for
  ever for a completion signal, or the recursion of the model is out of fuel.
  `parse_line` calls itself through `run_loop` and through the body of a user
  function; each level of that nesting takes one unit of fuel.
* Files are not modelled.  `parse_script` reads the lines of a script from its
  text; `saveState` yields the text it writes and `loadState` starts from the
  lines read from such a text.  The text functions of Qt that `SaveLoadManager`
  uses are the fields of a `QtText`; `qt_text` is the instance with the format
  `g` of six significant digits and the colour names `#rrggbb`.
* The random generator is not modelled: `Canvas::generate_obstacles` takes the
  sequence of the results of `QRandomGenerator::global()`, one `RandomDraw` for
  each call of `create_random_obstacle`, and returns how many it has used.
-/

namespace TurtleGraphics

/-! ## Geometry -/

/-- Qt's `QPointF` with exact coordinates. -/
structure QPointF where
  x : ℚ
  y : ℚ
deriving DecidableEq, Repr

instance : Inhabited QPointF := ⟨⟨0, 0⟩⟩

instance : Add QPointF := ⟨fun a b => ⟨a.x + b.x, a.y + b.y⟩⟩

instance : Sub QPointF := ⟨fun a b => ⟨a.x - b.x, a.y - b.y⟩⟩

/-- The product `p * k` of a point and a number. -/
def QPointF.scale (p : QPointF) (k : ℚ) : QPointF := ⟨p.x * k, p.y * k⟩

/-- Square of `QLineF(a, b).length()`. -/
def length_sq (a b : QPointF) : ℚ := (b.x - a.x) ^ 2 + (b.y - a.y) ^ 2

/-- Qt's `QPolygonF`: the list of its vertices. -/
abbrev QPolygonF := List QPointF

/-- `QPolygonF::translate`. -/
def QPolygonF.translate (poly : QPolygonF) (v : QPointF) : QPolygonF := poly.map (· + v)

/-- Qt's `QRectF`: top-left corner, width and height. -/
structure QRectF where
  x : ℚ
  y : ℚ
  w : ℚ
  h : ℚ
deriving DecidableEq, Repr

/-- `QPolygonF::boundingRect`: the empty polygon has the null rectangle, any other
polygon the smallest axis-parallel rectangle that holds all its vertices. -/
def boundingRect : QPolygonF → QRectF
  | [] => ⟨0, 0, 0, 0⟩
  | p :: ps =>
    let minx := ps.foldl (fun m q => min m q.x) p.x
    let maxx := ps.foldl (fun m q => max m q.x) p.x
    let miny := ps.foldl (fun m q => min m q.y) p.y
    let maxy := ps.foldl (fun m q => max m q.y) p.y
    ⟨minx, miny, maxx - minx, maxy - miny⟩

/-- `QPolygonF(const QRectF &)`: the four corners, closed by repeating the first. -/
def QPolygonF.ofRect (r : QRectF) : QPolygonF :=
  [⟨r.x, r.y⟩, ⟨r.x + r.w, r.y⟩, ⟨r.x + r.w, r.y + r.h⟩, ⟨r.x, r.y + r.h⟩, ⟨r.x, r.y⟩]

/-- `QRectF(topLeft, bottomRight)`. -/
def QRectF.ofCorners (tl br : QPointF) : QRectF := ⟨tl.x, tl.y, br.x - tl.x, br.y - tl.y⟩

/-- C's `fmod`: the remainder of the division truncated towards zero; the result
has the sign of `x`. -/
def fmod (x y : ℚ) : ℚ :=
  x - y * (((if 0 ≤ x / y then ⌊x / y⌋ else ⌈x / y⌉ : ℤ)) : ℚ)

/-- What the code takes from Qt and the C library: cosine and sine of an angle
given in degrees (`qCos(qDegreesToRadians(a))`, `cos(2 * M_PI * i / 10)` is the
cosine of `36 * i` degrees) and `QPolygonF::intersects`. -/
structure Host where
  cos : ℚ → ℚ
  sin : ℚ → ℚ
  intersects : QPolygonF → QPolygonF → Bool

/-- Qt's `QColor` as its red, green and blue channels. -/
structure QColor where
  r : ℕ
  g : ℕ
  b : ℕ
deriving DecidableEq, Repr

/-- The colour `Qt::black`. -/
def QColor.black : QColor := ⟨0, 0, 0⟩

/-- The colour `Qt::red`. -/
def QColor.red : QColor := ⟨255, 0, 0⟩

/-! ## Obstacle (obstacle.cpp) -/

/-- The class `Obstacle`.  `m_bounding_radius_sq` is the square of the member
`m_bounding_radius`. -/
structure Obstacle where
  m_points : QPolygonF
  m_color : QColor
  m_position : QPointF
  m_bounding_radius_sq : ℚ
deriving DecidableEq, Repr

/-- `Obstacle::update_position`: the mean of the vertices, when there are any. -/
def Obstacle.update_position (o : Obstacle) : Obstacle :=
  if o.m_points ≠ [] then
    let sum := o.m_points.foldl (· + ·) (⟨0, 0⟩ : QPointF)
    { o with m_position := ⟨sum.x / o.m_points.length, sum.y / o.m_points.length⟩ }
  else o

/-- `Obstacle::update_bounding_radius`: half the diagonal of the bounding
rectangle (squared: a quarter of the squared diagonal). -/
def Obstacle.update_bounding_radius (o : Obstacle) : Obstacle :=
  let bounding_rect := boundingRect o.m_points
  let top_left : QPointF := ⟨bounding_rect.x, bounding_rect.y⟩
  let bottom_right : QPointF :=
    ⟨bounding_rect.x + bounding_rect.w, bounding_rect.y + bounding_rect.h⟩
  { o with m_bounding_radius_sq := length_sq top_left bottom_right * (1 / 4) }

/-- The constructor `Obstacle(points, color, parent)`. -/
def Obstacle.new (points : QPolygonF) (color : QColor) : Obstacle :=
  Obstacle.update_bounding_radius
    (Obstacle.update_position
      { m_points := points, m_color := color, m_position := ⟨0, 0⟩,
        m_bounding_radius_sq := (1 / 1000) ^ 2 })

/-- `Obstacle::set_position`: the vertices are translated with the centre. -/
def Obstacle.set_position (pos : QPointF) (o : Obstacle) : Obstacle :=
  if o.m_position ≠ pos then
    let delta := pos - o.m_position
    { o with m_position := pos, m_points := QPolygonF.translate o.m_points delta }
  else o

/-! ## Canvas (canvas.cpp) -/

/-- The class `Canvas`. -/
structure Canvas where
  m_width : ℚ
  m_height : ℚ
  m_obstacles : List Obstacle
deriving DecidableEq, Repr

/-- `Canvas::get_shape`. -/
def Canvas.get_shape (c : Canvas) : QPolygonF :=
  QPolygonF.ofRect (QRectF.ofCorners ⟨0, 0⟩ ⟨c.m_width, c.m_height⟩)

/-! ## TurtleControl (turtlecontrol.h, turtlecontrol.cpp) -/

/-- The struct `Line`. -/
structure Line where
  start_ : QPointF
  end_ : QPointF
  color_ : QColor
  width_ : ℚ
deriving DecidableEq, Repr

/-- The enum `MovementResult`. -/
inductive MovementResult where
  | kSuccess
  | kFailure
  | kBlocked
  | kPaused
deriving DecidableEq, Repr

/-- `QAbstractAnimation::State`. -/
inductive AnimState where
  | Stopped
  | Paused
  | Running
deriving DecidableEq, Repr

/-- The `QParallelAnimationGroup` built by `forward` and `arc`, with the
`QPropertyAnimation`s it holds.
* `state`: the state of the group;
* `at_end`: the current time of the group has reached its duration;
* `rotation_anim`: start and end value of the animation of `rotation`, if any
  (it is added to the group first);
* `key_values`: the key values of the animation of `position`, sorted by step;
* `current_value`: the value this animation delivered last. -/
structure AnimGroup where
  state : AnimState
  at_end : Bool
  rotation_anim : Option (ℚ × ℚ)
  key_values : List (ℚ × QPointF)
  current_value : Option QPointF
deriving DecidableEq, Repr

/-- The object passed to `on_collision`: the canvas or one of its obstacles. -/
inductive HitObject where
  | canvas
  | obstacle (o : Obstacle)
deriving DecidableEq, Repr

/-- The signals of `TurtleControl` that carry data. -/
inductive Signal where
  | on_movement_completed (movement_result : MovementResult)
  | on_collision (hit_object : HitObject) (hit_polygon : QPolygonF)
deriving DecidableEq, Repr

/-- The members of `TurtleControl`, and the log of the signals emitted so far. -/
structure TurtleControl where
  position_ : QPointF
  rotation_ : ℚ
  speed_ : ℚ
  arc_segments_ : ℚ
  b_pen_down_ : Bool
  pen_radius_ : ℚ
  pen_color_ : QColor
  lines_ : List Line
  current_anim_ : Option AnimGroup
  canvas_ : Option Canvas
  previous_position_ : QPointF
  previous_rotation_ : ℚ
  shape_ : QPolygonF
  signals_ : List Signal
deriving DecidableEq, Repr

/-- The statement `emit sig`. -/
def TurtleControl.emit (sig : Signal) (t : TurtleControl) : TurtleControl :=
  { t with signals_ := t.signals_ ++ [sig] }

/-- The results carried by the `on_movement_completed` signals of a log. -/
def completions : List Signal → List MovementResult
  | [] => []
  | Signal.on_movement_completed r :: rest => r :: completions rest
  | Signal.on_collision _ _ :: rest => completions rest

/-- `TurtleControl::update_shape`: a translation of the shape when the vector is
not null, otherwise the decagon around the position. -/
def update_shape (H : Host) (translation_vector : QPointF) (t : TurtleControl) :
    TurtleControl :=
  if translation_vector ≠ (⟨0, 0⟩ : QPointF) then
    { t with shape_ := QPolygonF.translate t.shape_ translation_vector }
  else
    { t with shape_ := (List.range 10).map (fun i =>
        (⟨t.position_.x + t.pen_radius_ * H.cos (36 * (i : ℚ)),
          t.position_.y + t.pen_radius_ * H.sin (36 * (i : ℚ))⟩ : QPointF)) }

/-- The constructor `TurtleControl::TurtleControl`. -/
def TurtleControl.new (H : Host) : TurtleControl :=
  update_shape H ⟨0, 0⟩
    { position_ := ⟨450, 450⟩, rotation_ := 0, speed_ := 200, arc_segments_ := 50,
      b_pen_down_ := true, pen_radius_ := 3, pen_color_ := QColor.black, lines_ := [],
      current_anim_ := none, canvas_ := none, previous_position_ := ⟨450, 450⟩,
      previous_rotation_ := 0, shape_ := [], signals_ := [] }

/-- `TurtleControl::set_position`.  The member is assigned before the translation
vector `position - position_` is computed. -/
def set_position (H : Host) (position : QPointF) (t : TurtleControl) : TurtleControl :=
  if t.position_ = position then t
  else
    let t1 := { t with position_ := position }
    update_shape H (position - t1.position_) t1

/-- `TurtleControl::set_rotation`. -/
def set_rotation (rotation : ℚ) (t : TurtleControl) : TurtleControl :=
  if t.rotation_ = rotation then t
  else if rotation ≥ 360 then { t with rotation_ := fmod rotation 360 }
  else if rotation ≤ 0 then { t with rotation_ := fmod (360 + rotation) 360 }
  else { t with rotation_ := rotation }

/-- `TurtleControl::set_pen_down`. -/
def set_pen_down (b_pen_down : Bool) (t : TurtleControl) : TurtleControl :=
  if t.b_pen_down_ = b_pen_down then t
  else
    let t1 := { t with b_pen_down_ := b_pen_down }
    if t1.b_pen_down_ then { t1 with previous_position_ := t1.position_ } else t1

/-- `TurtleControl::set_pen_radius`. -/
def set_pen_radius (H : Host) (radius : ℚ) (t : TurtleControl) : TurtleControl :=
  let radius := max 1 (min 9 radius)
  if t.pen_radius_ = radius then t
  else update_shape H ⟨0, 0⟩ { t with pen_radius_ := radius }

/-- `TurtleControl::set_pen_color`. -/
def set_pen_color (color : QColor) (t : TurtleControl) : TurtleControl :=
  if t.pen_color_ ≠ color then { t with pen_color_ := color } else t

/-- `TurtleControl::set_speed`. -/
def set_speed (speed : ℚ) (t : TurtleControl) : TurtleControl :=
  { t with speed_ := min speed 9999 }

/-- `TurtleControl::set_canvas`. -/
def set_canvas (canvas : Option Canvas) (t : TurtleControl) : TurtleControl :=
  { t with canvas_ := canvas }

/-- `TurtleControl::get_forward_vector`. -/
def get_forward_vector (H : Host) (t : TurtleControl) : QPointF :=
  let forward_rotation := t.rotation_ - 90
  ⟨H.cos forward_rotation, H.sin forward_rotation⟩

/-- `TurtleControl::get_right_vector`. -/
def get_right_vector (H : Host) (t : TurtleControl) : QPointF :=
  ⟨H.cos t.rotation_, H.sin t.rotation_⟩

/-- `TurtleControl::set_lines`. -/
def set_lines (lines : List Line) (t : TurtleControl) : TurtleControl :=
  if lines = [] then t
  else { t with lines_ := lines, previous_position_ := t.position_ }

/-- `TurtleControl::get_lines`. -/
def get_lines (t : TurtleControl) : List Line := t.lines_

/-- `TurtleControl::is_moving`. -/
def is_moving (t : TurtleControl) : Bool :=
  match t.current_anim_ with
  | some g => g.state = AnimState.Running
  | none => false

/-- The slot `anim_finished` when it runs from inside `stop()`: the group is
already `Stopped`, so the nested `set_current_anim(nullptr)` only clears the
pointer. -/
def anim_finished_stopped (t : TurtleControl) : TurtleControl :=
  TurtleControl.emit (Signal.on_movement_completed MovementResult.kSuccess)
    { t with current_anim_ := none }

/-- `QAbstractAnimation::stop()` on the current group.  It does nothing on a
group that is already `Stopped`; otherwise the group becomes `Stopped` (the slot
`anim_state_changed` emits nothing for this state) and, as `QAbstractAnimation`
does, it raises `finished` when its current time is at the end of its duration;
`finished` is connected to `anim_finished`. -/
def stop (t : TurtleControl) : TurtleControl :=
  match t.current_anim_ with
  | some g =>
    if g.state = AnimState.Stopped then t
    else
      let t1 := { t with current_anim_ := some { g with state := AnimState.Stopped } }
      if g.at_end then anim_finished_stopped t1 else t1
  | none => t

/-- `TurtleControl::set_current_anim`: the current group, if there is one, is
stopped, then the pointer is replaced. -/
def set_current_anim (anim : Option AnimGroup) (t : TurtleControl) : TurtleControl :=
  { stop t with current_anim_ := anim }

/-- The loop over the obstacles in `test_collision`: the first obstacle whose
bounding radius is at least the distance from the turtle to its centre and whose
polygon intersects the turtle's polygon. -/
def find_hit (H : Host) (position_ : QPointF) (turtle_polygon : QPolygonF) :
    List Obstacle → Option Obstacle
  | [] => none
  | obstacle :: rest =>
    let polygon := obstacle.m_points
    let bounding_radius_sq := obstacle.m_bounding_radius_sq
    let distance_to_center_sq := length_sq position_ obstacle.m_position
    if bounding_radius_sq ≥ distance_to_center_sq ∧ H.intersects polygon turtle_polygon = true
    then some obstacle
    else find_hit H position_ turtle_polygon rest

/-- The first half of `test_collision`: the object that is hit and its polygon. -/
def hit_object (H : Host) (t : TurtleControl) : Option (HitObject × QPolygonF) :=
  match t.canvas_ with
  | some canvas =>
    let turtle_polygon := t.shape_
    let canvas_polygon := canvas.get_shape
    if H.intersects canvas_polygon turtle_polygon = true then
      match find_hit H t.position_ turtle_polygon canvas.m_obstacles with
      | some obstacle => some (HitObject.obstacle obstacle, obstacle.m_points)
      | none => none
    else some (HitObject.canvas, canvas_polygon)
  | none => none

/-- `TurtleControl::test_collision`: the result and the state it leaves. -/
def test_collision (H : Host) (t : TurtleControl) : Bool × TurtleControl :=
  match hit_object H t with
  | some (hit, hit_polygon) =>
    let t1 := set_current_anim none t
    let t2 := set_position H t1.previous_position_ t1
    let t3 := set_rotation t2.previous_rotation_ t2
    let t4 := TurtleControl.emit (Signal.on_movement_completed MovementResult.kBlocked) t3
    (true, TurtleControl.emit (Signal.on_collision hit hit_polygon) t4)
  | none => (false, t)

/-- `TurtleControl::update_lines`. -/
def update_lines (t : TurtleControl) : TurtleControl :=
  if t.previous_position_ = t.position_ then t
  else if t.b_pen_down_ then
    let new_line : Line := ⟨t.previous_position_, t.position_, t.pen_color_, t.pen_radius_⟩
    { t with lines_ := t.lines_ ++ [new_line] }
  else t

/-- `TurtleControl::anim_value_changed`. -/
def anim_value_changed (H : Host) (t : TurtleControl) : TurtleControl :=
  match t.current_anim_ with
  | none => t
  | some _ =>
    let r := test_collision H t
    if r.1 then r.2
    else
      let t1 := update_lines r.2
      { t1 with previous_position_ := t1.position_, previous_rotation_ := t1.rotation_ }

/-- `TurtleControl::anim_state_changed`. -/
def anim_state_changed (new_state old_state : AnimState) (t : TurtleControl) : TurtleControl :=
  if new_state = old_state then t
  else
    match new_state with
    | AnimState.Paused =>
      TurtleControl.emit (Signal.on_movement_completed MovementResult.kPaused) t
    | _ => t

/-- `TurtleControl::anim_finished`. -/
def anim_finished (t : TurtleControl) : TurtleControl :=
  TurtleControl.emit (Signal.on_movement_completed MovementResult.kSuccess)
    (set_current_anim none t)

/-- `TurtleControl::turn`. -/
def turn (degrees : ℚ) (t : TurtleControl) : TurtleControl :=
  if is_moving t then
    TurtleControl.emit (Signal.on_movement_completed MovementResult.kFailure) t
  else
    let new_rotation := t.rotation_ + degrees
    let t1 := { t with previous_rotation_ := new_rotation }
    TurtleControl.emit (Signal.on_movement_completed MovementResult.kSuccess)
      (set_rotation new_rotation t1)

/-- `TurtleControl::forward`, up to and including `group->start()`: the group is
installed in the `Running` state.  The samples of the animation are delivered by
`tick`. -/
def forward (H : Host) (distance : ℚ) (t : TurtleControl) : TurtleControl :=
  if is_moving t then
    TurtleControl.emit (Signal.on_movement_completed MovementResult.kFailure) t
  else
    let new_position := t.position_ + (get_forward_vector H t).scale distance
    let group : AnimGroup :=
      { state := AnimState.Running, at_end := false, rotation_anim := none,
        key_values := [(0, t.position_), (1, new_position)], current_value := none }
    { t with current_anim_ := some group }

/-- `QVariantAnimation::setKeyValueAt`: steps outside `[0, 1]` are refused; the
pair is inserted at its place in the sorted list, or replaces the pair with the
same step. -/
def setKeyValueAt (step : ℚ) (value : QPointF) (kvs : List (ℚ × QPointF)) :
    List (ℚ × QPointF) :=
  if step < 0 ∨ step > 1 then kvs
  else
    let before := kvs.takeWhile (fun kv => kv.1 < step)
    let rest := kvs.dropWhile (fun kv => kv.1 < step)
    match rest with
    | [] => before ++ [(step, value)]
    | kv :: rest1 =>
      if kv.1 ≠ step then before ++ (step, value) :: kv :: rest1
      else before ++ (step, value) :: rest1

/-- The loop `for (float step = 0.f; step < 1.f; step += step_delta)` of `arc`,
run for at most `fuel` iterations. -/
def arc_key_loop (position_ right_vector : QPointF) (H : Host) (b_move_clockwise radius : ℚ)
    (rotation_ degrees step_delta : ℚ) :
    ℕ → ℚ → List (ℚ × QPointF) → List (ℚ × QPointF)
  | 0, _, kvs => kvs
  | fuel + 1, step, kvs =>
    if step < 1 then
      let rotation_delta := rotation_ + degrees * step
      let position_delta :=
        ((⟨H.cos rotation_delta, H.sin rotation_delta⟩ : QPointF) - right_vector).scale
          (b_move_clockwise * radius)
      arc_key_loop position_ right_vector H b_move_clockwise radius rotation_ degrees step_delta
        fuel (step + step_delta) (setKeyValueAt step (position_ + position_delta) kvs)
    else kvs

/-- The key values of the `position` animation of `arc` before `setEndValue`:
`setStartValue(position_)`, then the loop over the steps.  The steps are added
up exactly here.  With `n = arc_segments_ * arc_factor > 0` the loop then runs
`⌈n⌉` times, and once when `n = 0` (`step_delta` is then infinite); the fuel is
`⌈n⌉ + 1`.  In the arithmetic of `float` the sum of `⌈n⌉` steps can stay below
`1` (for a full circle, fifty steps of `0.02f`), and the loop of the program
then sets one more key value, at a step just below `1`; the key value at step
`1`, which `setEndValue` sets, is the same. -/
def arc_step_keys (H : Host) (radius degrees : ℚ) (t : TurtleControl) : List (ℚ × QPointF) :=
  let arc_factor := |degrees| / 360
  let b_move_clockwise : ℚ := if degrees > 0 then -1 else 1
  let step_delta := 1 / (t.arc_segments_ * arc_factor)
  arc_key_loop t.position_ (get_right_vector H t) H b_move_clockwise radius
    t.rotation_ degrees step_delta (⌈t.arc_segments_ * arc_factor⌉.toNat + 1) 0
    (setKeyValueAt 0 t.position_ [])

/-- `TurtleControl::arc`, up to and including `group->start()`: the group is
installed in the `Running` state.  The samples of the animation are delivered by
`tick`. -/
def arc (H : Host) (radius degrees : ℚ) (t : TurtleControl) : TurtleControl :=
  if is_moving t then
    TurtleControl.emit (Signal.on_movement_completed MovementResult.kFailure) t
  else if radius < 1 / 1000 then anim_finished t
  else
    let new_rotation := t.rotation_ + degrees
    let b_move_clockwise : ℚ := if degrees > 0 then -1 else 1
    let new_position := t.position_ +
      ((⟨H.cos new_rotation, H.sin new_rotation⟩ : QPointF) - get_right_vector H t).scale
        (b_move_clockwise * radius)
    let group : AnimGroup :=
      { state := AnimState.Running, at_end := false,
        rotation_anim := some (t.rotation_, new_rotation),
        key_values := setKeyValueAt 1 new_position (arc_step_keys H radius degrees t),
        current_value := none }
    { t with current_anim_ := some group }

/-- `TurtleControl::reset_state`. -/
def reset_state (t : TurtleControl) : TurtleControl :=
  let t1 := set_pen_down false t
  let t2 := { t1 with position_ := ⟨450, 450⟩ }
  let t3 := set_pen_down true t2
  let t4 := { t3 with rotation_ := 0 }
  let t5 := { t4 with lines_ := [] }
  TurtleControl.emit (Signal.on_movement_completed MovementResult.kSuccess) t5

/-! ## The animation engine (Qt) -/

/-- The value of the `position` animation at progress `p`: the end value from
progress `1` on, and before that the linear interpolation between the two key
values around `p`. -/
def interpolate : List (ℚ × QPointF) → ℚ → QPointF
  | [], _ => ⟨0, 0⟩
  | [kv], _ => kv.2
  | kv0 :: kv1 :: rest, p =>
    if p < kv1.1 ∨ rest = [] then
      kv0.2 + (kv1.2 - kv0.2).scale ((p - kv0.1) / (kv1.1 - kv0.1))
    else interpolate (kv1 :: rest) p

/-- The end value of an animation: the value of its last key. -/
def end_value (kvs : List (ℚ × QPointF)) : QPointF :=
  match kvs.getLast? with
  | some kv => kv.2
  | none => ⟨0, 0⟩

/-- The current value of the `position` animation of a group at progress `p`. -/
def AnimGroup.position_at (g : AnimGroup) (p : ℚ) : QPointF :=
  if 1 ≤ p then end_value g.key_values else interpolate g.key_values p

/-- The property writes of one sample at progress `p` of the group `g`: the
`rotation` animation, added to the group first, writes its property first, then
the `position` animation writes its property; the group records the value
delivered and whether its current time is at the end. -/
def write_sample (H : Host) (g : AnimGroup) (p : ℚ) (t : TurtleControl) : TurtleControl :=
  let t1 := match g.rotation_anim with
    | some (a, b) => set_rotation (a + (b - a) * p) t
    | none => t
  let t2 := set_position H (g.position_at p) t1
  let g1 : AnimGroup :=
    { g with current_value := some (g.position_at p), at_end := decide (p = 1) }
  { t2 with current_anim_ := some g1 }

/-- The end of a run: the engine calls `stop()` on the group if it is still
running. -/
def finish (t : TurtleControl) : TurtleControl :=
  match t.current_anim_ with
  | some g => if g.state = AnimState.Running then stop t else t
  | none => t

/-- One sample of the running group at progress `p` (clamped to `[0, 1]`), as
the animation timer delivers it.  After the property writes the `position`
animation raises `valueChanged` when its value differs from the one delivered
before, which runs `anim_value_changed`.  At progress `1` the engine then calls `stop()` on the
group if it is still running, which raises `finished` and runs `anim_finished`.
Nothing happens when no group is running. -/
def tick (H : Host) (p : ℚ) (t : TurtleControl) : TurtleControl :=
  match t.current_anim_ with
  | none => t
  | some g =>
    if g.state ≠ AnimState.Running then t
    else
      let p := max 0 (min 1 p)
      let t3 := write_sample H g p t
      let t4 := if g.current_value ≠ some (g.position_at p) then anim_value_changed H t3 else t3
      if p = 1 then finish t4 else t4

/-- The samples at the given progress values, in order. -/
def ticks (H : Host) : List ℚ → TurtleControl → TurtleControl
  | [], t => t
  | p :: ps, t => ticks H ps (tick H p t)

/-- A whole run of the current animation: the samples at the given progress
values, then the sample at the end. -/
def play (H : Host) (ps : List ℚ) (t : TurtleControl) : TurtleControl :=
  tick H 1 (ticks H ps t)

/-- A collision is detected at the sample at progress `p`: a group is running,
the sample changes the value of the `position` animation (so `valueChanged` is
raised) and `test_collision` finds an object. -/
def sample_hits (H : Host) (p : ℚ) (t : TurtleControl) : Bool :=
  match t.current_anim_ with
  | none => false
  | some g =>
    let p := max 0 (min 1 p)
    decide (g.state = AnimState.Running) && decide (g.current_value ≠ some (g.position_at p))
      && (hit_object H (write_sample H g p t)).isSome

/-- No collision is detected at any of the samples at the given progress values. -/
def clear_run (H : Host) : List ℚ → TurtleControl → Bool
  | [], _ => true
  | p :: ps, t => !sample_hits H p t && clear_run H ps (tick H p t)

/-! ## Parser (parser.cpp, parser.hpp)

Strings are lists of characters.  A regular expression of the source is
embedded as the function that decides the match and returns the groups; the
expression is quoted in the comment.  `parse_line` applies the command
expressions to a command from which `varname_to_value` has erased every
whitespace character, so `\s*` matches the empty string there and the functions
for these expressions are written for such a command. -/

/-- A `std::string`. -/
abbrev Str := List Char

/-- The character `{`. -/
def lbrace : Char := Char.ofNat 123

/-- The character `}`. -/
def rbrace : Char := Char.ofNat 125

/-- `::isspace` in the C locale, which is also `\s`. -/
def isspace (c : Char) : Bool :=
  c = ' ' || c = '\t' || c = '\n' || c = Char.ofNat 11 || c = Char.ofNat 12 || c = '\r'

/-- The class `\w`. -/
def isword (c : Char) : Bool := c.isAlphanum || c = '_'

/-- The class `[a-zA-Z_]`. -/
def isident_start (c : Char) : Bool := c.isAlpha || c = '_'

/-- The erase-remove idiom `s.erase(std::remove_if(.., ::isspace), ..)`. -/
def remove_whitespace (s : Str) : Str := s.filter (fun c => !isspace c)

/-- The pieces of a string between the occurrences of a delimiter. -/
def split_on (delim : Char) : Str → List Str
  | [] => [[]]
  | c :: cs =>
    if c = delim then [] :: split_on delim cs
    else
      match split_on delim cs with
      | seg :: segs => (c :: seg) :: segs
      | [] => [[c]]

/-- The strings that `while (std::getline(stream, s, delim))` reads from a stream
holding `s`: the pieces between the delimiters, without the last piece when it is
empty (at the end of the stream `getline` extracts nothing and fails). -/
def getlines (delim : Char) (s : Str) : List Str :=
  let segs := split_on delim s
  if segs.getLast? = some [] then segs.dropLast else segs

/-- The string of the first `std::getline(stream, s)`: the input up to its first
newline. -/
def first_line (s : Str) : Str := s.takeWhile (fun c => c ≠ '\n')

/-- The exceptions `std::stoi` and `std::stof` throw. -/
inductive Exception where
  | invalid_argument
  | out_of_range
deriving DecidableEq, Repr

/-- The ways in which a call does not return a value: it throws, it waits for
ever for a completion signal, or the recursion of the model is out of fuel. -/
inductive Stop where
  | throws (e : Exception)
  | hangs
  | out_of_fuel
deriving DecidableEq, Repr

/-- Equality of results is decidable. -/
instance instDecidableEqExcept {ε α : Type} [DecidableEq ε] [DecidableEq α] :
    DecidableEq (Except ε α) := fun x y =>
  match x, y with
  | Except.ok a, Except.ok b =>
    if h : a = b then isTrue (by rw [h]) else isFalse (fun h1 => h (Except.ok.inj h1))
  | Except.error a, Except.error b =>
    if h : a = b then isTrue (by rw [h]) else isFalse (fun h1 => h (Except.error.inj h1))
  | Except.ok _, Except.error _ => isFalse (fun h => by cases h)
  | Except.error _, Except.ok _ => isFalse (fun h => by cases h)

/-- The value of a string of decimal digits. -/
def digits_value (ds : Str) : ℕ := ds.foldl (fun acc c => 10 * acc + (c.toNat - 48)) 0

/-- `std::stoi` on a string of digits: the value, or `out_of_range` above
`INT_MAX`. -/
def stoi (s : Str) : Except Stop ℤ :=
  let ds := s.takeWhile Char.isDigit
  if ds = [] then Except.error (Stop.throws Exception.invalid_argument)
  else if digits_value ds > 2147483647 then Except.error (Stop.throws Exception.out_of_range)
  else Except.ok (digits_value ds)

/-- The nearest natural number, ties to even. -/
def round_half_even (q : ℚ) : ℕ :=
  let low : ℕ := ⌊q⌋.toNat
  if q - (low : ℚ) > 1 / 2 then low + 1
  else if q - (low : ℚ) < 1 / 2 then low
  else if low % 2 = 0 then low else low + 1

/-- The power `2^e` for an integer `e`. -/
def pow2 (e : ℤ) : ℚ := if 0 ≤ e then 2 ^ e.toNat else 1 / 2 ^ (-e).toNat

/-- The search for the binary exponent of a magnitude `m`, from `n - 126`
downwards: the largest `e` with `2^e ≤ m`, and `-126` when there is none. -/
def float_exponent_from : ℕ → ℚ → ℤ
  | 0, _ => -126
  | n + 1, m => if pow2 ((n : ℤ) - 125) ≤ m then (n : ℤ) - 125 else float_exponent_from n m

/-- The binary exponent that the format `float` gives a magnitude `m`: the
largest `e` with `2^e ≤ m`, at most `127`, the largest of the format, and at
least `-126`, where the subnormal numbers begin. -/
def float_exponent (m : ℚ) : ℤ := float_exponent_from 253 m

/-- The magnitude `m ≥ 0` rounded to the precision of `float`, 24 binary digits:
the nearest multiple of `2^(e - 23)`, with `e` the exponent of `m`, ties to the
even multiple. -/
def round_magnitude (m : ℚ) : ℚ :=
  (round_half_even (m / pow2 (float_exponent m - 23)) : ℚ) * pow2 (float_exponent m - 23)

/-- A value of the C++ type `float` (IEEE 754 binary32) other than a NaN: the sign
bit and the magnitude, which is a rational number or infinite.  The sign bit
tells `-0` from `0`.  `Parser` gets its `float` values from `std::stof`, from one
sum or product of two of them, and from a product with `1` or `-1`; none of these
is a NaN, and the magnitude of each is rounded to the precision of `float`
(`round_magnitude`). -/
inductive Float32 where
  | finite (negative : Bool) (magnitude : ℚ)
  | infinite (negative : Bool)
deriving DecidableEq, Repr

/-- The `float` nearest to the number with the sign `negative` and the magnitude
`m ≥ 0`: the magnitude is rounded to 24 binary digits, ties to even, and a result
of `2^128` or more is infinite. -/
def round_float (negative : Bool) (m : ℚ) : Float32 :=
  if round_magnitude m ≥ 2 ^ 128 then Float32.infinite negative
  else Float32.finite negative (round_magnitude m)

/-- A numeral as a `float`: the nearest one. -/
instance instOfNatFloat32 (n : ℕ) : OfNat Float32 n := ⟨round_float false n⟩

/-- The number with the sign `negative` and the magnitude `m`. -/
def signed (negative : Bool) (m : ℚ) : ℚ := if negative then -m else m

/-- The sum `value1 + value2` of two `float` values: the exact sum, rounded.  A
sum that is exactly zero is `-0` when both operands are `-0`, and `0` otherwise.
(The operands in `parse_line` are results of `std::stof`, which are finite; the
sum of two infinities of opposite sign, a NaN, does not occur.) -/
def Float32.add : Float32 → Float32 → Float32
  | Float32.finite n1 m1, Float32.finite n2 m2 =>
    if signed n1 m1 + signed n2 m2 = 0 then Float32.finite (n1 && n2) 0
    else round_float (decide (signed n1 m1 + signed n2 m2 < 0)) |signed n1 m1 + signed n2 m2|
  | Float32.infinite n, _ => Float32.infinite n
  | Float32.finite _ _, Float32.infinite n => Float32.infinite n

/-- The product `value1 * value2` of two `float` values: the exact product,
rounded; the sign bit is the exclusive or of the sign bits.  (The operands in
`parse_line` are results of `std::stof`, which are finite; the product of zero
and an infinity, a NaN, does not occur.) -/
def Float32.mul : Float32 → Float32 → Float32
  | Float32.finite n1 m1, Float32.finite n2 m2 => round_float (xor n1 n2) (m1 * m2)
  | Float32.infinite n1, Float32.finite n2 _ => Float32.infinite (xor n1 n2)
  | Float32.infinite n1, Float32.infinite n2 => Float32.infinite (xor n1 n2)
  | Float32.finite n1 _, Float32.infinite n2 => Float32.infinite (xor n1 n2)

/-- The operator `+` of `float`. -/
instance instAddFloat32 : Add Float32 := ⟨Float32.add⟩

/-- The operator `*` of `float`. -/
instance instMulFloat32 : Mul Float32 := ⟨Float32.mul⟩

/-- The product `sign * value` of an `int` that is `1` or `-1` and a `float`: the
`int` is converted to `float` and the product is exact, the sign bit changes for
`-1`. -/
def Float32.times_sign (sign : ℤ) : Float32 → Float32
  | Float32.finite n m => Float32.finite (if sign < 0 then !n else n) m
  | Float32.infinite n => Float32.infinite (if sign < 0 then !n else n)

/-- `std::stof` on the strings the expressions of `parse_line` let through, an
optional sign, digits and an optional fraction: the value of the `float` nearest
to the number written.  It throws `out_of_range` when `strtof` reports `ERANGE`:
the number rounds to infinity, or it is below the smallest normal `float` and not
a `float`. -/
def stof (s : Str) : Except Stop ℚ :=
  let negative := decide (s.head? = some '-')
  let body := match s with
    | '-' :: r => r
    | '+' :: r => r
    | _ => s
  let int_part := body.takeWhile Char.isDigit
  let frac_part := match body.dropWhile Char.isDigit with
    | '.' :: f => f.takeWhile Char.isDigit
    | _ => []
  if int_part = [] ∧ frac_part = [] then Except.error (Stop.throws Exception.invalid_argument)
  else
    let magnitude : ℚ := digits_value int_part + digits_value frac_part / 10 ^ frac_part.length
    if magnitude ≥ (2 ^ 25 - 1) * 2 ^ 103 then Except.error (Stop.throws Exception.out_of_range)
    else if 0 < magnitude ∧ magnitude < 1 / 2 ^ 126 ∧ (magnitude * 2 ^ 149).den ≠ 1 then
      Except.error (Stop.throws Exception.out_of_range)
    else Except.ok (if negative then -round_magnitude magnitude else round_magnitude magnitude)

/-- `std::stof` as the `float` it returns: the number `stof s` with its sign bit,
which is set when the text begins with `-`; this tells `-0` from `0`. -/
def stof_float (s : Str) : Except Stop Float32 :=
  match stof s with
  | Except.ok v => Except.ok (Float32.finite (decide (s.head? = some '-')) |v|)
  | Except.error e => Except.error e

/-- `n` written with at least `width` decimal digits. -/
def pad_digits (width n : ℕ) : Str :=
  let ds := Nat.toDigits 10 n
  List.replicate (width - ds.length) '0' ++ ds

/-- `std::to_string(float)`, the format `%f`: a minus sign when the sign bit is
set, then the magnitude rounded to six decimals (ties to even), or `inf`. -/
def to_string : Float32 → Str
  | Float32.finite negative magnitude =>
    (if negative then ['-'] else []) ++
      Nat.toDigits 10 (round_half_even (magnitude * 10 ^ 6) / 10 ^ 6) ++ ['.'] ++
      pad_digits 6 (round_half_even (magnitude * 10 ^ 6) % 10 ^ 6)
  | Float32.infinite negative => (if negative then ['-'] else []) ++ "inf".toList

/-- `\d*\.?\d+` as a whole string. -/
def is_unsigned_number (s : Str) : Bool :=
  match s.dropWhile Char.isDigit with
  | [] => s ≠ []
  | c :: frac => c = '.' && frac ≠ [] && frac.all Char.isDigit

/-- `-?\d*\.?\d+` as a whole string. -/
def is_number (s : Str) : Bool :=
  match s with
  | '-' :: r => is_unsigned_number r
  | _ => is_unsigned_number s

/-- `[-+]?\d*\.?\d+` as a whole string. -/
def is_signed_number (s : Str) : Bool :=
  match s with
  | '-' :: r => is_unsigned_number r
  | '+' :: r => is_unsigned_number r
  | _ => is_unsigned_number s

/-- `-?\d+(?:\.\d+)?` as a whole string. -/
def is_decimal (s : Str) : Bool :=
  let body := match s with
    | '-' :: r => r
    | _ => s
  body.takeWhile Char.isDigit ≠ [] &&
    match body.dropWhile Char.isDigit with
    | [] => true
    | c :: frac => c = '.' && frac ≠ [] && frac.all Char.isDigit

/-- `[a-zA-Z_]\w*` as a whole string. -/
def is_identifier (s : Str) : Bool :=
  match s with
  | [] => false
  | c :: cs => isident_start c && cs.all isword

/-- The argument list of a command without whitespace: `s` is `name(` followed
by the returned string and a closing `)`. -/
def call_arguments (name : Str) (s : Str) : Option Str :=
  if name ++ ['('] <+: s ∧ s.getLast? = some ')' ∧ name.length + 2 ≤ s.length then
    some ((s.drop (name.length + 1)).dropLast)
  else none

/-- The expressions with one number, `^\s*name\s*\(\s*(-?\d*\.?\d+)\s*\)\s*$`,
on a command without whitespace. -/
def match_unary (name : Str) (s : Str) : Option Str :=
  match call_arguments name s with
  | some a => if is_number a then some a else none
  | none => none

/-- The expressions with two numbers,
`^\s*name\s*\(\s*(-?\d*\.?\d+)\s*,\s*(-?\d*\.?\d+)\s*\)\s*$`, on a command without
whitespace. -/
def match_binary (name : Str) (s : Str) : Option (Str × Str) :=
  match call_arguments name s with
  | some args =>
    match split_on ',' args with
    | [a, b] => if is_number a ∧ is_number b then some (a, b) else none
    | _ => none
  | none => none

/-- The expression with three numbers, `setcolor_regex`, on a command without
whitespace. -/
def match_ternary (name : Str) (s : Str) : Option (Str × Str × Str) :=
  match call_arguments name s with
  | some args =>
    match split_on ',' args with
    | [a, b, c] => if is_number a ∧ is_number b ∧ is_number c then some (a, b, c) else none
    | _ => none
  | none => none

/-- The expressions `^\s*up\s*\(?\)?\s*$` and `^\s*down\s*\(?\)?\s*$` on a command
without whitespace: both brackets are optional, each on its own. -/
def match_nullary (name : Str) (s : Str) : Bool :=
  s = name ∨ s = name ++ ['('] ∨ s = name ++ [')'] ∨ s = name ++ ['(', ')']

/-- `cli_loop_regex`, `^\s*LOOP(\d+)\s*\{\s*(.*?)\s*\}\s*$`, on a command without
whitespace: `LOOP`, the digits, `{`, the body and a closing `}` at the very end. -/
def match_cli_loop (s : Str) : Option (Str × Str) :=
  if "LOOP".toList <+: s then
    let after := s.drop 4
    let count := after.takeWhile Char.isDigit
    match after.dropWhile Char.isDigit with
    | c :: rest =>
      if count ≠ [] ∧ c = lbrace ∧ rest.getLast? = some rbrace then
        some (count, rest.dropLast)
      else none
    | [] => none
  else none

/-- `vardef_regex`, `^\s*([a-zA-Z_]\w*)\s*=\s*(-?\d+(?:\.\d+)?)\s*$`, on a command
without whitespace. -/
def match_vardef (s : Str) : Option (Str × Str) :=
  let name := s.takeWhile (fun c => c ≠ '=')
  match s.dropWhile (fun c => c ≠ '=') with
  | _ :: value => if is_identifier name ∧ is_decimal value then some (name, value) else none
  | [] => none

/-- `varadd_regex` and `varmul_regex`,
`^\s*([a-zA-Z_]\w*)\s*=\s*op\(\s*(-?\d+(?:\.\d+)?)\s*,\s*(-?\d+(?:\.\d+)?)\s*\)\s*$`, on
a command without whitespace. -/
def match_varop (op : Str) (s : Str) : Option (Str × Str × Str) :=
  let name := s.takeWhile (fun c => c ≠ '=')
  match s.dropWhile (fun c => c ≠ '=') with
  | _ :: call =>
    match call_arguments op call with
    | some args =>
      match split_on ',' args with
      | [a, b] =>
        if is_identifier name ∧ is_decimal a ∧ is_decimal b then some (name, a, b) else none
      | _ => none
    | none => none
  | [] => none

/-- `general_function_regex`, `(\w+)\(([-+]?\d*\.?\d+)?\)`, as a whole string: the
name and the argument, which may be empty. -/
def match_general_function (s : Str) : Option (Str × Str) :=
  let name := s.takeWhile isword
  match call_arguments name s with
  | some argument =>
    if name ≠ [] ∧ (argument = [] ∨ is_signed_number argument) then some (name, argument)
    else none
  | none => none

/-- One `std::regex_search` of `var_regex`, `\(([^\)]+)\)`: the text before the
leftmost match, the group and the text after the match. -/
def search_var : Str → Option (Str × Str × Str)
  | [] => none
  | c :: cs =>
    let next := (search_var cs).map (fun r => (c :: r.1, r.2.1, r.2.2))
    if c = '(' then
      match cs.takeWhile (fun x => x ≠ ')'), cs.dropWhile (fun x => x ≠ ')') with
      | _ :: _, _ :: suffix => some ([], cs.takeWhile (fun x => x ≠ ')'), suffix)
      | _, _ => next
    else next

/-- `varassign_regex`, `^\s*([a-zA-Z_]\w*)\s*=\s*([a-zA-Z_]\w*)\s*$`. -/
def match_varassign (s : Str) : Option (Str × Str) :=
  let s1 := s.dropWhile isspace
  let assignee := s1.takeWhile isword
  match (s1.dropWhile isword).dropWhile isspace with
  | c :: s2 =>
    let s3 := s2.dropWhile isspace
    let var_name := s3.takeWhile isword
    if c = '=' ∧ is_identifier assignee ∧ is_identifier var_name ∧
        ((s3.dropWhile isword).dropWhile isspace) = [] then
      some (assignee, var_name)
    else none
  | [] => none

/-- `find` on a `std::unordered_map`. -/
def map_find {β : Type} (key : Str) (m : List (Str × β)) : Option β := m.lookup key

/-- The assignment `m[key] = value` on a `std::unordered_map`. -/
def map_set {β : Type} (key : Str) (value : β) (m : List (Str × β)) : List (Str × β) :=
  if (m.lookup key).isSome then m.map (fun kv => if kv.1 = key then (key, value) else kv)
  else m ++ [(key, value)]

/-- The members of `Parser`. -/
structure Parser where
  vars : List (Str × Float32)
  funcs : List (Str × Str)
  func_arg_names : List (Str × Str)
  movement_done : Bool
deriving DecidableEq, Repr

/-- The constructor `Parser::Parser`. -/
def Parser.new : Parser :=
  { vars := [], funcs := [], func_arg_names := [], movement_done := true }

/-- `Parser::animation_done`. -/
def animation_done (p : Parser) : Parser := { p with movement_done := true }

/-- The body of the loop over the comma-separated names in `varname_to_value`:
the text that replaces one name. -/
def substitute_name (vars : List (Str × Float32)) (var_name : Str) : Str :=
  let sign : ℤ := if var_name.head? = some '-' then -1 else 1
  let name := if var_name.head? = some '-' then var_name.drop 1 else var_name
  match map_find name vars with
  | some value => to_string (Float32.times_sign sign value)
  | none => var_name

/-- The loop `while (std::regex_search(..., var_regex))` of `varname_to_value`;
every match consumes at least three characters, the fuel is the length of the
command. -/
def substitute_groups (vars : List (Str × Float32)) : ℕ → Str → Str
  | 0, s => s
  | fuel + 1, s =>
    match search_var s with
    | some (before, contents, suffix) =>
      before ++ ['('] ++
        [','].intercalate ((getlines ',' contents).map (substitute_name vars)) ++ [')'] ++
        substitute_groups vars fuel suffix
    | none => s

/-- `Parser::varname_to_value`. -/
def varname_to_value (p : Parser) (command : Str) : Str :=
  let ret := substitute_groups p.vars command.length command
  let ret := match match_varassign ret with
    | some (assignee_var, var_name) =>
      match map_find var_name p.vars with
      | some value => assignee_var ++ ['='] ++ to_string value
      | none => ret
    | none => ret
  remove_whitespace ret

/-- The application: the parser and the turtle, connected, and what the host
still holds for them.  `schedule` lists, for the motions that are still to start,
the samples the animation delivers inside `start()` and the samples its timer
delivers afterwards, before the one at the end; `timer` holds the latter for the
motion in flight. -/
structure App where
  parser : Parser
  turtle : TurtleControl
  schedule : List (List ℚ × List ℚ)
  timer : List ℚ
deriving DecidableEq, Repr

/-- Modelled from the spec: the connection of `on_movement_completed` to
`Parser::animation_done`, which is made outside the C++ sources.  A completion
with a result other than `kPaused`, emitted since the log was `before`, releases
the parser. -/
def deliver_completions (before : List Signal) (a : App) : App :=
  if (completions (a.turtle.signals_.drop before.length)).any
      (fun r => decide (r ≠ MovementResult.kPaused)) then
    { a with parser := animation_done a.parser }
  else a

/-- Modelled from the spec: the connection of the signals of `Parser` to the
slots of `TurtleControl`, which is made outside the C++ sources.  The statement
`emit signal(args)` runs the slot `op`; when this starts a motion, the host
delivers the samples that fall inside `start()`; the completions emitted reach
`animation_done`. -/
def dispatch (H : Host) (op : TurtleControl → TurtleControl) (a : App) : App :=
  let t1 := op a.turtle
  if !is_moving a.turtle && is_moving t1 then
    deliver_completions a.turtle.signals_
      { a with turtle := ticks H (a.schedule.head?.getD ([], [])).1 t1,
               schedule := a.schedule.tail,
               timer := (a.schedule.head?.getD ([], [])).2 }
  else deliver_completions a.turtle.signals_ { a with turtle := t1 }

/-- The loop `while (!movement_done) QCoreApplication::processEvents();`: the
event loop plays the motion in flight to its end; without a motion in flight no
completion arrives and the loop does not end. -/
def wait_movement_done (H : Host) (a : App) : Except Stop App :=
  if a.parser.movement_done then Except.ok a
  else if is_moving a.turtle then
    let a1 := deliver_completions a.turtle.signals_
      { a with turtle := play H a.timer a.turtle, timer := [] }
    if a1.parser.movement_done then Except.ok a1 else Except.error Stop.hangs
  else Except.error Stop.hangs

/-- The event loop of the application after a call has returned: the motion in
flight, if any, is played to its end. -/
def run_events (H : Host) (a : App) : App :=
  if is_moving a.turtle then
    deliver_completions a.turtle.signals_
      { a with turtle := play H a.timer a.turtle, timer := [] }
  else a

/-- The lines of a function or loop body run through `parse_line` (given as
`pl`), one after the other; the commands they return are appended. -/
def run_lines (pl : Str → App → Except Stop (List Str × App)) :
    List Str → List Str → App → Except Stop (List Str × App)
  | [], parsed_commands, a => Except.ok (parsed_commands, a)
  | line :: rest, parsed_commands, a =>
    match pl line a with
    | Except.ok (loop_cmds, a1) => run_lines pl rest (parsed_commands ++ loop_cmds) a1
    | Except.error e => Except.error e

/-- `Parser::run_loop`, with `parse_line` given as `pl`. -/
def run_loop (pl : Str → App → Except Stop (List Str × App)) :
    ℕ → Str → List Str → App → Except Stop (List Str × App)
  | 0, _, parsed_commands, a => Except.ok (parsed_commands, a)
  | count + 1, loop_body, parsed_commands, a =>
    match run_lines pl (getlines '\n' loop_body) parsed_commands a with
    | Except.ok (parsed_commands1, a1) => run_loop pl count loop_body parsed_commands1 a1
    | Except.error e => Except.error e

/-- `floor(abs(stof(s)))` as a colour channel. -/
def color_channel (s : Str) : Except Stop ℕ :=
  match stof s with
  | Except.ok v => Except.ok ⌊|v|⌋.toNat
  | Except.error e => Except.error e

/-- The chain of `if (std::regex_match(command, ...))` in `parse_line`: the
command is carried out; the result tells whether an expression matched. -/
def execute_command (H : Host) (command : Str) (a : App) : Except Stop (Bool × App) :=
  match match_unary "forward".toList command with
  | some s =>
    match stof s with
    | Except.ok distance =>
      let a1 := dispatch H (forward H distance) a
      Except.ok (true, { a1 with parser := { a1.parser with movement_done := false } })
    | Except.error e => Except.error e
  | none =>
  match match_unary "turn".toList command with
  | some s =>
    match stof s with
    | Except.ok angle => Except.ok (true, dispatch H (turn angle) a)
    | Except.error e => Except.error e
  | none =>
  match match_unary "setrot".toList command with
  | some s =>
    match stof s with
    | Except.ok rot => Except.ok (true, dispatch H (set_rotation rot) a)
    | Except.error e => Except.error e
  | none =>
  match match_binary "setpos".toList command with
  | some (sx, sy) =>
    match stof sx, stof sy with
    | Except.ok x, Except.ok y => Except.ok (true, dispatch H (set_position H ⟨x, y⟩) a)
    | Except.error e, _ => Except.error e
    | _, Except.error e => Except.error e
  | none =>
  match match_binary "arc".toList command with
  | some (sr, sa) =>
    match stof sr, stof sa with
    | Except.ok radius, Except.ok angle => Except.ok (true, dispatch H (arc H radius angle) a)
    | Except.error e, _ => Except.error e
    | _, Except.error e => Except.error e
  | none =>
  if match_nullary "up".toList command then Except.ok (true, dispatch H (set_pen_down false) a)
  else if match_nullary "down".toList command then
    Except.ok (true, dispatch H (set_pen_down true) a)
  else
  match match_unary "setsize".toList command with
  | some s =>
    match stof s with
    | Except.ok size => Except.ok (true, dispatch H (set_pen_radius H size) a)
    | Except.error e => Except.error e
  | none =>
  match match_unary "setspeed".toList command with
  | some s =>
    match stof s with
    | Except.ok speed => Except.ok (true, dispatch H (set_speed speed) a)
    | Except.error e => Except.error e
  | none =>
  match match_ternary "setcolor".toList command with
  | some (sr, sg, sb) =>
    match color_channel sr, color_channel sg, color_channel sb with
    | Except.ok r, Except.ok g, Except.ok b =>
      Except.ok (true, dispatch H (set_pen_color ⟨r, g, b⟩) a)
    | Except.error e, _, _ => Except.error e
    | _, Except.error e, _ => Except.error e
    | _, _, Except.error e => Except.error e
  | none =>
  match match_vardef command with
  | some (var_name, sv) =>
    match stof_float sv with
    | Except.ok value =>
      Except.ok (true, { a with parser := { a.parser with
        vars := map_set var_name value a.parser.vars } })
    | Except.error e => Except.error e
  | none =>
  match match_varop "add".toList command with
  | some (var_name, s1, s2) =>
    match stof_float s1, stof_float s2 with
    | Except.ok value1, Except.ok value2 =>
      Except.ok (true, { a with parser := { a.parser with
        vars := map_set var_name (value1 + value2) a.parser.vars } })
    | Except.error e, _ => Except.error e
    | _, Except.error e => Except.error e
  | none =>
  match match_varop "mul".toList command with
  | some (var_name, s1, s2) =>
    match stof_float s1, stof_float s2 with
    | Except.ok value1, Except.ok value2 =>
      Except.ok (true, { a with parser := { a.parser with
        vars := map_set var_name (value1 * value2) a.parser.vars } })
    | Except.error e, _ => Except.error e
    | _, Except.error e => Except.error e
  | none => Except.ok (false, a)

/-- The call of a function defined by the user, in `parse_line`: the argument,
when there is one, is stored under the name `func_arg_names[function_name]`
(`operator[]` adds the empty name for a function that has none), then the lines
of the body run through `parse_line` (given as `pl`); what they return is
dropped. -/
def call_function (pl : Str → App → Except Stop (List Str × App))
    (function_name argument body : Str) (a : App) : Except Stop App :=
  let stored : Except Stop App :=
    if argument ≠ [] then
      match stof_float argument with
      | Except.ok value =>
        let arg_name := (map_find function_name a.parser.func_arg_names).getD []
        let names :=
          if (map_find function_name a.parser.func_arg_names).isSome then a.parser.func_arg_names
          else a.parser.func_arg_names ++ [(function_name, [])]
        Except.ok { a with parser := { a.parser with
          func_arg_names := names, vars := map_set arg_name value a.parser.vars } }
      | Except.error e => Except.error e
    else Except.ok a
  match stored with
  | Except.ok a1 =>
    match run_lines pl (getlines '\n' body) [] a1 with
    | Except.ok r => Except.ok r.2
    | Except.error e => Except.error e
  | Except.error e => Except.error e

/-- The loop `while (std::getline(input_stream, command, ';'))` of `parse_line`,
with the recursive calls of `parse_line` given as `pl`. -/
def run_commands (H : Host) (pl : Str → App → Except Stop (List Str × App)) :
    List Str → List Str → App → Except Stop (List Str × App)
  | [], parsed_commands, a => Except.ok (parsed_commands, a)
  | raw :: rest, parsed_commands, a =>
    match wait_movement_done H a with
    | Except.error e => Except.error e
    | Except.ok a1 =>
      let command := varname_to_value a1.parser raw
      let called : Option (Str × Str × Str) :=
        match match_general_function command with
        | some (function_name, argument) =>
          (map_find function_name a1.parser.funcs).map (fun body =>
            (function_name, argument, body))
        | none => none
      match called with
      | some (function_name, argument, body) =>
        match call_function pl function_name argument body a1 with
        | Except.ok a2 => run_commands H pl rest parsed_commands a2
        | Except.error e => Except.error e
      | none =>
        match execute_command H command a1 with
        | Except.ok (true, a2) => run_commands H pl rest (parsed_commands ++ [command]) a2
        | Except.ok (false, a2) => run_commands H pl rest parsed_commands a2
        | Except.error e => Except.error e

/-- `Parser::parse_line`.  The fuel bounds the depth of the calls of `parse_line`
from loop and function bodies. -/
def parse_line (H : Host) : ℕ → Str → App → Except Stop (List Str × App)
  | 0, _, _ => Except.error Stop.out_of_fuel
  | fuel + 1, input, a =>
    let command := remove_whitespace (first_line input)
    match match_cli_loop command with
    | some (count, loop_body) =>
      match stoi count with
      | Except.ok loop_count => run_loop (parse_line H fuel) loop_count.toNat loop_body [] a
      | Except.error e => Except.error e
    | none => run_commands H (parse_line H fuel) (getlines ';' input) [] a

/-- A fresh application: a new parser and a new turtle. -/
def App.new (H : Host) (schedule : List (List ℚ × List ℚ)) : App :=
  { parser := Parser.new, turtle := TurtleControl.new H, schedule := schedule, timer := [] }

/-! ## Scripts (`Parser::parse_script`) -/

/-- `funcdef_regex`,
`^\s*DEF\s+([a-zA-Z_]\w*)\s*\(\s*([a-zA-Z_]\w*)?\s*\)\s*\{\s*$`, on a line of a script:
the name of the function and the name of its argument, which may be empty. -/
def match_funcdef (line : Str) : Option (Str × Str) :=
  let s1 := line.dropWhile isspace
  if "DEF".toList <+: s1 then
    let s2 := s1.drop 3
    let s3 := s2.dropWhile isspace
    let func_name := s3.takeWhile isword
    match (s3.dropWhile isword).dropWhile isspace with
    | c1 :: s4 =>
      let s5 := s4.dropWhile isspace
      let arg_name := s5.takeWhile isword
      match (s5.dropWhile isword).dropWhile isspace with
      | c2 :: s6 =>
        match s6.dropWhile isspace with
        | c3 :: s7 =>
          if s2.takeWhile isspace ≠ [] ∧ is_identifier func_name ∧ c1 = '(' ∧
              (arg_name = [] ∨ is_identifier arg_name) ∧ c2 = ')' ∧ c3 = lbrace ∧
              s7.dropWhile isspace = [] then
            some (func_name, arg_name)
          else none
        | [] => none
      | [] => none
    | [] => none
  else none

/-- `loopdef_regex`, `^\s*LOOP\s*(\d+)\s*\{\s*$`, on a line of a script: the digits
of the count. -/
def match_loopdef (line : Str) : Option Str :=
  let s1 := line.dropWhile isspace
  if "LOOP".toList <+: s1 then
    let s2 := (s1.drop 4).dropWhile isspace
    let count := s2.takeWhile Char.isDigit
    match (s2.dropWhile Char.isDigit).dropWhile isspace with
    | c :: s3 =>
      if count ≠ [] ∧ c = lbrace ∧ s3.dropWhile isspace = [] then some count else none
    | [] => none
  else none

/-- The loops `while (std::getline(file, line)) { if (line.find("}") != npos) break;
body << line << "\n"; }` of `parse_script`: the body collected from the lines that
follow the header, and the lines left in the file.  The line that holds the `}`
is consumed and dropped. -/
def read_block : List Str → Str × List Str
  | [] => ([], [])
  | line :: rest =>
    if rbrace ∈ line then ([], rest)
    else (line ++ '\n' :: (read_block rest).1, (read_block rest).2)

/-- The function definition in `parse_script`: `funcs[func_name]` is assigned the
body, `func_arg_names[func_name]` is assigned only when the argument name is not
empty. -/
def define_function (func_name arg_name func_body : Str) (p : Parser) : Parser :=
  { p with
    funcs := map_set func_name func_body p.funcs,
    func_arg_names :=
      if arg_name ≠ [] then map_set func_name arg_name p.func_arg_names
      else p.func_arg_names }

/-- The loop `while (std::getline(file, line))` of `Parser::parse_script` over the
lines left in the file.  Every turn consumes a line; `turns` bounds their number
and `fuel` is the fuel of the calls of `parse_line`. -/
def parse_script_lines (H : Host) (fuel : ℕ) :
    ℕ → List Str → List Str → App → Except Stop (List Str × App)
  | _, [], parsed_commands, a => Except.ok (parsed_commands, a)
  | 0, _ :: _, _, _ => Except.error Stop.out_of_fuel
  | turns + 1, line :: rest, parsed_commands, a =>
    match wait_movement_done H a with
    | Except.error e => Except.error e
    | Except.ok a1 =>
      match match_funcdef line with
      | some (func_name, arg_name) =>
        parse_script_lines H fuel turns (read_block rest).2 parsed_commands
          { a1 with parser := define_function func_name arg_name (read_block rest).1 a1.parser }
      | none =>
        match match_loopdef line with
        | some count =>
          match stoi count with
          | Except.ok loopCount =>
            match run_loop (parse_line H fuel) loopCount.toNat (read_block rest).1 [] a1 with
            | Except.ok (loop_cmds, a2) =>
              parse_script_lines H fuel turns (read_block rest).2 (parsed_commands ++ loop_cmds) a2
            | Except.error e => Except.error e
          | Except.error e => Except.error e
        | none =>
          match parse_line H fuel line a1 with
          | Except.ok (line_cmds, a2) =>
            parse_script_lines H fuel turns rest (parsed_commands ++ line_cmds) a2
          | Except.error e => Except.error e

/-- `Parser::parse_script` on a file with the given content. -/
def parse_script (H : Host) (fuel : ℕ) (file : Str) (a : App) : Except Stop (List Str × App) :=
  parse_script_lines H fuel (getlines '\n' file).length (getlines '\n' file) [] a

/-! ## A concrete host -/

/-- The left edge of a rectangle, whose width may be negative. -/
def QRectF.left (a : QRectF) : ℚ := if a.w < 0 then a.x + a.w else a.x

/-- The right edge of a rectangle. -/
def QRectF.right (a : QRectF) : ℚ := if a.w < 0 then a.x else a.x + a.w

/-- The top edge of a rectangle, whose height may be negative. -/
def QRectF.top (a : QRectF) : ℚ := if a.h < 0 then a.y + a.h else a.y

/-- The bottom edge of a rectangle. -/
def QRectF.bottom (a : QRectF) : ℚ := if a.h < 0 then a.y else a.y + a.h

/-- `QRectF::intersects`: a null rectangle intersects nothing; otherwise the
interiors overlap. -/
def QRectF.intersects (a b : QRectF) : Bool :=
  if a.left = a.right ∨ b.left = b.right then false
  else if a.left ≥ b.right ∨ b.left ≥ a.right then false
  else if a.top = a.bottom ∨ b.top = b.bottom then false
  else if a.top ≥ b.bottom ∨ b.top ≥ a.bottom then false
  else true

/-- A rational sine of an angle in degrees (Bhaskara's formula on each half
turn).  It is exact at the multiples of 90 degrees and within 0.002 of the sine
elsewhere. -/
def sin_deg (a : ℚ) : ℚ :=
  let r := a - 360 * (⌊a / 360⌋ : ℚ)
  if r ≤ 180 then 4 * r * (180 - r) / (40500 - r * (180 - r))
  else -(4 * (r - 180) * (360 - r) / (40500 - (r - 180) * (360 - r)))

/-- The rational cosine that goes with `sin_deg`. -/
def cos_deg (a : ℚ) : ℚ := sin_deg (a + 90)

/-- The host used to evaluate the model on concrete inputs: `sin_deg`, `cos_deg`,
and two polygons intersect when their bounding rectangles do. -/
def host0 : Host :=
  { cos := cos_deg, sin := sin_deg,
    intersects := fun a b => (boundingRect a).intersects (boundingRect b) }

/-- The 20 by 20 square obstacle centred at `c`. -/
def square_obstacle (c : QPointF) : Obstacle :=
  Obstacle.new [⟨c.x - 10, c.y - 10⟩, ⟨c.x + 10, c.y - 10⟩, ⟨c.x + 10, c.y + 10⟩,
    ⟨c.x - 10, c.y + 10⟩] QColor.red

/-- A fresh turtle on the 800 by 600 canvas of the tests, with one square
obstacle centred at `c`. -/
def turtle_with_obstacle (c : QPointF) : TurtleControl :=
  set_canvas (some { m_width := 800, m_height := 600, m_obstacles := [square_obstacle c] })
    (TurtleControl.new host0)

/-- The state in which a motion is in flight, used to instantiate the theorems:
a fresh turtle after `forward(150)`. -/
def moving_turtle : TurtleControl := forward host0 150 (TurtleControl.new host0)

/-! ## Canvas: the generation of obstacles (canvas.cpp) -/

/-- `Obstacle::intersects`: the bounding rectangle of the points intersects the
rectangle. -/
def Obstacle.intersects (o : Obstacle) (rect : QRectF) : Bool :=
  (boundingRect o.m_points).intersects rect

/-- The numbers that one call of `create_random_obstacle` takes from
`QRandomGenerator::global()`, in the order of the calls: four results of
`generateDouble()`, in `[0, 1)`, for the centre, the size and the rotation angle,
then the results of `bounded(3)` and of `bounded(color_palette.size())`. -/
structure RandomDraw where
  x : ℚ
  y : ℚ
  size : ℚ
  rotation_angle : ℚ
  shape_type : ℕ
  color : ℕ
deriving DecidableEq, Repr

/-- The palette of `create_random_obstacle`: `Qt::red`, `Qt::blue`, `Qt::green`,
`Qt::cyan`, `Qt::magenta`, `Qt::yellow`, `Qt::darkRed`, `Qt::darkGreen`,
`Qt::darkBlue`. -/
def color_palette : List QColor :=
  [⟨255, 0, 0⟩, ⟨0, 0, 255⟩, ⟨0, 255, 0⟩, ⟨0, 255, 255⟩, ⟨255, 0, 255⟩, ⟨255, 255, 0⟩,
    ⟨128, 0, 0⟩, ⟨0, 128, 0⟩, ⟨0, 0, 128⟩]

/-- `Canvas::create_random_obstacle`, with the numbers of the random generator
given.  The angles are in degrees: `2 * M_PI` is a turn of `360` degrees. -/
def Canvas.create_random_obstacle (H : Host) (c : Canvas) (d : RandomDraw) : Obstacle :=
  let x := d.x * c.m_width
  let y := d.y * c.m_height
  let size := 25 + d.size * 20
  let rotation_angle := d.rotation_angle * 360
  let sides : ℕ := if d.shape_type = 1 then 4 else if d.shape_type = 2 then 5 else 3
  let angle_step : ℚ := 360 / (sides : ℚ)
  let polygon : QPolygonF := (List.range sides).map (fun i =>
    (⟨x + size * H.cos ((i : ℚ) * angle_step + rotation_angle),
      y + size * H.sin ((i : ℚ) * angle_step + rotation_angle)⟩ : QPointF))
  Obstacle.new polygon (color_palette.getD d.color QColor.red)

/-- `Canvas::check_turtle_overlap`. -/
def Canvas.check_turtle_overlap (obstacle : Obstacle) (turtle_pos : QPointF)
    (turtle_width turtle_height : ℚ) : Bool :=
  let turtle_area : QRectF :=
    ⟨turtle_pos.x - turtle_width / 2, turtle_pos.y - turtle_height / 2, turtle_width,
      turtle_height⟩
  obstacle.intersects turtle_area

/-- The constant `MAX_ATTEMPTS` of `generate_obstacles`. -/
@[irreducible] def MAX_ATTEMPTS : ℕ := 100

/-- The loop `while (attempts < MAX_ATTEMPTS)` of `generate_obstacles`, with the
number of attempts that are left: the obstacle that is appended, if one of the
attempts does not overlap the turtle, and the number of random obstacles drawn so
far.  The random generator is the sequence `draws` of its results. -/
def Canvas.attempt_loop (H : Host) (c : Canvas) (turtle_pos : QPointF) (draws : ℕ → RandomDraw) :
    ℕ → ℕ → Option Obstacle × ℕ
  | 0, drawn => (none, drawn)
  | attempts_left + 1, drawn =>
    let obstacle := Canvas.create_random_obstacle H c (draws drawn)
    if !Canvas.check_turtle_overlap obstacle turtle_pos 25 25 then (some obstacle, drawn + 1)
    else Canvas.attempt_loop H c turtle_pos draws attempts_left (drawn + 1)

/-- The loop `for (int i = 0; i < count;)` of `generate_obstacles`, with the
number of rounds that are left: every round increments `i`, whether an obstacle
was appended or the attempts were used up. -/
def Canvas.generate_loop (H : Host) (turtle_pos : QPointF) (draws : ℕ → RandomDraw) :
    ℕ → ℕ → Canvas → Canvas × ℕ
  | 0, drawn, c => (c, drawn)
  | rounds_left + 1, drawn, c =>
    match Canvas.attempt_loop H c turtle_pos draws MAX_ATTEMPTS drawn with
    | (some obstacle, drawn1) =>
      Canvas.generate_loop H turtle_pos draws rounds_left drawn1
        { c with m_obstacles := c.m_obstacles ++ [obstacle] }
    | (none, drawn1) => Canvas.generate_loop H turtle_pos draws rounds_left drawn1 c

/-- `Canvas::generate_obstacles`: the canvas it leaves and the number of random
obstacles it has drawn. -/
def Canvas.generate_obstacles (H : Host) (count : ℤ) (turtle_pos : QPointF)
    (draws : ℕ → RandomDraw) (c : Canvas) : Canvas × ℕ :=
  Canvas.generate_loop H turtle_pos draws count.toNat 0 c

/-- `Canvas::obstacle_count`. -/
def Canvas.obstacle_count (c : Canvas) : ℕ := c.m_obstacles.length

/-! ## Predicates used in the statements and proofs -/

/-- The rotation that a sample at progress `p` stores, for a group whose
`rotation` animation is `rot`. -/
def sample_rotation (rot : Option (ℚ × ℚ)) (p : ℚ) (t : TurtleControl) : ℚ :=
  match rot with
  | some (a, b) => (set_rotation (a + (b - a) * p) t).rotation_
  | none => t.rotation_

/-- A group with the key values `kv` and the rotation animation `rot` is
running, no canvas is attached, the stored rotation satisfies `R` and the log is
`sig`. -/
def Flying (kv : List (ℚ × QPointF)) (rot : Option (ℚ × ℚ)) (R : ℚ → Prop)
    (sig : List Signal) (t : TurtleControl) : Prop :=
  t.canvas_ = none ∧ t.signals_ = sig ∧ R t.rotation_ ∧
    ∃ g, t.current_anim_ = some g ∧ g.state = AnimState.Running ∧ g.key_values = kv ∧
      g.rotation_anim = rot

/-- The motion with key values `kv` has completed: no group is left, the position
is the end value, the rotation is `rfinal` and the log is `sig` followed by one
`on_movement_completed(kSuccess)`. -/
def Landed (kv : List (ℚ × QPointF)) (rfinal : ℚ) (sig : List Signal)
    (t : TurtleControl) : Prop :=
  t.current_anim_ = none ∧
    t.signals_ = sig ++ [Signal.on_movement_completed MovementResult.kSuccess] ∧
    t.position_ = end_value kv ∧ t.rotation_ = rfinal

/-- A `forward` motion from `a` to `b` is under way and its last sample was at
progress `r`: the log is still `sig`, the checkpoint is the current position,
which is the point at `r` of the way. -/
def Approaching (a b : QPointF) (sig : List Signal) (r : ℚ) (t : TurtleControl) : Prop :=
  t.signals_ = sig ∧ t.previous_position_ = t.position_ ∧
    t.position_ = a + (b - a).scale r ∧
    ∃ g, t.current_anim_ = some g ∧ g.state = AnimState.Running ∧
      g.key_values = [(0, a), (1, b)] ∧ g.rotation_anim = none ∧
      (g.current_value = none ∨ g.current_value = some t.position_)

/-- The turtle of the tests in front of a square obstacle centred at
`(450, 375)`, after `forward(150)` and a first, clear sample at a quarter of the
way. -/
def checkpoint_turtle : TurtleControl :=
  tick host0 (1 / 4) (forward host0 150 (turtle_with_obstacle ⟨450, 375⟩))

/-- The group that is running in `checkpoint_turtle`. -/
def checkpoint_group : AnimGroup :=
  { state := AnimState.Running, at_end := false, rotation_anim := none,
    key_values := [(0, ⟨450, 450⟩), (1, ⟨450, 300⟩)], current_value := some ⟨450, 825 / 2⟩ }

/-- The 800 by 600 canvas of the tests, without obstacles. -/
def test_canvas : Canvas := { m_width := 800, m_height := 600, m_obstacles := [] }

/-- A fresh turtle, at `(450, 450)`, on the canvas of the tests. -/
def inside_turtle : TurtleControl := set_canvas (some test_canvas) (TurtleControl.new host0)

/-- The same turtle moved to `(900, 450)`, to the right of the canvas. -/
def outside_turtle : TurtleControl := set_position host0 ⟨900, 450⟩ inside_turtle

/-- A fresh turtle (pen radius `3`) put at `(462, 385)`, next to the corner
`(460, 385)` of the square obstacle centred at `(450, 375)`, on the canvas of the
tests. -/
def corner_turtle : TurtleControl :=
  set_position host0 ⟨462, 385⟩ (turtle_with_obstacle ⟨450, 375⟩)

/-- The same turtle put at the centre of the square obstacle. -/
def centre_turtle : TurtleControl :=
  set_position host0 ⟨450, 375⟩ (turtle_with_obstacle ⟨450, 375⟩)

/-- The segments join `a` to `b`: the first starts at `a`, each starts where the
previous one ended, the last ends at `b`. -/
def is_chain : QPointF → QPointF → List Line → Prop
  | a, b, [] => a = b
  | a, b, s :: rest => s.start_ = a ∧ is_chain s.end_ b rest

/-- The drawn lines are `L` followed by segments that join `P` to the current
position, the checkpoint is the current position, and the value the running
group delivered last, if any, is the current position. -/
def Trail (P : QPointF) (L : List Line) (t : TurtleControl) : Prop :=
  t.previous_position_ = t.position_ ∧
    (∀ g, t.current_anim_ = some g → g.current_value = none ∨
      g.current_value = some t.position_) ∧
    ∃ segs, t.lines_ = L ++ segs ∧ is_chain P t.position_ segs

/-- The settings that no motion changes are the same in `t` and `u`. -/
def same_setup (t u : TurtleControl) : Prop :=
  u.canvas_ = t.canvas_ ∧ u.b_pen_down_ = t.b_pen_down_ ∧ u.pen_color_ = t.pen_color_ ∧
    u.pen_radius_ = t.pen_radius_

/-- One `forward(d)` on the turtle, played to its end: the samples `e.1` inside
`start()`, the samples `e.2` of the timer, and the sample at the end. -/
def motion (H : Host) (d : ℚ) (e : List ℚ × List ℚ) (t : TurtleControl) : TurtleControl :=
  play H e.2 (ticks H e.1 (forward H d t))

/-- The first `k` motions `forward(d)` of a schedule, one after the other. -/
def run_motions (H : Host) (d : ℚ) :
    ℕ → List (List ℚ × List ℚ) → TurtleControl → TurtleControl
  | 0, _, t => t
  | k + 1, schedule, t =>
    run_motions H d k schedule.tail (motion H d (schedule.head?.getD ([], [])) t)

/-- The command `forward(d)` with the distance written `dtext`. -/
def forward_command (dtext : Str) : Str := "forward(".toList ++ dtext ++ [')']

/-- The line `LOOPn{body}` with the count written `ntext`. -/
def inline_loop (ntext body : Str) : Str := "LOOP".toList ++ ntext ++ [lbrace] ++ body ++ [rbrace]

/-- The application after `parse_line` has dispatched `forward(d)` from the state
`a`: the slot has run and `movement_done` is `false`. -/
def forward_dispatched (H : Host) (d : ℚ) (a : App) : App :=
  { dispatch H (forward H d) a with
    parser := { (dispatch H (forward H d) a).parser with movement_done := false } }

/-- The parser of `a` waits until it is in the state `pr`, with the turtle in the
state `T` and the schedule `schedule` left: that is what the wait at the start of
the next command yields, and where the event loop brings the turtle. -/
def Pending (H : Host) (pr : Parser) (T : TurtleControl) (schedule : List (List ℚ × List ℚ))
    (a : App) : Prop :=
  (run_events H a).turtle = T ∧
    ∃ tm, wait_movement_done H a = Except.ok ⟨pr, T, schedule, tm⟩

/-- The `i`-th of the segments of length `d` drawn from `P` along the vector `v`,
with the given colour and width. -/
def step_segment (P v : QPointF) (d : ℚ) (color : QColor) (width : ℚ) (i : ℕ) : Line :=
  ⟨P + v.scale ((i : ℚ) * d), P + v.scale (((i : ℚ) + 1) * d), color, width⟩

/-- The line `LOOP3{ forward(10) }` of the spec. -/
def loop3_forward10 : Str := "LOOP3\x7b forward(10) \x7d".toList

/-- The text `name(args)` of a call. -/
def call_text (name args : Str) : Str := name ++ '(' :: (args ++ [')'])

/-- The text `x=op(a,b)` of an assignment of a sum or a product. -/
def assign_op (x op a b : Str) : Str := x ++ '=' :: call_text op (a ++ ',' :: b)

/-- The characters of names and numbers: those of `\w`, the signs and the dot. -/
def is_plain (c : Char) : Bool := isword c || c = '.' || c = '-' || c = '+'

/-- The magnitude of a finite value is a number between `0` and the largest
`float`. -/
def Float32.in_range : Float32 → Prop
  | Float32.finite _ m => 0 ≤ m ∧ m ≤ 2 ^ 128 - 2 ^ 104
  | Float32.infinite _ => True

/-- The variable store holds identifiers, and the empty name that the call of a
function without argument name can add. -/
def vars_keys_ok (vars : List (Str × Float32)) : Prop :=
  ∀ kv ∈ vars, kv.1 = [] ∨ is_identifier kv.1 = true

/-- The command is not the call of a function defined by the user. -/
def calls_no_function (p : Parser) (command : Str) : Prop :=
  ∀ name argument, match_general_function command = some (name, argument) →
    map_find name p.funcs = none

/-- The application with the value `v` stored under `x`. -/
def with_variable (x : Str) (v : Float32) (a : App) : App :=
  { a with parser := { a.parser with vars := map_set x v a.parser.vars } }

/-- The line `x=add(8.1,8.2);forward(x)`. -/
def add_forward_line : Str := "x=add(8.1,8.2);forward(x)".toList

/-- The line `x=mul(1e20,1e20);forward(x)`, with the numbers written out. -/
def mul_overflow_line : Str :=
  "x=mul(100000000000000000000,100000000000000000000);forward(x)".toList

/-- The command matches one of the expressions of the chain in `parse_line`. -/
def matches_rule (command : Str) : Bool :=
  (match_unary "forward".toList command).isSome || (match_unary "turn".toList command).isSome ||
  (match_unary "setrot".toList command).isSome || (match_binary "setpos".toList command).isSome ||
  (match_binary "arc".toList command).isSome || match_nullary "up".toList command ||
  match_nullary "down".toList command || (match_unary "setsize".toList command).isSome ||
  (match_unary "setspeed".toList command).isSome ||
  (match_ternary "setcolor".toList command).isSome || (match_vardef command).isSome ||
  (match_varop "add".toList command).isSome || (match_varop "mul".toList command).isSome

/-- A number of forty digits, beyond the range of `float`. -/
def forty_nines : Str := List.replicate 40 '9'

/-- The call raises no exception other than `std::out_of_range`. -/
def throws_only_out_of_range {α : Type} (r : Except Stop α) : Prop :=
  ∀ e, r = Except.error (Stop.throws e) → e = Exception.out_of_range

/-- The inline loop `LOOP2147483648{up}`, whose count is `INT_MAX + 1`. -/
def loop_beyond_int_max : Str := inline_loop "2147483648".toList "up".toList

/-- The reading of the inline loop in the specification: `n` successive calls of
`parse_line` (given as `pl`) on the text `b`, one after the other; the lists they
return are appended. -/
def successive_calls (pl : Str → App → Except Stop (List Str × App)) :
    ℕ → Str → List Str → App → Except Stop (List Str × App)
  | 0, _, parsed_commands, a => Except.ok (parsed_commands, a)
  | n + 1, b, parsed_commands, a =>
    match pl b a with
    | Except.ok (cmds, a1) => successive_calls pl n b (parsed_commands ++ cmds) a1
    | Except.error e => Except.error e

/-- The line `arc(50,90);forward(10)`. -/
def arc_then_forward : Str := "arc(50,90);forward(10)".toList

/-- The script that defines `f(p)`, defines `f()` again and calls `f(7)`. -/
def redefinition_script : Str :=
  "DEF f(p) \x7b\nup\n\x7d\nDEF f() \x7b\ndown\n\x7d\nf(7)\n".toList

/-- Calls of `parse_line` (given as `pl`) on the lines, in order; what the calls
return is dropped. -/
def run_body (pl : Str → App → Except Stop (List Str × App)) : List Str → App → Except Stop App
  | [], a => Except.ok a
  | line :: rest, a =>
    match pl line a with
    | Except.ok r => run_body pl rest r.2
    | Except.error e => Except.error e

/-- The reading of a function call in the specification: the value of the
argument is stored under the formal parameter, then `parse_line` is called on the
lines of the body in order. -/
def call_by_definition (pl : Str → App → Except Stop (List Str × App)) (p : Str) (v : Float32)
    (lines : List Str) (a : App) : Except Stop App :=
  run_body pl lines (with_variable p v a)

/-- An application in which the function `f(p)` with the body lines `turn(p)` and
`up` is defined. -/
def app_with_function : App :=
  { App.new host0 [] with
    parser := define_function "f".toList "p".toList "turn(p)\nup\n".toList Parser.new }

/-- No body of the function table contains the character `}`. -/
def bodies_without_brace (p : Parser) : Prop :=
  ∀ kv ∈ p.funcs, rbrace ∉ kv.2

/-- A script whose `DEF` block holds a block loop over `turn(10)`, and a call. -/
def block_loop_in_function : Str :=
  "DEF f() \x7b\nLOOP 3 \x7b\nturn(10)\n\x7d\n\x7d\nf()\n".toList

/-- A script whose `DEF` block holds an inline loop over `turn(10)`, and a call. -/
def inline_loop_in_function : Str :=
  "DEF g() \x7b\nLOOP3\x7bturn(10)\x7d\n\x7d\ng()\n".toList

/-! ## SaveLoadManager (SaveLoadManager.cpp)

The file system is not modelled: `saveState` yields the text it writes to the file
and `loadState` starts from the lines that `loadFromFile` reads from that text.
The messages sent to the command line are left out. -/

/-- What `SaveLoadManager` takes from Qt for the text of a record:
`QString::arg(double)` (format `g`, six significant digits), `QString::toDouble`
and `QString::toFloat` (`0` when the text is not a number), `QColor::name()` and
the constructor `QColor(const QString &)`. -/
structure QtText where
  arg_double : ℚ → Str
  toDouble : Str → ℚ
  name : QColor → Str
  color : Str → QColor

/-- `QString::arg(int)` for the value of a `bool`. -/
def arg_bool (b : Bool) : Str := if b then ['1'] else ['0']

/-- `QString::toInt`: the value of an optional sign and digits that fit an `int`,
`0` for any other text. -/
def toInt (s : Str) : ℤ :=
  let body := match s with
    | '-' :: r => r
    | '+' :: r => r
    | _ => s
  if body ≠ [] ∧ body.all Char.isDigit then
    if s.head? = some '-' then
      if digits_value body ≤ 2147483648 then -(digits_value body : ℤ) else 0
    else if digits_value body ≤ 2147483647 then (digits_value body : ℤ) else 0
  else 0

/-- `QString::trimmed`. -/
def trimmed (s : Str) : Str := ((s.dropWhile isspace).reverse.dropWhile isspace).reverse

/-- The header line of `saveState`, `"%1;%2;%3;%4;%5;%6;"` with its six
arguments. -/
def state_text (F : QtText) (t : TurtleControl) : Str :=
  F.arg_double t.position_.x ++ ';' :: (F.arg_double t.position_.y ++ ';' ::
    (F.arg_double t.rotation_ ++ ';' :: (arg_bool t.b_pen_down_ ++ ';' ::
      (F.arg_double t.pen_radius_ ++ ';' :: (F.name t.pen_color_ ++ [';'])))))

/-- The text of one line in `saveState`, `"%1;%2;%3;%4;%5;%6\n"` with its six
arguments. -/
def line_text (F : QtText) (line : Line) : Str :=
  F.arg_double line.start_.x ++ ';' :: (F.arg_double line.start_.y ++ ';' ::
    (F.arg_double line.end_.x ++ ';' :: (F.arg_double line.end_.y ++ ';' ::
      (F.name line.color_ ++ ';' :: (F.arg_double line.width_ ++ ['\n'])))))

/-- The loop of `saveState` over the lines: `lineData`. -/
def line_data (F : QtText) : List Line → Str
  | [] => []
  | line :: rest => line_text F line ++ line_data F rest

/-- `SaveLoadManager::saveState`: the text `fullData` written to the file. -/
def saveState (F : QtText) (t : TurtleControl) : Str :=
  state_text F t ++ '\n' :: line_data F (get_lines t)

/-- `SaveLoadManager::loadFromFile` on a file with the given content: the lines
read by `readLine()`, trimmed. -/
def loadFromFile (content : Str) : List Str := (getlines '\n' content).map trimmed

/-- What goes wrong in `loadState`: an index into a `QStringList` beyond its
end. -/
inductive LoadFault where
  | index_out_of_range
deriving DecidableEq, Repr

/-- The loop of `loadState` over the lines after the first: a line is split at
its semicolons, empty parts skipped; a line with neither five nor six parts is
skipped; the width is read from `lineParts[5]`. -/
def load_lines (F : QtText) : List Str → Except LoadFault (List Line)
  | [] => Except.ok []
  | lineData :: rest =>
    let lineParts := (split_on ';' lineData).filter (fun part => part ≠ [])
    if lineParts.length ≠ 5 ∧ lineParts.length ≠ 6 then load_lines F rest
    else
      match lineParts with
      | [p0, p1, p2, p3, p4, p5] =>
        match load_lines F rest with
        | Except.ok lines =>
          Except.ok (⟨⟨F.toDouble p0, F.toDouble p1⟩, ⟨F.toDouble p2, F.toDouble p3⟩,
            F.color p4, F.toDouble p5⟩ :: lines)
        | Except.error e => Except.error e
      | _ => Except.error LoadFault.index_out_of_range

/-- `SaveLoadManager::loadState` on the list of lines read from the file. -/
def loadState (F : QtText) (H : Host) (stateList : List Str) (t : TurtleControl) :
    Except LoadFault TurtleControl :=
  match stateList with
  | [] => Except.ok t
  | header :: rest =>
    match split_on ';' header with
    | s0 :: s1 :: s2 :: s3 :: s4 :: s5 :: _ =>
      let t1 := set_position H ⟨F.toDouble s0, F.toDouble s1⟩ t
      let t2 := set_rotation (F.toDouble s2) t1
      let t3 := set_pen_down (decide (toInt s3 ≠ 0)) t2
      let t4 := set_pen_radius H (F.toDouble s4) t3
      let t5 := set_pen_color (F.color s5) t4
      match load_lines F rest with
      | Except.ok lines => Except.ok (set_lines lines t5)
      | Except.error e => Except.error e
    | _ => Except.ok t

/-! ## The text functions of Qt, made concrete -/

/-- The decimal exponent of `v > 0`: the `e` with `10^e ≤ v < 10^(e+1)`. -/
def decimal_exponent (v : ℚ) : ℤ :=
  if 1 ≤ v then ((Nat.toDigits 10 ⌊v⌋.toNat).length : ℤ) - 1
  else -((Nat.toDigits 10 (⌈1 / v⌉.toNat - 1)).length : ℤ)

/-- The product `v * 10^k`. -/
def scale10 (v : ℚ) (k : ℤ) : ℚ :=
  if 0 ≤ k then v * 10 ^ k.toNat else v / 10 ^ (-k).toNat

/-- The digits without the zeros at their end. -/
def strip_zeros (ds : Str) : Str := (ds.reverse.dropWhile (fun c => c = '0')).reverse

/-- The text of `QString::arg(double)`: the format `%g` with six significant
digits. -/
def arg_g (v : ℚ) : Str :=
  if v = 0 then ['0']
  else
    let e0 : ℤ := decimal_exponent |v|
    let m0 : ℕ := round_half_even (scale10 |v| (5 - e0))
    let e : ℤ := if m0 = 10 ^ 6 then e0 + 1 else e0
    let m : ℕ := if m0 = 10 ^ 6 then 10 ^ 5 else m0
    let digits : Str := Nat.toDigits 10 m
    let sign : Str := if v < 0 then ['-'] else []
    if e < -4 ∨ 6 ≤ e then
      let frac : Str := strip_zeros (digits.drop 1)
      sign ++ digits.take 1 ++ (if frac = [] then [] else '.' :: frac) ++
        ['e', if e < 0 then '-' else '+'] ++ pad_digits 2 e.natAbs
    else if 0 ≤ e then
      let frac : Str := strip_zeros (digits.drop (e.toNat + 1))
      sign ++ digits.take (e.toNat + 1) ++ (if frac = [] then [] else '.' :: frac)
    else
      sign ++ ['0', '.'] ++ List.replicate ((-e).toNat - 1) '0' ++ strip_zeros digits

/-- The value that `QString::toDouble` reads: a sign, digits with a fraction, an
exponent; `0` for any other text. -/
def to_double (s : Str) : ℚ :=
  let s1 := trimmed s
  let body := match s1 with
    | '-' :: r => r
    | '+' :: r => r
    | _ => s1
  let int_part := body.takeWhile Char.isDigit
  let after_int := body.dropWhile Char.isDigit
  let frac_part := match after_int with
    | '.' :: f => f.takeWhile Char.isDigit
    | _ => []
  let after_frac := match after_int with
    | '.' :: f => f.dropWhile Char.isDigit
    | _ => after_int
  if int_part = [] ∧ frac_part = [] then 0
  else
    let mantissa : ℚ := digits_value int_part + digits_value frac_part / 10 ^ frac_part.length
    let signed : ℚ := if s1.head? = some '-' then -mantissa else mantissa
    match after_frac with
    | [] => signed
    | c :: ex =>
      let ebody := match ex with
        | '-' :: r => r
        | '+' :: r => r
        | _ => ex
      if (c = 'e' ∨ c = 'E') ∧ ebody ≠ [] ∧ ebody.all Char.isDigit then
        scale10 signed (if ex.head? = some '-' then -(digits_value ebody : ℤ)
          else (digits_value ebody : ℤ))
      else 0

/-- The value of a hexadecimal digit. -/
def hex_value (c : Char) : Option ℕ :=
  if c.isDigit then some (c.toNat - 48)
  else if 'a'.toNat ≤ c.toNat ∧ c.toNat ≤ 'f'.toNat then some (c.toNat - 87)
  else if 'A'.toNat ≤ c.toNat ∧ c.toNat ≤ 'F'.toNat then some (c.toNat - 55)
  else none

/-- The text of `QColor::name()`, `#rrggbb`; an invalid colour (a channel above
`255`) has the name `#000000`. -/
def color_name (c : QColor) : Str :=
  if c.r ≤ 255 ∧ c.g ≤ 255 ∧ c.b ≤ 255 then
    ['#', Nat.digitChar (c.r / 16), Nat.digitChar (c.r % 16), Nat.digitChar (c.g / 16),
      Nat.digitChar (c.g % 16), Nat.digitChar (c.b / 16), Nat.digitChar (c.b % 16)]
  else "#000000".toList

/-- The colour of `QColor(const QString &)` for a text `#rrggbb`; for any other
text the channels of an invalid colour. -/
def color_of_name (s : Str) : QColor :=
  match s with
  | ['#', r1, r0, g1, g0, b1, b0] =>
    match hex_value r1, hex_value r0, hex_value g1, hex_value g0, hex_value b1, hex_value b0 with
    | some x1, some x0, some y1, some y0, some z1, some z0 =>
      ⟨16 * x1 + x0, 16 * y1 + y0, 16 * z1 + z0⟩
    | _, _, _, _, _, _ => ⟨0, 0, 0⟩
  | _ => ⟨0, 0, 0⟩

/-- The text functions of Qt. -/
def qt_text : QtText :=
  { arg_double := arg_g, toDouble := to_double, name := color_name, color := color_of_name }

/-- A field of a record: not empty, without `;` and without whitespace. -/
@[reducible] def clean_field (s : Str) : Prop := s ≠ [] ∧ ∀ c ∈ s, c ≠ ';' ∧ isspace c = false

/-- The number is read back from its text. -/
@[reducible] def number_reads_back (F : QtText) (v : ℚ) : Prop :=
  F.toDouble (F.arg_double v) = v ∧ clean_field (F.arg_double v)

/-- The colour is read back from its name. -/
@[reducible] def color_reads_back (F : QtText) (c : QColor) : Prop :=
  F.color (F.name c) = c ∧ clean_field (F.name c)

/-- The numbers and the colour of the line are read back from their texts. -/
@[reducible] def line_reads_back (F : QtText) (line : Line) : Prop :=
  number_reads_back F line.start_.x ∧ number_reads_back F line.start_.y ∧
    number_reads_back F line.end_.x ∧ number_reads_back F line.end_.y ∧
    color_reads_back F line.color_ ∧ number_reads_back F line.width_

/-- The numbers and the colours of the state are read back from their texts. -/
@[reducible] def state_reads_back (F : QtText) (t : TurtleControl) : Prop :=
  number_reads_back F t.position_.x ∧ number_reads_back F t.position_.y ∧
    number_reads_back F t.rotation_ ∧ number_reads_back F t.pen_radius_ ∧
    color_reads_back F t.pen_color_ ∧ ∀ line ∈ t.lines_, line_reads_back F line

/-- The text of a line in the file, without the newline at its end. -/
def line_fields (F : QtText) (line : Line) : Str :=
  F.arg_double line.start_.x ++ ';' :: (F.arg_double line.start_.y ++ ';' ::
    (F.arg_double line.end_.x ++ ';' :: (F.arg_double line.end_.y ++ ';' ::
      (F.name line.color_ ++ ';' :: F.arg_double line.width_))))

/-- The six items of the round trip. -/
def saved_items (t : TurtleControl) : QPointF × ℚ × Bool × ℚ × QColor × List Line :=
  (t.position_, t.rotation_, t.b_pen_down_, t.pen_radius_, t.pen_color_, t.lines_)

/-- A turtle at `(450.1234567, 450)`. -/
def fine_position_turtle : TurtleControl :=
  set_position host0 ⟨4501234567 / 10000000, 450⟩ (TurtleControl.new host0)

/-- A turtle that has drawn one line. -/
def one_line_turtle : TurtleControl :=
  set_lines [⟨⟨450, 450⟩, ⟨450, 440⟩, QColor.black, 3⟩] (TurtleControl.new host0)

/-- The state of the test `test_saveLoadState`, with two drawn lines. -/
def saved_turtle : TurtleControl :=
  { TurtleControl.new host0 with
    position_ := ⟨50, 50⟩, rotation_ := 45, pen_radius_ := 2, pen_color_ := QColor.red,
    lines_ := [⟨⟨450, 450⟩, ⟨450, 4405 / 10⟩, QColor.black, 3⟩,
      ⟨⟨450, 4405 / 10⟩, ⟨50, 50⟩, QColor.red, 2⟩] }

/-- A record whose header has six fields, the first of which is not a number. -/
def bad_number_record : List Str := ["abc;50;45;1;2;#ff0000;".toList]

/-- A record whose header has five fields. -/
def short_header_record : List Str := ["50;50;45;1;2".toList]

/-- A record with a segment line of five fields: four coordinates and a colour. -/
def five_field_record : List Str :=
  ["50;50;45;1;2;#ff0000;".toList, "1;2;3;4;#ff0000".toList]

/-- A script that defines `f` without a formal parameter and calls it with an
argument. -/
def parameterless_call_script : Str := "DEF f() \x7b\nup\n\x7d\nf(7)\n".toList

/-- The decagon that a full recomputation of the shape yields: ten vertices
around the current position, at the distance of the pen radius. -/
def footprint (H : Host) (t : TurtleControl) : QPolygonF := (update_shape H ⟨0, 0⟩ t).shape_

/-- The shape is the decagon around the current position. -/
def shape_follows (H : Host) (t : TurtleControl) : Prop := t.shape_ = footprint H t

/-- A fresh turtle moved to `(100, 100)`. -/
def moved_turtle : TurtleControl := set_position host0 ⟨100, 100⟩ (TurtleControl.new host0)

/-- The numbers that put a square of the smallest size on the centre of the
canvas. -/
def centre_draw : RandomDraw := ⟨1 / 2, 1 / 2, 0, 0, 1, 0⟩

/-- The numbers that put a square of the smallest size near the top left corner
of the canvas. -/
def corner_draw : RandomDraw := ⟨1 / 8, 1 / 8, 0, 0, 1, 0⟩

/-- The random obstacle number `n` overlaps the turtle area. -/
def draw_overlaps (H : Host) (c : Canvas) (turtle_pos : QPointF) (draws : ℕ → RandomDraw)
    (n : ℕ) : Bool :=
  Canvas.check_turtle_overlap (Canvas.create_random_obstacle H c (draws n)) turtle_pos 25 25

/-- A completion other than `kPaused` is among the signals. -/
def releases (new : List Signal) : Bool :=
  (completions new).any (fun r => decide (r ≠ MovementResult.kPaused))

/-- The name that a sub-command calls when it has the form of a call: the word
before the first bracket, once the whitespace is removed. -/
def called_name (raw : Str) : Option Str :=
  if ((remove_whitespace raw).dropWhile isword).head? = some '(' then
    some ((remove_whitespace raw).takeWhile isword)
  else none

/-- The calls in the bodies of the function table go down in rank: a sub-command
of a body that has the form of a call of a function of the table names a function
of a lower rank than the function the body belongs to.  No function then reaches
itself through the calls in the bodies. -/
@[reducible] def calls_go_down (funcs : List (Str × Str)) (rank : Str → ℕ) : Prop :=
  ∀ kv ∈ funcs, ∀ line ∈ getlines '\n' kv.2, ∀ raw ∈ getlines ';' line,
    ∀ g ∈ called_name raw, (map_find g funcs).isSome = true → rank g < rank kv.1

/-- A script that defines a function whose body calls the function, and calls
it. -/
def recursive_script : Str := "DEF f() \x7b\nf()\n\x7d\nf()".toList

/-- The application after the definition of `recursive_script` has been read. -/
def recursive_app : App :=
  { App.new host0 [] with parser := define_function "f".toList [] "f()\n".toList Parser.new }

/-- An application with the functions `f`, which calls `g`, and `g`. -/
def nested_calls_app : App :=
  { App.new host0 [] with
    parser := define_function "f".toList [] "g()\nup\n".toList
      (define_function "g".toList [] "turn(10)\n".toList Parser.new) }

/-- The rank of the functions of `nested_calls_app`. -/
def nested_rank (name : Str) : ℕ := if name = "f".toList then 1 else 0

/-! ## Points -/

@[simp] theorem QPointF.add_x (a b : QPointF) : (a + b).x = a.x + b.x := rfl

@[simp] theorem QPointF.add_y (a b : QPointF) : (a + b).y = a.y + b.y := rfl

@[simp] theorem QPointF.sub_x (a b : QPointF) : (a - b).x = a.x - b.x := rfl

@[simp] theorem QPointF.sub_y (a b : QPointF) : (a - b).y = a.y - b.y := rfl

@[simp] theorem QPointF.scale_x (a : QPointF) (k : ℚ) : (a.scale k).x = a.x * k := rfl

@[simp] theorem QPointF.scale_y (a : QPointF) (k : ℚ) : (a.scale k).y = a.y * k := rfl

theorem QPointF.eq_of_coords (a b : QPointF) (hx : a.x = b.x) (hy : a.y = b.y) : a = b := by
  cases a; cases b; simp_all

/-! ## Frame lemmas: what the setters leave alone -/

theorem set_position_frame (H : Host) (v : QPointF) (t : TurtleControl) :
    set_position H v t =
      { t with position_ := v, shape_ := (set_position H v t).shape_ } := by
  unfold set_position
  split_ifs with h
  · subst h; rfl
  · simp only [update_shape]; split_ifs <;> rfl

theorem set_rotation_frame (r : ℚ) (t : TurtleControl) :
    set_rotation r t = { t with rotation_ := (set_rotation r t).rotation_ } := by
  unfold set_rotation
  split_ifs <;> rfl

theorem update_lines_frame (t : TurtleControl) :
    update_lines t = { t with lines_ := (update_lines t).lines_ } := by
  unfold update_lines
  split_ifs <;> rfl

theorem set_position_position (H : Host) (v : QPointF) (t : TurtleControl) :
    (set_position H v t).position_ = v := by
  rw [set_position_frame]

theorem set_position_rotation (H : Host) (v : QPointF) (t : TurtleControl) :
    (set_position H v t).rotation_ = t.rotation_ := by
  rw [set_position_frame]

theorem set_position_lines (H : Host) (v : QPointF) (t : TurtleControl) :
    (set_position H v t).lines_ = t.lines_ := by
  rw [set_position_frame]

theorem set_position_signals (H : Host) (v : QPointF) (t : TurtleControl) :
    (set_position H v t).signals_ = t.signals_ := by
  rw [set_position_frame]

theorem set_position_canvas (H : Host) (v : QPointF) (t : TurtleControl) :
    (set_position H v t).canvas_ = t.canvas_ := by
  rw [set_position_frame]

theorem set_position_anim (H : Host) (v : QPointF) (t : TurtleControl) :
    (set_position H v t).current_anim_ = t.current_anim_ := by
  rw [set_position_frame]

theorem set_position_prev_position (H : Host) (v : QPointF) (t : TurtleControl) :
    (set_position H v t).previous_position_ = t.previous_position_ := by
  rw [set_position_frame]

theorem set_position_prev_rotation (H : Host) (v : QPointF) (t : TurtleControl) :
    (set_position H v t).previous_rotation_ = t.previous_rotation_ := by
  rw [set_position_frame]

theorem set_position_pen_down (H : Host) (v : QPointF) (t : TurtleControl) :
    (set_position H v t).b_pen_down_ = t.b_pen_down_ := by
  rw [set_position_frame]

theorem set_rotation_position (r : ℚ) (t : TurtleControl) :
    (set_rotation r t).position_ = t.position_ := by
  rw [set_rotation_frame]

theorem set_rotation_lines (r : ℚ) (t : TurtleControl) :
    (set_rotation r t).lines_ = t.lines_ := by
  rw [set_rotation_frame]

theorem set_rotation_signals (r : ℚ) (t : TurtleControl) :
    (set_rotation r t).signals_ = t.signals_ := by
  rw [set_rotation_frame]

theorem set_rotation_canvas (r : ℚ) (t : TurtleControl) :
    (set_rotation r t).canvas_ = t.canvas_ := by
  rw [set_rotation_frame]

theorem set_rotation_anim (r : ℚ) (t : TurtleControl) :
    (set_rotation r t).current_anim_ = t.current_anim_ := by
  rw [set_rotation_frame]

theorem set_rotation_prev_position (r : ℚ) (t : TurtleControl) :
    (set_rotation r t).previous_position_ = t.previous_position_ := by
  rw [set_rotation_frame]

theorem set_rotation_prev_rotation (r : ℚ) (t : TurtleControl) :
    (set_rotation r t).previous_rotation_ = t.previous_rotation_ := by
  rw [set_rotation_frame]

theorem set_rotation_pen_down (r : ℚ) (t : TurtleControl) :
    (set_rotation r t).b_pen_down_ = t.b_pen_down_ := by
  rw [set_rotation_frame]

theorem update_lines_position (t : TurtleControl) :
    (update_lines t).position_ = t.position_ := by
  rw [update_lines_frame]

theorem update_lines_rotation (t : TurtleControl) :
    (update_lines t).rotation_ = t.rotation_ := by
  rw [update_lines_frame]

theorem update_lines_signals (t : TurtleControl) :
    (update_lines t).signals_ = t.signals_ := by
  rw [update_lines_frame]

theorem update_lines_canvas (t : TurtleControl) :
    (update_lines t).canvas_ = t.canvas_ := by
  rw [update_lines_frame]

theorem update_lines_anim (t : TurtleControl) :
    (update_lines t).current_anim_ = t.current_anim_ := by
  rw [update_lines_frame]

theorem update_lines_pen_down (t : TurtleControl) :
    (update_lines t).b_pen_down_ = t.b_pen_down_ := by
  rw [update_lines_frame]

theorem update_lines_pen_up (t : TurtleControl) (h : t.b_pen_down_ = false) :
    (update_lines t).lines_ = t.lines_ := by
  unfold update_lines
  split_ifs <;> simp_all

theorem update_lines_not_moved (t : TurtleControl)
    (h : t.previous_position_ = t.position_) : (update_lines t).lines_ = t.lines_ := by
  simp [update_lines, h]

theorem update_lines_moved (t : TurtleControl) (hpen : t.b_pen_down_ = true)
    (hmove : t.previous_position_ ≠ t.position_) :
    (update_lines t).lines_ =
      t.lines_ ++ [⟨t.previous_position_, t.position_, t.pen_color_, t.pen_radius_⟩] := by
  simp [update_lines, hpen, hmove]

/-! ## The samples of a motion -/

theorem write_sample_frame (H : Host) (g : AnimGroup) (p : ℚ) (t : TurtleControl) :
    write_sample H g p t =
      { t with position_ := g.position_at p, rotation_ := sample_rotation g.rotation_anim p t,
               shape_ := (write_sample H g p t).shape_,
               current_anim_ := some { g with current_value := some (g.position_at p),
                                              at_end := decide (p = 1) } } := by
  unfold write_sample sample_rotation
  rcases g.rotation_anim with _ | ⟨a, b⟩
  · simp only []
    rw [set_position_frame]
  · simp only []
    rw [set_position_frame, set_rotation_frame]

theorem write_sample_position (H : Host) (g : AnimGroup) (p : ℚ) (t : TurtleControl) :
    (write_sample H g p t).position_ = g.position_at p := by
  rw [write_sample_frame]

theorem write_sample_rotation (H : Host) (g : AnimGroup) (p : ℚ) (t : TurtleControl) :
    (write_sample H g p t).rotation_ = sample_rotation g.rotation_anim p t := by
  rw [write_sample_frame]

theorem write_sample_lines (H : Host) (g : AnimGroup) (p : ℚ) (t : TurtleControl) :
    (write_sample H g p t).lines_ = t.lines_ := by
  rw [write_sample_frame]

theorem write_sample_signals (H : Host) (g : AnimGroup) (p : ℚ) (t : TurtleControl) :
    (write_sample H g p t).signals_ = t.signals_ := by
  rw [write_sample_frame]

theorem write_sample_canvas (H : Host) (g : AnimGroup) (p : ℚ) (t : TurtleControl) :
    (write_sample H g p t).canvas_ = t.canvas_ := by
  rw [write_sample_frame]

theorem write_sample_prev_position (H : Host) (g : AnimGroup) (p : ℚ) (t : TurtleControl) :
    (write_sample H g p t).previous_position_ = t.previous_position_ := by
  rw [write_sample_frame]

theorem write_sample_prev_rotation (H : Host) (g : AnimGroup) (p : ℚ) (t : TurtleControl) :
    (write_sample H g p t).previous_rotation_ = t.previous_rotation_ := by
  rw [write_sample_frame]

theorem write_sample_pen_down (H : Host) (g : AnimGroup) (p : ℚ) (t : TurtleControl) :
    (write_sample H g p t).b_pen_down_ = t.b_pen_down_ := by
  rw [write_sample_frame]

theorem write_sample_anim (H : Host) (g : AnimGroup) (p : ℚ) (t : TurtleControl) :
    (write_sample H g p t).current_anim_ =
      some { g with current_value := some (g.position_at p), at_end := decide (p = 1) } := by
  rw [write_sample_frame]

theorem hit_object_no_canvas (H : Host) (t : TurtleControl) (h : t.canvas_ = none) :
    hit_object H t = none := by
  simp [hit_object, h]

/-- A step on which `test_collision` finds nothing: the segment is appended and
the checkpoint moves to the current position and rotation. -/
theorem anim_value_changed_clear (H : Host) (t : TurtleControl) (g : AnimGroup)
    (hg : t.current_anim_ = some g) (hclear : hit_object H t = none) :
    anim_value_changed H t =
      { update_lines t with previous_position_ := t.position_,
                            previous_rotation_ := t.rotation_ } := by
  simp [anim_value_changed, hg, test_collision, hclear, update_lines_position,
    update_lines_rotation]

/-- A step on which `test_collision` finds an object. -/
theorem anim_value_changed_hit (H : Host) (t : TurtleControl) (g : AnimGroup)
    (hit : HitObject) (poly : QPolygonF)
    (hg : t.current_anim_ = some g) (hhit : hit_object H t = some (hit, poly)) :
    anim_value_changed H t =
      TurtleControl.emit (Signal.on_collision hit poly)
        (TurtleControl.emit (Signal.on_movement_completed MovementResult.kBlocked)
          (set_rotation (set_current_anim none t).previous_rotation_
            (set_position H (set_current_anim none t).previous_position_
              (set_current_anim none t)))) := by
  simp [anim_value_changed, hg, test_collision, hhit, set_position_prev_rotation]

/-- Stopping a running group before its end only changes its state. -/
theorem set_current_anim_none_running (t : TurtleControl) (g : AnimGroup)
    (hg : t.current_anim_ = some g) (hrun : g.state = AnimState.Running)
    (hend : g.at_end = false) :
    set_current_anim none t = { t with current_anim_ := none } := by
  simp [set_current_anim, stop, hg, hrun, hend]

/-- The engine's `stop()` at the end of the run of a group that is still
running: `finished` is raised and `anim_finished` reports `kSuccess`. -/
theorem finish_at_end (t : TurtleControl) (g : AnimGroup)
    (hg : t.current_anim_ = some g) (hrun : g.state = AnimState.Running)
    (hend : g.at_end = true) :
    finish t =
      TurtleControl.emit (Signal.on_movement_completed MovementResult.kSuccess)
        { t with current_anim_ := none } := by
  simp [finish, stop, hg, hrun, hend, anim_finished_stopped]

/-- The sample of a running group when no canvas is attached. -/
theorem tick_free (H : Host) (p : ℚ) (t : TurtleControl) (g : AnimGroup)
    (hcanvas : t.canvas_ = none) (hg : t.current_anim_ = some g)
    (hrun : g.state = AnimState.Running) :
    tick H p t =
      (let q := max 0 (min 1 p)
       let w := write_sample H g q t
       let u := if g.current_value ≠ some (g.position_at q) then
           { update_lines w with previous_position_ := w.position_,
                                 previous_rotation_ := w.rotation_ }
         else w
       if q = 1 then
         TurtleControl.emit (Signal.on_movement_completed MovementResult.kSuccess)
           { u with current_anim_ := none }
       else u) := by
  have hclear : hit_object H (write_sample H g (max 0 (min 1 p)) t) = none :=
    hit_object_no_canvas H _ (by rw [write_sample_canvas]; exact hcanvas)
  have hav := anim_value_changed_clear H (write_sample H g (max 0 (min 1 p)) t) _
    (write_sample_anim H g _ t) hclear
  simp only [tick, hg, hrun, ne_eq, not_true_eq_false, if_false, hav]
  by_cases hq : max 0 (min 1 p) = 1
  · rw [if_pos hq, if_pos hq]
    apply finish_at_end _ { g with current_value := some (g.position_at (max 0 (min 1 p))),
                                   at_end := decide (max 0 (min 1 p) = 1) }
    · split_ifs <;> simp only [update_lines_anim, write_sample_anim]
    · exact hrun
    · simp [hq]
  · rw [if_neg hq, if_neg hq]

theorem position_at_one (g : AnimGroup) : g.position_at 1 = end_value g.key_values := by
  simp [AnimGroup.position_at]

theorem clamp_range (p : ℚ) : 0 ≤ max 0 (min 1 p) ∧ max 0 (min 1 p) ≤ 1 := by
  constructor
  · exact le_max_left _ _
  · exact max_le (by norm_num) (min_le_left _ _)

theorem tick_idle (H : Host) (p : ℚ) (t : TurtleControl) (h : t.current_anim_ = none) :
    tick H p t = t := by
  simp [tick, h]

/-- One sample of a motion without canvas: the motion goes on, or it completes
with exactly one `kSuccess`. -/
theorem free_tick (H : Host) (kv : List (ℚ × QPointF)) (rot : Option (ℚ × ℚ))
    (R : ℚ → Prop) (rfinal : ℚ) (sig : List Signal)
    (hstep : ∀ q t, 0 ≤ q → q ≤ 1 → R t.rotation_ → R (sample_rotation rot q t))
    (hfinal : ∀ t, R t.rotation_ → sample_rotation rot 1 t = rfinal)
    (p : ℚ) (t : TurtleControl) (h : Flying kv rot R sig t) :
    (max 0 (min 1 p) ≠ 1 → Flying kv rot R sig (tick H p t)) ∧
      (max 0 (min 1 p) = 1 → Landed kv rfinal sig (tick H p t)) := by
  obtain ⟨hcanvas, hsig, hR, g, hg, hrun, hkv, hrot⟩ := h
  have hq := clamp_range p
  rw [tick_free H p t g hcanvas hg hrun]
  constructor
  · intro hne
    simp only [hne, if_false]
    refine ⟨?_, ?_, ?_, ?_⟩
    · split_ifs <;> simp [update_lines_canvas, write_sample_canvas, hcanvas]
    · split_ifs <;> simp [update_lines_signals, write_sample_signals, hsig]
    · split_ifs <;>
        simp only [update_lines_rotation, write_sample_rotation, hrot] <;>
        exact hstep _ t hq.1 hq.2 hR
    · refine ⟨{ g with current_value := some (g.position_at (max 0 (min 1 p))),
                       at_end := decide (max 0 (min 1 p) = 1) }, ?_, hrun, hkv, hrot⟩
      split_ifs <;> simp only [update_lines_anim, write_sample_anim]
  · intro heq
    simp only [heq, if_true]
    refine ⟨rfl, ?_, ?_, ?_⟩
    · split_ifs <;>
        simp [TurtleControl.emit, update_lines_signals, write_sample_signals, hsig]
    · split_ifs <;>
        simp [TurtleControl.emit, update_lines_position, write_sample_position,
          position_at_one, hkv]
    · split_ifs <;>
        simp only [TurtleControl.emit, update_lines_rotation, write_sample_rotation, hrot] <;>
        exact hfinal t hR

/-- Any number of samples of a motion without canvas: the motion is still going
on, or it has completed with exactly one `kSuccess`. -/
theorem free_ticks (H : Host) (kv : List (ℚ × QPointF)) (rot : Option (ℚ × ℚ))
    (R : ℚ → Prop) (rfinal : ℚ) (sig : List Signal)
    (hstep : ∀ q t, 0 ≤ q → q ≤ 1 → R t.rotation_ → R (sample_rotation rot q t))
    (hfinal : ∀ t, R t.rotation_ → sample_rotation rot 1 t = rfinal)
    (ps : List ℚ) :
    ∀ t, Flying kv rot R sig t ∨ Landed kv rfinal sig t →
      Flying kv rot R sig (ticks H ps t) ∨ Landed kv rfinal sig (ticks H ps t) := by
  induction ps with
  | nil => intro t h; exact h
  | cons p ps ih =>
    intro t h
    simp only [ticks]
    apply ih
    rcases h with h | h
    · have hs := free_tick H kv rot R rfinal sig hstep hfinal p t h
      by_cases hq : max 0 (min 1 p) = 1
      · exact Or.inr (hs.2 hq)
      · exact Or.inl (hs.1 hq)
    · rw [tick_idle H p t h.1]
      exact Or.inr h

/-- A whole run of a motion without canvas completes with exactly one
`kSuccess`, at the end value. -/
theorem free_play (H : Host) (kv : List (ℚ × QPointF)) (rot : Option (ℚ × ℚ))
    (R : ℚ → Prop) (rfinal : ℚ) (sig : List Signal)
    (hstep : ∀ q t, 0 ≤ q → q ≤ 1 → R t.rotation_ → R (sample_rotation rot q t))
    (hfinal : ∀ t, R t.rotation_ → sample_rotation rot 1 t = rfinal)
    (ps : List ℚ) (t : TurtleControl) (h : Flying kv rot R sig t) :
    Landed kv rfinal sig (play H ps t) := by
  unfold play
  rcases free_ticks H kv rot R rfinal sig hstep hfinal ps t (Or.inl h) with h1 | h1
  · exact (free_tick H kv rot R rfinal sig hstep hfinal 1 _ h1).2 (by norm_num)
  · rw [tick_idle H 1 _ h1.1]
    exact h1

/-! ## Forward without obstacles -/

/-- C1.  For every distance `d` (positive or not), every idle turtle without
canvas and every schedule of samples `ps`, the run of `forward(d)` ends at the
initial position
plus `d` times the forward vector at the time of the call, with no group left,
and the log has grown by exactly one signal, `on_movement_completed(kSuccess)`. -/
theorem forward_completes (H : Host) (t : TurtleControl) (d : ℚ) (ps : List ℚ)
    (hidle : is_moving t = false) (hcanvas : t.canvas_ = none) :
    (play H ps (forward H d t)).position_ =
        t.position_ + (get_forward_vector H t).scale d ∧
      (play H ps (forward H d t)).signals_ =
        t.signals_ ++ [Signal.on_movement_completed MovementResult.kSuccess] ∧
      (play H ps (forward H d t)).current_anim_ = none := by
  have hfly : Flying [(0, t.position_), (1, t.position_ + (get_forward_vector H t).scale d)]
      none (fun r => r = t.rotation_) t.signals_ (forward H d t) := by
    simp only [forward, hidle]
    exact ⟨hcanvas, rfl, rfl, _, rfl, rfl, rfl, rfl⟩
  have hland := free_play H _ none (fun r => r = t.rotation_) t.rotation_ t.signals_
    (fun q u _ _ hu => by simpa [sample_rotation] using hu)
    (fun u hu => by simpa [sample_rotation] using hu) ps _ hfly
  obtain ⟨h1, h2, h3, _⟩ := hland
  refine ⟨?_, h2, h1⟩
  rw [h3]
  simp [end_value]

theorem forward_completes_witness :
    (0 : ℚ) < 150 ∧
      (play host0 [1 / 4, 1 / 2] (forward host0 150 (TurtleControl.new host0))).position_ =
        (TurtleControl.new host0).position_ +
          (get_forward_vector host0 (TurtleControl.new host0)).scale 150 :=
  ⟨by norm_num,
    (forward_completes host0 (TurtleControl.new host0) 150 [1 / 4, 1 / 2]
      (by decide!) (by decide!)).1⟩

/-! ## Arcs of whole turns -/

theorem fmod_nonneg (x : ℚ) (hx : 0 ≤ x) : fmod x 360 = x - 360 * (⌊x / 360⌋ : ℚ) := by
  unfold fmod
  rw [if_pos (by positivity)]

theorem fmod_range (x : ℚ) (hx : 0 ≤ x) : 0 ≤ fmod x 360 ∧ fmod x 360 < 360 := by
  rw [fmod_nonneg x hx]
  have h1 := Int.floor_le (x / 360)
  have h2 := Int.lt_floor_add_one (x / 360)
  constructor
  · have : (⌊x / 360⌋ : ℚ) * 360 ≤ x := by
      have := mul_le_mul_of_nonneg_right h1 (by norm_num : (0 : ℚ) ≤ 360)
      simpa using this
    linarith
  · have : x < ((⌊x / 360⌋ : ℚ) + 1) * 360 := by
      have := mul_lt_mul_of_pos_right h2 (by norm_num : (0 : ℚ) < 360)
      simpa using this
    linarith

theorem fmod_whole_turns (r : ℚ) (k : ℤ) (hr : 0 ≤ r ∧ r < 360) (hk : 0 ≤ k) :
    fmod (r + 360 * k) 360 = r := by
  have hk' : (0 : ℚ) ≤ k := by exact_mod_cast hk
  rw [fmod_nonneg _ (by nlinarith [hr.1])]
  have hfl : ⌊(r + 360 * (k : ℚ)) / 360⌋ = k := by
    rw [Int.floor_eq_iff]
    constructor
    · rw [le_div_iff₀ (by norm_num)]; linarith [hr.1]
    · rw [div_lt_iff₀ (by norm_num)]; linarith [hr.2]
  rw [hfl]
  ring

/-- The stored rotation stays in `[0, 360)` when the value written is at least
`-360`. -/
theorem set_rotation_range (r : ℚ) (t : TurtleControl) (hr : -360 ≤ r)
    (ht : 0 ≤ t.rotation_ ∧ t.rotation_ < 360) :
    0 ≤ (set_rotation r t).rotation_ ∧ (set_rotation r t).rotation_ < 360 := by
  unfold set_rotation
  split_ifs with h1 h2 h3
  · exact ht
  · exact fmod_range r (by linarith)
  · exact fmod_range (360 + r) (by linarith)
  · simp only
    constructor <;> linarith [not_le.mp h3, not_le.mp h2]

/-- Writing a rotation that is a whole number of turns (any positive number, or
one turn back) away from `r` stores `r`. -/
theorem set_rotation_whole_turns (r : ℚ) (k : ℤ) (t : TurtleControl)
    (hr : 0 ≤ r ∧ r < 360) (hk : 1 ≤ k ∨ k = -1)
    (ht : 0 ≤ t.rotation_ ∧ t.rotation_ < 360) :
    (set_rotation (r + 360 * k) t).rotation_ = r := by
  unfold set_rotation
  rcases hk with hk | hk
  · have hk' : (1 : ℚ) ≤ k := by exact_mod_cast hk
    have hge : r + 360 * (k : ℚ) ≥ 360 := by linarith [hr.1]
    rw [if_neg (by intro h; linarith [ht.2]), if_pos hge]
    exact fmod_whole_turns r k hr (by omega)
  · subst hk
    have hlt : ¬ (r + 360 * ((-1 : ℤ) : ℚ) ≥ 360) := by push_cast; linarith [hr.2]
    have hle : r + 360 * ((-1 : ℤ) : ℚ) ≤ 0 := by push_cast; linarith [hr.2]
    rw [if_neg (by intro h; rw [h] at ht; push_cast at ht; linarith [ht.1, hr.2]),
      if_neg hlt, if_pos hle]
    have : (360 : ℚ) + (r + 360 * ((-1 : ℤ) : ℚ)) = r + 360 * ((0 : ℤ) : ℚ) := by
      push_cast; ring
    simp only [this]
    exact fmod_whole_turns r 0 hr (le_refl 0)

theorem setKeyValueAt_mem (step : ℚ) (value : QPointF) (kvs : List (ℚ × QPointF))
    (kv : ℚ × QPointF) (h : kv ∈ setKeyValueAt step value kvs) :
    kv = (step, value) ∨ kv ∈ kvs := by
  unfold setKeyValueAt at h
  split_ifs at h with h0
  · exact Or.inr h
  · simp only at h
    split at h
    · rcases List.mem_append.mp h with h | h
      · exact Or.inr (List.takeWhile_subset _ h)
      · simp at h; exact Or.inl h
    · rename_i kv0 rest1 hrest
      have hsub : ∀ x ∈ kv0 :: rest1, x ∈ kvs := by
        intro x hx
        rw [← hrest] at hx
        exact List.dropWhile_subset _ hx
      split_ifs at h
      · rcases List.mem_append.mp h with h | h
        · exact Or.inr (List.takeWhile_subset _ h)
        · rcases List.mem_cons.mp h with h | h
          · exact Or.inl h
          · exact Or.inr (hsub _ h)
      · rcases List.mem_append.mp h with h | h
        · exact Or.inr (List.takeWhile_subset _ h)
        · rcases List.mem_cons.mp h with h | h
          · exact Or.inl h
          · exact Or.inr (hsub _ (List.mem_cons_of_mem _ h))

/-- Every key set by the loop of `arc` is below `1`. -/
theorem arc_key_loop_keys (position_ right_vector : QPointF) (H : Host)
    (b radius rotation_ degrees step_delta : ℚ) (fuel : ℕ) :
    ∀ (step : ℚ) (kvs : List (ℚ × QPointF)), (∀ kv ∈ kvs, kv.1 < 1) →
      ∀ kv ∈ arc_key_loop position_ right_vector H b radius rotation_ degrees step_delta
        fuel step kvs, kv.1 < 1 := by
  induction fuel with
  | zero => intro step kvs h kv hkv; exact h kv (by simpa [arc_key_loop] using hkv)
  | succ n ih =>
    intro step kvs h kv hkv
    simp only [arc_key_loop] at hkv
    split_ifs at hkv with hstep
    · refine ih _ _ ?_ kv hkv
      intro kv1 hkv1
      rcases setKeyValueAt_mem _ _ _ _ hkv1 with h1 | h1
      · rw [h1]; exact hstep
      · exact h kv1 h1
    · exact h kv hkv

/-- `setEndValue` after keys below `1`: the end value is the value set. -/
theorem end_value_setKeyValueAt_one (value : QPointF) (kvs : List (ℚ × QPointF))
    (h : ∀ kv ∈ kvs, kv.1 < 1) : end_value (setKeyValueAt 1 value kvs) = value := by
  have h1 : kvs.dropWhile (fun kv => decide (kv.1 < 1)) = [] := by
    rw [List.dropWhile_eq_nil_iff]
    intro x hx; simpa using h x hx
  unfold setKeyValueAt end_value
  rw [if_neg (by norm_num)]
  simp only [h1]
  rw [List.getLast?_concat]

theorem point_add_zero_scale (p v : QPointF) (k : ℚ) : p + (v - v).scale k = p := by
  apply QPointF.eq_of_coords <;> simp [QPointF.scale]

/-- C4, counterexample.  A fresh turtle (position `(450, 450)`, rotation `0`, no
canvas) after the whole run of `arc(100, 450)`: the sweep is at least `360` and the
motion completes with `kSuccess`, but the turtle ends at `(550, 350)`, a quarter
turn further along the circle, not at the start position. -/
theorem arc_450_not_closed :
    (play host0 [] (arc host0 100 450 (TurtleControl.new host0))).position_ = ⟨550, 350⟩ ∧
      (TurtleControl.new host0).position_ = ⟨450, 450⟩ ∧
      completions (play host0 [] (arc host0 100 450 (TurtleControl.new host0))).signals_ =
        [MovementResult.kSuccess] := by
  decide!

/-- C4, amended.  For every radius `r ≥ 0.001` and every sweep of a whole number of
turns `360 * k` with `k ≥ 1` or `k = -1`, on an idle turtle without canvas whose
rotation is in `[0, 360)`, and with a cosine and sine that repeat after `k` turns,
the run of `arc(r, 360 * k)` under every schedule of samples ends at the start
position with the start rotation, with no group left, and the log has grown by
exactly one signal, `on_movement_completed(kSuccess)`. -/
theorem arc_whole_turns (H : Host) (t : TurtleControl) (radius : ℚ) (k : ℤ) (ps : List ℚ)
    (hradius : 1 / 1000 ≤ radius) (hk : 1 ≤ k ∨ k = -1)
    (hidle : is_moving t = false) (hcanvas : t.canvas_ = none)
    (hrot : 0 ≤ t.rotation_ ∧ t.rotation_ < 360)
    (hcos : H.cos (t.rotation_ + 360 * k) = H.cos t.rotation_)
    (hsin : H.sin (t.rotation_ + 360 * k) = H.sin t.rotation_) :
    (play H ps (arc H radius (360 * k) t)).position_ = t.position_ ∧
      (play H ps (arc H radius (360 * k) t)).rotation_ = t.rotation_ ∧
      (play H ps (arc H radius (360 * k) t)).signals_ =
        t.signals_ ++ [Signal.on_movement_completed MovementResult.kSuccess] ∧
      (play H ps (arc H radius (360 * k) t)).current_anim_ = none := by
  have hkq : (1 : ℚ) ≤ k ∨ (k : ℚ) = -1 := by
    rcases hk with h | h
    · left; exact_mod_cast h
    · right; exact_mod_cast h
  have hkeys : ∀ x ∈ arc_step_keys H radius (360 * k) t, x.1 < 1 := by
    apply arc_key_loop_keys
    intro kv hkv
    rcases setKeyValueAt_mem _ _ _ _ hkv with h | h
    · rw [h]; norm_num
    · simp at h
  have hfly : Flying (setKeyValueAt 1 t.position_ (arc_step_keys H radius (360 * k) t))
      (some (t.rotation_, t.rotation_ + 360 * k))
      (fun r => 0 ≤ r ∧ r < 360) t.signals_ (arc H radius (360 * k) t) := by
    simp only [arc, hidle, not_lt.mpr hradius, if_false, Bool.false_eq_true, hcos, hsin,
      get_right_vector, point_add_zero_scale]
    exact ⟨hcanvas, rfl, hrot, _, rfl, rfl, rfl, rfl⟩
  have hland := free_play H _ _ (fun r => 0 ≤ r ∧ r < 360) t.rotation_ t.signals_
    (fun q u hq0 hq1 hu => by
      simp only [sample_rotation]
      apply set_rotation_range _ _ _ hu
      rcases hkq with h | h
      · nlinarith [hrot.1]
      · rw [h]; nlinarith [hrot.1])
    (fun u hu => by
      simp only [sample_rotation]
      have : t.rotation_ + (t.rotation_ + 360 * (k : ℚ) - t.rotation_) * 1 =
          t.rotation_ + 360 * (k : ℚ) := by ring
      rw [this]
      exact set_rotation_whole_turns _ k u hrot hk hu) ps _ hfly
  obtain ⟨h1, h2, h3, h4⟩ := hland
  exact ⟨by rw [h3, end_value_setKeyValueAt_one _ _ hkeys], h4, h2, h1⟩

theorem arc_whole_turns_witness :
    (play host0 [1 / 3] (arc host0 100 (360 * ((1 : ℤ) : ℚ))
        (TurtleControl.new host0))).position_ = (TurtleControl.new host0).position_ :=
  (arc_whole_turns host0 (TurtleControl.new host0) 100 1 [1 / 3] (by norm_num)
    (Or.inl (le_refl 1)) (by decide!) (by decide!) (by decide!) (by decide!) (by decide!)).1

/-! ## Samples under collision testing -/

theorem set_rotation_of_normalised (r : ℚ) (t : TurtleControl) (hr : 0 ≤ r ∧ r < 360) :
    (set_rotation r t).rotation_ = r := by
  unfold set_rotation
  split_ifs with h1 h2 h3
  · exact h1
  · linarith [hr.2]
  · have h0 : r = 0 := le_antisymm h3 hr.1
    subst h0
    have := fmod_whole_turns 0 1 (by norm_num) (by norm_num)
    simpa using this
  · rfl

theorem sample_hits_iff (H : Host) (p : ℚ) (t : TurtleControl) (g : AnimGroup)
    (hg : t.current_anim_ = some g) (hrun : g.state = AnimState.Running) :
    sample_hits H p t = true ↔
      g.current_value ≠ some (g.position_at (max 0 (min 1 p))) ∧
        hit_object H (write_sample H g (max 0 (min 1 p)) t) ≠ none := by
  simp [sample_hits, hg, hrun, Option.isSome_iff_ne_none]

/-- A sample before the end at which no collision is detected: the properties are
written and, when the value changed, the segment is appended and the checkpoint
moves to the sample. -/
theorem tick_clear (H : Host) (p : ℚ) (t : TurtleControl) (g : AnimGroup)
    (hg : t.current_anim_ = some g) (hrun : g.state = AnimState.Running)
    (hp : max 0 (min 1 p) ≠ 1) (hclear : sample_hits H p t = false) :
    tick H p t =
      if g.current_value ≠ some (g.position_at (max 0 (min 1 p))) then
        { update_lines (write_sample H g (max 0 (min 1 p)) t) with
            previous_position_ := (write_sample H g (max 0 (min 1 p)) t).position_,
            previous_rotation_ := (write_sample H g (max 0 (min 1 p)) t).rotation_ }
      else write_sample H g (max 0 (min 1 p)) t := by
  simp only [tick, hg, hrun, ne_eq, not_true_eq_false, if_false, hp]
  by_cases hchg : g.current_value = some (g.position_at (max 0 (min 1 p)))
  · simp [hchg]
  · have hnone : hit_object H (write_sample H g (max 0 (min 1 p)) t) = none := by
      by_contra hne
      have := (sample_hits_iff H p t g hg hrun).mpr ⟨hchg, hne⟩
      rw [hclear] at this
      exact Bool.false_ne_true this
    rw [if_pos hchg, if_pos hchg]
    exact anim_value_changed_clear H _ _ (write_sample_anim H g _ t) hnone

/-- A sample before the end at which a collision is detected: the group is
dropped, position and rotation are set back to the checkpoint, `kBlocked` and the
collision are reported. -/
theorem tick_hit (H : Host) (p : ℚ) (t : TurtleControl) (g : AnimGroup)
    (hg : t.current_anim_ = some g) (hrun : g.state = AnimState.Running)
    (hp : max 0 (min 1 p) ≠ 1) (hhit : sample_hits H p t = true) :
    ∃ hit poly,
      tick H p t =
        TurtleControl.emit (Signal.on_collision hit poly)
          (TurtleControl.emit (Signal.on_movement_completed MovementResult.kBlocked)
            (set_rotation t.previous_rotation_
              (set_position H t.previous_position_
                { write_sample H g (max 0 (min 1 p)) t with current_anim_ := none }))) := by
  obtain ⟨hchg, hne⟩ := (sample_hits_iff H p t g hg hrun).mp hhit
  obtain ⟨⟨hit, poly⟩, hsome⟩ := Option.ne_none_iff_exists'.mp hne
  refine ⟨hit, poly, ?_⟩
  simp only [tick, hg, hrun, ne_eq, not_true_eq_false, if_false, hp]
  rw [if_pos hchg]
  rw [anim_value_changed_hit H _ _ hit poly (write_sample_anim H g _ t) hsome]
  rw [set_current_anim_none_running _ _ (write_sample_anim H g _ t) hrun (by simp [hp])]
  simp only [write_sample_prev_position, write_sample_prev_rotation]

/-- `stop()` leaves position, rotation, checkpoint and lines alone. -/
theorem stop_frame (t : TurtleControl) :
    stop t = { t with current_anim_ := (stop t).current_anim_,
                      signals_ := (stop t).signals_ } := by
  unfold stop
  rcases t.current_anim_ with _ | g
  · rfl
  · simp only
    split_ifs <;> simp [anim_finished_stopped, TurtleControl.emit]

theorem anim_value_changed_lines_pen_up (H : Host) (t : TurtleControl)
    (h : t.b_pen_down_ = false) :
    (anim_value_changed H t).lines_ = t.lines_ ∧
      (anim_value_changed H t).b_pen_down_ = false := by
  unfold anim_value_changed
  rcases t.current_anim_ with _ | g
  · exact ⟨rfl, h⟩
  · simp only [test_collision]
    rcases hit_object H t with _ | ⟨hit, poly⟩
    · simp [update_lines_pen_up t h, update_lines_pen_down, h]
    · simp only [if_true, TurtleControl.emit, set_rotation_lines, set_position_lines,
        set_rotation_pen_down, set_position_pen_down, set_current_anim]
      rw [stop_frame]
      exact ⟨rfl, h⟩

/-- A step that detects a collision appends no segment. -/
theorem anim_value_changed_lines_hit (H : Host) (t : TurtleControl) (g : AnimGroup)
    (hg : t.current_anim_ = some g) (hhit : hit_object H t ≠ none) :
    (anim_value_changed H t).lines_ = t.lines_ := by
  obtain ⟨⟨hit, poly⟩, hsome⟩ := Option.ne_none_iff_exists'.mp hhit
  rw [anim_value_changed_hit H t g hit poly hg hsome]
  simp only [TurtleControl.emit, set_rotation_lines, set_position_lines, set_current_anim]
  rw [stop_frame]

theorem finish_frame (t : TurtleControl) :
    finish t = { t with current_anim_ := (finish t).current_anim_,
                        signals_ := (finish t).signals_ } := by
  unfold finish
  rcases t.current_anim_ with _ | g
  · rfl
  · simp only
    split_ifs
    · exact stop_frame t
    · rfl

/-- With the pen up a sample appends no segment. -/
theorem tick_lines_pen_up (H : Host) (p : ℚ) (t : TurtleControl)
    (h : t.b_pen_down_ = false) :
    (tick H p t).lines_ = t.lines_ ∧ (tick H p t).b_pen_down_ = false := by
  unfold tick
  rcases t.current_anim_ with _ | g
  · exact ⟨rfl, h⟩
  · simp only
    have hw : (write_sample H g (max 0 (min 1 p)) t).b_pen_down_ = false := by
      rw [write_sample_pen_down]; exact h
    have hav := anim_value_changed_lines_pen_up H _ hw
    rw [write_sample_lines] at hav
    split_ifs <;>
      first
        | exact ⟨rfl, h⟩
        | exact hav
        | exact ⟨write_sample_lines H g _ t, hw⟩
        | (rw [finish_frame]; exact hav)
        | (rw [finish_frame]; exact ⟨write_sample_lines H g _ t, hw⟩)

theorem ticks_lines_pen_up (H : Host) (ps : List ℚ) :
    ∀ t : TurtleControl, t.b_pen_down_ = false →
      (ticks H ps t).lines_ = t.lines_ ∧ (ticks H ps t).b_pen_down_ = false := by
  induction ps with
  | nil => intro t h; exact ⟨rfl, h⟩
  | cons p ps ih =>
    intro t h
    have h1 := tick_lines_pen_up H p t h
    have h2 := ih _ h1.2
    simp only [ticks]
    exact ⟨h2.1.trans h1.1, h2.2⟩

theorem completions_append (l1 l2 : List Signal) :
    completions (l1 ++ l2) = completions l1 ++ completions l2 := by
  induction l1 with
  | nil => rfl
  | cons x xs ih => cases x <;> simp [completions, ih]

theorem ticks_append (H : Host) (ps qs : List ℚ) :
    ∀ t, ticks H (ps ++ qs) t = ticks H qs (ticks H ps t) := by
  induction ps with
  | nil => intro t; rfl
  | cons p ps ih => intro t; exact ih (tick H p t)

theorem ticks_idle (H : Host) (ps : List ℚ) :
    ∀ t : TurtleControl, t.current_anim_ = none → ticks H ps t = t := by
  induction ps with
  | nil => intro t _; rfl
  | cons p ps ih =>
    intro t h
    simp only [ticks, tick_idle H p t h]
    exact ih t h

/-! ## Collision: where the turtle is put back -/

/-- C5, counterexample.  The turtle of the tests starts at `(450, 450)` and runs
`forward(150)` towards a square obstacle centred at `(450, 375)`.  The sample at a
quarter of the way is clear, the sample at half of the way hits.  The motion ends
`kBlocked` with the turtle at `(450, 412.5)`, the position of the clear sample,
not at the position `(450, 450)` it had at the start of the motion. -/
theorem rollback_is_not_to_motion_start :
    (turtle_with_obstacle ⟨450, 375⟩).position_ = ⟨450, 450⟩ ∧
      (ticks host0 [1 / 4] (forward host0 150 (turtle_with_obstacle ⟨450, 375⟩))).position_ =
        ⟨450, 825 / 2⟩ ∧
      (ticks host0 [1 / 4, 1 / 2]
        (forward host0 150 (turtle_with_obstacle ⟨450, 375⟩))).position_ = ⟨450, 825 / 2⟩ ∧
      completions (ticks host0 [1 / 4, 1 / 2]
        (forward host0 150 (turtle_with_obstacle ⟨450, 375⟩))).signals_ =
        [MovementResult.kBlocked] := by
  decide!

/-- C5, amended.  At a sample of a running motion, `forward` or `arc`, that is not
the last one:
* if a collision is detected, the motion is cancelled (no group is left), the
  position is the checkpoint position and the rotation the checkpoint rotation
  (for a checkpoint rotation in `[0, 360)`), and exactly one result is reported,
  `kBlocked`;
* if no collision is detected and the sample changes the value, the checkpoint
  becomes the position and rotation of this sample, and the motion goes on.
So a hit puts the turtle back to the last clear sample, and to the checkpoint
held when the motion began only when no sample was clear before the hit. -/
theorem collision_restores_checkpoint (H : Host) (t : TurtleControl) (g : AnimGroup) (p : ℚ)
    (hg : t.current_anim_ = some g) (hrun : g.state = AnimState.Running)
    (hp : max 0 (min 1 p) ≠ 1) :
    (sample_hits H p t = true →
        0 ≤ t.previous_rotation_ ∧ t.previous_rotation_ < 360 →
        (tick H p t).current_anim_ = none ∧
          (tick H p t).position_ = t.previous_position_ ∧
          (tick H p t).rotation_ = t.previous_rotation_ ∧
          completions (tick H p t).signals_ =
            completions t.signals_ ++ [MovementResult.kBlocked]) ∧
      (sample_hits H p t = false →
        g.current_value ≠ some (g.position_at (max 0 (min 1 p))) →
        (tick H p t).previous_position_ = (tick H p t).position_ ∧
          (tick H p t).previous_rotation_ = (tick H p t).rotation_ ∧
          (tick H p t).position_ = g.position_at (max 0 (min 1 p)) ∧
          is_moving (tick H p t) = true) := by
  constructor
  · intro hhit hprev
    obtain ⟨hit, poly, heq⟩ := tick_hit H p t g hg hrun hp hhit
    rw [heq]
    refine ⟨?_, ?_, ?_, ?_⟩
    · simp [TurtleControl.emit, set_rotation_anim, set_position_anim]
    · simp [TurtleControl.emit, set_rotation_position, set_position_position]
    · simp only [TurtleControl.emit]
      exact set_rotation_of_normalised _ _ hprev
    · simp [TurtleControl.emit, set_rotation_signals, set_position_signals,
        write_sample_signals, completions_append, completions]
  · intro hclear hchg
    rw [tick_clear H p t g hg hrun hp hclear, if_pos hchg]
    refine ⟨?_, ?_, ?_, ?_⟩
    · simp [update_lines_position]
    · simp [update_lines_rotation]
    · simp [update_lines_position, write_sample_position]
    · simp [is_moving, update_lines_anim, write_sample_anim, hrun]

theorem collision_restores_checkpoint_witness :
    ((tick host0 (1 / 2) checkpoint_turtle).position_ = checkpoint_turtle.previous_position_ ∧
        checkpoint_turtle.previous_position_ = ⟨450, 825 / 2⟩) ∧
      (tick host0 (3 / 8) checkpoint_turtle).previous_position_ =
        (tick host0 (3 / 8) checkpoint_turtle).position_ :=
  ⟨⟨((collision_restores_checkpoint host0 checkpoint_turtle checkpoint_group (1 / 2)
      (by decide!) (by decide!) (by decide!)).1 (by decide!) (by decide!)).2.1, by decide!⟩,
    ((collision_restores_checkpoint host0 checkpoint_turtle checkpoint_group (3 / 8)
      (by decide!) (by decide!) (by decide!)).2 (by decide!) (by decide!)).1⟩

/-! ## Collision: the drawn lines -/

/-- C6, counterexample.  Same run as for C5, with the pen down: the motion ends
`kBlocked`, the drawn lines were empty when it started, and afterwards they hold
the segment from `(450, 450)` to `(450, 412.5)` appended at the clear sample. -/
theorem blocked_motion_keeps_segment :
    (turtle_with_obstacle ⟨450, 375⟩).b_pen_down_ = true ∧
      (forward host0 150 (turtle_with_obstacle ⟨450, 375⟩)).lines_ = [] ∧
      (ticks host0 [1 / 4, 1 / 2]
        (forward host0 150 (turtle_with_obstacle ⟨450, 375⟩))).lines_ =
        [⟨⟨450, 450⟩, ⟨450, 825 / 2⟩, QColor.black, 3⟩] ∧
      completions (ticks host0 [1 / 4, 1 / 2]
        (forward host0 150 (turtle_with_obstacle ⟨450, 375⟩))).signals_ =
        [MovementResult.kBlocked] := by
  decide!

theorem tick_lines_hit (H : Host) (p : ℚ) (t : TurtleControl)
    (hhit : sample_hits H p t = true) : (tick H p t).lines_ = t.lines_ := by
  rcases hanim : t.current_anim_ with _ | g
  · simp [sample_hits, hanim] at hhit
  · simp only [sample_hits, hanim, Bool.and_eq_true, decide_eq_true_eq,
      Option.isSome_iff_ne_none] at hhit
    obtain ⟨⟨hrun, hchg⟩, hne⟩ := hhit
    have hl := anim_value_changed_lines_hit H _ _ (write_sample_anim H g _ t) hne
    rw [write_sample_lines] at hl
    simp only [tick, hanim, hrun, ne_eq, not_true_eq_false, if_false]
    rw [if_pos hchg]
    split_ifs
    · rw [finish_frame]; exact hl
    · exact hl

/-- C6, amended.  When a collision is detected at the sample `q` of a motion,
after the samples `ps`: the step that detects it appends no segment, so the drawn
lines after the motion are the ones left by the clear samples before the hit;
and with the pen up they are the drawn lines at the moment the motion was
started. -/
theorem blocked_step_appends_nothing (H : Host) (t : TurtleControl) (ps : List ℚ) (q : ℚ)
    (hhit : sample_hits H q (ticks H ps t) = true) :
    (tick H q (ticks H ps t)).lines_ = (ticks H ps t).lines_ ∧
      (t.b_pen_down_ = false → (tick H q (ticks H ps t)).lines_ = t.lines_) := by
  have h1 := tick_lines_hit H q _ hhit
  refine ⟨h1, fun hup => ?_⟩
  rw [h1]
  exact (ticks_lines_pen_up H ps t hup).1

theorem blocked_step_appends_nothing_witness :
    (tick host0 (1 / 2) (ticks host0 [1 / 4]
        (forward host0 150 (set_pen_down false (turtle_with_obstacle ⟨450, 375⟩))))).lines_ =
      (forward host0 150 (set_pen_down false (turtle_with_obstacle ⟨450, 375⟩))).lines_ :=
  (blocked_step_appends_nothing host0
    (forward host0 150 (set_pen_down false (turtle_with_obstacle ⟨450, 375⟩))) [1 / 4] (1 / 2)
    (by decide!)).2 (by decide!)

/-! ## Collision on a forward motion -/

theorem clamp_of_unit (p : ℚ) (hp : 0 ≤ p ∧ p < 1) : max 0 (min 1 p) = p := by
  rw [min_eq_right (le_of_lt hp.2), max_eq_right hp.1]

theorem position_at_segment (g : AnimGroup) (a b : QPointF) (p : ℚ)
    (hkv : g.key_values = [(0, a), (1, b)]) (hp : p < 1) :
    g.position_at p = a + (b - a).scale p := by
  simp [AnimGroup.position_at, hkv, not_le.mpr hp, interpolate, hp]

/-- A clear sample of a forward motion keeps the motion under way, with the
checkpoint on the sample. -/
theorem approaching_tick (H : Host) (a b : QPointF) (sig : List Signal) (r p : ℚ)
    (t : TurtleControl) (h : Approaching a b sig r t) (hp : 0 ≤ p ∧ p < 1)
    (hclear : sample_hits H p t = false) : Approaching a b sig p (tick H p t) := by
  obtain ⟨hsig, hprev, _, g, hg, hrun, hkv, hrot, hcur⟩ := h
  have hq := clamp_of_unit p hp
  have hne : max 0 (min 1 p) ≠ 1 := by rw [hq]; exact ne_of_lt hp.2
  rw [tick_clear H p t g hg hrun hne hclear, hq]
  have hpos := position_at_segment g a b p hkv hp.2
  by_cases hchg : g.current_value = some (g.position_at p)
  · rw [if_neg (not_not.mpr hchg)]
    have hsame : t.position_ = g.position_at p := by
      rcases hcur with h0 | h0
      · rw [h0] at hchg; cases hchg
      · rw [h0] at hchg; exact Option.some.inj hchg
    refine ⟨?_, ?_, ?_, ?_⟩
    · rw [write_sample_signals]; exact hsig
    · rw [write_sample_prev_position, write_sample_position, hprev, hsame]
    · rw [write_sample_position, hpos]
    · exact ⟨_, write_sample_anim H g p t, hrun, hkv, hrot,
        Or.inr (by rw [write_sample_position])⟩
  · rw [if_pos hchg]
    refine ⟨?_, ?_, ?_, ?_⟩
    · simp [update_lines_signals, write_sample_signals, hsig]
    · simp [update_lines_position]
    · simp [update_lines_position, write_sample_position, hpos]
    · refine ⟨{ g with current_value := some (g.position_at p), at_end := decide (p = 1) },
        ?_, hrun, hkv, hrot, Or.inr ?_⟩
      · simp only [update_lines_anim, write_sample_anim]
      · simp [update_lines_position, write_sample_position]

/-- Clear samples of a forward motion keep the motion under way; the turtle is
at the last of them. -/
theorem approaching_ticks (H : Host) (a b : QPointF) (sig : List Signal) (ps : List ℚ) :
    ∀ (r : ℚ) (t : TurtleControl), Approaching a b sig r t →
      (∀ p ∈ ps, 0 ≤ p ∧ p < 1) → clear_run H ps t = true →
      Approaching a b sig (ps.getLast?.getD r) (ticks H ps t) := by
  induction ps with
  | nil => intro r t h _ _; exact h
  | cons p ps ih =>
    intro r t h hps hclear
    simp only [clear_run, Bool.and_eq_true, Bool.not_eq_true'] at hclear
    have h1 := approaching_tick H a b sig r p t h (hps p (List.mem_cons_self _ _)) hclear.1
    have h2 := ih p _ h1 (fun x hx => hps x (List.mem_cons_of_mem _ hx)) hclear.2
    simp only [ticks]
    have hlast : (p :: ps).getLast?.getD r = ps.getLast?.getD p := by
      cases ps with
      | nil => rfl
      | cons x xs =>
        rw [List.getLast?_cons_cons, List.getLast?_eq_getLast (x :: xs) (List.cons_ne_nil x xs)]
        rfl
    rw [hlast]
    exact h2

theorem last_progress_range (ps : List ℚ) (hps : ∀ p ∈ ps, 0 ≤ p ∧ p < 1) :
    0 ≤ ps.getLast?.getD 0 ∧ ps.getLast?.getD 0 < 1 := by
  rcases hlast : ps.getLast? with _ | x
  · simp
  · simpa using hps x (List.mem_of_getLast?_eq_some hlast)

/-- C7, counterexample.  The turtle of the tests at `(450, 450)` runs
`forward(150)` with a square obstacle centred at `(450, 430)` in its path.  The
sample at the start is clear, the next one, at a tenth of the way, hits.  The
motion ends `kBlocked`, once, with the turtle at its start position: not at a
point strictly between the start and the target. -/
theorem blocked_at_first_step_stays_at_start :
    clear_run host0 [0] (forward host0 150 (turtle_with_obstacle ⟨450, 430⟩)) = true ∧
      sample_hits host0 (1 / 10)
        (ticks host0 [0] (forward host0 150 (turtle_with_obstacle ⟨450, 430⟩))) = true ∧
      (play host0 [0, 1 / 10]
        (forward host0 150 (turtle_with_obstacle ⟨450, 430⟩))).position_ =
        (turtle_with_obstacle ⟨450, 430⟩).position_ ∧
      completions (play host0 [0, 1 / 10]
        (forward host0 150 (turtle_with_obstacle ⟨450, 430⟩))).signals_ =
        [MovementResult.kBlocked] := by
  decide!

/-- C7, amended.  Let an idle turtle whose checkpoint is its position run
`forward(d)`, let the samples at the progress values `ps` (each in `[0, 1)`) be
clear and let a collision be detected at the next sample `q`, which is not the last
one (`q` in `[0, 1)`).  Then, whatever samples `rest` the run still holds, the
whole run reports exactly one result, `kBlocked`, no group is left, and the turtle
is at the point `start + r * (target - start)` of the path, where `r` is the
progress of the last clear sample (`0`, the start itself, when there is none) and
`0 ≤ r < 1`. -/
theorem forward_blocked (H : Host) (t : TurtleControl) (d : ℚ) (ps : List ℚ) (q : ℚ)
    (rest : List ℚ)
    (hidle : is_moving t = false) (hcheck : t.previous_position_ = t.position_)
    (hps : ∀ p ∈ ps, 0 ≤ p ∧ p < 1) (hq : 0 ≤ q ∧ q < 1)
    (hclear : clear_run H ps (forward H d t) = true)
    (hhit : sample_hits H q (ticks H ps (forward H d t)) = true) :
    completions (play H (ps ++ q :: rest) (forward H d t)).signals_ =
        completions t.signals_ ++ [MovementResult.kBlocked] ∧
      (play H (ps ++ q :: rest) (forward H d t)).current_anim_ = none ∧
      (play H (ps ++ q :: rest) (forward H d t)).position_ =
        t.position_ + ((get_forward_vector H t).scale d).scale (ps.getLast?.getD 0) ∧
      0 ≤ ps.getLast?.getD 0 ∧ ps.getLast?.getD 0 < 1 := by
  have hstart : Approaching t.position_ (t.position_ + (get_forward_vector H t).scale d)
      t.signals_ 0 (forward H d t) := by
    simp only [forward, hidle]
    refine ⟨rfl, hcheck, ?_, _, rfl, rfl, rfl, rfl, Or.inl rfl⟩
    apply QPointF.eq_of_coords <;> simp
  have hmid := approaching_ticks H _ _ _ ps 0 _ hstart hps hclear
  obtain ⟨hsig, hprev, hpos, g, hg, hrun, _, _, _⟩ := hmid
  have hne : max 0 (min 1 q) ≠ 1 := by rw [clamp_of_unit q hq]; exact ne_of_lt hq.2
  obtain ⟨hit, poly, heq⟩ := tick_hit H q _ g hg hrun hne hhit
  have hnone : (tick H q (ticks H ps (forward H d t))).current_anim_ = none := by
    rw [heq]; simp [TurtleControl.emit, set_rotation_anim, set_position_anim]
  have hrun_eq : play H (ps ++ q :: rest) (forward H d t) =
      tick H q (ticks H ps (forward H d t)) := by
    unfold play
    rw [ticks_append]
    simp only [ticks]
    rw [ticks_idle H rest _ hnone, tick_idle H 1 _ hnone]
  rw [hrun_eq]
  refine ⟨?_, hnone, ?_, last_progress_range ps hps⟩
  · rw [heq]
    simp [TurtleControl.emit, set_rotation_signals, set_position_signals,
      write_sample_signals, completions_append, completions, hsig]
  · rw [heq]
    simp only [TurtleControl.emit, set_rotation_position, set_position_position, hprev, hpos]
    apply QPointF.eq_of_coords <;> simp

theorem forward_blocked_witness :
    (play host0 ([1 / 4] ++ 1 / 2 :: [3 / 4])
        (forward host0 150 (turtle_with_obstacle ⟨450, 375⟩))).position_ =
      (turtle_with_obstacle ⟨450, 375⟩).position_ +
        ((get_forward_vector host0 (turtle_with_obstacle ⟨450, 375⟩)).scale 150).scale
          (([1 / 4] : List ℚ).getLast?.getD 0) :=
  (forward_blocked host0 (turtle_with_obstacle ⟨450, 375⟩) 150 [1 / 4] (1 / 2) [3 / 4]
    (by decide!) (by decide!) (by decide!) (by decide!) (by decide!) (by decide!)).2.2.1

/-! ## Collision testing: the boundary and the obstacles -/

/-- C8, counterexample.  On the 800 by 600 canvas without obstacles, the
footprint of the turtle at `(450, 450)` intersects the boundary shape and nothing
is reported as hit; the footprint of the turtle at `(900, 450)` does not intersect
the boundary shape and the boundary itself is reported. -/
theorem boundary_test_is_the_other_way_round :
    host0.intersects test_canvas.get_shape inside_turtle.shape_ = true ∧
      hit_object host0 inside_turtle = none ∧
      host0.intersects test_canvas.get_shape outside_turtle.shape_ = false ∧
      hit_object host0 outside_turtle = some (HitObject.canvas, test_canvas.get_shape) := by
  decide!

/-- C8, amended.  With a canvas attached: if the turtle's footprint does not
intersect the boundary shape, the boundary itself is reported as the obstructing
object; if it does intersect the boundary shape, the obstacles are examined (the
result is the one of the loop over the obstacles) and the boundary is not
reported. -/
theorem boundary_test (H : Host) (t : TurtleControl) (c : Canvas)
    (hc : t.canvas_ = some c) :
    (H.intersects c.get_shape t.shape_ = false →
        hit_object H t = some (HitObject.canvas, c.get_shape)) ∧
      (H.intersects c.get_shape t.shape_ = true →
        hit_object H t =
            (find_hit H t.position_ t.shape_ c.m_obstacles).map
              (fun o => (HitObject.obstacle o, o.m_points)) ∧
          ∀ poly, hit_object H t ≠ some (HitObject.canvas, poly)) := by
  constructor
  · intro h
    simp [hit_object, hc, h]
  · intro h
    have heq : hit_object H t =
        (find_hit H t.position_ t.shape_ c.m_obstacles).map
          (fun o => (HitObject.obstacle o, o.m_points)) := by
      simp only [hit_object, hc, h, if_true]
      rcases find_hit H t.position_ t.shape_ c.m_obstacles with _ | o <;> rfl
    refine ⟨heq, fun poly hpoly => ?_⟩
    rw [heq] at hpoly
    rcases find_hit H t.position_ t.shape_ c.m_obstacles with _ | o <;> simp at hpoly

theorem boundary_test_witness :
    hit_object host0 outside_turtle = some (HitObject.canvas, test_canvas.get_shape) ∧
      hit_object host0 inside_turtle =
        (find_hit host0 inside_turtle.position_ inside_turtle.shape_
          test_canvas.m_obstacles).map (fun o => (HitObject.obstacle o, o.m_points)) :=
  ⟨(boundary_test host0 outside_turtle test_canvas (by decide!)).1 (by decide!),
    ((boundary_test host0 inside_turtle test_canvas (by decide!)).2 (by decide!)).1⟩

/-- C9, counterexample.  The square obstacle centred at `(450, 375)` has the corners
`(440, 365)` and `(460, 385)`, and the square of its bounding radius is `200`.  The
turtle with pen radius `3` stands at `(462, 385)`: the polygons intersect (the
vertex `(459, 385)` of the footprint lies on the side of the square from
`(440, 385)` to `(460, 385)`), but the squared distance from the turtle to the
centre is `244 > 200`, so the obstacle is skipped and no hit is reported. -/
theorem cheap_reject_skips_touching_obstacle :
    corner_turtle.pen_radius_ = 3 ∧
      (square_obstacle ⟨450, 375⟩).m_points =
        [⟨440, 365⟩, ⟨460, 365⟩, ⟨460, 385⟩, ⟨440, 385⟩] ∧
      (square_obstacle ⟨450, 375⟩).m_position = ⟨450, 375⟩ ∧
      (square_obstacle ⟨450, 375⟩).m_bounding_radius_sq = 200 ∧
      length_sq corner_turtle.position_ (square_obstacle ⟨450, 375⟩).m_position = 244 ∧
      host0.intersects (square_obstacle ⟨450, 375⟩).m_points corner_turtle.shape_ = true ∧
      (⟨459, 385⟩ : QPointF) ∈ corner_turtle.shape_ ∧
      hit_object host0 corner_turtle = none := by
  decide!

/-- C9, amended.  The distance test is a condition of the hit, not a bound that
keeps every intersecting obstacle: the loop of `test_collision` returns the first
obstacle, in list order, whose bounding radius is at least the distance from the
turtle to its centre and whose polygon intersects the footprint; an obstacle
further from the turtle than its bounding radius is never returned, whether or
not its polygon intersects the footprint. -/
theorem cheap_reject_is_a_condition (H : Host) (position_ : QPointF)
    (turtle_polygon : QPolygonF) (obstacles : List Obstacle) :
    find_hit H position_ turtle_polygon obstacles =
        obstacles.find? (fun o =>
          decide (length_sq position_ o.m_position ≤ o.m_bounding_radius_sq) &&
            H.intersects o.m_points turtle_polygon) ∧
      ∀ o, find_hit H position_ turtle_polygon obstacles = some o →
        length_sq position_ o.m_position ≤ o.m_bounding_radius_sq ∧
          H.intersects o.m_points turtle_polygon = true := by
  have h1 : find_hit H position_ turtle_polygon obstacles =
      obstacles.find? (fun o =>
        decide (length_sq position_ o.m_position ≤ o.m_bounding_radius_sq) &&
          H.intersects o.m_points turtle_polygon) := by
    induction obstacles with
    | nil => rfl
    | cons o os ih =>
      simp only [find_hit, List.find?_cons, ge_iff_le]
      by_cases h : length_sq position_ o.m_position ≤ o.m_bounding_radius_sq ∧
          H.intersects o.m_points turtle_polygon = true
      · simp [h]
      · rw [if_neg h, ih]
        have : (decide (length_sq position_ o.m_position ≤ o.m_bounding_radius_sq) &&
            H.intersects o.m_points turtle_polygon) = false := by
          simpa using h
        simp [this]
  refine ⟨h1, fun o ho => ?_⟩
  rw [h1] at ho
  have := List.find?_some ho
  simpa using this

theorem cheap_reject_is_a_condition_witness :
    length_sq centre_turtle.position_ (square_obstacle ⟨450, 375⟩).m_position ≤
        (square_obstacle ⟨450, 375⟩).m_bounding_radius_sq ∧
      host0.intersects (square_obstacle ⟨450, 375⟩).m_points centre_turtle.shape_ = true :=
  (cheap_reject_is_a_condition host0 centre_turtle.position_ centre_turtle.shape_
    [square_obstacle ⟨450, 375⟩]).2 (square_obstacle ⟨450, 375⟩) (by decide!)

/-! ## The segments drawn by forward motions -/

theorem is_chain_append (a b c : QPointF) (l1 l2 : List Line) :
    is_chain a b l1 → is_chain b c l2 → is_chain a c (l1 ++ l2) := by
  induction l1 generalizing a with
  | nil => intro h1 h2; simp only [is_chain] at h1; subst h1; exact h2
  | cons s rest ih => intro h1 h2; exact ⟨h1.1, ih _ h1.2 h2⟩

theorem same_setup_refl (t : TurtleControl) : same_setup t t := ⟨rfl, rfl, rfl, rfl⟩

theorem same_setup_trans (t u v : TurtleControl) (h1 : same_setup t u) (h2 : same_setup u v) :
    same_setup t v :=
  ⟨h2.1.trans h1.1, h2.2.1.trans h1.2.1, h2.2.2.1.trans h1.2.2.1, h2.2.2.2.trans h1.2.2.2⟩

theorem anim_value_changed_setup (H : Host) (t : TurtleControl) :
    same_setup t (anim_value_changed H t) := by
  unfold anim_value_changed
  rcases t.current_anim_ with _ | g
  · exact same_setup_refl t
  · simp only [test_collision]
    rcases hit_object H t with _ | ⟨hit, poly⟩
    · simp only [Bool.false_eq_true, if_false]
      rw [update_lines_frame]
      exact ⟨rfl, rfl, rfl, rfl⟩
    · simp only [if_true, TurtleControl.emit, set_current_anim]
      rw [set_rotation_frame, set_position_frame, stop_frame]
      exact ⟨rfl, rfl, rfl, rfl⟩

theorem write_sample_setup (H : Host) (g : AnimGroup) (p : ℚ) (t : TurtleControl) :
    same_setup t (write_sample H g p t) := by
  rw [write_sample_frame]
  exact ⟨rfl, rfl, rfl, rfl⟩

theorem finish_setup (t : TurtleControl) : same_setup t (finish t) := by
  rw [finish_frame]
  exact ⟨rfl, rfl, rfl, rfl⟩

/-- A sample leaves the canvas, the pen state, the pen colour and the pen radius
alone. -/
theorem tick_setup (H : Host) (p : ℚ) (t : TurtleControl) : same_setup t (tick H p t) := by
  unfold tick
  rcases t.current_anim_ with _ | g
  · exact same_setup_refl t
  · simp only
    have hw := write_sample_setup H g (max 0 (min 1 p)) t
    have hav := same_setup_trans _ _ _ hw (anim_value_changed_setup H _)
    split_ifs <;>
      first
        | exact same_setup_refl t
        | exact hav
        | exact hw
        | exact same_setup_trans _ _ _ hav (finish_setup _)
        | exact same_setup_trans _ _ _ hw (finish_setup _)

theorem ticks_setup (H : Host) (ps : List ℚ) : ∀ t, same_setup t (ticks H ps t) := by
  induction ps with
  | nil => intro t; exact same_setup_refl t
  | cons p ps ih => intro t; exact same_setup_trans _ _ _ (tick_setup H p t) (ih _)

/-- A sample of a motion without canvas, with the pen down, keeps the trail: the
segment it appends starts at the end of the last one. -/
theorem trail_tick (H : Host) (P : QPointF) (L : List Line) (p : ℚ) (t : TurtleControl)
    (hcanvas : t.canvas_ = none) (hpen : t.b_pen_down_ = true) (h : Trail P L t) :
    Trail P L (tick H p t) := by
  rcases hanim : t.current_anim_ with _ | g
  · rw [tick_idle H p t hanim]; exact h
  · by_cases hrun : g.state = AnimState.Running
    swap
    · have : tick H p t = t := by simp [tick, hanim, hrun]
      rw [this]; exact h
    · obtain ⟨hprev, hsync, segs, hlines, hchain⟩ := h
      rw [tick_free H p t g hcanvas hanim hrun]
      set q := max 0 (min 1 p) with hq
      have key : Trail P L (if g.current_value ≠ some (g.position_at q) then
            { update_lines (write_sample H g q t) with
                previous_position_ := (write_sample H g q t).position_,
                previous_rotation_ := (write_sample H g q t).rotation_ }
          else write_sample H g q t) := by
        by_cases hchg : g.current_value = some (g.position_at q)
        · rw [if_neg (not_not.mpr hchg)]
          have hsame : t.position_ = g.position_at q := by
            rcases hsync g hanim with h0 | h0
            · rw [h0] at hchg; cases hchg
            · rw [h0] at hchg; exact Option.some.inj hchg
          refine ⟨?_, ?_, segs, ?_, ?_⟩
          · rw [write_sample_prev_position, write_sample_position, hprev, hsame]
          · intro g1 hg1
            rw [write_sample_anim] at hg1
            right
            rw [← Option.some.inj hg1, write_sample_position]
          · rw [write_sample_lines]; exact hlines
          · rw [write_sample_position, ← hsame]; exact hchain
        · rw [if_pos hchg]
          refine ⟨?_, ?_, ?_⟩
          · simp [update_lines_position]
          · intro g1 hg1
            simp only [update_lines_anim, write_sample_anim] at hg1
            right
            rw [← Option.some.inj hg1]
            simp [update_lines_position, write_sample_position]
          · simp only [update_lines_position, write_sample_position]
            by_cases hmove : t.position_ = g.position_at q
            · have hl : (update_lines (write_sample H g q t)).lines_ = t.lines_ := by
                rw [update_lines_not_moved, write_sample_lines]
                rw [write_sample_prev_position, write_sample_position, hprev, hmove]
              exact ⟨segs, by rw [hl]; exact hlines, by rw [← hmove]; exact hchain⟩
            · have hne : (write_sample H g q t).previous_position_ ≠
                  (write_sample H g q t).position_ := by
                rw [write_sample_prev_position, write_sample_position, hprev]
                exact hmove
              have hl := update_lines_moved _
                (by rw [write_sample_pen_down]; exact hpen) hne
              rw [write_sample_lines, write_sample_prev_position, write_sample_position,
                hprev] at hl
              refine ⟨segs ++ [⟨t.position_, g.position_at q, (write_sample H g q t).pen_color_,
                (write_sample H g q t).pen_radius_⟩], ?_, ?_⟩
              · rw [hl, hlines, List.append_assoc]
              · exact is_chain_append _ _ _ _ _ hchain ⟨rfl, rfl⟩
      by_cases hend : q = 1
      · rw [if_pos hend]
        obtain ⟨k1, _, k3⟩ := key
        refine ⟨?_, ?_, ?_⟩
        · simpa [TurtleControl.emit] using k1
        · intro g1 hg1; simp [TurtleControl.emit] at hg1
        · simpa [TurtleControl.emit] using k3
      · rw [if_neg hend]; exact key

theorem trail_ticks (H : Host) (P : QPointF) (L : List Line) (ps : List ℚ) :
    ∀ t : TurtleControl, t.canvas_ = none → t.b_pen_down_ = true → Trail P L t →
      Trail P L (ticks H ps t) := by
  induction ps with
  | nil => intro t _ _ h; exact h
  | cons p ps ih =>
    intro t hc hp h
    have hs := tick_setup H p t
    exact ih _ (hs.1.trans hc) (hs.2.1.trans hp) (trail_tick H P L p t hc hp h)

theorem play_eq_ticks (H : Host) (ps : List ℚ) (t : TurtleControl) :
    play H ps t = ticks H (ps ++ [1]) t := by
  rw [ticks_append]; rfl

/-- One forward motion of an idle turtle without canvas, pen down, checkpoint on
the position: it ends idle at `position + forward vector * d`, with the same
rotation, the checkpoint on the new position, and the drawn lines extended by
segments that join the old position to the new one. -/
theorem motion_trail (H : Host) (d : ℚ) (e : List ℚ × List ℚ) (t : TurtleControl)
    (hidle : t.current_anim_ = none) (hcanvas : t.canvas_ = none)
    (hpen : t.b_pen_down_ = true) (hcheck : t.previous_position_ = t.position_) :
    (motion H d e t).current_anim_ = none ∧ same_setup t (motion H d e t) ∧
      (motion H d e t).rotation_ = t.rotation_ ∧
      (motion H d e t).position_ = t.position_ + (get_forward_vector H t).scale d ∧
      (motion H d e t).previous_position_ = (motion H d e t).position_ ∧
      ∃ segs, (motion H d e t).lines_ = t.lines_ ++ segs ∧
        is_chain t.position_ (t.position_ + (get_forward_vector H t).scale d) segs := by
  have hmov : is_moving t = false := by simp [is_moving, hidle]
  have hplay : motion H d e t = play H (e.1 ++ e.2) (forward H d t) := by
    unfold motion play
    rw [ticks_append]
  have hfly : Flying [(0, t.position_), (1, t.position_ + (get_forward_vector H t).scale d)]
      none (fun r => r = t.rotation_) t.signals_ (forward H d t) := by
    simp only [forward, hmov]
    exact ⟨hcanvas, rfl, rfl, _, rfl, rfl, rfl, rfl⟩
  have hland := free_play H _ none (fun r => r = t.rotation_) t.rotation_ t.signals_
    (fun q u _ _ hu => by simpa [sample_rotation] using hu)
    (fun u hu => by simpa [sample_rotation] using hu) (e.1 ++ e.2) _ hfly
  obtain ⟨h1, _, h3, h4⟩ := hland
  have hpos : (motion H d e t).position_ =
      t.position_ + (get_forward_vector H t).scale d := by
    rw [hplay, h3]; simp [end_value]
  have hfwd : same_setup t (forward H d t) := by
    simp only [forward, hmov]
    exact ⟨rfl, rfl, rfl, rfl⟩
  have htrail0 : Trail t.position_ t.lines_ (forward H d t) := by
    simp only [forward, hmov]
    refine ⟨hcheck, ?_, [], by simp, rfl⟩
    intro g hg
    left
    simp only [Bool.false_eq_true, if_false, Option.some.injEq] at hg
    rw [← hg]
  have htrail : Trail t.position_ t.lines_ (motion H d e t) := by
    rw [hplay, play_eq_ticks]
    exact trail_ticks H _ _ _ _ (hfwd.1.trans hcanvas) (hfwd.2.1.trans hpen) htrail0
  obtain ⟨k1, _, segs, k3, k4⟩ := htrail
  refine ⟨by rw [hplay]; exact h1, ?_, by rw [hplay]; exact h4, hpos, k1, segs, k3, ?_⟩
  · rw [hplay, play_eq_ticks]
    exact same_setup_trans _ _ _ hfwd (ticks_setup H _ _)
  · rw [← hpos]; exact k4

/-- A forward motion played in a single step, over a distance that moves the
turtle, appends exactly one segment, from the old position to the new one. -/
theorem motion_single_step (H : Host) (d : ℚ) (t : TurtleControl)
    (hidle : t.current_anim_ = none) (hcanvas : t.canvas_ = none)
    (hpen : t.b_pen_down_ = true) (hcheck : t.previous_position_ = t.position_)
    (hmove : t.position_ ≠ t.position_ + (get_forward_vector H t).scale d) :
    (motion H d ([], []) t).lines_ =
      t.lines_ ++ [⟨t.position_, t.position_ + (get_forward_vector H t).scale d,
        t.pen_color_, t.pen_radius_⟩] := by
  have hmov : is_moving t = false := by simp [is_moving, hidle]
  have hstep : motion H d ([], []) t = tick H 1 (forward H d t) := rfl
  have hfw : ∃ g0 : AnimGroup, g0.state = AnimState.Running ∧ g0.current_value = none ∧
      g0.key_values = [(0, t.position_), (1, t.position_ + (get_forward_vector H t).scale d)] ∧
      forward H d t = { t with current_anim_ := some g0 } :=
    ⟨⟨AnimState.Running, false, none,
      [(0, t.position_), (1, t.position_ + (get_forward_vector H t).scale d)], none⟩,
      rfl, rfl, rfl, by simp [forward, hmov]⟩
  obtain ⟨g0, hrun, hcur, hkv, hfw⟩ := hfw
  rw [hstep, hfw, tick_free H 1 { t with current_anim_ := some g0 } g0 hcanvas rfl hrun]
  have hq : max (0 : ℚ) (min 1 1) = 1 := by norm_num
  have hend : g0.position_at 1 = t.position_ + (get_forward_vector H t).scale d := by
    simp [AnimGroup.position_at, end_value, hkv]
  simp only [hq, hcur, if_true, ne_eq, not_false_eq_true, TurtleControl.emit, reduceCtorEq]
  rw [update_lines_moved]
  · have hs := write_sample_setup H g0 1 { t with current_anim_ := some g0 }
    rw [write_sample_lines, write_sample_prev_position, write_sample_position, hend,
      hs.2.2.1, hs.2.2.2]
    simp only [hcheck]
  · rw [write_sample_pen_down]; exact hpen
  · rw [write_sample_prev_position, write_sample_position, hend]
    simpa [hcheck] using hmove

theorem point_scale_succ (P v : QPointF) (d k : ℚ) :
    P + v.scale d + v.scale (k * d) = P + v.scale ((k + 1) * d) := by
  apply QPointF.eq_of_coords <;> simp <;> ring

/-- The first `k` forward motions of a schedule, on an idle turtle without canvas,
pen down, checkpoint on the position: the turtle ends idle, `k * d` further along
its forward vector, and the drawn lines are extended by segments that join the
old position to the new one. -/
theorem run_motions_trail (H : Host) (d : ℚ) (k : ℕ) :
    ∀ (schedule : List (List ℚ × List ℚ)) (t : TurtleControl),
      t.current_anim_ = none → t.canvas_ = none → t.b_pen_down_ = true →
      t.previous_position_ = t.position_ →
      (run_motions H d k schedule t).current_anim_ = none ∧
        same_setup t (run_motions H d k schedule t) ∧
        (run_motions H d k schedule t).rotation_ = t.rotation_ ∧
        (run_motions H d k schedule t).position_ =
          t.position_ + (get_forward_vector H t).scale ((k : ℚ) * d) ∧
        (run_motions H d k schedule t).previous_position_ =
          (run_motions H d k schedule t).position_ ∧
        ∃ segs, (run_motions H d k schedule t).lines_ = t.lines_ ++ segs ∧
          is_chain t.position_ (t.position_ + (get_forward_vector H t).scale ((k : ℚ) * d))
            segs := by
  induction k with
  | zero =>
    intro schedule t hidle _ _ hcheck
    have h0 : t.position_ + (get_forward_vector H t).scale (((0 : ℕ) : ℚ) * d) =
        t.position_ := by
      apply QPointF.eq_of_coords <;> simp
    refine ⟨hidle, same_setup_refl t, rfl, h0.symm, hcheck, [], by simp [run_motions], ?_⟩
    rw [h0]; rfl
  | succ k ih =>
    intro schedule t hidle hcanvas hpen hcheck
    obtain ⟨m1, m2, m3, m4, m5, segs1, m6, m7⟩ :=
      motion_trail H d (schedule.head?.getD ([], [])) t hidle hcanvas hpen hcheck
    obtain ⟨r1, r2, r3, r4, r5, segs2, r6, r7⟩ :=
      ih schedule.tail _ m1 (m2.1.trans hcanvas) (m2.2.1.trans hpen) m5
    have hfw : get_forward_vector H (motion H d (schedule.head?.getD ([], [])) t) =
        get_forward_vector H t := by
      simp only [get_forward_vector, m3]
    rw [hfw, m4, point_scale_succ] at r4 r7
    simp only [run_motions, Nat.cast_add, Nat.cast_one]
    refine ⟨r1, same_setup_trans _ _ _ m2 r2, r3.trans m3, r4, r5, segs1 ++ segs2, ?_, ?_⟩
    · rw [r6, m6, List.append_assoc]
    · exact is_chain_append _ _ _ _ _ m7 r7

/-- The first `k` forward motions when each is played in a single step and moves
the turtle: exactly `k` segments, the `i`-th from `i * d` to `(i + 1) * d` along
the forward vector. -/
theorem run_motions_single_steps (H : Host) (d : ℚ) (k : ℕ) :
    ∀ (schedule : List (List ℚ × List ℚ)) (t : TurtleControl),
      t.current_anim_ = none → t.canvas_ = none → t.b_pen_down_ = true →
      t.previous_position_ = t.position_ →
      (∀ e ∈ schedule.take k, e = ([], [])) →
      (get_forward_vector H t).scale d ≠ ⟨0, 0⟩ →
      (run_motions H d k schedule t).lines_ =
        t.lines_ ++ (List.range k).map
          (step_segment t.position_ (get_forward_vector H t) d t.pen_color_ t.pen_radius_) := by
  induction k with
  | zero => intro schedule t _ _ _ _ _ _; simp [run_motions]
  | succ k ih =>
    intro schedule t hidle hcanvas hpen hcheck hsingle hmove
    unfold step_segment at ih ⊢
    have he : schedule.head?.getD ([], []) = ([], []) := by
      cases schedule with
      | nil => rfl
      | cons e rest => exact hsingle e (by simp)
    obtain ⟨m1, m2, m3, m4, m5, _⟩ :=
      motion_trail H d (schedule.head?.getD ([], [])) t hidle hcanvas hpen hcheck
    have hfw : get_forward_vector H (motion H d (schedule.head?.getD ([], [])) t) =
        get_forward_vector H t := by
      simp only [get_forward_vector, m3]
    have hne : t.position_ ≠ t.position_ + (get_forward_vector H t).scale d := by
      intro h
      apply hmove
      have hx := congrArg QPointF.x h
      have hy := congrArg QPointF.y h
      simp only [QPointF.add_x, QPointF.add_y] at hx hy
      apply QPointF.eq_of_coords <;> simp only [] <;> linarith
    have hrest := ih schedule.tail _ m1 (m2.1.trans hcanvas) (m2.2.1.trans hpen) m5
      (fun e hmem => hsingle e (by
        cases schedule with
        | nil => simp at hmem
        | cons x xs => simp only [List.take_succ_cons, List.mem_cons]; right; simpa using hmem))
      (by rw [hfw]; exact hmove)
    simp only [run_motions]
    rw [hrest, hfw, m4, m2.2.2.1, m2.2.2.2]
    rw [he, motion_single_step H d t hidle hcanvas hpen hcheck hne, List.append_assoc]
    congr 1
    rw [List.range_succ_eq_map]
    simp only [List.map_cons, List.map_map, List.singleton_append]
    refine congrArg₂ List.cons ?_ ?_
    · congr 1 <;> (apply QPointF.eq_of_coords <;> simp)
    · apply List.map_congr_left
      intro i _
      simp only [Function.comp, Nat.cast_succ]
      rw [point_scale_succ, point_scale_succ]

/-! ## The inline loop over `forward` -/

theorem digit_or_dot (c : Char) (h : c.isDigit = true ∨ c = '.') :
    c ≠ ')' ∧ c ≠ '(' ∧ c ≠ ',' ∧ c ≠ ';' ∧ c ≠ '\n' ∧ c ≠ '-' ∧ isspace c = false := by
  rcases h with h | h
  · refine ⟨?_, ?_, ?_, ?_, ?_, ?_, ?_⟩
    · rintro rfl; exact absurd h (by decide)
    · rintro rfl; exact absurd h (by decide)
    · rintro rfl; exact absurd h (by decide)
    · rintro rfl; exact absurd h (by decide)
    · rintro rfl; exact absurd h (by decide)
    · rintro rfl; exact absurd h (by decide)
    · simp only [isspace, Bool.or_eq_false_iff, decide_eq_false_iff_not]
      refine ⟨⟨⟨⟨⟨?_, ?_⟩, ?_⟩, ?_⟩, ?_⟩, ?_⟩ <;>
        (rintro rfl; exact absurd h (by decide))
  · subst h; decide

theorem forward_command_chars (dtext : Str) (hch : ∀ c ∈ dtext, c.isDigit = true ∨ c = '.') :
    ∀ c ∈ forward_command dtext, c ≠ ';' ∧ c ≠ '\n' ∧ isspace c = false := by
  intro c hc
  simp only [forward_command, List.mem_append, List.mem_singleton] at hc
  rcases hc with (hc | hc) | hc
  · revert c; decide
  · have := digit_or_dot c (hch c hc)
    exact ⟨this.2.2.2.1, this.2.2.2.2.1, this.2.2.2.2.2.2⟩
  · subst hc; decide

theorem split_on_none (delim : Char) (s : Str) (h : ∀ c ∈ s, c ≠ delim) :
    split_on delim s = [s] := by
  induction s with
  | nil => rfl
  | cons c cs ih =>
    have hc : c ≠ delim := h c (List.mem_cons_self _ _)
    simp only [split_on, hc, if_false, ih (fun x hx => h x (List.mem_cons_of_mem _ hx))]

theorem getlines_single (delim : Char) (s : Str) (hne : s ≠ [])
    (h : ∀ c ∈ s, c ≠ delim) : getlines delim s = [s] := by
  simp [getlines, split_on_none delim s h, hne]

theorem forward_command_ne_nil (dtext : Str) : forward_command dtext ≠ [] := by
  simp [forward_command, String.toList]

theorem remove_whitespace_first_line (s : Str)
    (h : ∀ c ∈ s, c ≠ '\n' ∧ isspace c = false) :
    remove_whitespace (first_line s) = s := by
  have h1 : first_line s = s := by
    unfold first_line
    rw [List.takeWhile_eq_self_iff]
    intro c hc
    simpa using (h c hc).1
  rw [h1]
  unfold remove_whitespace
  rw [List.filter_eq_self]
  intro c hc
  simp [(h c hc).2]

theorem remove_whitespace_clean (s : Str) (h : ∀ c ∈ s, isspace c = false) :
    remove_whitespace s = s := by
  unfold remove_whitespace
  rw [List.filter_eq_self]
  intro c hc
  simp [h c hc]

theorem takeWhile_append_stop {α : Type} (p : α → Bool) (l : List α) (x : α) (rest : List α)
    (hl : ∀ c ∈ l, p c = true) (hx : p x = false) :
    (l ++ x :: rest).takeWhile p = l ∧ (l ++ x :: rest).dropWhile p = x :: rest := by
  induction l with
  | nil => simp [List.takeWhile_cons, List.dropWhile_cons, hx]
  | cons c cs ih =>
    have hc := hl c (List.mem_cons_self _ _)
    have := ih (fun y hy => hl y (List.mem_cons_of_mem _ hy))
    simp [List.takeWhile_cons, List.dropWhile_cons, hc, this.1, this.2]

/-- The search for a bracketed group finds the first `(`, when the text before it
has none and the group is not empty. -/
theorem search_var_first (before contents suffix : Str)
    (hb : ∀ c ∈ before, c ≠ '(') (hne : contents ≠ []) (hc : ∀ c ∈ contents, c ≠ ')') :
    search_var (before ++ '(' :: (contents ++ ')' :: suffix)) =
      some (before, contents, suffix) := by
  have hsplit := takeWhile_append_stop (fun x => decide (x ≠ ')')) contents ')' suffix
    (fun c h => by simpa using hc c h) (by simp)
  induction before with
  | nil =>
    simp only [List.nil_append, search_var, if_true]
    rw [hsplit.1, hsplit.2]
    cases contents with
    | nil => exact absurd rfl hne
    | cons x xs => rfl
  | cons b bs ih =>
    have hb0 : b ≠ '(' := hb b (List.mem_cons_self _ _)
    have ih1 := ih (fun y hy => hb y (List.mem_cons_of_mem _ hy))
    show search_var (b :: (bs ++ '(' :: (contents ++ ')' :: suffix))) = _
    rw [search_var]
    simp only [hb0, if_false, ih1]
    rfl

theorem substitute_groups_nil (vars : List (Str × Float32)) (fuel : ℕ) :
    substitute_groups vars fuel [] = [] := by
  cases fuel <;> simp [substitute_groups, search_var]

theorem substitute_name_plain (vars : List (Str × Float32)) (dtext : Str)
    (hch : ∀ c ∈ dtext, c.isDigit = true ∨ c = '.') (hvars : map_find dtext vars = none) :
    substitute_name vars dtext = dtext := by
  have hhead : dtext.head? ≠ some '-' := by
    cases dtext with
    | nil => simp
    | cons c cs =>
      simp only [List.head?_cons, ne_eq, Option.some.injEq]
      exact (digit_or_dot c (hch c (List.mem_cons_self _ _))).2.2.2.2.2.1
  simp [substitute_name, hhead, hvars]

/-- `varname_to_value` leaves `forward(d)` as it is when `d` is a number that is
not the name of a variable. -/
theorem varname_to_value_forward (p : Parser) (dtext : Str) (hne : dtext ≠ [])
    (hch : ∀ c ∈ dtext, c.isDigit = true ∨ c = '.')
    (hvars : map_find dtext p.vars = none) :
    varname_to_value p (forward_command dtext) = forward_command dtext := by
  have hsearch : search_var (forward_command dtext) = some ("forward".toList, dtext, []) := by
    have := search_var_first "forward".toList dtext [] (by decide) hne
      (fun c hc => (digit_or_dot c (hch c hc)).1)
    simpa [forward_command, String.toList] using this
  have hlen : ∃ k, (forward_command dtext).length = k + 1 :=
    ⟨dtext.length + 8, by simp [forward_command, String.toList]⟩
  have hsub : substitute_groups p.vars (forward_command dtext).length (forward_command dtext) =
      forward_command dtext := by
    obtain ⟨k, hk⟩ := hlen
    rw [hk, substitute_groups]
    simp only [hsearch, substitute_groups_nil]
    rw [getlines_single ',' dtext hne (fun c hc => (digit_or_dot c (hch c hc)).2.2.1)]
    simp [substitute_name_plain p.vars dtext hch hvars, forward_command, String.toList,
      List.intercalate]
  have hassign : match_varassign (forward_command dtext) = none := by
    simp [match_varassign, forward_command, String.toList, List.dropWhile_cons,
      List.takeWhile_cons, isspace, isword]
  unfold varname_to_value
  simp only [hsub, hassign]
  exact remove_whitespace_clean _ (fun c hc => (forward_command_chars dtext hch c hc).2.2)

theorem call_arguments_of_call (name args : Str) :
    call_arguments name (name ++ '(' :: (args ++ [')'])) = some args := by
  have h1 : name ++ ['('] <+: name ++ '(' :: (args ++ [')']) := by
    rw [show name ++ '(' :: (args ++ [')']) = (name ++ ['(']) ++ (args ++ [')']) by simp]
    exact List.prefix_append _ _
  have h2 : (name ++ '(' :: (args ++ [')'])).getLast? = some ')' := by
    rw [show name ++ '(' :: (args ++ [')']) = (name ++ '(' :: args) ++ [')'] by simp]
    exact List.getLast?_concat _
  have h3 : name.length + 2 ≤ (name ++ '(' :: (args ++ [')'])).length := by
    simp
  have h4 : (name ++ '(' :: (args ++ [')'])).drop (name.length + 1) = args ++ [')'] := by
    rw [show name ++ '(' :: (args ++ [')']) = (name ++ ['(']) ++ (args ++ [')']) by simp]
    rw [List.drop_left']
    simp
  unfold call_arguments
  rw [if_pos ⟨h1, h2, h3⟩, h4, List.dropLast_concat]

theorem match_unary_forward (dtext : Str) (hnum : is_number dtext = true) :
    match_unary "forward".toList (forward_command dtext) = some dtext := by
  have h := call_arguments_of_call "forward".toList dtext
  have he : forward_command dtext = "forward".toList ++ '(' :: (dtext ++ [')']) := by
    simp [forward_command, String.toList]
  simp only [match_unary, he, h, hnum, if_true]

theorem match_general_function_name (s name argument : Str)
    (h : match_general_function s = some (name, argument)) : name = s.takeWhile isword := by
  unfold match_general_function at h
  rcases hc : call_arguments (List.takeWhile isword s) s with _ | a
  · simp [hc] at h
  · simp only [hc] at h
    split_ifs at h
    simp only [Option.some.injEq, Prod.mk.injEq] at h
    exact h.1.symm

theorem forward_command_word (dtext : Str) :
    (forward_command dtext).takeWhile isword = "forward".toList := by
  simp [forward_command, String.toList, List.takeWhile_cons, isword]

theorem match_cli_loop_forward (dtext : Str) : match_cli_loop (forward_command dtext) = none := by
  simp [match_cli_loop, forward_command, String.toList]

theorem match_cli_loop_inline (ntext body : Str) (hne : ntext ≠ [])
    (hdigits : ∀ c ∈ ntext, c.isDigit = true) :
    match_cli_loop (inline_loop ntext body) = some (ntext, body) := by
  have hsplit := takeWhile_append_stop Char.isDigit ntext lbrace (body ++ [rbrace]) hdigits
    (by decide)
  have hdrop : (inline_loop ntext body).drop 4 = ntext ++ lbrace :: (body ++ [rbrace]) := by
    simp [inline_loop, String.toList]
  have hpre : "LOOP".toList <+: inline_loop ntext body := by
    simp [inline_loop, String.toList]
  unfold match_cli_loop
  rw [if_pos hpre]
  simp only [hdrop, hsplit.1, hsplit.2]
  rw [if_pos ⟨hne, trivial, List.getLast?_concat _⟩, List.dropLast_concat]

/-- The call of `forward(d)` that `parse_line` makes: after the wait, the command
goes through `varname_to_value` unchanged, is not a call of a user function,
matches `forward_regex` and is dispatched; it is the one command returned. -/
theorem run_commands_forward (H : Host) (pl : Str → App → Except Stop (List Str × App))
    (a a1 : App) (dtext : Str) (d : ℚ)
    (hwait : wait_movement_done H a = Except.ok a1)
    (hne : dtext ≠ []) (hch : ∀ c ∈ dtext, c.isDigit = true ∨ c = '.')
    (hnum : is_number dtext = true) (hd : stof dtext = Except.ok d)
    (hvars : map_find dtext a1.parser.vars = none)
    (hfuncs : map_find "forward".toList a1.parser.funcs = none) :
    run_commands H pl [forward_command dtext] [] a =
      Except.ok ([forward_command dtext], forward_dispatched H d a1) := by
  have hcalled : (match match_general_function (forward_command dtext) with
      | some (function_name, argument) =>
        (map_find function_name a1.parser.funcs).map (fun body =>
          (function_name, argument, body))
      | none => none) = none := by
    rcases hm : match_general_function (forward_command dtext) with _ | ⟨fn, arg⟩
    · rfl
    · have := match_general_function_name _ _ _ hm
      rw [forward_command_word] at this
      subst this
      simp only [hfuncs, Option.map_none']
  simp only [run_commands, hwait, varname_to_value_forward a1.parser dtext hne hch hvars,
    hcalled, execute_command, match_unary_forward dtext hnum, hd, List.nil_append]
  rfl

/-- `parse_line` on the line `forward(d)`. -/
theorem parse_line_forward (H : Host) (fuel : ℕ) (a a1 : App) (dtext : Str) (d : ℚ)
    (hwait : wait_movement_done H a = Except.ok a1)
    (hne : dtext ≠ []) (hch : ∀ c ∈ dtext, c.isDigit = true ∨ c = '.')
    (hnum : is_number dtext = true) (hd : stof dtext = Except.ok d)
    (hvars : map_find dtext a1.parser.vars = none)
    (hfuncs : map_find "forward".toList a1.parser.funcs = none) :
    parse_line H (fuel + 1) (forward_command dtext) a =
      Except.ok ([forward_command dtext], forward_dispatched H d a1) := by
  have hchars := forward_command_chars dtext hch
  have h1 : remove_whitespace (first_line (forward_command dtext)) = forward_command dtext :=
    remove_whitespace_first_line _ (fun c hc => (hchars c hc).2)
  have h2 : getlines ';' (forward_command dtext) = [forward_command dtext] :=
    getlines_single _ _ (forward_command_ne_nil dtext) (fun c hc => (hchars c hc).1)
  simp only [parse_line, h1, match_cli_loop_forward, h2]
  exact run_commands_forward H _ a a1 dtext d hwait hne hch hnum hd hvars hfuncs

theorem forward_dispatched_idle (H : Host) (d : ℚ) (a : App)
    (hidle : a.turtle.current_anim_ = none) :
    forward_dispatched H d a =
      ⟨{ a.parser with movement_done := false },
        ticks H (a.schedule.head?.getD ([], [])).1 (forward H d a.turtle),
        a.schedule.tail, (a.schedule.head?.getD ([], [])).2⟩ := by
  have h1 : is_moving a.turtle = false := by simp [is_moving, hidle]
  have h2 : is_moving (forward H d a.turtle) = true := by
    simp only [forward, h1, Bool.false_eq_true, if_false]
    simp [is_moving]
  unfold forward_dispatched dispatch
  simp only [h1, h2, Bool.not_false, Bool.and_self, if_true]
  unfold deliver_completions animation_done
  split_ifs <;> rfl

theorem clamp_lt_one (p : ℚ) (hp : p < 1) : max 0 (min 1 p) ≠ 1 := by
  rw [min_eq_right (le_of_lt hp)]
  intro h
  rcases max_cases 0 p with ⟨h1, _⟩ | ⟨h1, _⟩
  · rw [h1] at h; norm_num at h
  · rw [h1] at h; linarith

/-- Samples before the end keep a motion without canvas in flight. -/
theorem flying_ticks (H : Host) (kv : List (ℚ × QPointF)) (rot : Option (ℚ × ℚ))
    (R : ℚ → Prop) (rfinal : ℚ) (sig : List Signal)
    (hstep : ∀ q t, 0 ≤ q → q ≤ 1 → R t.rotation_ → R (sample_rotation rot q t))
    (hfinal : ∀ t, R t.rotation_ → sample_rotation rot 1 t = rfinal)
    (ps : List ℚ) :
    ∀ t, (∀ p ∈ ps, p < 1) → Flying kv rot R sig t → Flying kv rot R sig (ticks H ps t) := by
  induction ps with
  | nil => intro t _ h; exact h
  | cons p ps ih =>
    intro t hps h
    exact ih _ (fun x hx => hps x (List.mem_cons_of_mem _ hx))
      ((free_tick H kv rot R rfinal sig hstep hfinal p t h).1
        (clamp_lt_one p (hps p (List.mem_cons_self _ _))))

/-- After the dispatch of `forward(d)` to an idle turtle without canvas, with the
samples inside `start()` all before the end: the parser waits, and both the wait
at the start of the next command and the event loop play the motion to its end,
which releases the parser. -/
theorem pending_after_dispatch (H : Host) (d : ℚ) (pr : Parser) (T : TurtleControl)
    (e : List ℚ × List ℚ) (schedule : List (List ℚ × List ℚ))
    (hdone : pr.movement_done = true) (hidle : T.current_anim_ = none)
    (hcanvas : T.canvas_ = none) (hsync : ∀ p ∈ e.1, p < 1) :
    Pending H pr (motion H d e T) schedule
      ⟨{ pr with movement_done := false }, ticks H e.1 (forward H d T), schedule, e.2⟩ := by
  have hmov : is_moving T = false := by simp [is_moving, hidle]
  have hfly0 : Flying [(0, T.position_), (1, T.position_ + (get_forward_vector H T).scale d)]
      none (fun r => r = T.rotation_) T.signals_ (forward H d T) := by
    simp only [forward, hmov]
    exact ⟨hcanvas, rfl, rfl, _, rfl, rfl, rfl, rfl⟩
  have hs : ∀ q (u : TurtleControl), 0 ≤ q → q ≤ 1 → u.rotation_ = T.rotation_ →
      sample_rotation none q u = T.rotation_ :=
    fun q u _ _ hu => by simpa [sample_rotation] using hu
  have hf : ∀ u : TurtleControl, u.rotation_ = T.rotation_ →
      sample_rotation none 1 u = T.rotation_ :=
    fun u hu => by simpa [sample_rotation] using hu
  have hfly := flying_ticks H _ none (fun r => r = T.rotation_) T.rotation_ T.signals_
    hs hf e.1 _ hsync hfly0
  have hland := free_play H _ none (fun r => r = T.rotation_) T.rotation_ T.signals_
    hs hf e.2 _ hfly
  obtain ⟨_, hsig, _, g, hg, hrun, _, _⟩ := hfly
  have hmoving : is_moving (ticks H e.1 (forward H d T)) = true := by
    simp [is_moving, hg, hrun]
  have hdeliver : deliver_completions (ticks H e.1 (forward H d T)).signals_
      ⟨{ pr with movement_done := false }, play H e.2 (ticks H e.1 (forward H d T)),
        schedule, []⟩ =
      ⟨pr, motion H d e T, schedule, []⟩ := by
    unfold deliver_completions
    simp only [hland.2.1, hsig, List.drop_left', List.length_append]
    simp [completions, animation_done, motion, ← hdone]
  refine ⟨?_, [], ?_⟩
  · simp only [run_events, hmoving, if_true, hdeliver]
  · simp only [wait_movement_done, Bool.false_eq_true, if_false, hmoving, if_true, hdeliver,
      hdone]

theorem drop_tail_eq {α : Type} (l : List α) (k : ℕ) : l.tail.drop k = l.drop (k + 1) := by
  cases l <;> simp

theorem mem_take_tail {α : Type} (l : List α) (k : ℕ) (x : α) (h : x ∈ l.tail.take k) :
    x ∈ l.take (k + 1) := by
  cases l with
  | nil => simp at h
  | cons y ys => simp only [List.take_succ_cons, List.mem_cons]; right; simpa using h

theorem head_mem_take {α : Type} (l : List α) (k : ℕ) (dflt : α) (P : α → Prop)
    (h : ∀ x ∈ l.take (k + 1), P x) (hd : P dflt) : P (l.head?.getD dflt) := by
  cases l with
  | nil => exact hd
  | cons y ys => exact h y (by simp)

/-- `run_loop` over the body `forward(d)`: `k` commands are returned and the turtle
goes through the first `k` motions of the schedule. -/
theorem run_loop_forward (H : Host) (fuel : ℕ) (dtext : Str) (d : ℚ) (pr : Parser)
    (hne : dtext ≠ []) (hch : ∀ c ∈ dtext, c.isDigit = true ∨ c = '.')
    (hnum : is_number dtext = true) (hd : stof dtext = Except.ok d)
    (hvars : map_find dtext pr.vars = none)
    (hfuncs : map_find "forward".toList pr.funcs = none)
    (hdone : pr.movement_done = true) (k : ℕ) :
    ∀ (schedule : List (List ℚ × List ℚ)) (T : TurtleControl) (parsed : List Str) (a : App),
      Pending H pr T schedule a → T.current_anim_ = none → T.canvas_ = none →
      T.b_pen_down_ = true → T.previous_position_ = T.position_ →
      (∀ e ∈ schedule.take k, ∀ p ∈ e.1, p < 1) →
      ∃ a', run_loop (parse_line H (fuel + 1)) k (forward_command dtext) parsed a =
          Except.ok (parsed ++ List.replicate k (forward_command dtext), a') ∧
        Pending H pr (run_motions H d k schedule T) (schedule.drop k) a' := by
  induction k with
  | zero =>
    intro schedule T parsed a hpend _ _ _ _ _
    exact ⟨a, by simp [run_loop], by simpa [run_motions] using hpend⟩
  | succ k ih =>
    intro schedule T parsed a hpend hidle hcanvas hpen hcheck hsync
    obtain ⟨_, tm, hwait⟩ := hpend
    have hlines : getlines '\n' (forward_command dtext) = [forward_command dtext] :=
      getlines_single _ _ (forward_command_ne_nil dtext)
        (fun c hc => (forward_command_chars dtext hch c hc).2.1)
    have hpl := parse_line_forward H fuel a ⟨pr, T, schedule, tm⟩ dtext d hwait hne hch hnum hd
      hvars hfuncs
    rw [forward_dispatched_idle H d _ hidle] at hpl
    have hsync0 : ∀ p ∈ (schedule.head?.getD ([], [])).1, p < 1 :=
      head_mem_take schedule k ([], []) (fun e => ∀ p ∈ e.1, p < 1) hsync (by simp)
    have hnext := pending_after_dispatch H d pr T (schedule.head?.getD ([], [])) schedule.tail
      hdone hidle hcanvas hsync0
    obtain ⟨m1, m2, _, _, m5, _⟩ :=
      motion_trail H d (schedule.head?.getD ([], [])) T hidle hcanvas hpen hcheck
    obtain ⟨a', h1, h2⟩ := ih schedule.tail _ (parsed ++ [forward_command dtext]) _ hnext m1
      (m2.1.trans hcanvas) (m2.2.1.trans hpen) m5
      (fun e he => hsync e (mem_take_tail schedule k e he))
    refine ⟨a', ?_, ?_⟩
    · simp only [run_loop, hlines, run_lines, hpl, h1, List.replicate_succ, List.append_assoc,
        List.singleton_append]
    · simpa [run_motions, drop_tail_eq] using h2

/-- C10, counterexample.  `LOOP3{ forward(10) }` on a fresh application (pen down,
no canvas), when the timer of each of the three motions delivers one sample at
half of the way before the one at the end: the line returns its three commands,
and afterwards the drawn lines hold six segments, each of squared length `25`
(length `5`), not three segments of length `10`. -/
theorem loop_forward_draws_a_segment_per_step :
    (parse_line host0 3 loop3_forward10
        (App.new host0 [([], [1 / 2]), ([], [1 / 2]), ([], [1 / 2])])).toOption.map
      (fun r => (r.1.length,
        (run_events host0 r.2).turtle.lines_.map (fun l => length_sq l.start_ l.end_))) =
      some (3, [25, 25, 25, 25, 25, 25]) := by
  decide!

/-- C10, amended.  Let the line, once its whitespace is removed, be
`LOOPn{forward(d)}`, with the count written in digits and read by `stoi` as `n`
and the distance written in digits and dots and read by `stof` as `d`, not the
name of a variable; let no user function be called `forward`, the parser not be
waiting, the turtle be idle with the pen down, no canvas and its checkpoint on
its position, and let no motion complete inside its own dispatch.  Then
`parse_line` returns the command `forward(d)` `n` times, the turtle goes through
`n` forward motions, and once the last one has been played the drawn lines have
grown by segments each starting where the previous one ended, from the start
position to the point `n * d` further along the forward vector: one segment per
step of the animations.  When every motion is played in a single step, the
forward vector has length `1` and `d > 0`, these are exactly `n` segments, the
`i`-th from `i * d` to `(i + 1) * d` along the forward vector, each of length
`d`. -/
theorem inline_loop_forward (H : Host) (a : App) (input ntext dtext : Str) (n : ℕ) (d : ℚ)
    (fuel : ℕ)
    (hinput : remove_whitespace (first_line input) = inline_loop ntext (forward_command dtext))
    (hntext : ntext ≠ []) (hdigits : ∀ c ∈ ntext, c.isDigit = true)
    (hn : stoi ntext = Except.ok (n : ℤ))
    (hne : dtext ≠ []) (hch : ∀ c ∈ dtext, c.isDigit = true ∨ c = '.')
    (hnum : is_number dtext = true) (hd : stof dtext = Except.ok d)
    (hvars : map_find dtext a.parser.vars = none)
    (hfuncs : map_find "forward".toList a.parser.funcs = none)
    (hdone : a.parser.movement_done = true)
    (hidle : a.turtle.current_anim_ = none) (hcanvas : a.turtle.canvas_ = none)
    (hpen : a.turtle.b_pen_down_ = true)
    (hcheck : a.turtle.previous_position_ = a.turtle.position_)
    (hsync : ∀ e ∈ a.schedule.take n, ∀ p ∈ e.1, p < 1) :
    ∃ a', parse_line H (fuel + 2) input a =
        Except.ok (List.replicate n (forward_command dtext), a') ∧
      (run_events H a').turtle = run_motions H d n a.schedule a.turtle ∧
      (∃ segs, (run_events H a').turtle.lines_ = a.turtle.lines_ ++ segs ∧
        is_chain a.turtle.position_
          (a.turtle.position_ + (get_forward_vector H a.turtle).scale ((n : ℚ) * d)) segs) ∧
      ((∀ e ∈ a.schedule.take n, e = ([], [])) →
        (get_forward_vector H a.turtle).x ^ 2 + (get_forward_vector H a.turtle).y ^ 2 = 1 →
        0 < d →
        (run_events H a').turtle.lines_ = a.turtle.lines_ ++ (List.range n).map
            (step_segment a.turtle.position_ (get_forward_vector H a.turtle) d
              a.turtle.pen_color_ a.turtle.pen_radius_) ∧
          ∀ i, length_sq
              (step_segment a.turtle.position_ (get_forward_vector H a.turtle) d
                a.turtle.pen_color_ a.turtle.pen_radius_ i).start_
              (step_segment a.turtle.position_ (get_forward_vector H a.turtle) d
                a.turtle.pen_color_ a.turtle.pen_radius_ i).end_ = d ^ 2) := by
  have hpend : Pending H a.parser a.turtle a.schedule a := by
    have hmov : is_moving a.turtle = false := by simp [is_moving, hidle]
    exact ⟨by simp [run_events, hmov], a.timer, by simp [wait_movement_done, hdone]⟩
  obtain ⟨a', h1, h2, _⟩ := run_loop_forward H fuel dtext d a.parser hne hch hnum hd hvars hfuncs
    hdone n a.schedule a.turtle [] a hpend hidle hcanvas hpen hcheck hsync
  obtain ⟨_, _, _, _, _, segs, r6, r7⟩ :=
    run_motions_trail H d n a.schedule a.turtle hidle hcanvas hpen hcheck
  refine ⟨a', ?_, h2, ⟨segs, by rw [h2]; exact r6, r7⟩, ?_⟩
  · simp only [parse_line, hinput, match_cli_loop_inline ntext _ hntext hdigits, hn,
      Int.toNat_ofNat]
    simpa using h1
  · intro hsingle hunit hdpos
    have hmove : (get_forward_vector H a.turtle).scale d ≠ ⟨0, 0⟩ := by
      intro h0
      have hx := congrArg QPointF.x h0
      have hy := congrArg QPointF.y h0
      simp only [QPointF.scale_x, QPointF.scale_y] at hx hy
      have hd0 : d ≠ 0 := ne_of_gt hdpos
      have hx0 : (get_forward_vector H a.turtle).x = 0 := by
        rcases mul_eq_zero.mp hx with h | h
        · exact h
        · exact absurd h hd0
      have hy0 : (get_forward_vector H a.turtle).y = 0 := by
        rcases mul_eq_zero.mp hy with h | h
        · exact h
        · exact absurd h hd0
      rw [hx0, hy0] at hunit
      norm_num at hunit
    refine ⟨?_, ?_⟩
    · rw [h2]
      exact run_motions_single_steps H d n a.schedule a.turtle hidle hcanvas hpen hcheck
        hsingle hmove
    · intro i
      simp only [step_segment, length_sq, QPointF.add_x, QPointF.add_y, QPointF.scale_x,
        QPointF.scale_y]
      have : ((get_forward_vector H a.turtle).x ^ 2 + (get_forward_vector H a.turtle).y ^ 2) *
          d ^ 2 = d ^ 2 := by rw [hunit, one_mul]
      nlinarith [this]

theorem inline_loop_forward_witness :
    ∃ a', parse_line host0 (1 + 2) loop3_forward10 (App.new host0 []) =
        Except.ok (List.replicate 3 (forward_command "10".toList), a') ∧
      (run_events host0 a').turtle.lines_ =
        (App.new host0 []).turtle.lines_ ++ (List.range 3).map
          (step_segment (App.new host0 []).turtle.position_
            (get_forward_vector host0 (App.new host0 []).turtle) 10
            (App.new host0 []).turtle.pen_color_ (App.new host0 []).turtle.pen_radius_) :=
  (inline_loop_forward host0 (App.new host0 []) loop3_forward10 "3".toList "10".toList 3 10 1
    (by decide!) (by decide) (by decide) (by decide!) (by decide) (by decide) (by decide!)
    (by decide!) (by decide!) (by decide!) (by decide!) (by decide!) (by decide!) (by decide!)
    (by decide!) (by decide!)).imp
    (fun _ h => ⟨h.1, (h.2.2.2 (by decide!) (by decide!) (by norm_num)).1⟩)

/-! ## Busy rejection -/

/-- C2.  A motion command issued while a motion is in flight (`is_moving`) only
emits `on_movement_completed(kFailure)`, once: `forward`, `turn` and `arc`, for
every argument, return the state they were given with that one signal appended to
the log, so position, rotation, the checkpoint, the drawn lines and the group in
flight are the ones before the call. -/
theorem busy_motion_rejected (H : Host) (t : TurtleControl) (a b : ℚ)
    (hmoving : is_moving t = true) :
    forward H a t =
        { t with signals_ := t.signals_ ++
            [Signal.on_movement_completed MovementResult.kFailure] } ∧
      turn a t =
        { t with signals_ := t.signals_ ++
            [Signal.on_movement_completed MovementResult.kFailure] } ∧
      arc H a b t =
        { t with signals_ := t.signals_ ++
            [Signal.on_movement_completed MovementResult.kFailure] } := by
  simp [forward, turn, arc, hmoving, TurtleControl.emit]

theorem busy_motion_rejected_witness :
    is_moving moving_turtle = true ∧
      forward host0 10 moving_turtle =
        { moving_turtle with signals_ := moving_turtle.signals_ ++
            [Signal.on_movement_completed MovementResult.kFailure] } :=
  ⟨by decide!, (busy_motion_rejected host0 moving_turtle 10 0 (by decide!)).1⟩

/-! ## Normalisation of the rotation -/

/-- C3.  `set_rotation(-400)` on a fresh turtle stores `-40`, and so does
`turn(-400)`: the stored rotation is below `0`, outside `[0, 360)`. -/
theorem set_rotation_below_minus_360 (H : Host) :
    (set_rotation (-400) (TurtleControl.new H)).rotation_ = -40 ∧
      (turn (-400) (TurtleControl.new H)).rotation_ = -40 := by
  have h : fmod (-40) 360 = -40 := by decide!
  have h1 : (TurtleControl.new H).rotation_ = 0 := by
    simp [TurtleControl.new, update_shape]
  constructor
  · simp [set_rotation, h1]
    norm_num [h]
  · simp [turn, is_moving, TurtleControl.new, update_shape, set_rotation, TurtleControl.emit]
    norm_num [h]

/-! ## Names, numbers and the text of commands -/

theorem plain_char (c : Char) (h : is_plain c = true) :
    c ≠ '(' ∧ c ≠ ')' ∧ c ≠ ',' ∧ c ≠ ';' ∧ c ≠ '=' ∧ c ≠ '\n' ∧ c ≠ lbrace ∧ c ≠ rbrace ∧
      isspace c = false := by
  refine ⟨?_, ?_, ?_, ?_, ?_, ?_, ?_, ?_, ?_⟩
  · rintro rfl; exact absurd h (by decide)
  · rintro rfl; exact absurd h (by decide)
  · rintro rfl; exact absurd h (by decide)
  · rintro rfl; exact absurd h (by decide)
  · rintro rfl; exact absurd h (by decide)
  · rintro rfl; exact absurd h (by decide)
  · rintro rfl; exact absurd h (by decide)
  · rintro rfl; exact absurd h (by decide)
  · simp only [isspace, Bool.or_eq_false_iff, decide_eq_false_iff_not]
    refine ⟨⟨⟨⟨⟨?_, ?_⟩, ?_⟩, ?_⟩, ?_⟩, ?_⟩ <;>
      (rintro rfl; exact absurd h (by decide))

theorem word_plain (c : Char) (h : isword c = true) : is_plain c = true := by
  simp [is_plain, h]

theorem digit_word (c : Char) (h : c.isDigit = true) : isword c = true := by
  simp only [isword, Char.isAlphanum, Bool.or_eq_true, decide_eq_true_eq]
  exact Or.inl (Or.inr h)

theorem identifier_word (x : Str) (h : is_identifier x = true) : ∀ c ∈ x, isword c = true := by
  cases x with
  | nil => simp [is_identifier] at h
  | cons c cs =>
    simp only [is_identifier, Bool.and_eq_true, List.all_eq_true] at h
    intro y hy
    rcases List.mem_cons.mp hy with rfl | hy
    · simp only [isident_start, Bool.or_eq_true, decide_eq_true_eq] at h
      simp only [isword, Char.isAlphanum, Bool.or_eq_true, decide_eq_true_eq]
      rcases h.1 with h1 | h1
      · exact Or.inl (Or.inl h1)
      · exact Or.inr h1
    · exact h.2 y hy

theorem identifier_ne_nil (x : Str) (h : is_identifier x = true) : x ≠ [] := by
  rintro rfl
  simp [is_identifier] at h

theorem identifier_head (x : Str) (h : is_identifier x = true) : x.head? ≠ some '-' := by
  cases x with
  | nil => simp [is_identifier] at h
  | cons c cs =>
    simp only [is_identifier, Bool.and_eq_true] at h
    have h1 := h.1
    simp only [List.head?_cons, ne_eq, Option.some.injEq]
    rintro rfl
    exact absurd h1 (by decide)

theorem unsigned_number_chars (s : Str) (h : is_unsigned_number s = true) :
    s ≠ [] ∧ ∀ c ∈ s, c.isDigit = true ∨ c = '.' := by
  unfold is_unsigned_number at h
  have hs : s = s.takeWhile Char.isDigit ++ s.dropWhile Char.isDigit :=
    (List.takeWhile_append_dropWhile _ _).symm
  have htake : ∀ c ∈ s.takeWhile Char.isDigit, c.isDigit = true :=
    fun c hc => List.mem_takeWhile_imp hc
  rcases hdrop : s.dropWhile Char.isDigit with _ | ⟨c, frac⟩
  · simp only [hdrop] at h
    refine ⟨by simpa using h, ?_⟩
    intro y hy
    rw [hs, hdrop, List.append_nil] at hy
    exact Or.inl (htake y hy)
  · simp only [hdrop, Bool.and_eq_true, decide_eq_true_eq, List.all_eq_true] at h
    constructor
    · intro h0
      rw [h0] at hdrop
      simp at hdrop
    · intro y hy
      rw [hs, hdrop, List.mem_append, List.mem_cons] at hy
      rcases hy with hy | hy | hy
      · exact Or.inl (htake y hy)
      · exact Or.inr (hy.trans h.1.1)
      · exact Or.inl (h.2 y hy)

theorem signed_number_chars (s : Str) (h : is_signed_number s = true) :
    s ≠ [] ∧ ∀ c ∈ s, is_plain c = true := by
  have key : ∀ r : Str, is_unsigned_number r = true → ∀ c ∈ r, is_plain c = true := by
    intro r hr c hc
    rcases (unsigned_number_chars r hr).2 c hc with h1 | h1
    · exact word_plain c (digit_word c h1)
    · subst h1; decide
  unfold is_signed_number at h
  split at h
  · refine ⟨by simp, ?_⟩
    intro c hc
    rcases List.mem_cons.mp hc with rfl | hc
    · decide
    · exact key _ h c hc
  · refine ⟨by simp, ?_⟩
    intro c hc
    rcases List.mem_cons.mp hc with rfl | hc
    · decide
    · exact key _ h c hc
  · exact ⟨(unsigned_number_chars s h).1, key s h⟩

theorem number_signed (s : Str) (h : is_number s = true) : is_signed_number s = true := by
  unfold is_number at h
  unfold is_signed_number
  split at h
  · exact h
  · rename_i hneg
    split
    · exact absurd rfl (hneg _)
    · rcases (unsigned_number_chars _ h).2 '+' (List.mem_cons_self _ _) with h1 | h1 <;>
        exact absurd h1 (by decide)
    · exact h

theorem decimal_number (s : Str) (h : is_decimal s = true) : is_number s = true := by
  have key : ∀ body : Str, (body.takeWhile Char.isDigit ≠ [] &&
      match body.dropWhile Char.isDigit with
      | [] => true
      | c :: frac => c = '.' && frac ≠ [] && frac.all Char.isDigit) = true →
      is_unsigned_number body = true := by
    intro body hb
    simp only [Bool.and_eq_true, decide_eq_true_eq] at hb
    unfold is_unsigned_number
    rcases hdrop : body.dropWhile Char.isDigit with _ | ⟨c, frac⟩
    · simp only [decide_eq_true_eq]
      intro h0
      rw [h0] at hb
      simp at hb
    · simp only [hdrop] at hb
      simpa using hb.2
  unfold is_decimal at h
  unfold is_number
  rcases s with _ | ⟨c, cs⟩
  · exact key _ h
  · by_cases hc : c = '-'
    · subst hc
      exact key _ h
    · split
      · rename_i heq
        simp only [List.cons.injEq] at heq
        exact absurd heq.1 hc
      · apply key
        split at h
        · rename_i heq
          simp only [List.cons.injEq] at heq
          exact absurd heq.1 hc
        · exact h

theorem digit_not_ident_start (c : Char) (h : c.isDigit = true) : isident_start c = false := by
  simp only [Char.isDigit, Bool.and_eq_true, decide_eq_true_eq] at h
  simp only [isident_start, Char.isAlpha, Char.isUpper, Char.isLower, Bool.or_eq_false_iff,
    Bool.and_eq_false_imp, decide_eq_true_eq, decide_eq_false_iff_not]
  obtain ⟨h1, h2⟩ := h
  have e1 : (48 : UInt32).toNat ≤ c.val.toNat := h1
  have e2 : c.val.toNat ≤ (57 : UInt32).toNat := h2
  have n1 : (48 : UInt32).toNat = 48 := rfl
  have n2 : (57 : UInt32).toNat = 57 := rfl
  rw [n1] at e1
  rw [n2] at e2
  refine ⟨⟨?_, ?_⟩, ?_⟩
  · intro h3
    have e3 : (65 : UInt32).toNat ≤ c.val.toNat := h3
    have n3 : (65 : UInt32).toNat = 65 := rfl
    omega
  · intro h3
    have e3 : (97 : UInt32).toNat ≤ c.val.toNat := h3
    have n3 : (97 : UInt32).toNat = 97 := rfl
    omega
  · rintro rfl
    exact absurd e2 (by decide)

theorem map_find_mem {β : Type} (key : Str) (m : List (Str × β)) (v : β)
    (h : map_find key m = some v) : (key, v) ∈ m := by
  unfold map_find at h
  induction m with
  | nil => simp at h
  | cons kv rest ih =>
    obtain ⟨k, w⟩ := kv
    by_cases hk : key = k
    · subst hk
      simp only [List.lookup_cons, beq_self_eq_true, Option.some.injEq] at h
      subst h
      exact List.mem_cons_self _ _
    · have hb : (key == k) = false := by simpa using hk
      simp only [List.lookup_cons, hb] at h
      exact List.mem_cons_of_mem _ (ih h)

theorem map_find_map_set {β : Type} (key : Str) (value : β) (m : List (Str × β)) :
    map_find key (map_set key value m) = some value := by
  unfold map_find map_set
  induction m with
  | nil => simp
  | cons kv rest ih =>
    obtain ⟨k, w⟩ := kv
    by_cases hk : key = k
    · subst hk
      simp
    · have hb : (key == k) = false := by simpa using hk
      have hk2 : ¬ k = key := fun h => hk h.symm
      simp only [List.lookup_cons, hb, List.map_cons, hk2, if_false, List.cons_append]
      split_ifs at ih with h1
      · rw [if_pos h1]
        simpa [List.lookup_cons, hb] using ih
      · rw [if_neg h1]
        simpa [List.lookup_cons, hb] using ih

/-- A number is not the name of a variable, nor is it one after its minus sign
is taken off. -/
theorem substitute_name_number (vars : List (Str × Float32)) (s : Str) (hkeys : vars_keys_ok vars)
    (h : is_signed_number s = true) : substitute_name vars s = s := by
  have key : ∀ r : Str, is_unsigned_number r = true → map_find r vars = none := by
    intro r hr
    rcases hfind : map_find r vars with _ | v
    · rfl
    · exfalso
      have hmem := map_find_mem r vars v hfind
      obtain ⟨hne, hch⟩ := unsigned_number_chars r hr
      rcases hkeys _ hmem with h0 | h0
      · exact hne h0
      · cases r with
        | nil => exact hne rfl
        | cons c cs =>
          simp only [is_identifier, Bool.and_eq_true] at h0
          rcases hch c (List.mem_cons_self _ _) with h1 | h1
          · rw [digit_not_ident_start c h1] at h0
            exact absurd h0.1 (by decide)
          · subst h1
            exact absurd h0.1 (by decide)
  unfold is_signed_number at h
  unfold substitute_name
  split at h
  · simp [key _ h]
  · rename_i r
    have h1 : ('+' :: r).head? ≠ some '-' := by simp
    have h2 : map_find ('+' :: r) vars = none := by
      rcases hfind : map_find ('+' :: r) vars with _ | v
      · rfl
      · exfalso
        rcases hkeys _ (map_find_mem _ vars v hfind) with h0 | h0
        · simp at h0
        · simp [is_identifier, isident_start] at h0
    simp [h1, h2]
  · rename_i hneg _
    have h1 : s.head? ≠ some '-' := by
      cases s with
      | nil => simp
      | cons c cs =>
        simp only [List.head?_cons, ne_eq, Option.some.injEq]
        rintro rfl
        exact hneg _ rfl
    simp [h1, key s h]

theorem split_on_ne_nil (delim : Char) (s : Str) : split_on delim s ≠ [] := by
  cases s with
  | nil => simp [split_on]
  | cons c cs =>
    simp only [split_on]
    split_ifs
    · simp
    · split <;> simp

theorem split_on_append (delim : Char) (c1 c2 : Str) (h : ∀ c ∈ c1, c ≠ delim) :
    split_on delim (c1 ++ delim :: c2) = c1 :: split_on delim c2 := by
  induction c1 with
  | nil => simp [split_on]
  | cons c cs ih =>
    have hc : c ≠ delim := h c (List.mem_cons_self _ _)
    have := ih (fun x hx => h x (List.mem_cons_of_mem _ hx))
    show split_on delim (c :: (cs ++ delim :: c2)) = _
    rw [split_on, if_neg hc, this]

theorem getlines_append (delim : Char) (c1 c2 : Str) (h : ∀ c ∈ c1, c ≠ delim) :
    getlines delim (c1 ++ delim :: c2) = c1 :: getlines delim c2 := by
  unfold getlines
  rw [split_on_append delim c1 c2 h]
  obtain ⟨seg, segs, hs⟩ := List.exists_cons_of_ne_nil (split_on_ne_nil delim c2)
  simp only [hs, List.getLast?_cons_cons, List.dropLast_cons₂]
  split_ifs <;> rfl

theorem getlines_pair (delim : Char) (c1 c2 : Str) (h1 : ∀ c ∈ c1, c ≠ delim)
    (hne : c2 ≠ []) (h2 : ∀ c ∈ c2, c ≠ delim) : getlines delim (c1 ++ delim :: c2) = [c1, c2] := by
  rw [getlines_append delim c1 c2 h1, getlines_single delim c2 hne h2]

theorem match_cli_loop_no_brace (s : Str) (h : ∀ c ∈ s, c ≠ lbrace) :
    match_cli_loop s = none := by
  unfold match_cli_loop
  split_ifs with hp
  · simp only
    split
    · rename_i c rest heq
      have hc : c ∈ s := by
        have h1 : c ∈ List.dropWhile Char.isDigit (List.drop 4 s) := by
          rw [heq]; exact List.mem_cons_self _ _
        exact List.mem_of_mem_drop ((List.dropWhile_sublist _).subset h1)
      rw [if_neg]
      intro h2
      exact h c hc h2.2.1
    · rfl
  · rfl

theorem mem_first_line_clean (s : Str) (c : Char) (h : c ∈ remove_whitespace (first_line s)) :
    c ∈ s := by
  unfold remove_whitespace first_line at h
  exact (List.takeWhile_sublist _).subset (List.mem_filter.mp h).1

/-- A line that is not an inline loop is split at its semicolons. -/
theorem parse_line_commands (H : Host) (fuel : ℕ) (input : Str) (a : App)
    (h : match_cli_loop (remove_whitespace (first_line input)) = none) :
    parse_line H (fuel + 1) input a =
      run_commands H (parse_line H fuel) (getlines ';' input) [] a := by
  simp only [parse_line, h]

theorem parse_line_no_brace (H : Host) (fuel : ℕ) (input : Str) (a : App)
    (h : ∀ c ∈ input, c ≠ lbrace) :
    parse_line H (fuel + 1) input a =
      run_commands H (parse_line H fuel) (getlines ';' input) [] a :=
  parse_line_commands H fuel input a
    (match_cli_loop_no_brace _ (fun c hc => h c (mem_first_line_clean input c hc)))

/-! ## Decimal digits: `std::to_string` and `std::stof` -/

theorem digitChar_spec : ∀ k, k < 10 →
    (Nat.digitChar k).isDigit = true ∧ (Nat.digitChar k).toNat - 48 = k := by
  decide

theorem digits_value_concat (l : Str) (d : Char) :
    digits_value (l ++ [d]) = 10 * digits_value l + (d.toNat - 48) := by
  simp [digits_value, List.foldl_append]

theorem toDigitsCore_spec (fuel : ℕ) : ∀ n, n < fuel →
    ∃ l : Str, l ≠ [] ∧ (∀ c ∈ l, c.isDigit = true) ∧ digits_value l = n ∧
      ∀ ds, Nat.toDigitsCore 10 fuel n ds = l ++ ds := by
  induction fuel with
  | zero => intro n hn; omega
  | succ fuel ih =>
    intro n hn
    have hd := digitChar_spec (n % 10) (Nat.mod_lt _ (by norm_num))
    by_cases h0 : n / 10 = 0
    · refine ⟨[Nat.digitChar (n % 10)], by simp, ?_, ?_, ?_⟩
      · intro c hc
        rw [List.mem_singleton.mp hc]
        exact hd.1
      · have : digits_value [Nat.digitChar (n % 10)] = (Nat.digitChar (n % 10)).toNat - 48 := by
          simp [digits_value]
        rw [this, hd.2]
        omega
      · intro ds
        simp [Nat.toDigitsCore, h0]
    · obtain ⟨l, hne, hdig, hval, hcore⟩ := ih (n / 10) (by omega)
      refine ⟨l ++ [Nat.digitChar (n % 10)], by simp, ?_, ?_, ?_⟩
      · intro c hc
        rcases List.mem_append.mp hc with hc | hc
        · exact hdig c hc
        · rw [List.mem_singleton.mp hc]
          exact hd.1
      · rw [digits_value_concat, hval, hd.2]
        omega
      · intro ds
        simp [Nat.toDigitsCore, h0, hcore]

theorem toDigits_spec (n : ℕ) :
    Nat.toDigits 10 n ≠ [] ∧ (∀ c ∈ Nat.toDigits 10 n, c.isDigit = true) ∧
      digits_value (Nat.toDigits 10 n) = n := by
  obtain ⟨l, hne, hdig, hval, hcore⟩ := toDigitsCore_spec (n + 1) n (Nat.lt_succ_self n)
  have : Nat.toDigits 10 n = l := by
    simp [Nat.toDigits, hcore]
  rw [this]
  exact ⟨hne, hdig, hval⟩

theorem toDigits_length (n e : ℕ) (he : 0 < e) (hn : n < 10 ^ e) :
    (Nat.toDigits 10 n).length ≤ e :=
  Nat.toDigitsCore_length 10 (by norm_num) (n + 1) n e hn he

theorem digits_value_zeros (k : ℕ) (l : Str) :
    digits_value (List.replicate k '0' ++ l) = digits_value l := by
  induction k with
  | zero => simp
  | succ k ih =>
    have : ∀ m : Str, digits_value ('0' :: m) = digits_value m := by
      intro m
      simp [digits_value]
    rw [List.replicate_succ, List.cons_append, this, ih]

theorem pad_digits_spec (n : ℕ) (hn : n < 10 ^ 6) :
    (pad_digits 6 n).length = 6 ∧ (∀ c ∈ pad_digits 6 n, c.isDigit = true) ∧
      digits_value (pad_digits 6 n) = n := by
  obtain ⟨_, hdig, hval⟩ := toDigits_spec n
  have hlen := toDigits_length n 6 (by norm_num) hn
  unfold pad_digits
  refine ⟨?_, ?_, ?_⟩
  · simp only [List.length_append, List.length_replicate]
    omega
  · intro c hc
    rcases List.mem_append.mp hc with hc | hc
    · rw [(List.mem_replicate.mp hc).2]
      decide
    · exact hdig c hc
  · rw [digits_value_zeros, hval]

/-- The rounding to the nearest natural number moves a number `q ≥ 0` by at most
one half. -/
theorem round_half_even_close (q : ℚ) (hq : 0 ≤ q) :
    |((round_half_even q : ℕ) : ℚ) - q| ≤ 1 / 2 := by
  have hfl : ((⌊q⌋.toNat : ℕ) : ℚ) = ((⌊q⌋ : ℤ) : ℚ) := by
    have h0 : (0 : ℤ) ≤ ⌊q⌋ := Int.floor_nonneg.mpr hq
    have : ((⌊q⌋.toNat : ℕ) : ℤ) = ⌊q⌋ := Int.toNat_of_nonneg h0
    exact_mod_cast this
  have hlo : ((⌊q⌋.toNat : ℕ) : ℚ) ≤ q := by
    rw [hfl]; exact Int.floor_le _
  have hhi : q < ((⌊q⌋.toNat : ℕ) : ℚ) + 1 := by
    rw [hfl]; exact Int.lt_floor_add_one _
  clear hfl
  unfold round_half_even
  simp only
  generalize ⌊q⌋.toNat = low at hlo hhi ⊢
  split_ifs with h1 h2 h3
  · rw [abs_le]; push_cast; constructor <;> linarith
  · rw [abs_le]; constructor <;> linarith
  · rw [abs_le]; constructor <;> linarith
  · rw [abs_le]; push_cast; constructor <;> linarith

theorem round_half_even_natCast (k : ℕ) : round_half_even (k : ℚ) = k := by
  unfold round_half_even
  simp only [Int.floor_natCast, Int.toNat_ofNat, sub_self]
  norm_num

/-- The text of `std::to_string` for a finite `float`: the sign, the digits of a
natural number `k` of millionths, with the dot before the last six; `k` is the
magnitude times `10^6`, rounded to the nearest integer. -/
theorem to_string_finite (n : Bool) (m : ℚ) :
    to_string (Float32.finite n m) = (if n then ['-'] else []) ++
      Nat.toDigits 10 (round_half_even (m * 10 ^ 6) / 10 ^ 6) ++
        '.' :: pad_digits 6 (round_half_even (m * 10 ^ 6) % 10 ^ 6) := by
  simp only [to_string, List.append_assoc, List.singleton_append]

theorem to_string_plain (v : Float32) : ∀ c ∈ to_string v, is_plain c = true := by
  cases v with
  | finite n m =>
    obtain ⟨_, hdig, _⟩ := toDigits_spec (round_half_even (m * 10 ^ 6) / 10 ^ 6)
    obtain ⟨_, hpad, _⟩ :=
      pad_digits_spec (round_half_even (m * 10 ^ 6) % 10 ^ 6) (Nat.mod_lt _ (by norm_num))
    intro c hc
    rw [to_string_finite] at hc
    simp only [List.mem_append, List.mem_cons] at hc
    rcases hc with (hc | hc) | hc | hc
    · split_ifs at hc
      · rw [List.mem_singleton.mp hc]; decide
      · simp at hc
    · exact word_plain c (digit_word c (hdig c hc))
    · subst hc; decide
    · exact word_plain c (digit_word c (hpad c hc))
  | infinite n =>
    intro c hc
    cases n <;> revert c <;> decide

theorem is_unsigned_number_digits (i f : Str) (hi : ∀ c ∈ i, c.isDigit = true)
    (hf : ∀ c ∈ f, c.isDigit = true) (hne : f ≠ []) :
    is_unsigned_number (i ++ '.' :: f) = true := by
  have hsplit := takeWhile_append_stop Char.isDigit i '.' f hi (by decide)
  unfold is_unsigned_number
  simp only [hsplit.2, Bool.and_eq_true, decide_eq_true_eq, List.all_eq_true]
  exact ⟨⟨trivial, hne⟩, hf⟩

theorem to_string_number (n : Bool) (m : ℚ) :
    is_number (to_string (Float32.finite n m)) = true := by
  obtain ⟨hne, hdig, _⟩ := toDigits_spec (round_half_even (m * 10 ^ 6) / 10 ^ 6)
  obtain ⟨hlen, hpad, _⟩ :=
    pad_digits_spec (round_half_even (m * 10 ^ 6) % 10 ^ 6) (Nat.mod_lt _ (by norm_num))
  have hpne : pad_digits 6 (round_half_even (m * 10 ^ 6) % 10 ^ 6) ≠ [] := by
    intro h0
    rw [h0] at hlen
    simp at hlen
  have hu := is_unsigned_number_digits _ _ hdig hpad hpne
  rw [to_string_finite]
  cases n with
  | true =>
    simp only [if_true, List.singleton_append, List.cons_append, List.nil_append, is_number]
    simpa using hu
  | false =>
    simp only [Bool.false_eq_true, if_false, List.nil_append]
    obtain ⟨c, cs, hcs⟩ := List.exists_cons_of_ne_nil hne
    have hc : c ≠ '-' := by
      rintro rfl
      exact absurd (hdig '-' (by rw [hcs]; exact List.mem_cons_self _ _)) (by decide)
    rw [hcs] at hu ⊢
    unfold is_number
    split
    · rename_i heq
      simp only [List.cons_append, List.cons.injEq] at heq
      exact absurd heq.1 hc
    · exact hu

/-- `std::stof`, with the text after the sign and the digits of the fraction
named. -/
theorem stof_body (s body frac : Str)
    (hbody : (match s with
      | '-' :: r => r
      | '+' :: r => r
      | _ => s) = body)
    (hfrac : (match body.dropWhile Char.isDigit with
      | '.' :: f => f.takeWhile Char.isDigit
      | _ => []) = frac) :
    stof s =
      if body.takeWhile Char.isDigit = [] ∧ frac = [] then
        Except.error (Stop.throws Exception.invalid_argument)
      else
        let magnitude : ℚ :=
          digits_value (body.takeWhile Char.isDigit) + digits_value frac / 10 ^ frac.length
        if magnitude ≥ (2 ^ 25 - 1) * 2 ^ 103 then
          Except.error (Stop.throws Exception.out_of_range)
        else if 0 < magnitude ∧ magnitude < 1 / 2 ^ 126 ∧ (magnitude * 2 ^ 149).den ≠ 1 then
          Except.error (Stop.throws Exception.out_of_range)
        else Except.ok (if decide (s.head? = some '-') then -round_magnitude magnitude
          else round_magnitude magnitude) := by
  subst hbody
  subst hfrac
  rfl

/-- `std::stof` on a sign, digits, a dot and digits. -/
theorem stof_digits (negative : Bool) (i f : Str) (hi : ∀ c ∈ i, c.isDigit = true)
    (hne : i ≠ []) (hf : ∀ c ∈ f, c.isDigit = true) :
    stof ((if negative then ['-'] else []) ++ i ++ '.' :: f) =
      if (digits_value i : ℚ) + digits_value f / 10 ^ f.length ≥ (2 ^ 25 - 1) * 2 ^ 103 then
        Except.error (Stop.throws Exception.out_of_range)
      else if 0 < (digits_value i : ℚ) + digits_value f / 10 ^ f.length ∧
          (digits_value i : ℚ) + digits_value f / 10 ^ f.length < 1 / 2 ^ 126 ∧
          (((digits_value i : ℚ) + digits_value f / 10 ^ f.length) * 2 ^ 149).den ≠ 1 then
        Except.error (Stop.throws Exception.out_of_range)
      else Except.ok (signed negative
        (round_magnitude ((digits_value i : ℚ) + digits_value f / 10 ^ f.length))) := by
  have hsplit := takeWhile_append_stop Char.isDigit i '.' f hi (by decide)
  have hfull : f.takeWhile Char.isDigit = f := by
    rw [List.takeWhile_eq_self_iff]
    exact hf
  obtain ⟨c, cs, hcs⟩ := List.exists_cons_of_ne_nil hne
  have hc : c.isDigit = true := hi c (by rw [hcs]; exact List.mem_cons_self _ _)
  have hc1 : c ≠ '-' := by
    rintro rfl; exact absurd hc (by decide)
  have hc2 : c ≠ '+' := by
    rintro rfl; exact absurd hc (by decide)
  have hbody : (match (if negative then ['-'] else []) ++ i ++ '.' :: f with
      | '-' :: r => r
      | '+' :: r => r
      | _ => (if negative then ['-'] else []) ++ i ++ '.' :: f) = i ++ '.' :: f := by
    cases negative with
    | true => rfl
    | false =>
      simp only [Bool.false_eq_true, if_false, List.nil_append]
      rw [hcs]
      split
      · rename_i heq
        simp only [List.cons_append, List.cons.injEq] at heq
        exact absurd heq.1 hc1
      · rename_i heq
        simp only [List.cons_append, List.cons.injEq] at heq
        exact absurd heq.1 hc2
      · rfl
  have hfrac : (match (i ++ '.' :: f).dropWhile Char.isDigit with
      | '.' :: f => f.takeWhile Char.isDigit
      | _ => []) = f := by
    rw [hsplit.2]
    exact hfull
  have hneg : decide (((if negative then ['-'] else []) ++ i ++ '.' :: f).head? = some '-') =
      negative := by
    cases negative with
    | true => rfl
    | false =>
      simp only [Bool.false_eq_true, if_false, List.nil_append, hcs, List.cons_append,
        List.head?_cons, Option.some.injEq, decide_eq_false_iff_not]
      exact hc1
  have hivalid : ¬ (i = [] ∧ f = []) := fun h => hne h.1
  rw [stof_body _ _ _ hbody hfrac, hsplit.1, if_neg hivalid, hneg]
  rfl

/-- Reading back the text of `std::to_string` for a finite `float` of magnitude
`m`: with `t` the magnitude rounded to six decimals, `std::stof` returns the
`float` nearest to `t`, with the sign of the text, unless `t` is beyond the range
of `float`. -/
theorem stof_to_string (n : Bool) (m : ℚ) :
    stof (to_string (Float32.finite n m)) =
      if ((round_half_even (m * 10 ^ 6) : ℕ) : ℚ) / 10 ^ 6 ≥ (2 ^ 25 - 1) * 2 ^ 103 then
        Except.error (Stop.throws Exception.out_of_range)
      else Except.ok (signed n
        (round_magnitude (((round_half_even (m * 10 ^ 6) : ℕ) : ℚ) / 10 ^ 6))) := by
  rw [to_string_finite]
  generalize round_half_even (m * 10 ^ 6) = k
  obtain ⟨hne, hdig, hval⟩ := toDigits_spec (k / 10 ^ 6)
  obtain ⟨hlen, hpad, hpval⟩ := pad_digits_spec (k % 10 ^ 6) (Nat.mod_lt _ (by norm_num))
  have hmag : (digits_value (Nat.toDigits 10 (k / 10 ^ 6)) : ℚ) +
      digits_value (pad_digits 6 (k % 10 ^ 6)) / 10 ^ (pad_digits 6 (k % 10 ^ 6)).length =
      (k : ℚ) / 10 ^ 6 := by
    rw [hval, hpval, hlen]
    have h1 : (k : ℚ) = ((k / 10 ^ 6 : ℕ) : ℚ) * 10 ^ 6 + ((k % 10 ^ 6 : ℕ) : ℚ) := by
      have := Nat.div_add_mod k (10 ^ 6)
      have h2 : ((10 ^ 6 * (k / 10 ^ 6) + k % 10 ^ 6 : ℕ) : ℚ) = (k : ℚ) := by rw [this]
      push_cast at h2
      linarith
    have h3 : (10 : ℚ) ^ 6 ≠ 0 := by norm_num
    field_simp
    linarith
  have hstof := stof_digits n _ _ hdig hne hpad
  simp only [hmag] at hstof
  rw [hstof]
  by_cases hrange : (k : ℚ) / 10 ^ 6 ≥ (2 ^ 25 - 1) * 2 ^ 103
  · rw [if_pos hrange, if_pos hrange]
  rw [if_neg hrange, if_neg hrange, if_neg]
  intro h3
  obtain ⟨h4, h5, _⟩ := h3
  have hm1 : (1 : ℚ) ≤ k := by
    have : 0 < k := by
      rcases Nat.eq_zero_or_pos k with h0 | h0
      · rw [h0] at h4; norm_num at h4
      · exact h0
    exact_mod_cast this
  have h6 : (1 : ℚ) / 10 ^ 6 ≤ (k : ℚ) / 10 ^ 6 := by
    apply div_le_div_of_nonneg_right hm1
    positivity
  have h7 : (1 : ℚ) / 2 ^ 126 < 1 / 10 ^ 6 := by norm_num
  linarith

/-! ## The format `float` -/

theorem pow2_eq (e : ℤ) : pow2 e = (2 : ℚ) ^ e := by
  unfold pow2
  split_ifs with h
  · conv_rhs => rw [← Int.toNat_of_nonneg h]
    rw [zpow_natCast]
  · have h1 : 0 ≤ -e := by omega
    have h2 : e = -((-e).toNat : ℤ) := by
      rw [Int.toNat_of_nonneg h1]; ring
    conv_rhs => rw [h2]
    rw [zpow_neg, zpow_natCast, one_div]

theorem pow2_pos (e : ℤ) : 0 < pow2 e := by
  rw [pow2_eq]
  positivity

theorem pow2_mono (e f : ℤ) (h : e ≤ f) : pow2 e ≤ pow2 f := by
  rw [pow2_eq, pow2_eq]
  exact zpow_le_zpow_right₀ (by norm_num) h

theorem float_exponent_from_bounds (n : ℕ) (m : ℚ) :
    -126 ≤ float_exponent_from n m ∧ float_exponent_from n m ≤ (n : ℤ) - 126 := by
  induction n with
  | zero => simp [float_exponent_from]
  | succ n ih =>
    rw [float_exponent_from]
    split_ifs
    · constructor <;> push_cast <;> omega
    · constructor
      · exact ih.1
      · push_cast
        omega

/-- The exponent of a magnitude is `127` from `2^127` on, and at most `126`
below. -/
theorem float_exponent_top (m : ℚ) :
    ((2 : ℚ) ^ 127 ≤ m ∧ float_exponent m = 127) ∨ (m < 2 ^ 127 ∧ float_exponent m ≤ 126) := by
  have h : float_exponent m =
      if pow2 (((252 : ℕ) : ℤ) - 125) ≤ m then ((252 : ℕ) : ℤ) - 125
      else float_exponent_from 252 m := by
    show float_exponent_from (252 + 1) m = _
    rw [float_exponent_from]
  have h127 : pow2 (((252 : ℕ) : ℤ) - 125) = 2 ^ 127 := by
    rw [pow2_eq]
    norm_num
  rw [h127] at h
  by_cases hm : (2 : ℚ) ^ 127 ≤ m
  · left
    rw [if_pos hm] at h
    exact ⟨hm, by rw [h]; norm_num⟩
  · right
    rw [if_neg hm] at h
    refine ⟨not_le.mp hm, ?_⟩
    rw [h]
    have := (float_exponent_from_bounds 252 m).2
    push_cast at this
    omega

theorem round_magnitude_nonneg (m : ℚ) : 0 ≤ round_magnitude m := by
  unfold round_magnitude
  exact mul_nonneg (Nat.cast_nonneg _) (le_of_lt (pow2_pos _))

theorem round_magnitude_zero : round_magnitude 0 = 0 := by
  unfold round_magnitude
  rw [zero_div, show round_half_even 0 = 0 from by decide!]
  simp

/-- A magnitude that rounds to less than `2^128` rounds to at most the largest
`float`, `2^128 - 2^104`. -/
theorem round_magnitude_max (m : ℚ) (hm : 0 ≤ m) (h : round_magnitude m < 2 ^ 128) :
    round_magnitude m ≤ 2 ^ 128 - 2 ^ 104 := by
  rcases float_exponent_top m with ⟨_, he⟩ | ⟨hlt, he⟩
  · unfold round_magnitude at h ⊢
    rw [he] at h ⊢
    have hu : pow2 (127 - 23) = 2 ^ 104 := by
      rw [pow2_eq]; norm_num
    rw [hu] at h ⊢
    generalize round_half_even (m / 2 ^ 104) = k at h ⊢
    have hk : (k : ℚ) < 2 ^ 24 := by
      by_contra hc
      have hc1 : (2 : ℚ) ^ 24 ≤ k := not_lt.mp hc
      have : (2 : ℚ) ^ 24 * 2 ^ 104 ≤ (k : ℚ) * 2 ^ 104 :=
        mul_le_mul_of_nonneg_right hc1 (by positivity)
      norm_num at this h
      linarith
    have hk1 : k < 2 ^ 24 := by exact_mod_cast hk
    have hk2 : (k : ℚ) ≤ 2 ^ 24 - 1 := by
      have : k + 1 ≤ 2 ^ 24 := hk1
      have h3 : ((k + 1 : ℕ) : ℚ) ≤ ((2 ^ 24 : ℕ) : ℚ) := by exact_mod_cast this
      push_cast at h3
      linarith
    calc (k : ℚ) * 2 ^ 104 ≤ (2 ^ 24 - 1) * 2 ^ 104 :=
          mul_le_mul_of_nonneg_right hk2 (by positivity)
      _ = 2 ^ 128 - 2 ^ 104 := by norm_num
  · unfold round_magnitude
    have hu0 := pow2_pos (float_exponent m - 23)
    have hu1 : pow2 (float_exponent m - 23) ≤ 2 ^ 103 := by
      have := pow2_mono (float_exponent m - 23) 103 (by omega)
      rw [pow2_eq 103] at this
      exact_mod_cast this
    generalize pow2 (float_exponent m - 23) = u at hu0 hu1
    have hq : 0 ≤ m / u := div_nonneg hm (le_of_lt hu0)
    have hclose := round_half_even_close (m / u) hq
    rw [abs_le] at hclose
    have hk : ((round_half_even (m / u) : ℕ) : ℚ) ≤ m / u + 1 / 2 := by linarith [hclose.2]
    have hku : ((round_half_even (m / u) : ℕ) : ℚ) * u ≤ (m / u + 1 / 2) * u :=
      mul_le_mul_of_nonneg_right hk (le_of_lt hu0)
    have hmu : (m / u + 1 / 2) * u = m + u / 2 := by
      field_simp
      ring
    rw [hmu] at hku
    have h1 : (2 : ℚ) ^ 127 + 2 ^ 103 / 2 ≤ 2 ^ 128 - 2 ^ 104 := by norm_num
    linarith

theorem round_float_in_range (n : Bool) (m : ℚ) (hm : 0 ≤ m) :
    (round_float n m).in_range := by
  unfold round_float
  split_ifs with h
  · trivial
  · exact ⟨round_magnitude_nonneg m, round_magnitude_max m hm (not_le.mp h)⟩

/-- The text of a finite `float` is read back by `std::stof`: it is not out of
range. -/
theorem stof_to_string_in_range (n : Bool) (m : ℚ) (h : (Float32.finite n m).in_range) :
    stof (to_string (Float32.finite n m)) = Except.ok (signed n
      (round_magnitude (((round_half_even (m * 10 ^ 6) : ℕ) : ℚ) / 10 ^ 6))) := by
  rw [stof_to_string, if_neg]
  obtain ⟨h0, h1⟩ := h
  have hclose := round_half_even_close (m * 10 ^ 6) (by positivity)
  rw [abs_le] at hclose
  have h2 : ((round_half_even (m * 10 ^ 6) : ℕ) : ℚ) / 10 ^ 6 ≤ m + 1 / (2 * 10 ^ 6) := by
    rw [div_le_iff₀ (by positivity)]
    have : (m + 1 / (2 * 10 ^ 6)) * 10 ^ 6 = m * 10 ^ 6 + 1 / 2 := by ring
    rw [this]
    linarith [hclose.2]
  have h3 : (2 : ℚ) ^ 128 - 2 ^ 104 + 1 / (2 * 10 ^ 6) < (2 ^ 25 - 1) * 2 ^ 103 := by norm_num
  intro h4
  have h5 : (2 ^ 25 - 1) * 2 ^ 103 ≤ ((round_half_even (m * 10 ^ 6) : ℕ) : ℚ) / 10 ^ 6 := h4
  linarith

theorem times_sign_one (v : Float32) : Float32.times_sign 1 v = v := by
  cases v <;> simp [Float32.times_sign]

theorem stof_float_ok (s : Str) (v : ℚ) (h : stof s = Except.ok v) :
    stof_float s = Except.ok (Float32.finite (decide (s.head? = some '-')) |v|) := by
  simp only [stof_float, h]

theorem stof_float_error (s : Str) (e : Stop) (h : stof s = Except.error e) :
    stof_float s = Except.error e := by
  simp only [stof_float, h]

theorem ok_of_checks {c1 c2 c3 : Prop} [Decidable c1] [Decidable c2] [Decidable c3]
    (e1 e2 e3 : Stop) (x v : ℚ)
    (h : (if c1 then Except.error e1 else if c2 then Except.error e2
      else if c3 then Except.error e3 else Except.ok x) = Except.ok v) : x = v := by
  split_ifs at h
  exact Except.ok.inj h

/-- The number that `std::stof` returns: a magnitude that is not negative, with
the sign of the text. -/
theorem stof_value (s : Str) (v : ℚ) (h : stof s = Except.ok v) :
    ∃ r : ℚ, 0 ≤ r ∧ v = signed (decide (s.head? = some '-')) r := by
  rw [stof_body s _ _ rfl rfl] at h
  exact ⟨_, round_magnitude_nonneg _, (ok_of_checks _ _ _ _ _ h).symm⟩

theorem signed_abs (n : Bool) (r : ℚ) (hr : 0 ≤ r) : |signed n r| = r := by
  cases n
  · simp [signed, abs_of_nonneg hr]
  · simp [signed, abs_of_nonneg hr]

/-- The number that `std::stof` returns has the sign of the text. -/
theorem stof_signed (s : Str) (v : ℚ) (h : stof s = Except.ok v) :
    signed (decide (s.head? = some '-')) |v| = v := by
  obtain ⟨r, hr, hv⟩ := stof_value s v h
  rw [hv, signed_abs _ r hr]

/-! ## Variable substitution on calls and assignments -/

theorem word_not_space (c : Char) (h : isword c = true) : isspace c = false :=
  (plain_char c (word_plain c h)).2.2.2.2.2.2.2.2

theorem dropWhile_isspace_word (w : Str) (c : Char) (rest : Str)
    (hw : ∀ x ∈ w, isword x = true) (hc : isspace c = false) :
    (w ++ c :: rest).dropWhile isspace = w ++ c :: rest := by
  cases w with
  | nil => simp [List.dropWhile_cons, hc]
  | cons y ys =>
    simp [List.dropWhile_cons, word_not_space y (hw y (List.mem_cons_self _ _))]

/-- A text that runs from a word into a character that is neither a word
character, nor a space, nor `=`, is not an assignment `x = y`. -/
theorem match_varassign_stop (w : Str) (c : Char) (rest : Str)
    (hw : ∀ x ∈ w, isword x = true) (h1 : isword c = false) (h2 : isspace c = false)
    (h3 : c ≠ '=') : match_varassign (w ++ c :: rest) = none := by
  have hsplit := takeWhile_append_stop isword w c rest hw h1
  unfold match_varassign
  simp only [dropWhile_isspace_word w c rest hw h2, hsplit.1, hsplit.2, List.dropWhile_cons, h2,
    Bool.false_eq_true, if_false, h3, false_and]

theorem match_varassign_call (name args : Str) (hname : ∀ x ∈ name, isword x = true) :
    match_varassign (call_text name args) = none :=
  match_varassign_stop name '(' _ hname (by decide) (by decide) (by decide)

theorem match_varassign_assign (x w rest : Str) (hx : ∀ c ∈ x, isword c = true)
    (hw : ∀ c ∈ w, isword c = true) : match_varassign (x ++ '=' :: (w ++ '(' :: rest)) = none := by
  have hsplit := takeWhile_append_stop isword x '=' (w ++ '(' :: rest) hx (by decide)
  have hsplit2 := takeWhile_append_stop isword w '(' rest hw (by decide)
  have hsp : isspace '=' = false := by decide
  have hsp2 : isspace '(' = false := by decide
  unfold match_varassign
  simp only [dropWhile_isspace_word x '=' _ hx hsp, hsplit.1, hsplit.2, List.dropWhile_cons, hsp,
    Bool.false_eq_true, if_false, dropWhile_isspace_word w '(' rest hw hsp2, hsplit2.2, hsp2]
  simp

theorem substitute_groups_group (vars : List (Str × Float32)) (k : ℕ) (before contents suffix : Str)
    (hb : ∀ c ∈ before, c ≠ '(') (hne : contents ≠ []) (hc : ∀ c ∈ contents, c ≠ ')') :
    substitute_groups vars (k + 1) (before ++ '(' :: (contents ++ ')' :: suffix)) =
      before ++ '(' :: ([','].intercalate ((getlines ',' contents).map (substitute_name vars)) ++
        ')' :: substitute_groups vars k suffix) := by
  rw [substitute_groups]
  simp only [search_var_first before contents suffix hb hne hc, List.append_assoc,
    List.singleton_append, List.cons_append, List.nil_append]

/-- `varname_to_value` on a text with one bracketed group at its end, when the
result is not an assignment `x = y`. -/
theorem varname_to_value_group (p : Parser) (before contents : Str)
    (hb : ∀ c ∈ before, c ≠ '(') (hne : contents ≠ []) (hc : ∀ c ∈ contents, c ≠ ')')
    (hassign : match_varassign (before ++ '(' ::
      ([','].intercalate ((getlines ',' contents).map (substitute_name p.vars)) ++ [')'])) =
        none) :
    varname_to_value p (before ++ '(' :: (contents ++ [')'])) =
      remove_whitespace (before ++ '(' ::
        ([','].intercalate ((getlines ',' contents).map (substitute_name p.vars)) ++ [')'])) := by
  have hlen : (before ++ '(' :: (contents ++ [')'])).length =
      (before.length + contents.length + 1) + 1 := by
    simp only [List.length_append, List.length_cons, List.length_nil]
    omega
  unfold varname_to_value
  simp only [hlen, substitute_groups_group p.vars _ before contents [] hb hne hc,
    substitute_groups_nil, hassign]

theorem word_no_paren (w : Str) (hw : ∀ c ∈ w, isword c = true) : ∀ c ∈ w, c ≠ '(' :=
  fun c hc => (plain_char c (word_plain c (hw c hc))).1

theorem plain_clean (s : Str) (h : ∀ c ∈ s, is_plain c = true) : ∀ c ∈ s, isspace c = false :=
  fun c hc => (plain_char c (h c hc)).2.2.2.2.2.2.2.2

theorem call_text_clean (name args : Str) (hname : ∀ c ∈ name, isspace c = false)
    (hargs : ∀ c ∈ args, isspace c = false) : ∀ c ∈ call_text name args, isspace c = false := by
  intro c hc
  simp only [call_text, List.mem_append, List.mem_cons, List.mem_singleton, List.mem_nil_iff,
    or_false] at hc
  rcases hc with hc | hc | hc | hc
  · exact hname c hc
  · subst hc; decide
  · exact hargs c hc
  · subst hc; decide

/-- `varname_to_value` replaces the argument `x` of `name(x)` by the text of the
value stored for `x`. -/
theorem varname_to_value_variable (p : Parser) (name x : Str) (v : Float32)
    (hname : ∀ c ∈ name, isword c = true) (hx : is_identifier x = true)
    (hv : map_find x p.vars = some v) :
    varname_to_value p (call_text name x) = call_text name (to_string v) := by
  have hxw := identifier_word x hx
  have hsub : substitute_name p.vars x = to_string v := by
    simp [substitute_name, identifier_head x hx, hv, times_sign_one]
  have hlines : getlines ',' x = [x] :=
    getlines_single ',' x (identifier_ne_nil x hx)
      (fun c hc => (plain_char c (word_plain c (hxw c hc))).2.2.1)
  have h := varname_to_value_group p name x (word_no_paren name hname) (identifier_ne_nil x hx)
    (fun c hc => (plain_char c (word_plain c (hxw c hc))).2.1)
    (by
      rw [hlines]
      simp only [List.map_cons, List.map_nil, hsub]
      exact match_varassign_call name _ hname)
  rw [hlines] at h
  simp only [List.map_cons, List.map_nil, hsub] at h
  have h2 : [','].intercalate [to_string v] = to_string v := by
    simp [List.intercalate]
  rw [h2] at h
  unfold call_text
  rw [h]
  exact remove_whitespace_clean _ (call_text_clean name _
    (fun c hc => word_not_space c (hname c hc)) (plain_clean _ (to_string_plain v)))

theorem decimal_plain (s : Str) (h : is_decimal s = true) :
    s ≠ [] ∧ ∀ c ∈ s, is_plain c = true :=
  signed_number_chars s (number_signed s (decimal_number s h))

/-- `varname_to_value` leaves `x=op(a,b)` as it is when `a` and `b` are numbers. -/
theorem varname_to_value_assign_op (p : Parser) (x op a b : Str)
    (hx : is_identifier x = true) (hop : ∀ c ∈ op, isword c = true)
    (ha : is_decimal a = true) (hb : is_decimal b = true) (hkeys : vars_keys_ok p.vars) :
    varname_to_value p (assign_op x op a b) = assign_op x op a b := by
  have hxw := identifier_word x hx
  obtain ⟨hane, hap⟩ := decimal_plain a ha
  obtain ⟨hbne, hbp⟩ := decimal_plain b hb
  have hsa := substitute_name_number p.vars a hkeys (number_signed a (decimal_number a ha))
  have hsb := substitute_name_number p.vars b hkeys (number_signed b (decimal_number b hb))
  have hlines : getlines ',' (a ++ ',' :: b) = [a, b] :=
    getlines_pair ',' a b (fun c hc => (plain_char c (hap c hc)).2.2.1) hbne
      (fun c hc => (plain_char c (hbp c hc)).2.2.1)
  have hjoin : [','].intercalate [a, b] = a ++ ',' :: b := by
    simp [List.intercalate]
  have hshape : assign_op x op a b = (x ++ '=' :: op) ++ '(' :: ((a ++ ',' :: b) ++ [')']) := by
    simp [assign_op, call_text]
  have hbefore : ∀ c ∈ x ++ '=' :: op, c ≠ '(' := by
    intro c hc
    rcases List.mem_append.mp hc with hc | hc
    · exact word_no_paren x hxw c hc
    · rcases List.mem_cons.mp hc with hc | hc
      · subst hc; decide
      · exact word_no_paren op hop c hc
  have hcontents : ∀ c ∈ a ++ ',' :: b, c ≠ ')' := by
    intro c hc
    rcases List.mem_append.mp hc with hc | hc
    · exact (plain_char c (hap c hc)).2.1
    · rcases List.mem_cons.mp hc with hc | hc
      · subst hc; decide
      · exact (plain_char c (hbp c hc)).2.1
  have h := varname_to_value_group p (x ++ '=' :: op) (a ++ ',' :: b) hbefore (by simp) hcontents
    (by
      rw [hlines]
      simp only [List.map_cons, List.map_nil, hsa, hsb, hjoin]
      have := match_varassign_assign x op ((a ++ ',' :: b) ++ [')']) hxw hop
      simpa using this)
  rw [hlines] at h
  simp only [List.map_cons, List.map_nil, hsa, hsb, hjoin] at h
  rw [hshape, h]
  apply remove_whitespace_clean
  intro c hc
  simp only [List.mem_append, List.mem_cons, List.mem_singleton, List.mem_nil_iff,
    or_false] at hc
  rcases hc with (hc | hc | hc) | hc | (hc | hc | hc) | hc
  · exact word_not_space c (hxw c hc)
  · subst hc; decide
  · exact word_not_space c (hop c hc)
  · subst hc; decide
  · exact plain_clean a hap c hc
  · subst hc; decide
  · exact plain_clean b hbp c hc
  · subst hc; decide

/-! ## The assignment of a sum or a product -/

theorem prefix_word_stop (name w : Str) (c : Char) (rest : Str)
    (hname : ∀ x ∈ name, isword x = true) (hw : ∀ x ∈ w, isword x = true)
    (hc : isword c = false) (hp : name ++ ['('] <+: w ++ c :: rest) : name = w ∧ c = '(' := by
  obtain ⟨t, ht⟩ := hp
  have h1 := takeWhile_append_stop isword name '(' t hname (by decide)
  have h2 := takeWhile_append_stop isword w c rest hw hc
  have ht2 : name ++ '(' :: t = w ++ c :: rest := by
    rw [← ht]; simp
  rw [ht2] at h1
  have e1 : w = name := h2.1.symm.trans h1.1
  have e2 : c :: rest = '(' :: t := h2.2.symm.trans h1.2
  simp only [List.cons.injEq] at e2
  exact ⟨e1.symm, e2.1⟩

theorem call_arguments_assign (name x rest : Str) (hname : ∀ c ∈ name, isword c = true)
    (hx : ∀ c ∈ x, isword c = true) : call_arguments name (x ++ '=' :: rest) = none := by
  unfold call_arguments
  rw [if_neg]
  intro h
  exact absurd (prefix_word_stop name x '=' rest hname hx (by decide) h.1).2 (by decide)

theorem call_arguments_other (name op args : Str) (hname : ∀ c ∈ name, isword c = true)
    (hop : ∀ c ∈ op, isword c = true) (hne : name ≠ op) :
    call_arguments name (call_text op args) = none := by
  unfold call_arguments
  rw [if_neg]
  intro h
  exact hne (prefix_word_stop name op '(' _ hname hop (by decide) h.1).1

theorem match_nullary_assign (name s : Str) (hname : ∀ c ∈ name, isword c = true)
    (hs : '=' ∈ s) : match_nullary name s = false := by
  have hn : '=' ∉ name := fun h => absurd (hname _ h) (by decide)
  unfold match_nullary
  simp only [decide_eq_false_iff_not, not_or]
  refine ⟨?_, ?_, ?_, ?_⟩ <;>
    (intro h; rw [h] at hs; revert hs; simp [hn])

theorem is_decimal_paren (value : Str) (h : '(' ∈ value) : is_decimal value = false := by
  rcases hd : is_decimal value with _ | _
  · rfl
  · exact absurd ((decimal_plain value hd).2 '(' h) (by decide)

theorem match_vardef_assign (x op rest : Str) (hx : ∀ c ∈ x, isword c = true) :
    match_vardef (x ++ '=' :: (op ++ '(' :: rest)) = none := by
  have hsplit := takeWhile_append_stop (fun c => decide (c ≠ '=')) x '=' (op ++ '(' :: rest)
    (fun c hc => by
      have := (plain_char c (word_plain c (hx c hc))).2.2.2.2.1
      simpa using this) (by simp)
  unfold match_vardef
  simp only [hsplit.1, hsplit.2]
  rw [if_neg]
  intro h
  rw [is_decimal_paren _ (by simp)] at h
  exact absurd h.2 (by decide)

theorem match_varop_assign (x op a b : Str) (hx : is_identifier x = true)
    (ha : is_decimal a = true) (hb : is_decimal b = true) :
    match_varop op (assign_op x op a b) = some (x, a, b) := by
  have hxw := identifier_word x hx
  have hsplit := takeWhile_append_stop (fun c => decide (c ≠ '=')) x '='
    (call_text op (a ++ ',' :: b))
    (fun c hc => by
      have := (plain_char c (word_plain c (hxw c hc))).2.2.2.2.1
      simpa using this) (by simp)
  have hsp : split_on ',' (a ++ ',' :: b) = [a, b] := by
    rw [split_on_append ',' a b (fun c hc => (plain_char c ((decimal_plain a ha).2 c hc)).2.2.1),
      split_on_none ',' b (fun c hc => (plain_char c ((decimal_plain b hb).2 c hc)).2.2.1)]
  unfold match_varop assign_op
  simp only [hsplit.1, hsplit.2]
  have hcall : call_arguments op (call_text op (a ++ ',' :: b)) = some (a ++ ',' :: b) :=
    call_arguments_of_call op _
  simp only [hcall, hsp]
  rw [if_pos ⟨hx, ha, hb⟩]

theorem match_varop_other (x op op1 args : Str) (hx : ∀ c ∈ x, isword c = true)
    (hop : ∀ c ∈ op, isword c = true) (hop1 : ∀ c ∈ op1, isword c = true) (hne : op1 ≠ op) :
    match_varop op1 (x ++ '=' :: call_text op args) = none := by
  have hsplit := takeWhile_append_stop (fun c => decide (c ≠ '=')) x '=' (call_text op args)
    (fun c hc => by
      have := (plain_char c (word_plain c (hx c hc))).2.2.2.2.1
      simpa using this) (by simp)
  unfold match_varop
  simp only [hsplit.1, hsplit.2, call_arguments_other op1 op args hop1 hop hne]

/-- The chain of expressions of `parse_line` on `x=op(a,b)`: none of the
expressions of the commands matches it, nor the plain assignment. -/
theorem assign_op_falls_through (x op a b : Str) (hx : is_identifier x = true) :
    match_unary "forward".toList (assign_op x op a b) = none ∧
    match_unary "turn".toList (assign_op x op a b) = none ∧
    match_unary "setrot".toList (assign_op x op a b) = none ∧
    match_binary "setpos".toList (assign_op x op a b) = none ∧
    match_binary "arc".toList (assign_op x op a b) = none ∧
    match_nullary "up".toList (assign_op x op a b) = false ∧
    match_nullary "down".toList (assign_op x op a b) = false ∧
    match_unary "setsize".toList (assign_op x op a b) = none ∧
    match_unary "setspeed".toList (assign_op x op a b) = none ∧
    match_ternary "setcolor".toList (assign_op x op a b) = none ∧
    match_vardef (assign_op x op a b) = none := by
  have hxw := identifier_word x hx
  have hca : ∀ name : Str, (∀ c ∈ name, isword c = true) →
      call_arguments name (assign_op x op a b) = none :=
    fun name hname => call_arguments_assign name x _ hname hxw
  have hmem : '=' ∈ assign_op x op a b := by simp [assign_op]
  refine ⟨?_, ?_, ?_, ?_, ?_, ?_, ?_, ?_, ?_, ?_, ?_⟩
  · simp only [match_unary, hca "forward".toList (by decide)]
  · simp only [match_unary, hca "turn".toList (by decide)]
  · simp only [match_unary, hca "setrot".toList (by decide)]
  · simp only [match_binary, hca "setpos".toList (by decide)]
  · simp only [match_binary, hca "arc".toList (by decide)]
  · exact match_nullary_assign _ _ (by decide) hmem
  · exact match_nullary_assign _ _ (by decide) hmem
  · simp only [match_unary, hca "setsize".toList (by decide)]
  · simp only [match_unary, hca "setspeed".toList (by decide)]
  · simp only [match_ternary, hca "setcolor".toList (by decide)]
  · exact match_vardef_assign x op _ hxw

/-- `x=add(a,b)` stores the sum under `x`. -/
theorem execute_command_add (H : Host) (x a b : Str) (va vb : Float32) (app : App)
    (hx : is_identifier x = true) (ha : is_decimal a = true) (hb : is_decimal b = true)
    (hva : stof_float a = Except.ok va) (hvb : stof_float b = Except.ok vb) :
    execute_command H (assign_op x "add".toList a b) app =
      Except.ok (true, { app with parser := { app.parser with
        vars := map_set x (va + vb) app.parser.vars } }) := by
  obtain ⟨h1, h2, h3, h4, h5, h6, h7, h8, h9, h10, h11⟩ :=
    assign_op_falls_through x "add".toList a b hx
  simp only [execute_command, h1, h2, h3, h4, h5, h6, h7, h8, h9, h10, h11,
    match_varop_assign x "add".toList a b hx ha hb, hva, hvb, Bool.false_eq_true, if_false]

/-- `x=mul(a,b)` stores the product under `x`. -/
theorem execute_command_mul (H : Host) (x a b : Str) (va vb : Float32) (app : App)
    (hx : is_identifier x = true) (ha : is_decimal a = true) (hb : is_decimal b = true)
    (hva : stof_float a = Except.ok va) (hvb : stof_float b = Except.ok vb) :
    execute_command H (assign_op x "mul".toList a b) app =
      Except.ok (true, { app with parser := { app.parser with
        vars := map_set x (va * vb) app.parser.vars } }) := by
  obtain ⟨h1, h2, h3, h4, h5, h6, h7, h8, h9, h10, h11⟩ :=
    assign_op_falls_through x "mul".toList a b hx
  have h12 : match_varop "add".toList (assign_op x "mul".toList a b) = none :=
    match_varop_other x "mul".toList "add".toList _ (identifier_word x hx) (by decide) (by decide)
      (by decide)
  simp only [execute_command, h1, h2, h3, h4, h5, h6, h7, h8, h9, h10, h11, h12,
    match_varop_assign x "mul".toList a b hx ha hb, hva, hvb, Bool.false_eq_true, if_false]

/-! ## One sub-command of a line -/

/-- One turn of the loop over the sub-commands of a line, for a sub-command that
is not the call of a user function: after the wait, the command is substituted
and carried out, and the loop goes on with the rest of the line. -/
theorem run_commands_step (H : Host) (pl : Str → App → Except Stop (List Str × App))
    (raw : Str) (rest acc : List Str) (a a1 : App)
    (hwait : wait_movement_done H a = Except.ok a1)
    (hcall : calls_no_function a1.parser (varname_to_value a1.parser raw)) :
    run_commands H pl (raw :: rest) acc a =
      match execute_command H (varname_to_value a1.parser raw) a1 with
      | Except.ok (true, a2) =>
        run_commands H pl rest (acc ++ [varname_to_value a1.parser raw]) a2
      | Except.ok (false, a2) => run_commands H pl rest acc a2
      | Except.error e => Except.error e := by
  simp only [run_commands, hwait]
  rcases hm : match_general_function (varname_to_value a1.parser raw) with _ | ⟨fn, arg⟩
  · rfl
  · simp only [hcall fn arg hm, Option.map_none']
    try rfl

theorem wait_idle (H : Host) (a : App) (h : a.parser.movement_done = true) :
    wait_movement_done H a = Except.ok a := by
  simp [wait_movement_done, h]

theorem forward_command_call (dtext : Str) :
    forward_command dtext = call_text "forward".toList dtext := by
  simp [forward_command, call_text, String.toList]

theorem calls_no_function_forward (p : Parser) (dtext : Str)
    (hfuncs : map_find "forward".toList p.funcs = none) :
    calls_no_function p (forward_command dtext) := by
  intro name argument hm
  have := match_general_function_name _ _ _ hm
  rw [forward_command_word] at this
  rw [this]
  exact hfuncs

theorem calls_no_function_assign (p : Parser) (x rest : Str) (hx : ∀ c ∈ x, isword c = true) :
    calls_no_function p (x ++ '=' :: rest) := by
  intro name argument hm
  have hname := match_general_function_name _ _ _ hm
  rw [(takeWhile_append_stop isword x '=' rest hx (by decide)).1] at hname
  unfold match_general_function at hm
  simp only [(takeWhile_append_stop isword x '=' rest hx (by decide)).1,
    call_arguments_assign x x rest hx hx] at hm
  exact absurd hm (by simp)

/-- The sub-command `forward(x)` when a finite `float` is stored under `x`:
`forward` is dispatched with the number that `std::stof` reads from its text. -/
theorem run_commands_forward_variable (H : Host)
    (pl : Str → App → Except Stop (List Str × App)) (x : Str) (n : Bool) (m d : ℚ)
    (acc : List Str) (a : App) (hx : is_identifier x = true)
    (hdone : a.parser.movement_done = true)
    (hv : map_find x a.parser.vars = some (Float32.finite n m))
    (hd : stof (to_string (Float32.finite n m)) = Except.ok d)
    (hfuncs : map_find "forward".toList a.parser.funcs = none) :
    run_commands H pl [forward_command x] acc a =
      Except.ok (acc ++ [forward_command (to_string (Float32.finite n m))],
        forward_dispatched H d a) := by
  have hsub : varname_to_value a.parser (forward_command x) =
      forward_command (to_string (Float32.finite n m)) := by
    rw [forward_command_call, forward_command_call]
    exact varname_to_value_variable a.parser _ x _ (by decide) hx hv
  rw [run_commands_step H pl _ _ _ a a (wait_idle H a hdone)
    (by rw [hsub]; exact calls_no_function_forward _ _ hfuncs), hsub]
  simp only [execute_command, match_unary_forward _ (to_string_number n m), hd, run_commands]
  rfl

/-! ## A sum or a product passed to `forward` -/

theorem execute_command_assign (H : Host) (x op a b : Str) (fa fb s : Float32) (app : App)
    (hop : (op = "add".toList ∧ s = fa + fb) ∨ (op = "mul".toList ∧ s = fa * fb))
    (hx : is_identifier x = true) (ha : is_decimal a = true) (hb : is_decimal b = true)
    (hfa : stof_float a = Except.ok fa) (hfb : stof_float b = Except.ok fb) :
    execute_command H (assign_op x op a b) app = Except.ok (true, with_variable x s app) := by
  rcases hop with ⟨h1, h2⟩ | ⟨h1, h2⟩
  · rw [h1, h2]
    exact execute_command_add H x a b fa fb app hx ha hb hfa hfb
  · rw [h1, h2]
    exact execute_command_mul H x a b fa fb app hx ha hb hfa hfb

theorem assign_op_chars (x op a b : Str) (hx : is_identifier x = true)
    (hop : ∀ c ∈ op, isword c = true) (ha : is_decimal a = true) (hb : is_decimal b = true) :
    ∀ c ∈ assign_op x op a b, c ≠ ';' ∧ c ≠ lbrace := by
  have hp : ∀ c : Char, is_plain c = true → c ≠ ';' ∧ c ≠ lbrace :=
    fun c h => ⟨(plain_char c h).2.2.2.1, (plain_char c h).2.2.2.2.2.2.1⟩
  intro c hc
  simp only [assign_op, call_text, List.mem_append, List.mem_cons, List.mem_singleton,
    List.mem_nil_iff, or_false] at hc
  rcases hc with hc | hc | hc | hc | (hc | hc | hc) | hc
  · exact hp c (word_plain c (identifier_word x hx c hc))
  · subst hc; decide
  · exact hp c (word_plain c (hop c hc))
  · subst hc; decide
  · exact hp c ((decimal_plain a ha).2 c hc)
  · subst hc; decide
  · exact hp c ((decimal_plain b hb).2 c hc)
  · subst hc; decide

theorem forward_command_plain (dtext : Str) (h : ∀ c ∈ dtext, is_plain c = true) :
    ∀ c ∈ forward_command dtext, c ≠ ';' ∧ c ≠ lbrace := by
  intro c hc
  simp only [forward_command, List.mem_append, List.mem_singleton] at hc
  rcases hc with (hc | hc) | hc
  · revert c; decide
  · exact ⟨(plain_char c (h c hc)).2.2.2.1, (plain_char c (h c hc)).2.2.2.2.2.2.1⟩
  · subst hc; decide

/-- The sum of two finite `float` values: the exact sum rounded to the nearest
`float`, a zero when the exact sum is zero. -/
theorem float_add_spec (n1 n2 : Bool) (m1 m2 : ℚ) :
    (Float32.finite n1 m1 + Float32.finite n2 m2).in_range ∧
    (signed n1 m1 + signed n2 m2 ≠ 0 →
      Float32.finite n1 m1 + Float32.finite n2 m2 =
        round_float (decide (signed n1 m1 + signed n2 m2 < 0)) |signed n1 m1 + signed n2 m2|) ∧
    (signed n1 m1 + signed n2 m2 = 0 →
      ∃ n, Float32.finite n1 m1 + Float32.finite n2 m2 = Float32.finite n 0) := by
  have hdef : Float32.finite n1 m1 + Float32.finite n2 m2 =
      if signed n1 m1 + signed n2 m2 = 0 then Float32.finite (n1 && n2) 0
      else round_float (decide (signed n1 m1 + signed n2 m2 < 0))
        |signed n1 m1 + signed n2 m2| := rfl
  rw [hdef]
  by_cases h0 : signed n1 m1 + signed n2 m2 = 0
  · rw [if_pos h0]
    refine ⟨?_, fun h => absurd h0 h, fun _ => ⟨_, rfl⟩⟩
    show (0 : ℚ) ≤ 0 ∧ (0 : ℚ) ≤ 2 ^ 128 - 2 ^ 104
    norm_num
  · rw [if_neg h0]
    exact ⟨round_float_in_range _ _ (abs_nonneg _), fun _ => rfl, fun h => absurd h h0⟩

/-- The product of two finite `float` values: the exact product rounded to the
nearest `float`, a zero when the exact product is zero. -/
theorem float_mul_spec (n1 n2 : Bool) (m1 m2 : ℚ) (h1 : 0 ≤ m1) (h2 : 0 ≤ m2) :
    (Float32.finite n1 m1 * Float32.finite n2 m2).in_range ∧
    (signed n1 m1 * signed n2 m2 ≠ 0 →
      Float32.finite n1 m1 * Float32.finite n2 m2 =
        round_float (decide (signed n1 m1 * signed n2 m2 < 0)) |signed n1 m1 * signed n2 m2|) ∧
    (signed n1 m1 * signed n2 m2 = 0 →
      ∃ n, Float32.finite n1 m1 * Float32.finite n2 m2 = Float32.finite n 0) := by
  have hdef : Float32.finite n1 m1 * Float32.finite n2 m2 = round_float (xor n1 n2) (m1 * m2) :=
    rfl
  have habs : |signed n1 m1 * signed n2 m2| = m1 * m2 := by
    rw [abs_mul, signed_abs n1 m1 h1, signed_abs n2 m2 h2]
  rw [hdef]
  refine ⟨round_float_in_range _ _ (mul_nonneg h1 h2), ?_, ?_⟩
  · intro hne
    rw [habs]
    have hm1 : 0 < m1 := by
      rcases h1.lt_or_eq with h | h
      · exact h
      · exfalso; apply hne; rw [← habs] at *; cases n1 <;> simp [signed, ← h]
    have hm2 : 0 < m2 := by
      rcases h2.lt_or_eq with h | h
      · exact h
      · exfalso; apply hne; cases n2 <;> simp [signed, ← h]
    have hp : 0 < m1 * m2 := mul_pos hm1 hm2
    congr 1
    cases n1 <;> cases n2 <;> simp [signed] <;> nlinarith
  · intro h0
    have hz : m1 * m2 = 0 := by rw [← habs, h0, abs_zero]
    rw [hz]
    unfold round_float
    rw [round_magnitude_zero, if_neg (by norm_num)]
    exact ⟨_, rfl⟩

/-- A `float` with at most six decimals is printed and read back as it is. -/
theorem stof_to_string_exact (n : Bool) (m : ℚ) (k : ℤ) (hk : m = |(k : ℚ)| / 10 ^ 6)
    (hfloat : round_magnitude m = m) :
    signed n (round_magnitude (((round_half_even (m * 10 ^ 6) : ℕ) : ℚ) / 10 ^ 6)) =
      signed n m := by
  have h1 : m * 10 ^ 6 = ((k.natAbs : ℕ) : ℚ) := by
    rw [hk, Nat.cast_natAbs]
    push_cast
    field_simp
  rw [h1, round_half_even_natCast, ← h1]
  have h2 : m * 10 ^ 6 / 10 ^ 6 = m := by field_simp
  rw [h2, hfloat]

/-- C11, counterexample.  On a fresh application the line
`x=add(8.1,8.2);forward(x)` stores under `x` the `float` sum of the `float`
values nearest to `8.1` and `8.2`, which is `16.2999992…`, returns the command
`forward(16.299999)` and dispatches `forward` with the `float` read from that
text, not with `8.1 + 8.2`.  The line `x=mul(a,a);forward(x)` with `a` the number
`10^20` stores an infinity under `x`; the text `forward(inf)` is no command and
nothing is dispatched. -/
theorem sum_reaches_forward_rounded :
    (parse_line host0 1 add_forward_line (App.new host0 [])).toOption.map
        (fun r => (r.1, map_find "x".toList r.2.parser.vars, r.2.turtle)) =
      some (["x=add(8.1,8.2)".toList, "forward(16.299999)".toList],
        some (Float32.finite false (4272947 / 262144)),
        forward host0 (4272947 / 262144) (TurtleControl.new host0)) ∧
    forward host0 (4272947 / 262144) (TurtleControl.new host0) ≠
      forward host0 (81 / 10 + 82 / 10) (TurtleControl.new host0) ∧
    (parse_line host0 1 mul_overflow_line (App.new host0 [])).toOption.map
        (fun r => (r.1, map_find "x".toList r.2.parser.vars, is_moving r.2.turtle)) =
      some (["x=mul(100000000000000000000,100000000000000000000)".toList],
        some (Float32.infinite false), false) := by
  refine ⟨by decide!, by decide!, by decide!⟩

/-- C11, amended.  Let `a` and `b` be decimal numbers of the grammar that
`std::stof` reads as the `float` values `fa` and `fb`, the numbers `va` and `vb`;
let `x` be an identifier, `s` the `float` sum `fa + fb` and `v` the exact sum
`va + vb` for `op = add`, the `float` product and the exact product for
`op = mul`.  Let `s` be finite: the sum or product does not overflow.  With the
parser not waiting, the keys of the variable store identifiers (or empty) and no
user function called `forward`: the text `std::to_string(s)` is read back by
`std::stof`, as a number `d`; the line `x=op(a,b);forward(x)` returns the two
commands, the second with the text of `s`, stores `s` under `x` and dispatches
`forward` with `d`; so do the line `x=op(a,b)` followed by the line `forward(x)`.
The value stored is `v` rounded to the nearest `float` (when `v` is not zero),
and the distance `d` is `v` itself when `v` is a `float` of at most six
decimals. -/
theorem assigned_value_reaches_forward (H : Host) (fuel : ℕ) (x op a b : Str)
    (fa fb s : Float32) (va vb v : ℚ) (negative : Bool) (magnitude : ℚ) (app : App)
    (hop : (op = "add".toList ∧ s = fa + fb ∧ v = va + vb) ∨
      (op = "mul".toList ∧ s = fa * fb ∧ v = va * vb))
    (hx : is_identifier x = true) (ha : is_decimal a = true) (hb : is_decimal b = true)
    (hfa : stof_float a = Except.ok fa) (hfb : stof_float b = Except.ok fb)
    (hva : stof a = Except.ok va) (hvb : stof b = Except.ok vb)
    (hs : s = Float32.finite negative magnitude)
    (hdone : app.parser.movement_done = true) (hkeys : vars_keys_ok app.parser.vars)
    (hfuncs : map_find "forward".toList app.parser.funcs = none) :
    ∃ d, stof (to_string s) = Except.ok d ∧
      parse_line H (fuel + 1) (assign_op x op a b ++ ';' :: forward_command x) app =
        Except.ok ([assign_op x op a b, forward_command (to_string s)],
          forward_dispatched H d (with_variable x s app)) ∧
      parse_line H (fuel + 1) (assign_op x op a b) app =
        Except.ok ([assign_op x op a b], with_variable x s app) ∧
      parse_line H (fuel + 1) (forward_command x) (with_variable x s app) =
        Except.ok ([forward_command (to_string s)],
          forward_dispatched H d (with_variable x s app)) ∧
      (v ≠ 0 → s = round_float (decide (v < 0)) |v|) ∧
      ∀ k : ℤ, v = k / 10 ^ 6 → round_magnitude |v| = |v| → d = v := by
  have hopw : ∀ c ∈ op, isword c = true := by
    rcases hop with ⟨h1, _⟩ | ⟨h1, _⟩ <;> (rw [h1]; decide)
  have hxw := identifier_word x hx
  have hxp : ∀ c ∈ x, is_plain c = true := fun c hc => word_plain c (hxw c hc)
  have hac := assign_op_chars x op a b hx hopw ha hb
  have hfc := forward_command_plain x hxp
  -- the two floats and their values
  have hfa1 : fa = Float32.finite (decide (a.head? = some '-')) |va| :=
    Except.ok.inj (hfa.symm.trans (stof_float_ok a va hva))
  have hfb1 : fb = Float32.finite (decide (b.head? = some '-')) |vb| :=
    Except.ok.inj (hfb.symm.trans (stof_float_ok b vb hvb))
  have hsa := stof_signed a va hva
  have hsb := stof_signed b vb hvb
  have hspec : s.in_range ∧ (v ≠ 0 → s = round_float (decide (v < 0)) |v|) ∧
      (v = 0 → ∃ n, s = Float32.finite n 0) := by
    rcases hop with ⟨_, h2, h3⟩ | ⟨_, h2, h3⟩
    · have := float_add_spec (decide (a.head? = some '-')) (decide (b.head? = some '-')) |va| |vb|
      rw [hsa, hsb, ← hfa1, ← hfb1, ← h2, ← h3] at this
      exact this
    · have := float_mul_spec (decide (a.head? = some '-')) (decide (b.head? = some '-')) |va| |vb|
        (abs_nonneg _) (abs_nonneg _)
      rw [hsa, hsb, ← hfa1, ← hfb1, ← h2, ← h3] at this
      exact this
  obtain ⟨hrange, hround, hzero⟩ := hspec
  have hd : stof (to_string s) = Except.ok (signed negative
      (round_magnitude (((round_half_even (magnitude * 10 ^ 6) : ℕ) : ℚ) / 10 ^ 6))) := by
    rw [hs] at hrange ⊢
    exact stof_to_string_in_range negative magnitude hrange
  have hassign_step : ∀ (pl : Str → App → Except Stop (List Str × App)) (rest : List Str),
      run_commands H pl (assign_op x op a b :: rest) [] app =
        run_commands H pl rest [assign_op x op a b] (with_variable x s app) := by
    intro pl rest
    have hsub := varname_to_value_assign_op app.parser x op a b hx hopw ha hb hkeys
    rw [run_commands_step H pl _ _ _ app app (wait_idle H app hdone)
      (by rw [hsub]; exact calls_no_function_assign _ x _ hxw), hsub,
      execute_command_assign H x op a b fa fb s app
        (by rcases hop with ⟨h1, h2, _⟩ | ⟨h1, h2, _⟩
            · exact Or.inl ⟨h1, h2⟩
            · exact Or.inr ⟨h1, h2⟩) hx ha hb hfa hfb]
    rfl
  have hforward : ∀ (pl : Str → App → Except Stop (List Str × App)) (acc : List Str),
      run_commands H pl [forward_command x] acc (with_variable x s app) =
        Except.ok (acc ++ [forward_command (to_string s)],
          forward_dispatched H (signed negative
            (round_magnitude (((round_half_even (magnitude * 10 ^ 6) : ℕ) : ℚ) / 10 ^ 6)))
            (with_variable x s app)) := by
    intro pl acc
    have hfind : map_find x (with_variable x s app).parser.vars =
        some (Float32.finite negative magnitude) := by
      rw [← hs]
      exact map_find_map_set x s app.parser.vars
    have := run_commands_forward_variable H pl x negative magnitude _ acc
      (with_variable x s app) hx hdone hfind (by rw [← hs]; exact hd) hfuncs
    rw [← hs] at this
    exact this
  have hassign_ne : assign_op x op a b ≠ [] := by simp [assign_op]
  refine ⟨_, hd, ?_, ?_, ?_, hround, ?_⟩
  · have hlines : getlines ';' (assign_op x op a b ++ ';' :: forward_command x) =
        [assign_op x op a b, forward_command x] :=
      getlines_pair ';' _ _ (fun c hc => (hac c hc).1) (forward_command_ne_nil x)
        (fun c hc => (hfc c hc).1)
    rw [parse_line_no_brace H fuel _ app (fun c hc => by
      rcases List.mem_append.mp hc with hc | hc
      · exact (hac c hc).2
      · rcases List.mem_cons.mp hc with hc | hc
        · subst hc; decide
        · exact (hfc c hc).2), hlines, hassign_step, hforward]
    rfl
  · rw [parse_line_no_brace H fuel _ app (fun c hc => (hac c hc).2),
      getlines_single ';' _ hassign_ne (fun c hc => (hac c hc).1), hassign_step]
    rfl
  · rw [parse_line_no_brace H fuel _ _ (fun c hc => (hfc c hc).2),
      getlines_single ';' _ (forward_command_ne_nil x) (fun c hc => (hfc c hc).1), hforward]
    rfl
  · intro k hk hfloat
    by_cases h0 : v = 0
    · obtain ⟨n, hn⟩ := hzero h0
      have hmag : magnitude = 0 := by
        rw [hs] at hn
        exact (Float32.finite.inj hn).2
      rw [hmag, h0, zero_mul, show round_half_even 0 = 0 from by decide!]
      simp only [Nat.cast_zero, zero_div, round_magnitude_zero]
      cases negative <;> simp [signed]
    · have hsv := hround h0
      rw [hs] at hsv
      unfold round_float at hsv
      split_ifs at hsv
      obtain ⟨hneg, hmag⟩ := Float32.finite.inj hsv
      rw [hfloat] at hmag
      have hkabs : magnitude = |(k : ℚ)| / 10 ^ 6 := by
        rw [hmag, hk, abs_div, abs_of_pos (by positivity : (0 : ℚ) < 10 ^ 6)]
      rw [stof_to_string_exact negative magnitude k hkabs
        (by rw [hmag]; exact hfloat), hneg, hmag]
      by_cases hv : v < 0
      · simp [signed, hv, abs_of_neg hv]
      · simp [signed, hv, abs_of_nonneg (not_lt.mp hv)]

theorem assigned_value_reaches_forward_witness :
    parse_line host0 (0 + 1)
        (assign_op "x".toList "add".toList "2".toList "3".toList ++
          ';' :: forward_command "x".toList) (App.new host0 []) =
      Except.ok ([assign_op "x".toList "add".toList "2".toList "3".toList,
          forward_command (to_string 5)],
        forward_dispatched host0 5 (with_variable "x".toList 5 (App.new host0 []))) := by
  obtain ⟨d, _, h1, _, _, _, hexact⟩ :=
    assigned_value_reaches_forward host0 0 "x".toList "add".toList "2".toList "3".toList 2 3 5
      2 3 5 false 5 (App.new host0 []) (Or.inl ⟨rfl, by decide!, by norm_num⟩) (by decide)
      (by decide) (by decide) (by decide!) (by decide!) (by decide!) (by decide!) (by decide!)
      (by decide!) (by intro kv hkv; simp [App.new, Parser.new] at hkv) (by decide!)
  have hd5 : d = 5 := hexact 5000000 (by norm_num) (by
    rw [show |(5 : ℚ)| = 5 from by norm_num]
    decide!)
  rw [hd5] at h1
  exact h1

/-! ## The outcome of one command -/

theorem unsigned_number_valid (r frac : Str) (h : is_unsigned_number r = true)
    (hfrac : (match r.dropWhile Char.isDigit with
      | '.' :: f => f.takeWhile Char.isDigit
      | _ => []) = frac) :
    ¬ (r.takeWhile Char.isDigit = [] ∧ frac = []) := by
  unfold is_unsigned_number at h
  rcases hdrop : r.dropWhile Char.isDigit with _ | ⟨c, fr⟩
  · simp only [hdrop, decide_eq_true_eq] at h
    intro h0
    have := List.takeWhile_append_dropWhile Char.isDigit r
    rw [hdrop, h0.1] at this
    exact h this.symm
  · simp only [hdrop, Bool.and_eq_true, decide_eq_true_eq, List.all_eq_true] at h
    obtain ⟨⟨hc, hne⟩, hall⟩ := h
    subst hc
    rw [hdrop] at hfrac
    have hfull : fr.takeWhile Char.isDigit = fr := by
      rw [List.takeWhile_eq_self_iff]; exact hall
    intro h0
    rw [← hfrac] at h0
    exact hne (hfull.symm.trans h0.2)

theorem stof_outcome_body (s body frac : Str)
    (hbody : (match s with
      | '-' :: r => r
      | '+' :: r => r
      | _ => s) = body)
    (hfrac : (match body.dropWhile Char.isDigit with
      | '.' :: f => f.takeWhile Char.isDigit
      | _ => []) = frac)
    (hvalid : ¬ (body.takeWhile Char.isDigit = [] ∧ frac = [])) :
    (∃ v, stof s = Except.ok v) ∨ stof s = Except.error (Stop.throws Exception.out_of_range) := by
  rw [stof_body s body frac hbody hfrac, if_neg hvalid]
  simp only
  split_ifs <;> first | exact Or.inr rfl | exact Or.inl ⟨_, rfl⟩

theorem strip_sign_other (s : Str) :
    (∀ r, s = '-' :: r → False) → (∀ r, s = '+' :: r → False) →
    (match s with
      | '-' :: r => r
      | '+' :: r => r
      | _ => s) = s := by
  intro h1 h2
  split
  · exact absurd rfl (h1 _)
  · exact absurd rfl (h2 _)
  · rfl

/-- On a number of the grammar `std::stof` returns a value or throws
`out_of_range`. -/
theorem stof_outcome (s : Str) (h : is_signed_number s = true) :
    (∃ v, stof s = Except.ok v) ∨ stof s = Except.error (Stop.throws Exception.out_of_range) := by
  unfold is_signed_number at h
  split at h
  · exact stof_outcome_body _ _ _ rfl rfl (unsigned_number_valid _ _ h rfl)
  · exact stof_outcome_body _ _ _ rfl rfl (unsigned_number_valid _ _ h rfl)
  · rename_i h1 h2
    exact stof_outcome_body s s _ (strip_sign_other s h1 h2) rfl
      (unsigned_number_valid _ _ h rfl)

theorem stof_number (s : Str) (h : is_number s = true) :
    (∃ v, stof s = Except.ok v) ∨ stof s = Except.error (Stop.throws Exception.out_of_range) :=
  stof_outcome s (number_signed s h)

theorem stof_float_outcome (s : Str) (h : is_signed_number s = true) :
    (∃ v, stof_float s = Except.ok v) ∨
      stof_float s = Except.error (Stop.throws Exception.out_of_range) := by
  rcases stof_outcome s h with ⟨v, hv⟩ | hv
  · exact Or.inl ⟨_, stof_float_ok s v hv⟩
  · exact Or.inr (stof_float_error s _ hv)

theorem stof_float_number (s : Str) (h : is_number s = true) :
    (∃ v, stof_float s = Except.ok v) ∨
      stof_float s = Except.error (Stop.throws Exception.out_of_range) :=
  stof_float_outcome s (number_signed s h)

theorem color_channel_outcome (s : Str) (h : is_number s = true) :
    (∃ v, color_channel s = Except.ok v) ∨
      color_channel s = Except.error (Stop.throws Exception.out_of_range) := by
  unfold color_channel
  rcases stof_number s h with ⟨v, hv⟩ | hv
  · rw [hv]; exact Or.inl ⟨_, rfl⟩
  · rw [hv]; exact Or.inr rfl

theorem match_unary_number (name s t : Str) (h : match_unary name s = some t) :
    is_number t = true := by
  unfold match_unary at h
  split at h
  · split_ifs at h with h1
    simp only [Option.some.injEq] at h
    rw [← h]; exact h1
  · exact absurd h (by simp)

theorem match_binary_number (name s t u : Str) (h : match_binary name s = some (t, u)) :
    is_number t = true ∧ is_number u = true := by
  unfold match_binary at h
  split at h
  · split at h
    · split_ifs at h with h1
      simp only [Option.some.injEq, Prod.mk.injEq] at h
      rw [← h.1, ← h.2]; exact h1
    · exact absurd h (by simp)
  · exact absurd h (by simp)

theorem match_ternary_number (name s t u w : Str)
    (h : match_ternary name s = some (t, u, w)) :
    is_number t = true ∧ is_number u = true ∧ is_number w = true := by
  unfold match_ternary at h
  split at h
  · split at h
    · split_ifs at h with h1
      simp only [Option.some.injEq, Prod.mk.injEq] at h
      rw [← h.1, ← h.2.1, ← h.2.2]; exact h1
    · exact absurd h (by simp)
  · exact absurd h (by simp)

theorem match_vardef_number (s name value : Str) (h : match_vardef s = some (name, value)) :
    is_number value = true := by
  unfold match_vardef at h
  split at h
  · simp only at h
    split_ifs at h with h1
    simp only [Option.some.injEq, Prod.mk.injEq] at h
    rw [← h.2]; exact decimal_number _ h1.2
  · exact absurd h (by simp)

theorem match_varop_number (op s name t u : Str) (h : match_varop op s = some (name, t, u)) :
    is_number t = true ∧ is_number u = true := by
  unfold match_varop at h
  split at h
  · split at h
    · split at h
      · simp only at h
        split_ifs at h with h1
        simp only [Option.some.injEq, Prod.mk.injEq] at h
        rw [← h.2.1, ← h.2.2]
        exact ⟨decimal_number _ h1.2.1, decimal_number _ h1.2.2⟩
      · exact absurd h (by simp)
    · exact absurd h (by simp)
  · exact absurd h (by simp)

/-- What the chain of expressions does with a command: a command that matches
none of them is left out and changes nothing; a command that matches one is
carried out, unless `std::stof` throws `out_of_range` on one of its numbers. -/
theorem execute_command_outcome (H : Host) (command : Str) (a : App) :
    (matches_rule command = false ∧ execute_command H command a = Except.ok (false, a)) ∨
    (matches_rule command = true ∧
      ((∃ a2, execute_command H command a = Except.ok (true, a2)) ∨
        execute_command H command a = Except.error (Stop.throws Exception.out_of_range))) := by
  rcases h1 : match_unary "forward".toList command with _ | s
  swap
  · refine Or.inr ⟨by unfold matches_rule; rw [h1]; simp, ?_⟩
    rcases stof_number s (match_unary_number _ _ _ h1) with ⟨v, hv⟩ | hv
    · left; simp only [execute_command, h1, hv, Bool.false_eq_true, if_false]; exact ⟨_, rfl⟩
    · right; simp only [execute_command, h1, hv, Bool.false_eq_true, if_false]
  rcases h2 : match_unary "turn".toList command with _ | s
  swap
  · refine Or.inr ⟨by unfold matches_rule; rw [h2]; simp, ?_⟩
    rcases stof_number s (match_unary_number _ _ _ h2) with ⟨v, hv⟩ | hv
    · left; simp only [execute_command, h1, h2, hv, Bool.false_eq_true, if_false]; exact ⟨_, rfl⟩
    · right; simp only [execute_command, h1, h2, hv, Bool.false_eq_true, if_false]
  rcases h3 : match_unary "setrot".toList command with _ | s
  swap
  · refine Or.inr ⟨by unfold matches_rule; rw [h3]; simp, ?_⟩
    rcases stof_number s (match_unary_number _ _ _ h3) with ⟨v, hv⟩ | hv
    · left; simp only [execute_command, h1, h2, h3, hv, Bool.false_eq_true, if_false]; exact ⟨_, rfl⟩
    · right; simp only [execute_command, h1, h2, h3, hv, Bool.false_eq_true, if_false]
  rcases h4 : match_binary "setpos".toList command with _ | ⟨sx, sy⟩
  swap
  · refine Or.inr ⟨by unfold matches_rule; rw [h4]; simp, ?_⟩
    obtain ⟨n1, n2⟩ := match_binary_number _ _ _ _ h4
    rcases stof_number sx n1 with ⟨v, hv⟩ | hv <;> rcases stof_number sy n2 with ⟨w, hw⟩ | hw
    · left; simp only [execute_command, h1, h2, h3, h4, hv, hw, Bool.false_eq_true, if_false]; exact ⟨_, rfl⟩
    · right; simp only [execute_command, h1, h2, h3, h4, hv, hw, Bool.false_eq_true, if_false]
    · right; simp only [execute_command, h1, h2, h3, h4, hv, hw, Bool.false_eq_true, if_false]
    · right; simp only [execute_command, h1, h2, h3, h4, hv, hw, Bool.false_eq_true, if_false]
  rcases h5 : match_binary "arc".toList command with _ | ⟨sx, sy⟩
  swap
  · refine Or.inr ⟨by unfold matches_rule; rw [h5]; simp, ?_⟩
    obtain ⟨n1, n2⟩ := match_binary_number _ _ _ _ h5
    rcases stof_number sx n1 with ⟨v, hv⟩ | hv <;> rcases stof_number sy n2 with ⟨w, hw⟩ | hw
    · left; simp only [execute_command, h1, h2, h3, h4, h5, hv, hw, Bool.false_eq_true, if_false]; exact ⟨_, rfl⟩
    · right; simp only [execute_command, h1, h2, h3, h4, h5, hv, hw, Bool.false_eq_true, if_false]
    · right; simp only [execute_command, h1, h2, h3, h4, h5, hv, hw, Bool.false_eq_true, if_false]
    · right; simp only [execute_command, h1, h2, h3, h4, h5, hv, hw, Bool.false_eq_true, if_false]
  rcases h6 : match_nullary "up".toList command with _ | _
  swap
  · refine Or.inr ⟨by unfold matches_rule; rw [h6]; simp, Or.inl ?_⟩
    simp only [execute_command, h1, h2, h3, h4, h5, h6, Bool.false_eq_true, if_false, if_true]; exact ⟨_, rfl⟩
  rcases h7 : match_nullary "down".toList command with _ | _
  swap
  · refine Or.inr ⟨by unfold matches_rule; rw [h7]; simp, Or.inl ?_⟩
    simp only [execute_command, h1, h2, h3, h4, h5, h6, h7, Bool.false_eq_true, if_false, if_true]; exact ⟨_, rfl⟩
  rcases h8 : match_unary "setsize".toList command with _ | s
  swap
  · refine Or.inr ⟨by unfold matches_rule; rw [h8]; simp, ?_⟩
    rcases stof_number s (match_unary_number _ _ _ h8) with ⟨v, hv⟩ | hv
    · left; simp only [execute_command, h1, h2, h3, h4, h5, h6, h7, h8, hv, Bool.false_eq_true, if_false]; exact ⟨_, rfl⟩
    · right; simp only [execute_command, h1, h2, h3, h4, h5, h6, h7, h8, hv, Bool.false_eq_true, if_false]
  rcases h9 : match_unary "setspeed".toList command with _ | s
  swap
  · refine Or.inr ⟨by unfold matches_rule; rw [h9]; simp, ?_⟩
    rcases stof_number s (match_unary_number _ _ _ h9) with ⟨v, hv⟩ | hv
    · left; simp only [execute_command, h1, h2, h3, h4, h5, h6, h7, h8, h9, hv, Bool.false_eq_true, if_false]; exact ⟨_, rfl⟩
    · right; simp only [execute_command, h1, h2, h3, h4, h5, h6, h7, h8, h9, hv, Bool.false_eq_true, if_false]
  rcases h10 : match_ternary "setcolor".toList command with _ | ⟨sr, sg, sb⟩
  swap
  · refine Or.inr ⟨by unfold matches_rule; rw [h10]; simp, ?_⟩
    obtain ⟨n1, n2, n3⟩ := match_ternary_number _ _ _ _ _ h10
    rcases color_channel_outcome sr n1 with ⟨v, hv⟩ | hv <;>
      rcases color_channel_outcome sg n2 with ⟨w, hw⟩ | hw <;>
      rcases color_channel_outcome sb n3 with ⟨z, hz⟩ | hz
    · left; simp only [execute_command, h1, h2, h3, h4, h5, h6, h7, h8, h9, h10, hv, hw, hz, Bool.false_eq_true, if_false]; exact ⟨_, rfl⟩
    · right; simp only [execute_command, h1, h2, h3, h4, h5, h6, h7, h8, h9, h10, hv, hw, hz, Bool.false_eq_true, if_false]
    · right; simp only [execute_command, h1, h2, h3, h4, h5, h6, h7, h8, h9, h10, hv, hw, hz, Bool.false_eq_true, if_false]
    · right; simp only [execute_command, h1, h2, h3, h4, h5, h6, h7, h8, h9, h10, hv, hw, hz, Bool.false_eq_true, if_false]
    · right; simp only [execute_command, h1, h2, h3, h4, h5, h6, h7, h8, h9, h10, hv, hw, hz, Bool.false_eq_true, if_false]
    · right; simp only [execute_command, h1, h2, h3, h4, h5, h6, h7, h8, h9, h10, hv, hw, hz, Bool.false_eq_true, if_false]
    · right; simp only [execute_command, h1, h2, h3, h4, h5, h6, h7, h8, h9, h10, hv, hw, hz, Bool.false_eq_true, if_false]
    · right; simp only [execute_command, h1, h2, h3, h4, h5, h6, h7, h8, h9, h10, hv, hw, hz, Bool.false_eq_true, if_false]
  rcases h11 : match_vardef command with _ | ⟨var_name, sv⟩
  swap
  · refine Or.inr ⟨by unfold matches_rule; rw [h11]; simp, ?_⟩
    rcases stof_float_number sv (match_vardef_number _ _ _ h11) with ⟨v, hv⟩ | hv
    · left; simp only [execute_command, h1, h2, h3, h4, h5, h6, h7, h8, h9, h10, h11, hv, Bool.false_eq_true, if_false]; exact ⟨_, rfl⟩
    · right; simp only [execute_command, h1, h2, h3, h4, h5, h6, h7, h8, h9, h10, h11, hv, Bool.false_eq_true, if_false]
  rcases h12 : match_varop "add".toList command with _ | ⟨var_name, s1, s2⟩
  swap
  · refine Or.inr ⟨by unfold matches_rule; rw [h12]; simp, ?_⟩
    obtain ⟨n1, n2⟩ := match_varop_number _ _ _ _ _ h12
    rcases stof_float_number s1 n1 with ⟨v, hv⟩ | hv <;> rcases stof_float_number s2 n2 with ⟨w, hw⟩ | hw
    · left; simp only [execute_command, h1, h2, h3, h4, h5, h6, h7, h8, h9, h10, h11, h12, hv, hw, Bool.false_eq_true, if_false]; exact ⟨_, rfl⟩
    · right; simp only [execute_command, h1, h2, h3, h4, h5, h6, h7, h8, h9, h10, h11, h12, hv, hw, Bool.false_eq_true, if_false]
    · right; simp only [execute_command, h1, h2, h3, h4, h5, h6, h7, h8, h9, h10, h11, h12, hv, hw, Bool.false_eq_true, if_false]
    · right; simp only [execute_command, h1, h2, h3, h4, h5, h6, h7, h8, h9, h10, h11, h12, hv, hw, Bool.false_eq_true, if_false]
  rcases h13 : match_varop "mul".toList command with _ | ⟨var_name, s1, s2⟩
  swap
  · refine Or.inr ⟨by unfold matches_rule; rw [h13]; simp, ?_⟩
    obtain ⟨n1, n2⟩ := match_varop_number _ _ _ _ _ h13
    rcases stof_float_number s1 n1 with ⟨v, hv⟩ | hv <;> rcases stof_float_number s2 n2 with ⟨w, hw⟩ | hw
    · left; simp only [execute_command, h1, h2, h3, h4, h5, h6, h7, h8, h9, h10, h11, h12, h13, hv, hw, Bool.false_eq_true, if_false]; exact ⟨_, rfl⟩
    · right; simp only [execute_command, h1, h2, h3, h4, h5, h6, h7, h8, h9, h10, h11, h12, h13, hv, hw, Bool.false_eq_true, if_false]
    · right; simp only [execute_command, h1, h2, h3, h4, h5, h6, h7, h8, h9, h10, h11, h12, h13, hv, hw, Bool.false_eq_true, if_false]
    · right; simp only [execute_command, h1, h2, h3, h4, h5, h6, h7, h8, h9, h10, h11, h12, h13, hv, hw, Bool.false_eq_true, if_false]
  refine Or.inl ⟨by unfold matches_rule; rw [h1, h2, h3, h4, h5, h6, h7, h8, h9, h10, h11, h12, h13]; rfl, ?_⟩
  simp only [execute_command, h1, h2, h3, h4, h5, h6, h7, h8, h9, h10, h11, h12, h13, Bool.false_eq_true, if_false]

/-! ## The sub-commands of a line are handled one by one -/

theorem throws_only_ok {α : Type} (x : α) :
    throws_only_out_of_range (Except.ok x : Except Stop α) := by
  intro e h
  exact absurd h (by simp)

theorem throws_only_error {α : Type} (s : Stop)
    (h : ∀ e, s = Stop.throws e → e = Exception.out_of_range) :
    throws_only_out_of_range (Except.error s : Except Stop α) := by
  intro e he
  exact h e (Except.error.inj he)

theorem throws_only_cast {α β : Type} (s : Stop)
    (h : throws_only_out_of_range (Except.error s : Except Stop α)) :
    throws_only_out_of_range (Except.error s : Except Stop β) := by
  intro e he
  exact h e (by rw [Except.error.inj he])

theorem wait_throws_only (H : Host) (a : App) :
    throws_only_out_of_range (wait_movement_done H a) := by
  unfold wait_movement_done
  by_cases h1 : a.parser.movement_done = true
  · rw [if_pos h1]; exact throws_only_ok _
  · rw [if_neg h1]
    by_cases h2 : is_moving a.turtle = true
    · rw [if_pos h2]
      simp only
      split_ifs
      · exact throws_only_ok _
      · exact throws_only_error _ (fun e h => by cases h)
    · rw [if_neg h2]
      exact throws_only_error _ (fun e h => by cases h)

theorem run_lines_throws_only (pl : Str → App → Except Stop (List Str × App))
    (hpl : ∀ s a, throws_only_out_of_range (pl s a)) (lines : List Str) :
    ∀ acc a, throws_only_out_of_range (run_lines pl lines acc a) := by
  induction lines with
  | nil => intro acc a; exact throws_only_ok _
  | cons line rest ih =>
    intro acc a
    rw [run_lines]
    have hsrc := hpl line a
    rcases h : pl line a with e | ⟨cmds, a1⟩
    · rw [h] at hsrc
      exact throws_only_cast e hsrc
    · exact ih _ _

theorem run_loop_throws_only (pl : Str → App → Except Stop (List Str × App))
    (hpl : ∀ s a, throws_only_out_of_range (pl s a)) (body : Str) (count : ℕ) :
    ∀ acc a, throws_only_out_of_range (run_loop pl count body acc a) := by
  induction count with
  | zero => intro acc a; exact throws_only_ok _
  | succ count ih =>
    intro acc a
    rw [run_loop]
    have hsrc := run_lines_throws_only pl hpl (getlines '\n' body) acc a
    rcases h : run_lines pl (getlines '\n' body) acc a with e | ⟨acc1, a1⟩
    · rw [h] at hsrc
      exact throws_only_cast e hsrc
    · exact ih _ _

theorem match_general_function_argument (s name argument : Str)
    (h : match_general_function s = some (name, argument)) :
    argument = [] ∨ is_signed_number argument = true := by
  unfold match_general_function at h
  simp only at h
  split at h
  · split_ifs at h with h1
    simp only [Option.some.injEq, Prod.mk.injEq] at h
    rw [← h.2]
    exact h1.2
  · exact absurd h (by simp)

theorem call_function_throws_only (pl : Str → App → Except Stop (List Str × App))
    (hpl : ∀ s a, throws_only_out_of_range (pl s a)) (function_name argument body : Str)
    (a : App) (harg : argument = [] ∨ is_signed_number argument = true) :
    throws_only_out_of_range (call_function pl function_name argument body a) := by
  have hrun : ∀ a1 : App, throws_only_out_of_range
      (match run_lines pl (getlines '\n' body) [] a1 with
        | Except.ok r => (Except.ok r.2 : Except Stop App)
        | Except.error e => Except.error e) := by
    intro a1
    have hsrc := run_lines_throws_only pl hpl (getlines '\n' body) [] a1
    rcases h : run_lines pl (getlines '\n' body) [] a1 with e | r
    · rw [h] at hsrc
      exact throws_only_cast e hsrc
    · exact throws_only_ok _
  unfold call_function
  by_cases hne : argument = []
  · simp only [hne, ne_eq, not_true_eq_false, if_false]
    exact hrun a
  · have hs : is_signed_number argument = true := harg.resolve_left hne
    simp only [ne_eq, hne, not_false_eq_true, if_true]
    rcases stof_float_outcome argument hs with ⟨v, hv⟩ | hv
    · simp only [hv]
      exact hrun _
    · simp only [hv]
      exact throws_only_error _ (fun e h => by cases h; rfl)

theorem execute_command_throws_only (H : Host) (command : Str) (a : App) :
    throws_only_out_of_range (execute_command H command a) := by
  rcases execute_command_outcome H command a with ⟨_, h⟩ | ⟨_, ⟨a2, h⟩ | h⟩
  · rw [h]; exact throws_only_ok _
  · rw [h]; exact throws_only_ok _
  · rw [h]; exact throws_only_error _ (fun e h => by cases h; rfl)

theorem run_commands_throws_only (H : Host) (pl : Str → App → Except Stop (List Str × App))
    (hpl : ∀ s a, throws_only_out_of_range (pl s a)) (raws : List Str) :
    ∀ acc a, throws_only_out_of_range (run_commands H pl raws acc a) := by
  induction raws with
  | nil => intro acc a; exact throws_only_ok _
  | cons raw rest ih =>
    intro acc a
    rw [run_commands]
    have hwsrc := wait_throws_only H a
    rcases hw : wait_movement_done H a with e | a1
    · rw [hw] at hwsrc
      exact throws_only_cast e hwsrc
    · simp only
      have hexec : throws_only_out_of_range
          (match execute_command H (varname_to_value a1.parser raw) a1 with
            | Except.ok (true, a2) =>
              run_commands H pl rest (acc ++ [varname_to_value a1.parser raw]) a2
            | Except.ok (false, a2) => run_commands H pl rest acc a2
            | Except.error e => Except.error e) := by
        have hsrc := execute_command_throws_only H (varname_to_value a1.parser raw) a1
        rcases he : execute_command H (varname_to_value a1.parser raw) a1 with e | ⟨m, a2⟩
        · rw [he] at hsrc
          exact throws_only_cast e hsrc
        · cases m
          · exact ih _ _
          · exact ih _ _
      rcases hm : match_general_function (varname_to_value a1.parser raw) with _ | ⟨fn, arg⟩
      · exact hexec
      · simp only
        rcases hf : map_find fn a1.parser.funcs with _ | fbody
        · exact hexec
        · simp only [Option.map_some']
          have hsrc := call_function_throws_only pl hpl fn arg fbody a1
            (match_general_function_argument _ _ _ hm)
          rcases hc : call_function pl fn arg fbody a1 with e | a2
          · rw [hc] at hsrc
            exact throws_only_cast e hsrc
          · exact ih _ _

theorem match_cli_loop_count (s count body : Str) (h : match_cli_loop s = some (count, body)) :
    count ≠ [] ∧ ∀ c ∈ count, c.isDigit = true := by
  unfold match_cli_loop at h
  split_ifs at h with hp
  simp only at h
  split at h
  · split_ifs at h with h1
    simp only [Option.some.injEq, Prod.mk.injEq] at h
    rw [← h.1]
    exact ⟨h1.1, fun c hc => List.mem_takeWhile_imp hc⟩
  · exact absurd h (by simp)

theorem stoi_outcome (count : Str) (hne : count ≠ []) (hd : ∀ c ∈ count, c.isDigit = true) :
    (∃ n, stoi count = Except.ok n) ∨
      stoi count = Except.error (Stop.throws Exception.out_of_range) := by
  have hfull : count.takeWhile Char.isDigit = count := by
    rw [List.takeWhile_eq_self_iff]; exact hd
  unfold stoi
  simp only [hfull, hne, if_false]
  split_ifs
  · exact Or.inr rfl
  · exact Or.inl ⟨_, rfl⟩

theorem parse_line_throws_only (H : Host) (fuel : ℕ) :
    ∀ input a, throws_only_out_of_range (parse_line H fuel input a) := by
  induction fuel with
  | zero =>
    intro input a
    rw [parse_line]
    exact throws_only_error _ (fun e h => by cases h)
  | succ fuel ih =>
    intro input a
    rw [parse_line]
    rcases hm : match_cli_loop (remove_whitespace (first_line input)) with _ | ⟨count, body⟩
    · exact run_commands_throws_only H _ ih _ _ _
    · simp only
      obtain ⟨hne, hd⟩ := match_cli_loop_count _ _ _ hm
      rcases stoi_outcome count hne hd with ⟨n, hn⟩ | hn
      · simp only [hn]
        exact run_loop_throws_only _ ih _ _ _ _
      · simp only [hn]
        exact throws_only_error _ (fun e h => by cases h; rfl)

/-- C13, counterexample.  `parse_line` raises `std::out_of_range` on the inline
loop `LOOP2147483648{up}` (from `std::stoi`) and on `forward(99…9)` with forty
digits (from `std::stof`). -/
theorem parse_line_raises_out_of_range :
    parse_line host0 1 loop_beyond_int_max (App.new host0 []) =
        Except.error (Stop.throws Exception.out_of_range) ∧
      parse_line host0 1 (forward_command forty_nines) (App.new host0 []) =
        Except.error (Stop.throws Exception.out_of_range) := by
  decide!

/-- C13, amended.  For every input and every state of the interpreter and the
turtle, an exception that leaves `parse_line` is `std::out_of_range`, raised by
`std::stoi` on an inline loop count above `INT_MAX` or by `std::stof` on a number
outside the range of `float`: the expressions of the grammar let no text reach
these functions on which they raise `std::invalid_argument`. -/
theorem parse_line_raises_only_out_of_range (H : Host) (fuel : ℕ) (input : Str) (a : App)
    (e : Exception) (h : parse_line H fuel input a = Except.error (Stop.throws e)) :
    e = Exception.out_of_range :=
  parse_line_throws_only H fuel input a e h

theorem parse_line_raises_only_out_of_range_witness :
    parse_line host0 1 (forward_command (List.replicate 39 '9')) (App.new host0 []) =
        Except.error (Stop.throws Exception.out_of_range) ∧
      Exception.out_of_range = Exception.out_of_range :=
  ⟨by decide!, parse_line_raises_only_out_of_range host0 1
    (forward_command (List.replicate 39 '9')) (App.new host0 []) Exception.out_of_range
    (by decide!)⟩

/-! ## The inline loop and successive calls of `parse_line` -/

theorem getlines_nil (delim : Char) : getlines delim [] = [] := by
  simp [getlines, split_on]

theorem parse_line_nil (H : Host) (fuel : ℕ) (a : App) :
    parse_line H (fuel + 1) [] a = Except.ok ([], a) := by
  have h : match_cli_loop (remove_whitespace (first_line [])) = none := by decide
  rw [parse_line_commands H fuel [] a h, getlines_nil, run_commands]

/-- `run_loop` on a body of one line, or none, is a sequence of calls of
`parse_line` on the body. -/
theorem run_loop_successive (H : Host) (fuel : ℕ) (body : Str) (hline : ∀ c ∈ body, c ≠ '\n')
    (n : ℕ) :
    ∀ acc a, run_loop (parse_line H (fuel + 1)) n body acc a =
      successive_calls (parse_line H (fuel + 1)) n body acc a := by
  induction n with
  | zero => intro acc a; rfl
  | succ n ih =>
    intro acc a
    rw [run_loop, successive_calls]
    by_cases hb : body = []
    · subst hb
      simp only [getlines_nil, run_lines, parse_line_nil, List.append_nil]
      exact ih acc a
    · rw [getlines_single '\n' body hb hline]
      simp only [run_lines]
      rcases h : parse_line H (fuel + 1) body a with e | ⟨cmds, a1⟩
      · rfl
      · exact ih _ _

theorem parser_after_dispatch (H : Host) (op : TurtleControl → TurtleControl) (a : App) :
    (dispatch H op a).parser = a.parser ∨ (dispatch H op a).parser = animation_done a.parser := by
  unfold dispatch deliver_completions
  simp only
  split_ifs <;> first | exact Or.inl rfl | exact Or.inr rfl

theorem parse_line_up (a : App) (hdone : a.parser.movement_done = true)
    (hfuncs : a.parser.funcs = []) :
    parse_line host0 1 "up".toList a =
      Except.ok (["up".toList], dispatch host0 (set_pen_down false) a) := by
  have hsub : varname_to_value a.parser "up".toList = "up".toList := rfl
  rw [parse_line_no_brace host0 0 _ a (by decide),
    getlines_single ';' "up".toList (by decide) (by decide),
    run_commands_step host0 _ _ _ _ a a (wait_idle host0 a hdone)
      (by intro name argument _; rw [hfuncs]; rfl), hsub]
  rfl

theorem successive_up (n : ℕ) :
    ∀ acc a, a.parser.movement_done = true → a.parser.funcs = [] →
      ∃ r, successive_calls (parse_line host0 1) n "up".toList acc a = Except.ok r := by
  induction n with
  | zero => intro acc a _ _; exact ⟨_, rfl⟩
  | succ n ih =>
    intro acc a hdone hfuncs
    rw [successive_calls, parse_line_up a hdone hfuncs]
    apply ih
    · rcases parser_after_dispatch host0 (set_pen_down false) a with h | h
      · rw [h]; exact hdone
      · rw [h]; rfl
    · rcases parser_after_dispatch host0 (set_pen_down false) a with h | h
      · rw [h]; exact hfuncs
      · rw [h]; exact hfuncs

/-- C14, counterexample.  The line `LOOP2147483648{up}` raises
`std::out_of_range` in `std::stoi`, while `2147483648` successive calls of
`parse_line` on `up` return. -/
theorem loop_count_beyond_int_max :
    parse_line host0 2 loop_beyond_int_max (App.new host0 []) =
        Except.error (Stop.throws Exception.out_of_range) ∧
      ∃ r, successive_calls (parse_line host0 1) 2147483648 "up".toList [] (App.new host0 []) =
        Except.ok r :=
  ⟨by decide!, successive_up 2147483648 [] (App.new host0 []) rfl rfl⟩

/-- C14, amended.  Let the line be `LOOPn{b}` once its whitespace is removed, with
the count written in digits that `std::stoi` reads as `n`, so `n ≤ 2147483647`.
Then `parse_line` on the line returns what `n` successive calls of `parse_line` on
`b` return, the lists appended, and leaves the variable store and the turtle as
these calls leave them; it raises or waits for ever where they do.  The body is
passed whole, with its semicolons; for `n = 0` nothing is executed and the list
is empty.  The fuel counts the depth of the calls only: the call on the line has
one level more than the calls on the body. -/
theorem inline_loop_is_successive_calls (H : Host) (fuel : ℕ) (input ntext body : Str) (n : ℕ)
    (a : App)
    (hinput : remove_whitespace (first_line input) = inline_loop ntext body)
    (hntext : ntext ≠ []) (hdigits : ∀ c ∈ ntext, c.isDigit = true)
    (hn : stoi ntext = Except.ok (n : ℤ)) :
    parse_line H (fuel + 2) input a = successive_calls (parse_line H (fuel + 1)) n body [] a ∧
      successive_calls (parse_line H (fuel + 1)) 0 body [] a = Except.ok ([], a) := by
  have hline : ∀ c ∈ body, c ≠ '\n' := by
    intro c hc
    have hmem : c ∈ remove_whitespace (first_line input) := by
      rw [hinput]
      simp [inline_loop, hc]
    unfold remove_whitespace at hmem
    have hsp := (List.mem_filter.mp hmem).2
    rintro rfl
    exact absurd hsp (by decide)
  refine ⟨?_, rfl⟩
  rw [parse_line]
  simp only [hinput, match_cli_loop_inline ntext body hntext hdigits, hn, Int.toNat_ofNat]
  exact run_loop_successive H fuel body hline n [] a

theorem inline_loop_is_successive_calls_witness :
    parse_line host0 (0 + 2) "LOOP 3 \x7b turn(10) ; up \x7d".toList (App.new host0 []) =
      successive_calls (parse_line host0 (0 + 1)) 3 "turn(10);up".toList [] (App.new host0 []) :=
  (inline_loop_is_successive_calls host0 0 "LOOP 3 \x7b turn(10) ; up \x7d".toList "3".toList
    "turn(10);up".toList 3 (App.new host0 []) (by decide) (by decide) (by decide)
    (by decide!)).1

/-! ## The dispatch of `arc` -/

/-- C15.  On a fresh application the line `arc(50,90)` starts the arc and leaves
`movement_done` at `true`: the parser is not marked as waiting.  On the line
`arc(50,90);forward(10)` the wait before `forward(10)` therefore does not wait,
`forward` is dispatched while the arc is in flight, and the turtle answers with
the completion `kFailure`; the arc is still in flight when the line returns, and
the turtle ends at the end of the arc, `(500, 400)`, not `10` further. -/
theorem arc_does_not_suspend_parsing :
    (parse_line host0 1 "arc(50,90)".toList (App.new host0 [])).toOption.map
        (fun r => (r.1, r.2.parser.movement_done, is_moving r.2.turtle)) =
      some (["arc(50,90)".toList], true, true) ∧
    (parse_line host0 1 arc_then_forward (App.new host0 [])).toOption.map
        (fun r => (r.1, completions r.2.turtle.signals_, is_moving r.2.turtle,
          (run_events host0 r.2).turtle.position_)) =
      some (["arc(50,90)".toList, "forward(10)".toList], [MovementResult.kFailure], true,
        ⟨500, 400⟩) := by
  decide!

/-! ## The tokens of an argument list -/

/-- C16.  `varname_to_value` rewrites `forward(5,)` to `forward(5)`: the loop over
the tokens reads no token after the last comma, so the argument list loses a
token and becomes well-formed; `parse_line` then dispatches `forward(5)`.  In the
same way `up(,)` becomes `up()`. -/
theorem trailing_comma_is_dropped :
    varname_to_value Parser.new "forward(5,)".toList = "forward(5)".toList ∧
      varname_to_value Parser.new "up(,)".toList = "up()".toList ∧
      matches_rule "forward(5,)".toList = false ∧
      parse_line host0 1 "forward(5,)".toList (App.new host0 []) =
        Except.ok (["forward(5)".toList], forward_dispatched host0 5 (App.new host0 [])) := by
  decide!

/-! ## The redefinition of a function -/

/-- C18.  After the script has defined `f(p)` and then `f()`, the body of `f` is
the new one but `func_arg_names` still holds `p` for `f`, and the call `f(7)`
stores `7` under `p`. -/
theorem redefinition_keeps_the_argument_name :
    (parse_script host0 2 redefinition_script (App.new host0 [])).toOption.map
        (fun r => (map_find "f".toList r.2.parser.funcs,
          map_find "f".toList r.2.parser.func_arg_names,
          map_find "p".toList r.2.parser.vars)) =
      some (some "down\n".toList, some "p".toList, some 7) := by
  decide!

/-! ## The call of a user function -/

theorem run_lines_run_body (pl : Str → App → Except Stop (List Str × App)) (lines : List Str) :
    ∀ acc a, (match run_lines pl lines acc a with
      | Except.ok r => (Except.ok r.2 : Except Stop App)
      | Except.error e => Except.error e) = run_body pl lines a := by
  induction lines with
  | nil => intro acc a; rfl
  | cons line rest ih =>
    intro acc a
    rw [run_lines, run_body]
    rcases h : pl line a with e | ⟨cmds, a1⟩
    · rfl
    · exact ih _ _

theorem call_text_chars (name args : Str) (hname : ∀ c ∈ name, isword c = true)
    (hargs : ∀ c ∈ args, is_plain c = true) :
    ∀ c ∈ call_text name args, c ≠ ';' ∧ c ≠ lbrace := by
  intro c hc
  simp only [call_text, List.mem_append, List.mem_cons, List.mem_singleton, List.mem_nil_iff,
    or_false] at hc
  rcases hc with hc | hc | hc | hc
  · exact ⟨(plain_char c (word_plain c (hname c hc))).2.2.2.1,
      (plain_char c (word_plain c (hname c hc))).2.2.2.2.2.2.1⟩
  · subst hc; decide
  · exact ⟨(plain_char c (hargs c hc)).2.2.2.1, (plain_char c (hargs c hc)).2.2.2.2.2.2.1⟩
  · subst hc; decide

/-- `varname_to_value` leaves `name(a)` as it is when `a` is a number. -/
theorem varname_to_value_number (p : Parser) (name atext : Str)
    (hname : ∀ c ∈ name, isword c = true) (ha : is_signed_number atext = true)
    (hkeys : vars_keys_ok p.vars) :
    varname_to_value p (call_text name atext) = call_text name atext := by
  obtain ⟨hne, hplain⟩ := signed_number_chars atext ha
  have hsub := substitute_name_number p.vars atext hkeys ha
  have hlines : getlines ',' atext = [atext] :=
    getlines_single ',' atext hne (fun c hc => (plain_char c (hplain c hc)).2.2.1)
  have hjoin : [','].intercalate [atext] = atext := by simp [List.intercalate]
  have h := varname_to_value_group p name atext (word_no_paren name hname) hne
    (fun c hc => (plain_char c (hplain c hc)).2.1)
    (by
      rw [hlines]
      simp only [List.map_cons, List.map_nil, hsub, hjoin]
      exact match_varassign_call name _ hname)
  rw [hlines] at h
  simp only [List.map_cons, List.map_nil, hsub, hjoin] at h
  unfold call_text
  rw [h]
  exact remove_whitespace_clean _ (call_text_clean name _
    (fun c hc => word_not_space c (hname c hc)) (plain_clean _ hplain))

theorem match_general_function_call (name atext : Str) (hname : ∀ c ∈ name, isword c = true)
    (hne : name ≠ []) (ha : is_signed_number atext = true) :
    match_general_function (call_text name atext) = some (name, atext) := by
  have hsplit := takeWhile_append_stop isword name '(' (atext ++ [')']) hname (by decide)
  unfold match_general_function call_text
  simp only [hsplit.1, call_arguments_of_call name atext]
  rw [if_pos ⟨hne, Or.inr ha⟩]

/-- C17.  Let `f` be a function of the table with the formal parameter `p` and the
body `body`, `atext` a number of the grammar that `std::stof` reads as the
`float` `v`, and
`a1` the state once the wait before the call has ended (the state itself when the
parser is not waiting), with the keys of the variable store identifiers (or
empty).  Then `parse_line` on the call `f(atext)` returns the empty list, and it
leaves the variable store and the turtle as storing `v` under `p` and then
calling `parse_line` on the lines of the body in order leaves them; it raises or
waits for ever where these calls do.  The fuel counts the depth of the calls
only. -/
theorem function_call_runs_the_body (H : Host) (fuel : ℕ) (f p atext body : Str)
    (v : Float32) (a a1 : App)
    (hf : is_identifier f = true) (ha : is_signed_number atext = true)
    (hv : stof_float atext = Except.ok v)
    (hwait : wait_movement_done H a = Except.ok a1)
    (hkeys : vars_keys_ok a1.parser.vars)
    (hbody : map_find f a1.parser.funcs = some body)
    (hp : map_find f a1.parser.func_arg_names = some p) :
    parse_line H (fuel + 1) (call_text f atext) a =
      match call_by_definition (parse_line H fuel) p v (getlines '\n' body) a1 with
      | Except.ok a2 => Except.ok ([], a2)
      | Except.error e => Except.error e := by
  have hfw := identifier_word f hf
  obtain ⟨hane, haplain⟩ := signed_number_chars atext ha
  have hchars := call_text_chars f atext hfw haplain
  have hcall_ne : call_text f atext ≠ [] := by simp [call_text]
  have hsub := varname_to_value_number a1.parser f atext hfw ha hkeys
  have hmatch := match_general_function_call f atext hfw (identifier_ne_nil f hf) ha
  have hstore : call_function (parse_line H fuel) f atext body a1 =
      call_by_definition (parse_line H fuel) p v (getlines '\n' body) a1 := by
    unfold call_function call_by_definition
    simp only [ne_eq, hane, not_false_eq_true, if_true, hv, hp, Option.getD_some,
      Option.isSome_some]
    exact run_lines_run_body (parse_line H fuel) (getlines '\n' body) [] _
  rw [parse_line_no_brace H fuel _ a (fun c hc => (hchars c hc).2),
    getlines_single ';' _ hcall_ne (fun c hc => (hchars c hc).1)]
  simp only [run_commands, hwait, hsub, hmatch, hbody, Option.map_some', hstore]

theorem function_call_runs_the_body_witness :
    parse_line host0 (1 + 1) (call_text "f".toList "30".toList) app_with_function =
      match call_by_definition (parse_line host0 1) "p".toList 30
          (getlines '\n' "turn(p)\nup\n".toList) app_with_function with
      | Except.ok a2 => Except.ok ([], a2)
      | Except.error e => Except.error e :=
  function_call_runs_the_body host0 1 "f".toList "p".toList "30".toList "turn(p)\nup\n".toList 30
    app_with_function app_with_function (by decide) (by decide) (by decide!) (by decide!)
    (by intro kv hkv; simp [app_with_function, App.new, define_function, Parser.new] at hkv)
    (by decide) (by decide)

/-! ## Function bodies hold no loop -/

theorem dispatch_funcs (H : Host) (op : TurtleControl → TurtleControl) (a : App) :
    (dispatch H op a).parser.funcs = a.parser.funcs := by
  rcases parser_after_dispatch H op a with h | h <;> simp only [h, animation_done]

theorem execute_command_funcs (H : Host) (command : Str) (a : App) (m : Bool) (a2 : App)
    (h : execute_command H command a = Except.ok (m, a2)) :
    a2.parser.funcs = a.parser.funcs := by
  unfold execute_command at h
  repeat' split at h
  all_goals first
    | (simp only [Except.ok.injEq, Prod.mk.injEq] at h
       obtain ⟨_, rfl⟩ := h
       first
         | rfl
         | exact dispatch_funcs H _ a)
    | simp at h

theorem deliver_completions_funcs (before : List Signal) (a : App) :
    (deliver_completions before a).parser.funcs = a.parser.funcs := by
  unfold deliver_completions
  split_ifs <;> rfl

theorem wait_movement_done_funcs (H : Host) (a a1 : App)
    (h : wait_movement_done H a = Except.ok a1) : a1.parser.funcs = a.parser.funcs := by
  unfold wait_movement_done at h
  by_cases h1 : a.parser.movement_done = true
  · rw [if_pos h1] at h
    rw [← Except.ok.inj h]
  · rw [if_neg h1] at h
    by_cases h2 : is_moving a.turtle = true
    · rw [if_pos h2] at h
      simp only at h
      split_ifs at h
      rw [← Except.ok.inj h]
      exact deliver_completions_funcs _ _
    · rw [if_neg h2] at h
      exact absurd h (by simp)

theorem run_lines_funcs (pl : Str → App → Except Stop (List Str × App))
    (hpl : ∀ s a r, pl s a = Except.ok r → r.2.parser.funcs = a.parser.funcs)
    (lines : List Str) :
    ∀ acc a r, run_lines pl lines acc a = Except.ok r → r.2.parser.funcs = a.parser.funcs := by
  induction lines with
  | nil =>
    intro acc a r h
    rw [run_lines] at h
    rw [← Except.ok.inj h]
  | cons line rest ih =>
    intro acc a r h
    rw [run_lines] at h
    rcases h1 : pl line a with e | ⟨cmds, a1⟩
    · rw [h1] at h
      exact absurd h (by simp)
    · rw [h1] at h
      exact (ih _ _ _ h).trans (hpl line a _ h1)

theorem run_loop_funcs (pl : Str → App → Except Stop (List Str × App))
    (hpl : ∀ s a r, pl s a = Except.ok r → r.2.parser.funcs = a.parser.funcs)
    (body : Str) (count : ℕ) :
    ∀ acc a r, run_loop pl count body acc a = Except.ok r →
      r.2.parser.funcs = a.parser.funcs := by
  induction count with
  | zero =>
    intro acc a r h
    rw [run_loop] at h
    rw [← Except.ok.inj h]
  | succ count ih =>
    intro acc a r h
    rw [run_loop] at h
    rcases h1 : run_lines pl (getlines '\n' body) acc a with e | ⟨acc1, a1⟩
    · rw [h1] at h
      exact absurd h (by simp)
    · rw [h1] at h
      exact (ih _ _ _ h).trans (run_lines_funcs pl hpl _ _ _ _ h1)

theorem call_function_funcs (pl : Str → App → Except Stop (List Str × App))
    (hpl : ∀ s a r, pl s a = Except.ok r → r.2.parser.funcs = a.parser.funcs)
    (function_name argument body : Str) (a a2 : App)
    (h : call_function pl function_name argument body a = Except.ok a2) :
    a2.parser.funcs = a.parser.funcs := by
  have hrun : ∀ a1 : App, (match run_lines pl (getlines '\n' body) [] a1 with
      | Except.ok r => (Except.ok r.2 : Except Stop App)
      | Except.error e => Except.error e) = Except.ok a2 → a2.parser.funcs = a1.parser.funcs := by
    intro a1 h1
    rcases h2 : run_lines pl (getlines '\n' body) [] a1 with e | r
    · rw [h2] at h1
      exact absurd h1 (by simp)
    · rw [h2] at h1
      rw [← Except.ok.inj h1]
      exact run_lines_funcs pl hpl _ _ _ _ h2
  unfold call_function at h
  by_cases hne : argument = []
  · simp only [hne, ne_eq, not_true_eq_false, if_false] at h
    exact hrun a h
  · simp only [ne_eq, hne, not_false_eq_true, if_true] at h
    rcases hs : stof_float argument with e | v
    · rw [hs] at h
      exact absurd h (by simp)
    · rw [hs] at h
      simp only at h
      have h3 := hrun _ h
      exact h3

theorem run_commands_funcs (H : Host) (pl : Str → App → Except Stop (List Str × App))
    (hpl : ∀ s a r, pl s a = Except.ok r → r.2.parser.funcs = a.parser.funcs)
    (raws : List Str) :
    ∀ acc a r, run_commands H pl raws acc a = Except.ok r →
      r.2.parser.funcs = a.parser.funcs := by
  induction raws with
  | nil =>
    intro acc a r h
    rw [run_commands] at h
    rw [← Except.ok.inj h]
  | cons raw rest ih =>
    intro acc a r h
    rw [run_commands] at h
    rcases hw : wait_movement_done H a with e | a1
    · rw [hw] at h
      exact absurd h (by simp)
    · rw [hw] at h
      simp only at h
      have hwf := wait_movement_done_funcs H a a1 hw
      have hexec : (match execute_command H (varname_to_value a1.parser raw) a1 with
            | Except.ok (true, a2) =>
              run_commands H pl rest (acc ++ [varname_to_value a1.parser raw]) a2
            | Except.ok (false, a2) => run_commands H pl rest acc a2
            | Except.error e => Except.error e) = Except.ok r →
          r.2.parser.funcs = a.parser.funcs := by
        intro h1
        rcases he : execute_command H (varname_to_value a1.parser raw) a1 with e | ⟨m, a2⟩
        · rw [he] at h1
          exact absurd h1 (by simp)
        · rw [he] at h1
          have hef := execute_command_funcs H _ a1 m a2 he
          cases m
          · exact ((ih _ _ _ h1).trans hef).trans hwf
          · exact ((ih _ _ _ h1).trans hef).trans hwf
      rcases hm : match_general_function (varname_to_value a1.parser raw) with _ | ⟨fn, arg⟩
      · rw [hm] at h
        exact hexec h
      · rw [hm] at h
        simp only at h
        rcases hf : map_find fn a1.parser.funcs with _ | fbody
        · rw [hf] at h
          exact hexec h
        · rw [hf] at h
          simp only [Option.map_some'] at h
          rcases hc : call_function pl fn arg fbody a1 with e | a2
          · rw [hc] at h
            exact absurd h (by simp)
          · rw [hc] at h
            exact ((ih _ _ _ h).trans (call_function_funcs pl hpl fn arg fbody a1 a2 hc)).trans hwf

/-- `parse_line` leaves the function table as it is. -/
theorem parse_line_funcs (H : Host) (fuel : ℕ) :
    ∀ input a r, parse_line H fuel input a = Except.ok r →
      r.2.parser.funcs = a.parser.funcs := by
  induction fuel with
  | zero =>
    intro input a r h
    rw [parse_line] at h
    exact absurd h (by simp)
  | succ fuel ih =>
    intro input a r h
    rw [parse_line] at h
    rcases hm : match_cli_loop (remove_whitespace (first_line input)) with _ | ⟨count, body⟩
    · rw [hm] at h
      exact run_commands_funcs H _ ih _ _ _ _ h
    · rw [hm] at h
      simp only at h
      rcases hn : stoi count with e | n
      · rw [hn] at h
        exact absurd h (by simp)
      · rw [hn] at h
        exact run_loop_funcs _ ih _ _ _ _ _ h

theorem read_block_no_brace (lines : List Str) : rbrace ∉ (read_block lines).1 := by
  induction lines with
  | nil => simp [read_block]
  | cons line rest ih =>
    rw [read_block]
    split_ifs with h
    · simp
    · intro hmem
      rcases List.mem_append.mp hmem with h1 | h1
      · exact h h1
      · rcases List.mem_cons.mp h1 with h2 | h2
        · exact absurd h2 (by decide)
        · exact ih h2

theorem mem_map_set {β : Type} (key : Str) (value : β) (m : List (Str × β)) (kv : Str × β)
    (h : kv ∈ map_set key value m) : kv ∈ m ∨ kv = (key, value) := by
  unfold map_set at h
  split_ifs at h
  · rcases List.mem_map.mp h with ⟨x, hx, hkv⟩
    split_ifs at hkv
    · exact Or.inr hkv.symm
    · exact Or.inl (hkv ▸ hx)
  · rcases List.mem_append.mp h with h1 | h1
    · exact Or.inl h1
    · exact Or.inr (List.mem_singleton.mp h1)

theorem define_function_bodies (func_name arg_name func_body : Str) (p : Parser)
    (hp : bodies_without_brace p) (hb : rbrace ∉ func_body) :
    bodies_without_brace (define_function func_name arg_name func_body p) := by
  intro kv hkv
  rcases mem_map_set func_name func_body p.funcs kv hkv with h | h
  · exact hp kv h
  · rw [h]; exact hb

theorem bodies_of_funcs (p q : Parser) (h : q.funcs = p.funcs) (hp : bodies_without_brace p) :
    bodies_without_brace q := by
  intro kv hkv
  rw [h] at hkv
  exact hp kv hkv

/-- `parse_script` keeps the character `}` out of the bodies of the function
table. -/
theorem parse_script_lines_bodies (H : Host) (fuel : ℕ) (turns : ℕ) :
    ∀ lines acc a r, bodies_without_brace a.parser →
      parse_script_lines H fuel turns lines acc a = Except.ok r →
      bodies_without_brace r.2.parser := by
  induction turns with
  | zero =>
    intro lines acc a r hb h
    cases lines with
    | nil =>
      rw [parse_script_lines] at h
      rw [← Except.ok.inj h]
      exact hb
    | cons line rest =>
      rw [parse_script_lines] at h
      exact absurd h (by simp)
  | succ turns ih =>
    intro lines acc a r hb h
    cases lines with
    | nil =>
      rw [parse_script_lines] at h
      rw [← Except.ok.inj h]
      exact hb
    | cons line rest =>
      rw [parse_script_lines] at h
      rcases hw : wait_movement_done H a with e | a1
      · rw [hw] at h
        exact absurd h (by simp)
      · rw [hw] at h
        simp only at h
        have hb1 : bodies_without_brace a1.parser :=
          bodies_of_funcs _ _ (wait_movement_done_funcs H a a1 hw) hb
        rcases hd : match_funcdef line with _ | ⟨func_name, arg_name⟩
        · rw [hd] at h
          simp only at h
          rcases hl : match_loopdef line with _ | count
          · rw [hl] at h
            simp only at h
            rcases hp : parse_line H fuel line a1 with e | ⟨cmds, a2⟩
            · rw [hp] at h
              exact absurd h (by simp)
            · rw [hp] at h
              exact ih _ _ _ _ (bodies_of_funcs _ _ (parse_line_funcs H fuel _ _ _ hp) hb1) h
          · rw [hl] at h
            simp only at h
            rcases hn : stoi count with e | n
            · rw [hn] at h
              exact absurd h (by simp)
            · rw [hn] at h
              simp only at h
              rcases hr : run_loop (parse_line H fuel) n.toNat (read_block rest).1 [] a1 with
                e | ⟨cmds, a2⟩
              · rw [hr] at h
                exact absurd h (by simp)
              · rw [hr] at h
                exact ih _ _ _ _ (bodies_of_funcs _ _
                  (run_loop_funcs _ (parse_line_funcs H fuel) _ _ _ _ _ hr) hb1) h
        · rw [hd] at h
          exact ih _ _ _ _ (define_function_bodies _ _ _ _ hb1 (read_block_no_brace rest)) h

theorem mem_split_on (delim : Char) (s : Str) :
    ∀ seg ∈ split_on delim s, ∀ c ∈ seg, c ∈ s := by
  induction s with
  | nil =>
    intro seg hseg c hc
    simp only [split_on, List.mem_singleton] at hseg
    rw [hseg] at hc
    exact hc
  | cons x xs ih =>
    intro seg hseg c hc
    rw [split_on] at hseg
    split_ifs at hseg with hx
    · rcases List.mem_cons.mp hseg with h1 | h1
      · rw [h1] at hc
        exact absurd hc (by simp)
      · exact List.mem_cons_of_mem _ (ih seg h1 c hc)
    · rcases hsp : split_on delim xs with _ | ⟨seg0, segs⟩
      · exact absurd hsp (split_on_ne_nil delim xs)
      · rw [hsp] at hseg ih
        simp only [List.mem_cons] at hseg
        rcases hseg with h1 | h1
        · rw [h1] at hc
          rcases List.mem_cons.mp hc with h2 | h2
          · rw [h2]; exact List.mem_cons_self _ _
          · exact List.mem_cons_of_mem _ (ih seg0 (List.mem_cons_self _ _) c h2)
        · exact List.mem_cons_of_mem _ (ih seg (List.mem_cons_of_mem _ h1) c hc)

theorem mem_getlines (delim : Char) (s : Str) (line : Str) (h : line ∈ getlines delim s) :
    ∀ c ∈ line, c ∈ s := by
  unfold getlines at h
  simp only at h
  split_ifs at h
  · exact mem_split_on delim s line (List.mem_of_mem_dropLast h)
  · exact mem_split_on delim s line h

theorem match_cli_loop_no_rbrace (s : Str) (h : rbrace ∉ s) : match_cli_loop s = none := by
  unfold match_cli_loop
  split_ifs with hp
  · simp only
    split
    · rename_i c rest heq
      rw [if_neg]
      intro h2
      have h3 : rbrace ∈ rest := List.mem_of_getLast?_eq_some h2.2.2
      have h4 : rbrace ∈ List.dropWhile Char.isDigit (List.drop 4 s) := by
        rw [heq]; exact List.mem_cons_of_mem _ h3
      exact h (List.mem_of_mem_drop ((List.dropWhile_sublist _).subset h4))
    · rfl
  · rfl

/-- C19, counterexample.  In the script with the block loop `LOOP 3 { turn(10) }`
inside `DEF f() { … }`, the body stored for `f` ends before the first `}`: it
holds the header line `LOOP 3 {`, which matches no expression when the body runs,
and `turn(10)`; the call `f()` turns the turtle by `10`, once, not three times.
In the script with the inline loop `LOOP3{turn(10)}` inside `DEF g() { … }`, the
loop line holds a `}` and ends the body: the body stored for `g` is empty and the
call `g()` does not turn the turtle. -/
theorem loop_in_function_does_not_loop :
    (parse_script host0 2 block_loop_in_function (App.new host0 [])).toOption.map
        (fun r => (map_find "f".toList r.2.parser.funcs, r.2.turtle.rotation_)) =
      some (some "LOOP 3 \x7b\nturn(10)\n".toList, 10) ∧
    (parse_script host0 2 inline_loop_in_function (App.new host0 [])).toOption.map
        (fun r => (map_find "g".toList r.2.parser.funcs, r.2.turtle.rotation_)) =
      some (some [], 0) := by
  decide!

/-- C19, amended.  `parse_script` ends the body of a `DEF` block at the first
line that contains `}` and drops that line.  So when no body of the function
table contains `}` before a script is run, none does afterwards, whatever the
script; no line of a body stored for a function is then an inline loop
`LOOPn{…}`, and `parse_line` handles every line of the body as a line of
sub-commands: a user function cannot contain a loop. -/
theorem function_bodies_hold_no_loop (H : Host) (fuel : ℕ) (script : Str) (a : App)
    (r : List Str × App) (name body : Str)
    (hinit : bodies_without_brace a.parser)
    (hrun : parse_script H fuel script a = Except.ok r)
    (hbody : map_find name r.2.parser.funcs = some body) :
    rbrace ∉ body ∧
      ∀ line ∈ getlines '\n' body, ∀ (f : ℕ) (b : App),
        match_cli_loop (remove_whitespace (first_line line)) = none ∧
        parse_line H (f + 1) line b = run_commands H (parse_line H f) (getlines ';' line) [] b := by
  have hb := parse_script_lines_bodies H fuel _ _ _ _ _ hinit hrun
  have hno : rbrace ∉ body := hb (name, body) (map_find_mem name _ body hbody)
  refine ⟨hno, ?_⟩
  intro line hline f b
  have hnone : match_cli_loop (remove_whitespace (first_line line)) = none :=
    match_cli_loop_no_rbrace _ (fun hmem =>
      hno (mem_getlines '\n' body line hline rbrace (mem_first_line_clean line rbrace hmem)))
  exact ⟨hnone, parse_line_commands H f line b hnone⟩

theorem function_bodies_hold_no_loop_witness :
    rbrace ∉ "LOOP 3 \x7b\nturn(10)\n".toList ∧
      ∀ line ∈ getlines '\n' "LOOP 3 \x7b\nturn(10)\n".toList, ∀ (f : ℕ) (b : App),
        match_cli_loop (remove_whitespace (first_line line)) = none ∧
        parse_line host0 (f + 1) line b =
          run_commands host0 (parse_line host0 f) (getlines ';' line) [] b :=
  function_bodies_hold_no_loop host0 2 block_loop_in_function (App.new host0 [])
    ((parse_script host0 2 block_loop_in_function (App.new host0 [])).toOption.getD
      ([], App.new host0 []))
    "f".toList "LOOP 3 \x7b\nturn(10)\n".toList
    (by intro kv hkv; simp [App.new, Parser.new] at hkv) (by decide!) (by decide!)

/-! ## Saving and loading the state -/

theorem dropWhile_none {α : Type} (p : α → Bool) (l : List α) (h : ∀ x ∈ l, p x = false) :
    l.dropWhile p = l := by
  cases l with
  | nil => rfl
  | cons x xs => simp [List.dropWhile_cons, h x (List.mem_cons_self _ _)]

theorem trimmed_clean (s : Str) (h : ∀ c ∈ s, isspace c = false) : trimmed s = s := by
  unfold trimmed
  rw [dropWhile_none isspace s h,
    dropWhile_none isspace s.reverse (fun c hc => h c (List.mem_reverse.mp hc)),
    List.reverse_reverse]

theorem clean_field_chars (s : Str) (h : clean_field s) :
    ∀ c ∈ s, c ≠ ';' ∧ c ≠ '\n' ∧ isspace c = false := by
  intro c hc
  refine ⟨(h.2 c hc).1, ?_, (h.2 c hc).2⟩
  rintro rfl
  exact absurd (h.2 _ hc).2 (by decide)

theorem arg_bool_clean (b : Bool) : clean_field (arg_bool b) := by
  cases b <;> exact ⟨by decide, by decide⟩

/-- A text of fields with `;` between and after them has no newline and no
whitespace. -/
theorem field_then_clean (f rest : Str) (hf : clean_field f)
    (hrest : ∀ c ∈ rest, c ≠ '\n' ∧ isspace c = false) :
    ∀ c ∈ f ++ ';' :: rest, c ≠ '\n' ∧ isspace c = false := by
  intro c hc
  rcases List.mem_append.mp hc with h | h
  · exact ⟨(clean_field_chars f hf c h).2.1, (clean_field_chars f hf c h).2.2⟩
  · rcases List.mem_cons.mp h with h | h
    · subst h; decide
    · exact hrest c h

theorem state_text_split (F : QtText) (t : TurtleControl)
    (hx : clean_field (F.arg_double t.position_.x)) (hy : clean_field (F.arg_double t.position_.y))
    (hr : clean_field (F.arg_double t.rotation_)) (hp : clean_field (F.arg_double t.pen_radius_))
    (hc : clean_field (F.name t.pen_color_)) :
    split_on ';' (state_text F t) =
        [F.arg_double t.position_.x, F.arg_double t.position_.y, F.arg_double t.rotation_,
          arg_bool t.b_pen_down_, F.arg_double t.pen_radius_, F.name t.pen_color_, []] ∧
      ∀ c ∈ state_text F t, c ≠ '\n' ∧ isspace c = false := by
  have hb := arg_bool_clean t.b_pen_down_
  constructor
  · unfold state_text
    rw [split_on_append ';' _ _ (fun c h => (hx.2 c h).1),
      split_on_append ';' _ _ (fun c h => (hy.2 c h).1),
      split_on_append ';' _ _ (fun c h => (hr.2 c h).1),
      split_on_append ';' _ _ (fun c h => (hb.2 c h).1),
      split_on_append ';' _ _ (fun c h => (hp.2 c h).1),
      split_on_append ';' _ _ (fun c h => (hc.2 c h).1)]
    rfl
  · unfold state_text
    exact field_then_clean _ _ hx (field_then_clean _ _ hy (field_then_clean _ _ hr
      (field_then_clean _ _ hb (field_then_clean _ _ hp (field_then_clean _ _ hc
        (fun c h => absurd h (by simp)))))))

theorem line_fields_split (F : QtText) (line : Line) (h : line_reads_back F line) :
    split_on ';' (line_fields F line) =
        [F.arg_double line.start_.x, F.arg_double line.start_.y, F.arg_double line.end_.x,
          F.arg_double line.end_.y, F.name line.color_, F.arg_double line.width_] ∧
      ∀ c ∈ line_fields F line, c ≠ '\n' ∧ isspace c = false := by
  obtain ⟨h1, h2, h3, h4, h5, h6⟩ := h
  constructor
  · unfold line_fields
    rw [split_on_append ';' _ _ (fun c h => (h1.2.2 c h).1),
      split_on_append ';' _ _ (fun c h => (h2.2.2 c h).1),
      split_on_append ';' _ _ (fun c h => (h3.2.2 c h).1),
      split_on_append ';' _ _ (fun c h => (h4.2.2 c h).1),
      split_on_append ';' _ _ (fun c h => (h5.2.2 c h).1),
      split_on_none ';' _ (fun c h => (h6.2.2 c h).1)]
  · unfold line_fields
    exact field_then_clean _ _ h1.2 (field_then_clean _ _ h2.2 (field_then_clean _ _ h3.2
      (field_then_clean _ _ h4.2 (field_then_clean _ _ h5.2
        (fun c h => ⟨(clean_field_chars _ h6.2 c h).2.1, (clean_field_chars _ h6.2 c h).2.2⟩)))))

theorem line_text_fields (F : QtText) (line : Line) :
    line_text F line = line_fields F line ++ ['\n'] := by
  simp [line_text, line_fields]

/-- The lines that `loadFromFile` reads from the text of the lines. -/
theorem getlines_line_data (F : QtText) (lines : List Line)
    (h : ∀ line ∈ lines, line_reads_back F line) :
    (getlines '\n' (line_data F lines)).map trimmed = lines.map (line_fields F) := by
  induction lines with
  | nil => simp [line_data, getlines_nil]
  | cons line rest ih =>
    have hl := line_fields_split F line (h line (List.mem_cons_self _ _))
    have hshape : line_data F (line :: rest) = line_fields F line ++ '\n' :: line_data F rest := by
      rw [line_data, line_text_fields]
      simp
    rw [hshape, getlines_append '\n' _ _ (fun c hc => (hl.2 c hc).1), List.map_cons, List.map_cons,
      ih (fun l hl0 => h l (List.mem_cons_of_mem _ hl0)),
      trimmed_clean _ (fun c hc => (hl.2 c hc).2)]

/-- The lines are read back from their texts. -/
theorem load_lines_line_fields (F : QtText) (lines : List Line)
    (h : ∀ line ∈ lines, line_reads_back F line) :
    load_lines F (lines.map (line_fields F)) = Except.ok lines := by
  induction lines with
  | nil => rfl
  | cons line rest ih =>
    have hb := h line (List.mem_cons_self _ _)
    have hl := (line_fields_split F line hb).1
    obtain ⟨h1, h2, h3, h4, h5, h6⟩ := hb
    have hfilter : List.filter (fun part => decide (part ≠ []))
        [F.arg_double line.start_.x, F.arg_double line.start_.y, F.arg_double line.end_.x,
          F.arg_double line.end_.y, F.name line.color_, F.arg_double line.width_] =
        [F.arg_double line.start_.x, F.arg_double line.start_.y, F.arg_double line.end_.x,
          F.arg_double line.end_.y, F.name line.color_, F.arg_double line.width_] := by
      rw [List.filter_eq_self]
      intro part hpart
      simp only [List.mem_cons, List.mem_singleton, List.mem_nil_iff, or_false] at hpart
      rcases hpart with rfl | rfl | rfl | rfl | rfl | rfl
      · simpa using h1.2.1
      · simpa using h2.2.1
      · simpa using h3.2.1
      · simpa using h4.2.1
      · simpa using h5.2.1
      · simpa using h6.2.1
    rw [List.map_cons, load_lines]
    simp only [hl, hfilter, List.length_cons, List.length_nil]
    rw [if_neg (by decide), ih (fun l hl0 => h l (List.mem_cons_of_mem _ hl0))]
    simp only [h1.1, h2.1, h3.1, h4.1, h5.1, h6.1]

theorem set_pen_down_frame (b : Bool) (t : TurtleControl) :
    set_pen_down b t =
      { t with b_pen_down_ := b, previous_position_ := (set_pen_down b t).previous_position_ } := by
  unfold set_pen_down
  split_ifs with h1
  · subst h1; rfl
  · simp only
    split_ifs with h2
    · rw [h2]
    · simp only [Bool.not_eq_true] at h2
      rw [h2]

theorem set_pen_radius_frame (H : Host) (r : ℚ) (t : TurtleControl) :
    set_pen_radius H r t =
      { t with pen_radius_ := max 1 (min 9 r), shape_ := (set_pen_radius H r t).shape_ } := by
  unfold set_pen_radius
  simp only
  split_ifs with h
  · rw [← h]
  · simp [update_shape]

theorem set_pen_color_frame (c : QColor) (t : TurtleControl) :
    set_pen_color c t = { t with pen_color_ := c } := by
  unfold set_pen_color
  split_ifs with h
  · rfl
  · simp only [ne_eq, not_not] at h
    rw [← h]

theorem set_lines_frame (lines : List Line) (t : TurtleControl) :
    set_lines lines t =
      { t with lines_ := (set_lines lines t).lines_,
               previous_position_ := (set_lines lines t).previous_position_ } := by
  unfold set_lines
  split_ifs <;> rfl

/-- The state after the five setters of `loadState`. -/
theorem load_setters (H : Host) (pos : QPointF) (rot : ℚ) (b : Bool) (rad : ℚ) (col : QColor)
    (T : TurtleControl) (hrot : 0 ≤ rot ∧ rot < 360) (hrad : 1 ≤ rad ∧ rad ≤ 9) :
    saved_items (set_pen_color col (set_pen_radius H rad (set_pen_down b
      (set_rotation rot (set_position H pos T))))) = (pos, rot, b, rad, col, T.lines_) := by
  have hclamp : max 1 (min 9 rad) = rad := by
    rw [min_eq_right hrad.2, max_eq_right hrad.1]
  have hr := set_rotation_of_normalised rot (set_position H pos T) hrot
  rw [set_pen_color_frame, set_pen_radius_frame, set_pen_down_frame, set_rotation_frame,
    set_position_frame]
  rw [set_rotation_frame, set_position_frame] at hr
  simp only [saved_items, hclamp]
  simp only at hr
  rw [hr]

theorem toInt_arg_bool (b : Bool) : decide (toInt (arg_bool b) ≠ 0) = b := by
  cases b <;> decide

/-- What `loadFromFile` reads from the text that `saveState` writes. -/
theorem loadFromFile_saveState (F : QtText) (S : TurtleControl) (hS : state_reads_back F S) :
    loadFromFile (saveState F S) = state_text F S :: S.lines_.map (line_fields F) := by
  obtain ⟨hx, hy, hr, hp, hc, hl⟩ := hS
  have hst := (state_text_split F S hx.2 hy.2 hr.2 hp.2 hc.2).2
  unfold loadFromFile saveState get_lines
  rw [getlines_append '\n' _ _ (fun c h => (hst c h).1), List.map_cons,
    getlines_line_data F S.lines_ hl, trimmed_clean _ (fun c h => (hst c h).2)]

/-- C20, counterexample.  With the text functions of Qt: the position
`(450.1234567, 450)` is saved as `450.123;450` and loaded as `(450.123, 450)`;
and when the saved state has no drawn line, the lines of the current turtle are
still there after loading, because `set_lines` returns at once on an empty
list. -/
theorem round_trip_loses_digits_and_keeps_lines :
    (loadState qt_text host0 (loadFromFile (saveState qt_text fine_position_turtle))
        (TurtleControl.new host0)).toOption.map (fun t => t.position_) =
      some ⟨450123 / 1000, 450⟩ ∧
    fine_position_turtle.position_ = ⟨4501234567 / 10000000, 450⟩ ∧
    (loadState qt_text host0 (loadFromFile (saveState qt_text (TurtleControl.new host0)))
        one_line_turtle).toOption.map (fun t => t.lines_) =
      some [⟨⟨450, 450⟩, ⟨450, 440⟩, QColor.black, 3⟩] ∧
    (TurtleControl.new host0).lines_ = [] := by
  decide!

/-- C20, amended.  Let every number of the state `S` (the coordinates of the
position, the rotation, the pen radius, the coordinates and the width of every
drawn line) be read back by `toDouble` from its text `QString::arg(double)`, of
six significant digits, and every colour from its name, these texts being clean
fields; let the rotation be in `[0, 360)`, the pen radius in `[1, 9]`, and let
`S` have a drawn line or the current turtle `T` have none.  Then loading, from
`T`, the record that `saveState` writes for `S` succeeds and yields the position,
the rotation, the pen-down flag, the pen radius, the pen colour and the ordered
list of lines of `S`. -/
theorem save_load_round_trip (F : QtText) (H : Host) (S T : TurtleControl)
    (hS : state_reads_back F S) (hrot : 0 ≤ S.rotation_ ∧ S.rotation_ < 360)
    (hrad : 1 ≤ S.pen_radius_ ∧ S.pen_radius_ ≤ 9)
    (hlines : S.lines_ ≠ [] ∨ T.lines_ = []) :
    ∃ T1, loadState F H (loadFromFile (saveState F S)) T = Except.ok T1 ∧
      saved_items T1 = saved_items S := by
  have hfile := loadFromFile_saveState F S hS
  obtain ⟨hx, hy, hr, hp, hc, hl⟩ := hS
  have hsplit := (state_text_split F S hx.2 hy.2 hr.2 hp.2 hc.2).1
  have hload := load_lines_line_fields F S.lines_ hl
  have hset := load_setters H ⟨F.toDouble (F.arg_double S.position_.x),
    F.toDouble (F.arg_double S.position_.y)⟩ (F.toDouble (F.arg_double S.rotation_))
    (decide (toInt (arg_bool S.b_pen_down_) ≠ 0)) (F.toDouble (F.arg_double S.pen_radius_))
    (F.color (F.name S.pen_color_)) T (by rw [hr.1]; exact hrot) (by rw [hp.1]; exact hrad)
  rw [hx.1, hy.1, hr.1, hp.1, hc.1, toInt_arg_bool] at hset
  refine ⟨set_lines S.lines_ (set_pen_color S.pen_color_ (set_pen_radius H S.pen_radius_
    (set_pen_down S.b_pen_down_ (set_rotation S.rotation_
      (set_position H ⟨S.position_.x, S.position_.y⟩ T))))), ?_, ?_⟩
  · rw [hfile]
    unfold loadState
    simp only [hsplit, hload, hx.1, hy.1, hr.1, hp.1, hc.1, toInt_arg_bool]
  · rw [set_lines_frame]
    simp only [saved_items, Prod.mk.injEq] at hset ⊢
    obtain ⟨e1, e2, e3, e4, e5, e6⟩ := hset
    refine ⟨e1, e2, e3, e4, e5, ?_⟩
    unfold set_lines
    split_ifs with h0
    · rw [e6]
      rcases hlines with h | h
      · exact absurd h0 h
      · rw [h, h0]
    · rfl

theorem save_load_round_trip_witness :
    ∃ T1, loadState qt_text host0 (loadFromFile (saveState qt_text saved_turtle))
        (TurtleControl.new host0) = Except.ok T1 ∧
      saved_items T1 = saved_items saved_turtle :=
  save_load_round_trip qt_text host0 saved_turtle (TurtleControl.new host0)
    ⟨by decide!, by decide!, by decide!, by decide!, by decide!, by decide!⟩
    (by decide!) (by decide!) (Or.inl (by decide))

/-! ## Loading a malformed record -/

/-- C21, counterexample.  The header `abc;50;45;1;2;#ff0000;` has six fields and
its first field is not a number: `toDouble` reads it as `0` and `loadState`
applies all the fields, so a fresh turtle, at `(450, 450)` with the radius `3`
and a black pen, ends at `(0, 50)` with the rotation `45`, the radius `2` and a
red pen. -/
theorem unparsable_number_is_applied :
    (loadState qt_text host0 bad_number_record (TurtleControl.new host0)).toOption.map
        (fun t => (t.position_, t.rotation_, t.b_pen_down_)) = some (⟨0, 50⟩, 45, true) ∧
      (loadState qt_text host0 bad_number_record (TurtleControl.new host0)).toOption.map
        (fun t => (t.pen_radius_, t.pen_color_, t.lines_)) = some (2, QColor.red, []) ∧
      (TurtleControl.new host0).position_ = ⟨450, 450⟩ ∧
      (TurtleControl.new host0).rotation_ = 0 ∧
      (TurtleControl.new host0).pen_radius_ = 3 ∧
      (TurtleControl.new host0).pen_color_ = QColor.black :=
  ⟨by decide!, by decide!, by decide!, by decide!, by decide!, by decide!⟩

theorem set_rotation_after_position (H : Host) (rot : ℚ) (pos : QPointF) (t : TurtleControl) :
    (set_rotation rot (set_position H pos t)).rotation_ = (set_rotation rot t).rotation_ := by
  unfold set_rotation
  rw [set_position_rotation]
  split_ifs <;> first | rfl | exact set_position_rotation H pos t

/-- C21, amended.  When the header line of the record has fewer than six fields,
`loadState` returns before it applies anything: the turtle is left as it was,
with its position, rotation, pen-down flag, pen radius, pen colour and drawn
lines; so it is for a record without any line.  When the header has six fields
or more, the numbers are not validated: the fields are applied as `toDouble`,
`toFloat` and `toInt` read them, which is `0` for a text that is not a number. -/
theorem header_is_checked_for_its_length_only (F : QtText) (H : Host) (header : Str)
    (rest : List Str) (T : TurtleControl) :
    loadState F H [] T = Except.ok T ∧
      ((split_on ';' header).length < 6 → loadState F H (header :: rest) T = Except.ok T) ∧
      ∀ (s0 s1 s2 s3 s4 s5 : Str) (more : List Str) (lines : List Line),
        split_on ';' header = s0 :: s1 :: s2 :: s3 :: s4 :: s5 :: more →
        load_lines F rest = Except.ok lines →
        ∃ T1, loadState F H (header :: rest) T = Except.ok T1 ∧
          T1.position_ = ⟨F.toDouble s0, F.toDouble s1⟩ ∧
          T1.rotation_ = (set_rotation (F.toDouble s2) T).rotation_ ∧
          T1.b_pen_down_ = decide (toInt s3 ≠ 0) ∧
          T1.pen_radius_ = max 1 (min 9 (F.toDouble s4)) ∧
          T1.pen_color_ = F.color s5 := by
  refine ⟨rfl, ?_, ?_⟩
  · intro hshort
    rw [loadState]
    split
    · rename_i h
      rw [h] at hshort
      simp only [List.length_cons] at hshort
      omega
    · rfl
  · intro s0 s1 s2 s3 s4 s5 more lines hsplit hlines
    refine ⟨set_lines lines (set_pen_color (F.color s5) (set_pen_radius H (F.toDouble s4)
      (set_pen_down (decide (toInt s3 ≠ 0)) (set_rotation (F.toDouble s2)
        (set_position H ⟨F.toDouble s0, F.toDouble s1⟩ T))))), ?_, ?_⟩
    · rw [loadState]
      simp only [hsplit, hlines]
    · have hrot := set_rotation_after_position H (F.toDouble s2) ⟨F.toDouble s0, F.toDouble s1⟩ T
      rw [set_lines_frame, set_pen_color_frame, set_pen_radius_frame, set_pen_down_frame]
      refine ⟨?_, hrot, rfl, rfl, rfl⟩
      simp only
      rw [set_rotation_frame, set_position_frame]

theorem header_is_checked_for_its_length_only_witness :
    loadState qt_text host0 short_header_record (TurtleControl.new host0) =
        Except.ok (TurtleControl.new host0) ∧
      ∃ T1, loadState qt_text host0 bad_number_record (TurtleControl.new host0) =
          Except.ok T1 ∧ T1.position_ = ⟨qt_text.toDouble "abc".toList, 50⟩ ∧
        qt_text.toDouble "abc".toList = 0 := by
  have h := header_is_checked_for_its_length_only qt_text host0 "50;50;45;1;2".toList []
    (TurtleControl.new host0)
  have h2 := header_is_checked_for_its_length_only qt_text host0
    "abc;50;45;1;2;#ff0000;".toList [] (TurtleControl.new host0)
  obtain ⟨T1, h3, h4, _⟩ := h2.2.2 "abc".toList "50".toList "45".toList "1".toList "2".toList
    "#ff0000".toList [[]] [] (by decide) rfl
  refine ⟨h.2.1 (by decide), T1, h3, ?_, by decide!⟩
  rw [h4, show qt_text.toDouble "50".toList = 50 from by decide!]

/-- C22.  A segment line with five fields passes the test on the number of its
parts, and the width is then read from `lineParts[5]`, beyond the end of the
list: `loadState` does not load the segment, whatever the text functions are. -/
theorem five_field_line_reads_sixth_field (F : QtText) (H : Host) (T : TurtleControl) :
    ((split_on ';' "1;2;3;4;#ff0000".toList).filter (fun part => part ≠ [])).length = 5 ∧
      load_lines F ["1;2;3;4;#ff0000".toList] = Except.error LoadFault.index_out_of_range ∧
      loadState F H five_field_record T = Except.error LoadFault.index_out_of_range := by
  refine ⟨by decide, ?_, ?_⟩ <;> rfl

/-! ## The replacement of the drawn lines -/

/-- C23.  `set_lines` returns at once on an empty list: the drawn lines are then
those the turtle had, not the empty list; for any other list they are the list
given. -/
theorem set_lines_keeps_lines_on_empty_list :
    (∀ (L : List Line) (t : TurtleControl),
        get_lines (set_lines L t) = if L = [] then get_lines t else L) ∧
      get_lines (set_lines [] one_line_turtle) = [⟨⟨450, 450⟩, ⟨450, 440⟩, QColor.black, 3⟩] ∧
      get_lines (set_lines [] one_line_turtle) ≠ [] := by
  refine ⟨?_, by decide!, by decide!⟩
  intro L t
  unfold set_lines get_lines
  split_ifs <;> rfl

/-! ## Whitespace before a variable name -/

/-- C25.  On a fresh application the line `x=5;forward(x)` returns both commands
and starts the motion, while the line `x=5;forward( x)`, with one space inserted,
returns `x=5` only and starts no motion: `varname_to_value` looks the token ` x`
up with its space, finds no variable, and the command `forward(x)` that is left
after the removal of the whitespace matches no expression. -/
theorem space_before_variable_name :
    (parse_line host0 1 "x=5;forward(x)".toList (App.new host0 [])).toOption.map
        (fun r => (r.1, is_moving r.2.turtle)) =
      some (["x=5".toList, "forward(5.000000)".toList], true) ∧
    (parse_line host0 1 "x=5;forward( x)".toList (App.new host0 [])).toOption.map
        (fun r => (r.1, is_moving r.2.turtle)) =
      some (["x=5".toList], false) ∧
    varname_to_value { Parser.new with vars := [("x".toList, 5)] } "forward( x)".toList =
      "forward(x)".toList := by
  decide!

/-! ## The call of a function without a formal parameter -/

/-- C29.  After the script has defined `f()` and called `f(7)`, the variable
store holds `7` under the empty name, and `func_arg_names` holds the empty name
for `f`; the command `forward(-)` is then rewritten to `forward(-7.000000)` and
starts a motion. -/
theorem call_with_argument_stores_empty_name :
    (parse_script host0 2 parameterless_call_script (App.new host0 [])).toOption.map
        (fun r => (r.2.parser.vars, r.2.parser.func_arg_names)) =
      some ([([], 7)], [("f".toList, [])]) ∧
    (parse_script host0 2 (parameterless_call_script ++ "forward(-)".toList)
        (App.new host0 [])).toOption.map (fun r => (r.1, is_moving r.2.turtle)) =
      some (["forward(-7.000000)".toList], true) := by
  decide!

/-! ## The shape of the turtle -/

theorem footprint_congr (H : Host) (t u : TurtleControl) (hp : u.position_ = t.position_)
    (hr : u.pen_radius_ = t.pen_radius_) : footprint H u = footprint H t := by
  simp [footprint, update_shape, hp, hr]

theorem shape_follows_congr (H : Host) (t u : TurtleControl) (h : shape_follows H t)
    (hp : u.position_ = t.position_) (hr : u.pen_radius_ = t.pen_radius_)
    (hs : u.shape_ = t.shape_) : shape_follows H u := by
  unfold shape_follows at h ⊢
  rw [hs, h, footprint_congr H t u hp hr]

theorem shape_follows_new (H : Host) : shape_follows H (TurtleControl.new H) := by
  simp [shape_follows, footprint, TurtleControl.new, update_shape]

/-- `set_position` recomputes the shape: the translation vector it passes to
`update_shape` is null, because the member is assigned first. -/
theorem shape_follows_set_position (H : Host) (p : QPointF) (t : TurtleControl)
    (h : shape_follows H t) : shape_follows H (set_position H p t) := by
  unfold set_position
  split_ifs with h1
  · exact h
  · have hzero : p - p = (⟨0, 0⟩ : QPointF) := by
      apply QPointF.eq_of_coords <;> simp
    simp only [hzero]
    simp [shape_follows, footprint, update_shape]

theorem shape_follows_set_pen_radius (H : Host) (r : ℚ) (t : TurtleControl)
    (h : shape_follows H t) : shape_follows H (set_pen_radius H r t) := by
  unfold set_pen_radius
  simp only
  split_ifs with h1
  · exact h
  · simp [shape_follows, footprint, update_shape]

theorem shape_follows_set_rotation (H : Host) (r : ℚ) (t : TurtleControl)
    (h : shape_follows H t) : shape_follows H (set_rotation r t) := by
  refine shape_follows_congr H t _ h ?_ ?_ ?_ <;> rw [set_rotation_frame]

theorem shape_follows_stop (H : Host) (t : TurtleControl) (h : shape_follows H t) :
    shape_follows H (stop t) := by
  refine shape_follows_congr H t _ h ?_ ?_ ?_ <;> rw [stop_frame]

theorem shape_follows_finish (H : Host) (t : TurtleControl) (h : shape_follows H t) :
    shape_follows H (finish t) := by
  refine shape_follows_congr H t _ h ?_ ?_ ?_ <;> rw [finish_frame]

theorem shape_follows_write_sample (H : Host) (g : AnimGroup) (p : ℚ) (t : TurtleControl)
    (h : shape_follows H t) : shape_follows H (write_sample H g p t) := by
  unfold write_sample
  simp only
  refine shape_follows_congr H (set_position H (g.position_at p) _) _
    (shape_follows_set_position H _ _ ?_) rfl rfl rfl
  rcases g.rotation_anim with _ | ⟨a, b⟩
  · exact h
  · exact shape_follows_set_rotation H _ t h

theorem shape_follows_anim_value_changed (H : Host) (t : TurtleControl)
    (h : shape_follows H t) : shape_follows H (anim_value_changed H t) := by
  unfold anim_value_changed
  rcases hg : t.current_anim_ with _ | g
  · exact h
  · simp only
    unfold test_collision
    rcases hit_object H t with _ | ⟨hit, poly⟩
    · simp only [Bool.false_eq_true, if_false]
      refine shape_follows_congr H t _ h ?_ ?_ ?_ <;> simp only [] <;> rw [update_lines_frame]
    · simp only [if_true]
      refine shape_follows_congr H _ _
        (shape_follows_set_rotation H _ _ (shape_follows_set_position H _ _
          (shape_follows_congr H (stop t) (set_current_anim none t)
            (shape_follows_stop H t h) rfl rfl rfl))) rfl rfl rfl

/-- Every sample of a motion, with or without a collision, leaves the shape the
decagon around the position. -/
theorem shape_follows_tick (H : Host) (p : ℚ) (t : TurtleControl) (h : shape_follows H t) :
    shape_follows H (tick H p t) := by
  unfold tick
  rcases t.current_anim_ with _ | g
  · exact h
  · simp only
    have hw := shape_follows_write_sample H g (max 0 (min 1 p)) t h
    split_ifs
    · exact h
    · exact shape_follows_finish H _ (shape_follows_anim_value_changed H _ hw)
    · exact shape_follows_finish H _ hw
    · exact shape_follows_anim_value_changed H _ hw
    · exact hw

/-- C24.  `reset_state` assigns the position without a call of `update_shape`:
the shape stays where it was.  For a turtle that was moved to `(100, 100)`, the
shape after `reset_state` is still the decagon around `(100, 100)`, while the
position is `(450, 450)`. -/
theorem reset_state_leaves_the_shape_behind :
    (∀ t : TurtleControl, (reset_state t).shape_ = t.shape_) ∧
      shape_follows host0 moved_turtle ∧
      (reset_state moved_turtle).position_ = ⟨450, 450⟩ ∧
      (reset_state moved_turtle).shape_ = footprint host0 moved_turtle ∧
      (reset_state moved_turtle).shape_ ≠ footprint host0 (reset_state moved_turtle) := by
  refine ⟨?_, by unfold shape_follows; decide!, by decide!, by decide!, by decide!⟩
  intro t
  unfold reset_state
  simp only [TurtleControl.emit]
  rw [set_pen_down_frame true, set_pen_down_frame false]

/-! ## The checkpoint of the turtle -/

/-- C28.  `set_position` and `set_rotation` leave `previous_position_` and
`previous_rotation_` as they were, and `reset_state` leaves `previous_rotation_`.
On a fresh turtle, with the pen down and no motion in flight: after
`set_position((100, 100))` the checkpoint is still `(450, 450)`, and the first
step of the next `forward(10)` draws a segment from `(450, 450)`.  On the canvas
of `800` by `600`: after `set_position((802, 450))` and `set_rotation(90)` the
checkpoint is still `(450, 450)` with the rotation `0`, and a `forward(10)` whose
first step leaves the canvas puts the turtle back to `(450, 450)` with the
rotation `0`.  After `turn(90)` and `reset_state` the rotation is `0` and its
checkpoint `90`. -/
theorem setters_leave_a_stale_checkpoint :
    (∀ (H : Host) (p : QPointF) (t : TurtleControl),
        (set_position H p t).previous_position_ = t.previous_position_) ∧
      (∀ (r : ℚ) (t : TurtleControl),
        (set_rotation r t).previous_rotation_ = t.previous_rotation_) ∧
      (moved_turtle.position_, moved_turtle.previous_position_, is_moving moved_turtle) =
        (⟨100, 100⟩, ⟨450, 450⟩, false) ∧
      (tick host0 (1 / 2) (forward host0 10 moved_turtle)).lines_ =
        [⟨⟨450, 450⟩, ⟨100, 95⟩, QColor.black, 3⟩] ∧
      ((set_rotation 90 (set_position host0 ⟨802, 450⟩ inside_turtle)).position_,
          (set_rotation 90 (set_position host0 ⟨802, 450⟩ inside_turtle)).rotation_,
          (set_rotation 90 (set_position host0 ⟨802, 450⟩ inside_turtle)).previous_position_,
          (set_rotation 90 (set_position host0 ⟨802, 450⟩ inside_turtle)).previous_rotation_) =
        (⟨802, 450⟩, 90, ⟨450, 450⟩, 0) ∧
      ((tick host0 (1 / 3) (forward host0 10
            (set_rotation 90 (set_position host0 ⟨802, 450⟩ inside_turtle)))).position_,
          (tick host0 (1 / 3) (forward host0 10
            (set_rotation 90 (set_position host0 ⟨802, 450⟩ inside_turtle)))).rotation_) =
        (⟨450, 450⟩, 0) ∧
      ((reset_state (turn 90 (TurtleControl.new host0))).rotation_,
          (reset_state (turn 90 (TurtleControl.new host0))).previous_rotation_) = (0, 90) :=
  ⟨fun H p t => by rw [set_position_frame], fun r t => by rw [set_rotation_frame],
    by decide!, by decide!, by decide!, by decide!, by decide!⟩

/-! ## The generation of obstacles -/

/-- The random obstacle depends on the size of the canvas only. -/
theorem create_random_obstacle_congr (H : Host) (c c1 : Canvas) (d : RandomDraw)
    (hw : c1.m_width = c.m_width) (hh : c1.m_height = c.m_height) :
    Canvas.create_random_obstacle H c1 d = Canvas.create_random_obstacle H c d := by
  simp [Canvas.create_random_obstacle, hw, hh]

theorem draw_overlaps_congr (H : Host) (c c1 : Canvas) (turtle_pos : QPointF)
    (draws : ℕ → RandomDraw) (n : ℕ)
    (hw : c1.m_width = c.m_width) (hh : c1.m_height = c.m_height) :
    draw_overlaps H c1 turtle_pos draws n = draw_overlaps H c turtle_pos draws n := by
  unfold draw_overlaps
  rw [create_random_obstacle_congr H c c1 _ hw hh]

/-- What the attempts of one round yield: the number of obstacles drawn grows by
at most the number of attempts, and an obstacle that is returned does not overlap
the turtle area. -/
theorem attempt_loop_result (H : Host) (c : Canvas) (turtle_pos : QPointF)
    (draws : ℕ → RandomDraw) (k n : ℕ) :
    n ≤ (Canvas.attempt_loop H c turtle_pos draws k n).2 ∧
      (Canvas.attempt_loop H c turtle_pos draws k n).2 ≤ n + k ∧
      ∀ o, (Canvas.attempt_loop H c turtle_pos draws k n).1 = some o →
        Canvas.check_turtle_overlap o turtle_pos 25 25 = false := by
  induction k generalizing n with
  | zero => simp [Canvas.attempt_loop]
  | succ k ih =>
    unfold Canvas.attempt_loop
    simp only
    split_ifs with h
    · refine ⟨by omega, by omega, ?_⟩
      intro o ho
      simp only [Option.some.injEq] at ho
      rw [← ho]
      simpa using h
    · obtain ⟨h1, h2, h3⟩ := ih (n + 1)
      exact ⟨by omega, by omega, h3⟩

/-- When every attempt of the round overlaps the turtle area, the round yields no
obstacle. -/
theorem attempt_loop_all_overlap (H : Host) (c : Canvas) (turtle_pos : QPointF)
    (draws : ℕ → RandomDraw) (k n : ℕ)
    (h : ∀ j, j < k → draw_overlaps H c turtle_pos draws (n + j) = true) :
    Canvas.attempt_loop H c turtle_pos draws k n = (none, n + k) := by
  induction k generalizing n with
  | zero => simp [Canvas.attempt_loop]
  | succ k ih =>
    unfold Canvas.attempt_loop
    have h0 := h 0 (by omega)
    unfold draw_overlaps at h0
    simp only [Nat.add_zero] at h0
    simp only [h0, Bool.not_true, Bool.false_eq_true, if_false]
    rw [ih (n + 1) (fun j hj => by
      have := h (j + 1) (by omega)
      rwa [show n + (j + 1) = n + 1 + j by omega] at this)]
    congr 1
    omega

/-- When one of the attempts of the round does not overlap the turtle area, the
round yields an obstacle. -/
theorem attempt_loop_some (H : Host) (c : Canvas) (turtle_pos : QPointF)
    (draws : ℕ → RandomDraw) (k n : ℕ)
    (h : ∃ j, j < k ∧ draw_overlaps H c turtle_pos draws (n + j) = false) :
    ∃ o, (Canvas.attempt_loop H c turtle_pos draws k n).1 = some o := by
  induction k generalizing n with
  | zero =>
    obtain ⟨j, hj, _⟩ := h
    omega
  | succ k ih =>
    unfold Canvas.attempt_loop
    simp only
    split_ifs with h0
    · exact ⟨_, rfl⟩
    · obtain ⟨j, hj, hfree⟩ := h
      rcases j with _ | j
      · unfold draw_overlaps at hfree
        simp only [Nat.add_zero] at hfree
        rw [hfree] at h0
        exact absurd rfl h0
      · exact ih (n + 1) ⟨j, by omega, by
          rwa [show n + (j + 1) = n + 1 + j by omega] at hfree⟩

theorem max_attempts_eq : MAX_ATTEMPTS = 100 := by
  unfold MAX_ATTEMPTS
  rfl

/-- The rounds of `generate_obstacles`: the obstacles are appended to those of the
canvas, at most one in a round, none of them overlaps the turtle area, at most
`100` random obstacles are drawn in a round, and every round appends one when
among any `100` successive random obstacles one does not overlap the turtle
area. -/
theorem generate_loop_result (H : Host) (turtle_pos : QPointF) (draws : ℕ → RandomDraw)
    (rounds n : ℕ) (c : Canvas) :
    ∃ added : List Obstacle,
      (Canvas.generate_loop H turtle_pos draws rounds n c).1 =
          { c with m_obstacles := c.m_obstacles ++ added } ∧
        added.length ≤ rounds ∧
        (∀ o ∈ added, Canvas.check_turtle_overlap o turtle_pos 25 25 = false) ∧
        (Canvas.generate_loop H turtle_pos draws rounds n c).2 ≤ n + 100 * rounds ∧
        ((∀ m, ∃ j, j < 100 ∧ draw_overlaps H c turtle_pos draws (m + j) = false) →
          added.length = rounds) := by
  induction rounds generalizing n c with
  | zero => exact ⟨[], by simp [Canvas.generate_loop], le_refl _, by simp, by
      simp [Canvas.generate_loop], fun _ => rfl⟩
  | succ rounds ih =>
    obtain ⟨hlo, hhi, hfree⟩ := attempt_loop_result H c turtle_pos draws MAX_ATTEMPTS n
    unfold Canvas.generate_loop
    rcases hat : Canvas.attempt_loop H c turtle_pos draws MAX_ATTEMPTS n with ⟨_ | o, n1⟩
    · rw [hat, max_attempts_eq] at hhi
      simp only at hhi
      obtain ⟨added, h1, h2, h3, h4, h5⟩ := ih n1 c
      refine ⟨added, h1, by omega, h3, by simp only; omega, ?_⟩
      intro hwin
      obtain ⟨o, ho⟩ := attempt_loop_some H c turtle_pos draws MAX_ATTEMPTS n
        (by rw [max_attempts_eq]; exact hwin n)
      rw [hat] at ho
      exact absurd ho (by simp)
    · rw [hat] at hhi hfree
      rw [max_attempts_eq] at hhi
      simp only at hhi hfree
      obtain ⟨added, h1, h2, h3, h4, h5⟩ :=
        ih n1 { c with m_obstacles := c.m_obstacles ++ [o] }
      refine ⟨o :: added, by simp only [h1, List.append_assoc, List.singleton_append],
        by simp only [List.length_cons]; omega, ?_, by simp only; omega, ?_⟩
      · intro o1 ho1
        rcases List.mem_cons.mp ho1 with h | h
        · rw [h]
          exact hfree o rfl
        · exact h3 o1 h
      · intro hwin
        simp only [List.length_cons]
        rw [h5 (fun m => by
          obtain ⟨j, hj, hf⟩ := hwin m
          exact ⟨j, hj, (draw_overlaps_congr H c _ turtle_pos draws (m + j) rfl rfl).trans hf⟩)]

/-- When every random obstacle overlaps the turtle area, no obstacle is
appended. -/
theorem generate_loop_all_overlap (H : Host) (turtle_pos : QPointF) (draws : ℕ → RandomDraw)
    (rounds n : ℕ) (c : Canvas) (h : ∀ m, draw_overlaps H c turtle_pos draws m = true) :
    Canvas.generate_loop H turtle_pos draws rounds n c = (c, n + 100 * rounds) := by
  induction rounds generalizing n with
  | zero => simp [Canvas.generate_loop]
  | succ rounds ih =>
    unfold Canvas.generate_loop
    rw [attempt_loop_all_overlap H c turtle_pos draws MAX_ATTEMPTS n (fun j _ => h (n + j))]
    simp only
    rw [ih (n + MAX_ATTEMPTS), max_attempts_eq]
    congr 1
    omega

/-- C26, counterexample.  On the canvas of `800` by `600` with the turtle at
`(400, 300)`, when the random generator puts every obstacle on the centre of the
canvas, each of the `100` attempts of a round overlaps the turtle area:
`generate_obstacles(3, (400, 300))` draws `300` random obstacles and appends
none, so the obstacle count stays `0`. -/
theorem generate_obstacles_adds_fewer :
    Canvas.generate_obstacles host0 3 ⟨400, 300⟩ (fun _ => centre_draw) test_canvas =
        (test_canvas, 300) ∧
      test_canvas.obstacle_count = 0 ∧
      Canvas.check_turtle_overlap (Canvas.create_random_obstacle host0 test_canvas centre_draw)
        ⟨400, 300⟩ 25 25 = true := by
  refine ⟨?_, by decide, by decide!⟩
  exact generate_loop_all_overlap host0 ⟨400, 300⟩ (fun _ => centre_draw) 3 0 test_canvas
    (fun _ => by
      show Canvas.check_turtle_overlap (Canvas.create_random_obstacle host0 test_canvas
        centre_draw) ⟨400, 300⟩ 25 25 = true
      decide!)

/-- C26, amended.  For every count, every turtle position, every canvas and every
sequence of results of the random generator, `generate_obstacles` ends, having
drawn at most `100` random obstacles for each of the `count` requested ones; the
obstacles of the canvas are the former ones followed by at most `count` new
ones, the size of the canvas is unchanged, and none of the new obstacles
intersects the `25` by `25` turtle area centred on the turtle position.  The
obstacle count increases by exactly `count` when among any `100` successive
random obstacles one does not intersect the turtle area. -/
theorem generate_obstacles_adds_at_most_count (H : Host) (count : ℤ) (turtle_pos : QPointF)
    (draws : ℕ → RandomDraw) (c : Canvas) :
    ∃ added : List Obstacle,
      (Canvas.generate_obstacles H count turtle_pos draws c).1 =
          { c with m_obstacles := c.m_obstacles ++ added } ∧
        (Canvas.generate_obstacles H count turtle_pos draws c).1.obstacle_count =
          c.obstacle_count + added.length ∧
        added.length ≤ count.toNat ∧
        (∀ o ∈ added, Canvas.check_turtle_overlap o turtle_pos 25 25 = false) ∧
        (Canvas.generate_obstacles H count turtle_pos draws c).2 ≤ 100 * count.toNat ∧
        ((∀ m, ∃ j, j < 100 ∧ draw_overlaps H c turtle_pos draws (m + j) = false) →
          added.length = count.toNat) := by
  obtain ⟨added, h1, h2, h3, h4, h5⟩ :=
    generate_loop_result H turtle_pos draws count.toNat 0 c
  refine ⟨added, h1, ?_, h2, h3, by simpa using h4, h5⟩
  unfold Canvas.generate_obstacles
  rw [h1]
  simp [Canvas.obstacle_count]

theorem generate_obstacles_adds_at_most_count_witness :
    (Canvas.generate_obstacles host0 3 ⟨400, 300⟩
        (fun n => if n % 100 = 99 then corner_draw else centre_draw)
        test_canvas).1.obstacle_count = 3 := by
  obtain ⟨added, _, h2, _, _, _, h6⟩ :=
    generate_obstacles_adds_at_most_count host0 3 ⟨400, 300⟩
      (fun n => if n % 100 = 99 then corner_draw else centre_draw) test_canvas
  rw [h2, h6 (fun m => ⟨99 - m % 100, by omega, by
    have hm : (m + (99 - m % 100)) % 100 = 99 := by omega
    unfold draw_overlaps
    simp only [hm, if_true]
    decide!⟩)]
  decide

/-! ## A motion in flight comes to an end -/

theorem is_moving_iff (t : TurtleControl) :
    is_moving t = true ↔ ∃ g, t.current_anim_ = some g ∧ g.state = AnimState.Running := by
  unfold is_moving
  rcases t.current_anim_ with _ | g
  · simp
  · simp

theorem is_moving_emit (sig : Signal) (t : TurtleControl) :
    is_moving (TurtleControl.emit sig t) = is_moving t := rfl

/-- What `anim_value_changed` does to the group and to the log: nothing when no
object is hit; when one is hit, the group is dropped and `kBlocked` is
reported. -/
theorem anim_value_changed_progress (H : Host) (t : TurtleControl) (g : AnimGroup)
    (hg : t.current_anim_ = some g) (hrun : g.state = AnimState.Running) :
    ((anim_value_changed H t).current_anim_ = some g ∧
        (anim_value_changed H t).signals_ = t.signals_) ∨
      ((anim_value_changed H t).current_anim_ = none ∧
        ∃ new, (anim_value_changed H t).signals_ = t.signals_ ++ new ∧ releases new = true) := by
  rcases hhit : hit_object H t with _ | ⟨hit, poly⟩
  · left
    rw [anim_value_changed_clear H t g hg hhit]
    exact ⟨by simp only [update_lines_anim, hg], by simp only [update_lines_signals]⟩
  · right
    rw [anim_value_changed_hit H t g hit poly hg hhit]
    have hstop : (set_current_anim none t).current_anim_ = none := rfl
    have hsig : ∃ s, (set_current_anim none t).signals_ = t.signals_ ++ s := by
      by_cases hend : g.at_end = true
      · exact ⟨[Signal.on_movement_completed MovementResult.kSuccess], by
          simp [set_current_anim, stop, hg, hrun, hend, anim_finished_stopped,
            TurtleControl.emit]⟩
      · exact ⟨[], by simp [set_current_anim, stop, hg, hrun, hend]⟩
    obtain ⟨s, hs⟩ := hsig
    refine ⟨?_, s ++ [Signal.on_movement_completed MovementResult.kBlocked,
      Signal.on_collision hit poly], ?_, ?_⟩
    · simp only [TurtleControl.emit]
      rw [set_rotation_anim, set_position_anim]
      exact hstop
    · simp only [TurtleControl.emit]
      rw [set_rotation_signals, set_position_signals, hs]
      simp
    · unfold releases
      rw [completions_append]
      simp [completions]

/-- One sample of a motion in flight: the log grows; either the motion is still
in flight, nothing was reported and the sample was not the one at the end, or the
motion is over and a completion was reported. -/
theorem tick_progress (H : Host) (p : ℚ) (t : TurtleControl) (hm : is_moving t = true) :
    ∃ new, (tick H p t).signals_ = t.signals_ ++ new ∧
      ((is_moving (tick H p t) = true ∧ new = [] ∧ max 0 (min 1 p) ≠ 1) ∨
        (is_moving (tick H p t) = false ∧ releases new = true)) := by
  obtain ⟨g, hg, hrun⟩ := (is_moving_iff t).mp hm
  have hw := write_sample_anim H g (max 0 (min 1 p)) t
  have hws := write_sample_signals H g (max 0 (min 1 p)) t
  -- the state after the property writes and the slot `anim_value_changed`
  have hmid : ∀ u : TurtleControl,
      ((u.current_anim_ = (write_sample H g (max 0 (min 1 p)) t).current_anim_ ∧
          u.signals_ = t.signals_) ∨
        (u.current_anim_ = none ∧ ∃ new, u.signals_ = t.signals_ ++ new ∧ releases new = true)) →
      ∃ new, (if max 0 (min 1 p) = 1 then finish u else u).signals_ = t.signals_ ++ new ∧
        ((is_moving (if max 0 (min 1 p) = 1 then finish u else u) = true ∧ new = [] ∧
            max 0 (min 1 p) ≠ 1) ∨
          (is_moving (if max 0 (min 1 p) = 1 then finish u else u) = false ∧
            releases new = true)) := by
    intro u hu
    rcases hu with ⟨hu1, hu2⟩ | ⟨hu1, new, hu2, hu3⟩
    · rw [hw] at hu1
      by_cases hq : max 0 (min 1 p) = 1
      · rw [if_pos hq, finish_at_end u _ hu1 hrun (by simp [hq])]
        exact ⟨[Signal.on_movement_completed MovementResult.kSuccess],
          by simp [TurtleControl.emit, hu2], Or.inr ⟨rfl, by decide⟩⟩
      · rw [if_neg hq]
        exact ⟨[], by simp [hu2], Or.inl ⟨by simp [is_moving, hu1, hrun], rfl, hq⟩⟩
    · have hfin : finish u = u := by simp [finish, hu1]
      refine ⟨new, ?_, Or.inr ⟨?_, hu3⟩⟩
      · split_ifs
        · rw [hfin, hu2]
        · exact hu2
      · split_ifs
        · rw [hfin]; simp [is_moving, hu1]
        · simp [is_moving, hu1]
  have htick : tick H p t =
      (if max 0 (min 1 p) = 1 then
        finish (if g.current_value ≠ some (g.position_at (max 0 (min 1 p))) then
          anim_value_changed H (write_sample H g (max 0 (min 1 p)) t)
          else write_sample H g (max 0 (min 1 p)) t)
      else (if g.current_value ≠ some (g.position_at (max 0 (min 1 p))) then
          anim_value_changed H (write_sample H g (max 0 (min 1 p)) t)
          else write_sample H g (max 0 (min 1 p)) t)) := by
    simp only [tick, hg, hrun, ne_eq, not_true_eq_false, if_false]
  rw [htick]
  apply hmid
  split_ifs with hchg
  · rcases anim_value_changed_progress H _ _ hw hrun with ⟨h1, h2⟩ | ⟨h1, new, h2, h3⟩
    · exact Or.inl ⟨h1.trans hw.symm, h2.trans hws⟩
    · exact Or.inr ⟨h1, new, by rw [h2, hws], h3⟩
  · exact Or.inl ⟨rfl, hws⟩

theorem releases_append_right (a b : List Signal) (h : releases b = true) :
    releases (a ++ b) = true := by
  unfold releases at h ⊢
  rw [completions_append, List.any_append, h, Bool.or_true]

theorem releases_append_left (a b : List Signal) (h : releases a = true) :
    releases (a ++ b) = true := by
  unfold releases at h ⊢
  rw [completions_append, List.any_append, h, Bool.true_or]

theorem tick_not_moving (H : Host) (p : ℚ) (t : TurtleControl) (h : is_moving t = false) :
    tick H p t = t := by
  unfold tick
  unfold is_moving at h
  rcases hg : t.current_anim_ with _ | g
  · rfl
  · rw [hg] at h
    simp only at h
    simp only
    rw [if_pos (by simpa using h)]

/-- The samples of a motion in flight: the log grows; either the motion is still
in flight and nothing was reported, or it is over and a completion was
reported. -/
theorem ticks_progress (H : Host) (ps : List ℚ) :
    ∀ t : TurtleControl, is_moving t = true →
      ∃ new, (ticks H ps t).signals_ = t.signals_ ++ new ∧
        ((is_moving (ticks H ps t) = true ∧ new = []) ∨
          (is_moving (ticks H ps t) = false ∧ releases new = true)) := by
  induction ps with
  | nil => intro t hm; exact ⟨[], by simp [ticks], Or.inl ⟨hm, rfl⟩⟩
  | cons p ps ih =>
    intro t hm
    obtain ⟨new, h1, h2⟩ := tick_progress H p t hm
    simp only [ticks]
    rcases h2 with ⟨h2, h3, _⟩ | ⟨h2, h3⟩
    · obtain ⟨new1, h4, h5⟩ := ih _ h2
      refine ⟨new1, ?_, h5⟩
      rw [h4, h1, h3, List.append_nil]
    · have hrest : ∀ qs, ticks H qs (tick H p t) = tick H p t := by
        intro qs
        induction qs with
        | nil => rfl
        | cons q qs ihq => simp only [ticks, tick_not_moving H q _ h2, ihq]
      rw [hrest]
      exact ⟨new, h1, Or.inr ⟨h2, h3⟩⟩

/-- A run of the motion in flight ends the motion and reports a completion. -/
theorem play_completes (H : Host) (ps : List ℚ) (t : TurtleControl) (hm : is_moving t = true) :
    is_moving (play H ps t) = false ∧
      ∃ new, (play H ps t).signals_ = t.signals_ ++ new ∧ releases new = true := by
  unfold play
  obtain ⟨new, h1, h2⟩ := ticks_progress H ps t hm
  rcases h2 with ⟨h2, h3⟩ | ⟨h2, h3⟩
  · obtain ⟨new1, h4, h5⟩ := tick_progress H 1 _ h2
    rcases h5 with ⟨_, _, h6⟩ | ⟨h6, h7⟩
    · exact absurd (by norm_num) h6
    · exact ⟨h6, new1, by rw [h4, h1, h3, List.append_nil], h7⟩
  · rw [tick_not_moving H 1 _ h2]
    exact ⟨h2, new, h1, h3⟩

/-- The completions that reach `animation_done`. -/
theorem deliver_completions_releases (before new : List Signal) (a : App)
    (hsig : a.turtle.signals_ = before ++ new) (h : releases new = true) :
    deliver_completions before a = { a with parser := animation_done a.parser } := by
  unfold deliver_completions
  rw [hsig, List.drop_left']
  · unfold releases at h
    rw [if_pos h]
  · rfl

/-- The wait of the parser while a motion is in flight comes to an end. -/
theorem wait_movement_done_moving (H : Host) (a : App) (hm : is_moving a.turtle = true) :
    ∃ a1, wait_movement_done H a = Except.ok a1 ∧ a1.parser.movement_done = true ∧
      (a.parser.movement_done = false → is_moving a1.turtle = false) := by
  unfold wait_movement_done
  by_cases hd : a.parser.movement_done = true
  · rw [if_pos hd]
    exact ⟨a, rfl, hd, fun h => by rw [h] at hd; exact absurd hd (by decide)⟩
  · obtain ⟨h1, new, h2, h3⟩ := play_completes H a.timer a.turtle hm
    rw [if_neg hd, if_pos hm]
    simp only
    rw [deliver_completions_releases a.turtle.signals_ new _ h2 h3]
    simp only [animation_done, if_true]
    exact ⟨_, rfl, rfl, fun _ => h1⟩

/-! ## A forward that the turtle rejects -/

/-- C27, counterexample.  On a fresh application the line `arc(50,90);forward(10)`
dispatches `forward(10)` while the arc is in flight; the turtle rejects it and
reports `kFailure` during the dispatch, and after the sub-command `movement_done`
is `false`: the assignment that follows the `emit` has overwritten the
notification. -/
theorem rejected_forward_leaves_parser_waiting :
    (parse_line host0 1 arc_then_forward (App.new host0 [])).toOption.map
        (fun r => (r.1, completions r.2.turtle.signals_, r.2.parser.movement_done,
          is_moving r.2.turtle)) =
      some (["arc(50,90)".toList, "forward(10)".toList], [MovementResult.kFailure], false,
        true) := by
  decide!

/-- C27, amended.  When `parse_line` dispatches `forward(d)` while a motion is in
flight, the turtle rejects the request and reports `kFailure` during the
dispatch, which sets `movement_done`; the assignment `movement_done = false` that
follows the `emit` overwrites it, so after the sub-command `movement_done` is
`false`.  The wait before the next sub-command or line then lasts until the
motion in flight is over: that motion reports its completion, the wait ends with
`movement_done` set, and the parser is not blocked for ever. -/
theorem rejected_forward_waits_for_the_motion_in_flight (H : Host) (dtext : Str) (d : ℚ)
    (a : App) (hnum : is_number dtext = true) (hd : stof dtext = Except.ok d)
    (hmoving : is_moving a.turtle = true) :
    ∃ a1, execute_command H (forward_command dtext) a = Except.ok (true, a1) ∧
      a1.turtle =
        TurtleControl.emit (Signal.on_movement_completed MovementResult.kFailure) a.turtle ∧
      (dispatch H (forward H d) a).parser.movement_done = true ∧
      a1.parser.movement_done = false ∧
      ∃ a2, wait_movement_done H a1 = Except.ok a2 ∧ a2.parser.movement_done = true ∧
        is_moving a2.turtle = false := by
  have hfwd : forward H d a.turtle =
      TurtleControl.emit (Signal.on_movement_completed MovementResult.kFailure) a.turtle := by
    simp [forward, hmoving]
  have hdisp : dispatch H (forward H d) a =
      { a with parser := animation_done a.parser,
               turtle := TurtleControl.emit
                 (Signal.on_movement_completed MovementResult.kFailure) a.turtle } := by
    unfold dispatch
    simp only [hmoving, Bool.not_true, Bool.false_and, Bool.false_eq_true, if_false, hfwd]
    rw [deliver_completions_releases a.turtle.signals_
      [Signal.on_movement_completed MovementResult.kFailure] _ rfl (by decide)]
  have hexec : execute_command H (forward_command dtext) a =
      Except.ok (true, { dispatch H (forward H d) a with
        parser := { (dispatch H (forward H d) a).parser with movement_done := false } }) := by
    simp only [execute_command, match_unary_forward _ hnum, hd]
  refine ⟨_, hexec, ?_, ?_, rfl, ?_⟩
  · simp only [hdisp]
  · rw [hdisp]
    rfl
  · have hm1 : is_moving (dispatch H (forward H d) a).turtle = true := by
      rw [hdisp]
      exact hmoving
    obtain ⟨a2, h1, h2, h3⟩ := wait_movement_done_moving H
      { dispatch H (forward H d) a with
        parser := { (dispatch H (forward H d) a).parser with movement_done := false } } hm1
    exact ⟨a2, h1, h2, h3 rfl⟩

theorem rejected_forward_waits_for_the_motion_in_flight_witness :
    is_moving (dispatch host0 (arc host0 50 90) (App.new host0 [])).turtle = true ∧
      ∃ a1, execute_command host0 (forward_command "10".toList)
          (dispatch host0 (arc host0 50 90) (App.new host0 [])) = Except.ok (true, a1) ∧
        a1.parser.movement_done = false ∧
        ∃ a2, wait_movement_done host0 a1 = Except.ok a2 ∧ a2.parser.movement_done = true ∧
          is_moving a2.turtle = false := by
  obtain ⟨a1, h1, _, _, h4, h5⟩ :=
    rejected_forward_waits_for_the_motion_in_flight host0 "10".toList 10
      (dispatch host0 (arc host0 50 90) (App.new host0 [])) (by decide) (by decide!)
      (by decide!)
  exact ⟨by decide!, a1, h1, h4, h5⟩

/-! ## The termination of `parse_line` -/

theorem search_var_parts (s before contents suffix : Str)
    (h : search_var s = some (before, contents, suffix)) :
    s = before ++ '(' :: (contents ++ ')' :: suffix) := by
  induction s generalizing before with
  | nil => simp [search_var] at h
  | cons c cs ih =>
    have hnext : (search_var cs).map (fun r => (c :: r.1, r.2.1, r.2.2)) =
        some (before, contents, suffix) → c :: cs = before ++ '(' :: (contents ++ ')' :: suffix) := by
      intro h1
      rcases hs : search_var cs with _ | ⟨b, ct, sf⟩
      · rw [hs] at h1
        simp at h1
      · rw [hs] at h1
        simp only [Option.map_some', Option.some.injEq, Prod.mk.injEq] at h1
        obtain ⟨h2, h3, h4⟩ := h1
        subst h2 h3 h4
        rw [List.cons_append, ← ih b hs]
    rw [search_var] at h
    split_ifs at h with hc
    · split at h
      · rename_i x xs y suf htake hdrop
        simp only [Option.some.injEq, Prod.mk.injEq] at h
        obtain ⟨h2, h3, h4⟩ := h
        have hy : y = ')' := by
          have := List.head_dropWhile_not (fun x => decide (x ≠ ')')) cs
          simp only [hdrop] at this
          have h5 := this (by simp)
          simpa using h5
        rw [← h2, ← h3, ← h4, hc, List.nil_append]
        congr 1
        conv_lhs => rw [← List.takeWhile_append_dropWhile (fun x => decide (x ≠ ')')) cs]
        rw [hdrop, hy]
      · exact hnext h
    · exact hnext h

/-- The word at the start of a text and the text after it, when the text is cut
after a character that is not of a word. -/
theorem word_before_stop {α : Type} (p : α → Bool) (l : List α) (x : α) (rest : List α)
    (hx : p x = false) :
    (l ++ x :: rest).takeWhile p = l.takeWhile p ∧
      (l ++ x :: rest).dropWhile p = l.dropWhile p ++ x :: rest := by
  induction l with
  | nil => simp [List.takeWhile_cons, List.dropWhile_cons, hx]
  | cons c cs ih =>
    by_cases hc : p c = true
    · simp [List.takeWhile_cons, List.dropWhile_cons, hc, ih.1, ih.2]
    · simp [List.takeWhile_cons, List.dropWhile_cons, hc]

theorem remove_whitespace_append (s t : Str) :
    remove_whitespace (s ++ t) = remove_whitespace s ++ remove_whitespace t := by
  simp [remove_whitespace]

theorem remove_whitespace_paren (s t : Str) :
    remove_whitespace (s ++ '(' :: t) = remove_whitespace s ++ '(' :: remove_whitespace t := by
  rw [remove_whitespace_append]
  rfl

/-- The name of a call does not depend on what follows the first bracket. -/
theorem called_name_paren (before rest1 rest2 : Str) :
    called_name (before ++ '(' :: rest1) = called_name (before ++ '(' :: rest2) := by
  unfold called_name
  rw [remove_whitespace_paren, remove_whitespace_paren]
  have h1 := word_before_stop isword (remove_whitespace before) '(' (remove_whitespace rest1)
    (by decide)
  have h2 := word_before_stop isword (remove_whitespace before) '(' (remove_whitespace rest2)
    (by decide)
  rw [h1.1, h1.2, h2.1, h2.2]
  rcases List.dropWhile isword (remove_whitespace before) with _ | ⟨c, cs⟩
  · rfl
  · rfl

/-- The substitution of the variables keeps the name of a call. -/
theorem called_name_substitute_groups (vars : List (Str × Float32)) (fuel : ℕ) (s : Str) :
    called_name (substitute_groups vars fuel s) = called_name s := by
  cases fuel with
  | zero => rfl
  | succ fuel =>
    rw [substitute_groups]
    rcases h : search_var s with _ | ⟨before, contents, suffix⟩
    · rfl
    · simp only
      rw [search_var_parts s before contents suffix h]
      simp only [List.append_assoc, List.singleton_append]
      exact called_name_paren before _ _

/-- What `general_function_regex` matches: a word, then a bracket. -/
theorem match_general_function_shape (s name argument : Str)
    (h : match_general_function s = some (name, argument)) :
    name = s.takeWhile isword ∧ ∃ rest, s.dropWhile isword = '(' :: rest := by
  have hname := match_general_function_name s name argument h
  refine ⟨hname, ?_⟩
  unfold match_general_function at h
  rcases hc : call_arguments (List.takeWhile isword s) s with _ | a
  · simp [hc] at h
  · unfold call_arguments at hc
    split_ifs at hc with hp
    obtain ⟨t, ht⟩ := hp.1
    have hs : s = List.takeWhile isword s ++ List.dropWhile isword s :=
      (List.takeWhile_append_dropWhile isword s).symm
    rw [List.append_assoc] at ht
    have h2 : ['('] ++ t = List.dropWhile isword s := by
      have h3 : List.takeWhile isword s ++ (['('] ++ t) =
          List.takeWhile isword s ++ List.dropWhile isword s := by
        rw [ht]
        exact hs
      exact List.append_cancel_left h3
    exact ⟨t, h2.symm⟩

theorem called_name_of_match (s name argument : Str)
    (h : match_general_function (remove_whitespace s) = some (name, argument)) :
    called_name s = some name := by
  obtain ⟨h1, rest, h2⟩ := match_general_function_shape _ _ _ h
  unfold called_name
  rw [h2, h1]
  rfl

theorem remove_whitespace_idem (s : Str) :
    remove_whitespace (remove_whitespace s) = remove_whitespace s := by
  simp [remove_whitespace, List.filter_filter]

/-- The function that a sub-command calls is named by the sub-command itself,
whatever the variable store. -/
theorem called_name_correct (p : Parser) (raw name argument : Str)
    (h : match_general_function (varname_to_value p raw) = some (name, argument)) :
    called_name raw = some name := by
  unfold varname_to_value at h
  simp only at h
  rcases hm : match_varassign (substitute_groups p.vars raw.length raw) with _ | ⟨x, y⟩
  · rw [hm] at h
    simp only at h
    rw [← called_name_substitute_groups p.vars raw.length raw]
    exact called_name_of_match _ _ _ h
  · rw [hm] at h
    simp only at h
    rcases hv : map_find y p.vars with _ | v
    · rw [hv] at h
      simp only at h
      rw [← called_name_substitute_groups p.vars raw.length raw]
      exact called_name_of_match _ _ _ h
    · rw [hv] at h
      simp only at h
      exfalso
      have hx : is_identifier x = true := by
        unfold match_varassign at hm
        simp only at hm
        split at hm
        · split_ifs at hm with hcond
          simp only [Option.some.injEq, Prod.mk.injEq] at hm
          rw [← hm.1]
          exact hcond.2.1
        · simp at hm
      have hxw := identifier_word x hx
      have hclean : remove_whitespace (x ++ ['='] ++ to_string v) =
          x ++ '=' :: remove_whitespace (to_string v) := by
        rw [List.append_assoc, remove_whitespace_append]
        have : remove_whitespace x = x := by
          unfold remove_whitespace
          rw [List.filter_eq_self]
          intro c hc
          have := (plain_char c (word_plain c (hxw c hc))).2.2.2.2.2.2.2.2
          simp [this]
        rw [this]
        rfl
      rw [hclean] at h
      unfold match_general_function at h
      simp only [(takeWhile_append_stop isword x '=' _ hxw (by decide)).1,
        call_arguments_assign x x _ hxw hxw] at h
      exact absurd h (by simp)

theorem wait_movement_done_fuel (H : Host) (a : App) :
    wait_movement_done H a ≠ Except.error Stop.out_of_fuel := by
  unfold wait_movement_done
  simp only
  split_ifs <;> simp

theorem execute_command_fuel (H : Host) (command : Str) (a : App) :
    execute_command H command a ≠ Except.error Stop.out_of_fuel := by
  rcases execute_command_outcome H command a with ⟨_, h⟩ | ⟨_, ⟨a2, h⟩ | h⟩ <;> rw [h] <;> simp

theorem stof_fuel (s : Str) : stof s ≠ Except.error Stop.out_of_fuel := by
  unfold stof
  simp only
  split_ifs <;> simp

theorem stof_float_fuel (s : Str) : stof_float s ≠ Except.error Stop.out_of_fuel := by
  rcases h : stof s with e | v
  · rw [stof_float_error s e h]
    intro h1
    rw [Except.error.injEq] at h1
    rw [h1] at h
    exact stof_fuel s h
  · rw [stof_float_ok s v h]
    simp

theorem stoi_fuel (s : Str) : stoi s ≠ Except.error Stop.out_of_fuel := by
  unfold stoi
  simp only
  split_ifs <;> simp

theorem run_lines_fuel (pl : Str → App → Except Stop (List Str × App)) (F : List (Str × Str))
    (hfuncs : ∀ s a r, pl s a = Except.ok r → r.2.parser.funcs = a.parser.funcs)
    (lines : List Str)
    (hpl : ∀ line ∈ lines, ∀ b : App, b.parser.funcs = F →
      pl line b ≠ Except.error Stop.out_of_fuel) :
    ∀ acc (b : App), b.parser.funcs = F →
      run_lines pl lines acc b ≠ Except.error Stop.out_of_fuel := by
  induction lines with
  | nil =>
    intro acc b _
    rw [run_lines]
    simp
  | cons line rest ih =>
    intro acc b hb
    rw [run_lines]
    rcases h1 : pl line b with e | ⟨cmds, b1⟩
    · simp only
      intro h2
      rw [Except.error.injEq] at h2
      rw [h2] at h1
      exact hpl line (List.mem_cons_self _ _) b hb h1
    · simp only
      exact ih (fun l hl => hpl l (List.mem_cons_of_mem _ hl)) _ b1
        ((hfuncs line b _ h1).trans hb)

theorem run_loop_fuel (pl : Str → App → Except Stop (List Str × App)) (F : List (Str × Str))
    (hfuncs : ∀ s a r, pl s a = Except.ok r → r.2.parser.funcs = a.parser.funcs)
    (body : Str)
    (hpl : ∀ line ∈ getlines '\n' body, ∀ b : App, b.parser.funcs = F →
      pl line b ≠ Except.error Stop.out_of_fuel)
    (count : ℕ) :
    ∀ acc (b : App), b.parser.funcs = F →
      run_loop pl count body acc b ≠ Except.error Stop.out_of_fuel := by
  induction count with
  | zero =>
    intro acc b _
    rw [run_loop]
    simp
  | succ count ih =>
    intro acc b hb
    rw [run_loop]
    rcases h1 : run_lines pl (getlines '\n' body) acc b with e | ⟨acc1, b1⟩
    · simp only
      intro h2
      rw [Except.error.injEq] at h2
      rw [h2] at h1
      exact run_lines_fuel pl F hfuncs _ hpl acc b hb h1
    · simp only
      exact ih _ b1 ((run_lines_funcs pl hfuncs _ _ _ _ h1).trans hb)

theorem call_function_fuel (pl : Str → App → Except Stop (List Str × App)) (F : List (Str × Str))
    (hfuncs : ∀ s a r, pl s a = Except.ok r → r.2.parser.funcs = a.parser.funcs)
    (function_name argument body : Str)
    (hpl : ∀ line ∈ getlines '\n' body, ∀ b : App, b.parser.funcs = F →
      pl line b ≠ Except.error Stop.out_of_fuel)
    (b : App) (hb : b.parser.funcs = F) :
    call_function pl function_name argument body b ≠ Except.error Stop.out_of_fuel := by
  have hrun : ∀ b1 : App, b1.parser.funcs = F →
      (match run_lines pl (getlines '\n' body) [] b1 with
        | Except.ok r => (Except.ok r.2 : Except Stop App)
        | Except.error e => Except.error e) ≠ Except.error Stop.out_of_fuel := by
    intro b1 hb1
    rcases h2 : run_lines pl (getlines '\n' body) [] b1 with e | r
    · simp only
      intro h3
      rw [Except.error.injEq] at h3
      rw [h3] at h2
      exact run_lines_fuel pl F hfuncs _ hpl [] b1 hb1 h2
    · simp
  unfold call_function
  by_cases hne : argument = []
  · simp only [hne, ne_eq, not_true_eq_false, if_false]
    exact hrun b hb
  · simp only [ne_eq, hne, not_false_eq_true, if_true]
    rcases hs : stof_float argument with e | v
    · simp only
      intro h3
      rw [Except.error.injEq] at h3
      rw [h3] at hs
      exact stof_float_fuel argument hs
    · simp only
      exact hrun _ hb

/-- The sub-commands of a line do not run out of fuel when the lines of the
functions they call do not. -/
theorem run_commands_fuel (H : Host) (pl : Str → App → Except Stop (List Str × App))
    (F : List (Str × Str))
    (hfuncs : ∀ s a r, pl s a = Except.ok r → r.2.parser.funcs = a.parser.funcs)
    (raws : List Str)
    (hcall : ∀ raw ∈ raws, ∀ g gbody, called_name raw = some g → map_find g F = some gbody →
      ∀ line ∈ getlines '\n' gbody, ∀ b : App, b.parser.funcs = F →
        pl line b ≠ Except.error Stop.out_of_fuel) :
    ∀ acc (b : App), b.parser.funcs = F →
      run_commands H pl raws acc b ≠ Except.error Stop.out_of_fuel := by
  induction raws with
  | nil =>
    intro acc b _
    rw [run_commands]
    simp
  | cons raw rest ih =>
    intro acc b hb
    have ih1 := ih (fun r hr => hcall r (List.mem_cons_of_mem _ hr))
    rw [run_commands]
    rcases hw : wait_movement_done H b with e | b1
    · simp only
      intro h2
      rw [Except.error.injEq] at h2
      rw [h2] at hw
      exact wait_movement_done_fuel H b hw
    · simp only
      have hb1 : b1.parser.funcs = F := (wait_movement_done_funcs H b b1 hw).trans hb
      have hexec : (match execute_command H (varname_to_value b1.parser raw) b1 with
            | Except.ok (true, a2) =>
              run_commands H pl rest (acc ++ [varname_to_value b1.parser raw]) a2
            | Except.ok (false, a2) => run_commands H pl rest acc a2
            | Except.error e => Except.error e) ≠ Except.error Stop.out_of_fuel := by
        rcases he : execute_command H (varname_to_value b1.parser raw) b1 with e | ⟨m, b2⟩
        · simp only
          intro h2
          rw [Except.error.injEq] at h2
          rw [h2] at he
          exact execute_command_fuel H _ b1 he
        · have hef := (execute_command_funcs H _ b1 m b2 he).trans hb1
          cases m
          · exact ih1 _ b2 hef
          · exact ih1 _ b2 hef
      rcases hm : match_general_function (varname_to_value b1.parser raw) with _ | ⟨fn, arg⟩
      · exact hexec
      · simp only
        rcases hf : map_find fn b1.parser.funcs with _ | fbody
        · exact hexec
        · simp only [Option.map_some']
          have hcn := called_name_correct b1.parser raw fn arg hm
          rw [hb1] at hf
          have hbody := hcall raw (List.mem_cons_self _ _) fn fbody hcn hf
          rcases hc : call_function pl fn arg fbody b1 with e | b2
          · simp only
            intro h2
            rw [Except.error.injEq] at h2
            rw [h2] at hc
            exact call_function_fuel pl F hfuncs fn arg fbody hbody b1 hb1 hc
          · simp only
            exact ih1 _ b2 ((call_function_funcs pl hfuncs fn arg fbody b1 b2 hc).trans hb1)

theorem split_on_length (delim : Char) (s : Str) :
    ∀ seg ∈ split_on delim s, seg.length ≤ s.length := by
  induction s with
  | nil =>
    intro seg hseg
    simp only [split_on, List.mem_singleton] at hseg
    rw [hseg]
  | cons x xs ih =>
    intro seg hseg
    rw [split_on] at hseg
    split_ifs at hseg with hx
    · rcases List.mem_cons.mp hseg with h1 | h1
      · rw [h1]
        simp
      · exact Nat.le_succ_of_le (ih seg h1)
    · rcases hsp : split_on delim xs with _ | ⟨seg0, segs⟩
      · exact absurd hsp (split_on_ne_nil delim xs)
      · rw [hsp] at hseg ih
        simp only [List.mem_cons] at hseg
        rcases hseg with h1 | h1
        · rw [h1]
          simp only [List.length_cons]
          exact Nat.succ_le_succ (ih seg0 (List.mem_cons_self _ _))
        · exact Nat.le_succ_of_le (ih seg (List.mem_cons_of_mem _ h1))

theorem getlines_length (delim : Char) (s line : Str) (h : line ∈ getlines delim s) :
    line.length ≤ s.length := by
  unfold getlines at h
  simp only at h
  split_ifs at h
  · exact split_on_length delim s line (List.mem_of_mem_dropLast h)
  · exact split_on_length delim s line h

/-- The body of an inline loop is shorter than the line. -/
theorem match_cli_loop_length (s count body : Str)
    (h : match_cli_loop s = some (count, body)) : body.length < s.length := by
  unfold match_cli_loop at h
  split_ifs at h with hp
  simp only at h
  split at h
  · rename_i c rest heq
    split_ifs at h with hcond
    simp only [Option.some.injEq, Prod.mk.injEq] at h
    rw [← h.2]
    have h1 : (List.dropWhile Char.isDigit (List.drop 4 s)).length ≤ s.length :=
      le_trans (List.dropWhile_sublist _).length_le (List.drop_sublist _ _).length_le
    rw [heq] at h1
    simp only [List.length_cons] at h1
    have h2 : rest.dropLast.length ≤ rest.length := by
      rw [List.length_dropLast]
      omega
    omega
  · simp at h

theorem first_line_length (input : Str) :
    (remove_whitespace (first_line input)).length ≤ input.length := by
  unfold remove_whitespace first_line
  exact le_trans (List.filter_sublist _).length_le (List.takeWhile_sublist _).length_le

/-- The lines of the bodies of the functions of a rank below `k` do not run out
of fuel with `k` levels of fuel. -/
theorem body_lines_fuel (H : Host) (F : List (Str × Str)) (rank : Str → ℕ)
    (hbodies : ∀ kv ∈ F, rbrace ∉ kv.2) (hdown : calls_go_down F rank) :
    ∀ k fuel, k ≤ fuel → ∀ f body, (f, body) ∈ F → rank f < k →
      ∀ line ∈ getlines '\n' body, ∀ b : App, b.parser.funcs = F →
        parse_line H fuel line b ≠ Except.error Stop.out_of_fuel := by
  intro k
  induction k with
  | zero =>
    intro fuel _ f body _ hr
    exact absurd hr (Nat.not_lt_zero _)
  | succ k ih =>
    intro fuel hfuel f body hmem hr line hline b hb
    obtain ⟨fuel1, rfl⟩ : ∃ fuel1, fuel = fuel1 + 1 := ⟨fuel - 1, by omega⟩
    have hno : rbrace ∉ body := hbodies (f, body) hmem
    have hnone : match_cli_loop (remove_whitespace (first_line line)) = none :=
      match_cli_loop_no_rbrace _ (fun hm =>
        hno (mem_getlines '\n' body line hline rbrace (mem_first_line_clean line rbrace hm)))
    rw [parse_line_commands H fuel1 line b hnone]
    refine run_commands_fuel H _ F (parse_line_funcs H fuel1) _ ?_ [] b hb
    intro raw hraw g gbody hg hgbody gline hgline b1 hb1
    have hlt : rank g < rank f :=
      hdown (f, body) hmem line hline raw hraw g hg (by rw [hgbody]; rfl)
    exact ih fuel1 (by omega) g gbody (map_find_mem g F gbody hgbody) (by omega) gline hgline
      b1 hb1

/-- A line of at most `n` characters does not run out of fuel with `n + bound + 1`
levels of fuel, when the functions of the table have a rank below `bound`. -/
theorem lines_fuel (H : Host) (F : List (Str × Str)) (rank : Str → ℕ) (bound : ℕ)
    (hbodies : ∀ kv ∈ F, rbrace ∉ kv.2) (hdown : calls_go_down F rank)
    (hbound : ∀ kv ∈ F, rank kv.1 < bound) :
    ∀ n fuel, n + bound + 1 ≤ fuel → ∀ input : Str, input.length ≤ n →
      ∀ b : App, b.parser.funcs = F →
        parse_line H fuel input b ≠ Except.error Stop.out_of_fuel := by
  intro n
  induction n with
  | zero =>
    intro fuel hfuel input hlen b hb
    obtain ⟨fuel1, rfl⟩ : ∃ fuel1, fuel = fuel1 + 1 := ⟨fuel - 1, by omega⟩
    rcases hm : match_cli_loop (remove_whitespace (first_line input)) with _ | ⟨count, body⟩
    · rw [parse_line_commands H fuel1 input b hm]
      refine run_commands_fuel H _ F (parse_line_funcs H fuel1) _ ?_ [] b hb
      intro raw _ g gbody _ hgbody gline hgline b1 hb1
      have hmem := map_find_mem g F gbody hgbody
      exact body_lines_fuel H F rank hbodies hdown bound fuel1 (by omega) g gbody hmem
        (hbound (g, gbody) hmem) gline hgline b1 hb1
    · have h1 := match_cli_loop_length _ _ _ hm
      have h2 := first_line_length input
      omega
  | succ n ih =>
    intro fuel hfuel input hlen b hb
    obtain ⟨fuel1, rfl⟩ : ∃ fuel1, fuel = fuel1 + 1 := ⟨fuel - 1, by omega⟩
    rcases hm : match_cli_loop (remove_whitespace (first_line input)) with _ | ⟨count, body⟩
    · rw [parse_line_commands H fuel1 input b hm]
      refine run_commands_fuel H _ F (parse_line_funcs H fuel1) _ ?_ [] b hb
      intro raw _ g gbody _ hgbody gline hgline b1 hb1
      have hmem := map_find_mem g F gbody hgbody
      exact body_lines_fuel H F rank hbodies hdown bound fuel1 (by omega) g gbody hmem
        (hbound (g, gbody) hmem) gline hgline b1 hb1
    · have h1 := match_cli_loop_length _ _ _ hm
      have h2 := first_line_length input
      rw [parse_line]
      simp only [hm]
      rcases hn : stoi count with e | cnt
      · simp only
        intro h3
        rw [Except.error.injEq] at h3
        rw [h3] at hn
        exact stoi_fuel count hn
      · simp only
        refine run_loop_fuel _ F (parse_line_funcs H fuel1) body ?_ _ [] b hb
        intro line hline b1 hb1
        have h4 := getlines_length '\n' body line hline
        exact ih fuel1 (by omega) line (by omega) b1 hb1

/-- The call of the function of `recursive_script` runs out of fuel, whatever the
fuel. -/
theorem recursive_call_fuel (fuel : ℕ) :
    parse_line host0 fuel "f()".toList recursive_app = Except.error Stop.out_of_fuel := by
  induction fuel with
  | zero => rfl
  | succ fuel ih =>
    have hlines : getlines '\n' "f()\n".toList = ["f()".toList] := by decide
    have hbody : map_find "f".toList recursive_app.parser.funcs = some "f()\n".toList := by
      decide
    rw [parse_line_no_brace host0 fuel _ recursive_app (by decide),
      getlines_single ';' "f()".toList (by decide) (by decide)]
    simp only [run_commands, wait_idle host0 recursive_app rfl,
      show varname_to_value recursive_app.parser "f()".toList = "f()".toList from rfl,
      show match_general_function "f()".toList = some ("f".toList, []) from by decide,
      hbody, Option.map_some', call_function, ne_eq, not_true_eq_false, if_false, hlines,
      run_lines]
    rw [show parse_line host0 fuel ['f', '(', ')'] recursive_app =
      Except.error Stop.out_of_fuel from ih]

theorem run_lines_more_fuel (pl1 pl2 : Str → App → Except Stop (List Str × App))
    (hmono : ∀ s a, pl1 s a ≠ Except.error Stop.out_of_fuel → pl2 s a = pl1 s a)
    (lines : List Str) :
    ∀ acc a, run_lines pl1 lines acc a ≠ Except.error Stop.out_of_fuel →
      run_lines pl2 lines acc a = run_lines pl1 lines acc a := by
  induction lines with
  | nil =>
    intro acc a _
    rw [run_lines, run_lines]
  | cons line rest ih =>
    intro acc a h
    rw [run_lines] at h ⊢
    rw [run_lines]
    have h1 : pl1 line a ≠ Except.error Stop.out_of_fuel := by
      intro h2
      rw [h2] at h
      exact h rfl
    rw [hmono line a h1]
    rcases h3 : pl1 line a with e | ⟨cmds, a1⟩
    · rfl
    · rw [h3] at h
      exact ih _ _ h

theorem run_loop_more_fuel (pl1 pl2 : Str → App → Except Stop (List Str × App))
    (hmono : ∀ s a, pl1 s a ≠ Except.error Stop.out_of_fuel → pl2 s a = pl1 s a)
    (body : Str) (count : ℕ) :
    ∀ acc a, run_loop pl1 count body acc a ≠ Except.error Stop.out_of_fuel →
      run_loop pl2 count body acc a = run_loop pl1 count body acc a := by
  induction count with
  | zero =>
    intro acc a _
    rw [run_loop, run_loop]
  | succ count ih =>
    intro acc a h
    rw [run_loop] at h ⊢
    rw [run_loop]
    have h1 : run_lines pl1 (getlines '\n' body) acc a ≠ Except.error Stop.out_of_fuel := by
      intro h2
      rw [h2] at h
      exact h rfl
    rw [run_lines_more_fuel pl1 pl2 hmono _ _ _ h1]
    rcases h3 : run_lines pl1 (getlines '\n' body) acc a with e | ⟨acc1, a1⟩
    · rfl
    · rw [h3] at h
      exact ih _ _ h

theorem call_function_more_fuel (pl1 pl2 : Str → App → Except Stop (List Str × App))
    (hmono : ∀ s a, pl1 s a ≠ Except.error Stop.out_of_fuel → pl2 s a = pl1 s a)
    (function_name argument body : Str) (a : App)
    (h : call_function pl1 function_name argument body a ≠ Except.error Stop.out_of_fuel) :
    call_function pl2 function_name argument body a =
      call_function pl1 function_name argument body a := by
  have hrun : ∀ a1 : App,
      (match run_lines pl1 (getlines '\n' body) [] a1 with
        | Except.ok r => (Except.ok r.2 : Except Stop App)
        | Except.error e => Except.error e) ≠ Except.error Stop.out_of_fuel →
      (match run_lines pl2 (getlines '\n' body) [] a1 with
        | Except.ok r => (Except.ok r.2 : Except Stop App)
        | Except.error e => Except.error e) =
      (match run_lines pl1 (getlines '\n' body) [] a1 with
        | Except.ok r => (Except.ok r.2 : Except Stop App)
        | Except.error e => Except.error e) := by
    intro a1 h1
    have h2 : run_lines pl1 (getlines '\n' body) [] a1 ≠ Except.error Stop.out_of_fuel := by
      intro h3
      rw [h3] at h1
      exact h1 rfl
    rw [run_lines_more_fuel pl1 pl2 hmono _ _ _ h2]
  unfold call_function at h ⊢
  by_cases hne : argument = []
  · simp only [hne, ne_eq, not_true_eq_false, if_false] at h ⊢
    exact hrun a h
  · simp only [ne_eq, hne, not_false_eq_true, if_true] at h ⊢
    rcases hs : stof_float argument with e | v
    · rfl
    · rw [hs] at h
      simp only at h ⊢
      exact hrun _ h

theorem run_commands_more_fuel (H : Host) (pl1 pl2 : Str → App → Except Stop (List Str × App))
    (hmono : ∀ s a, pl1 s a ≠ Except.error Stop.out_of_fuel → pl2 s a = pl1 s a)
    (raws : List Str) :
    ∀ acc a, run_commands H pl1 raws acc a ≠ Except.error Stop.out_of_fuel →
      run_commands H pl2 raws acc a = run_commands H pl1 raws acc a := by
  induction raws with
  | nil =>
    intro acc a _
    rw [run_commands, run_commands]
  | cons raw rest ih =>
    intro acc a h
    rw [run_commands] at h ⊢
    rw [run_commands]
    rcases hw : wait_movement_done H a with e | a1
    · rfl
    · rw [hw] at h
      simp only at h ⊢
      have hexec : (match execute_command H (varname_to_value a1.parser raw) a1 with
            | Except.ok (true, a2) =>
              run_commands H pl1 rest (acc ++ [varname_to_value a1.parser raw]) a2
            | Except.ok (false, a2) => run_commands H pl1 rest acc a2
            | Except.error e => Except.error e) ≠ Except.error Stop.out_of_fuel →
          (match execute_command H (varname_to_value a1.parser raw) a1 with
            | Except.ok (true, a2) =>
              run_commands H pl2 rest (acc ++ [varname_to_value a1.parser raw]) a2
            | Except.ok (false, a2) => run_commands H pl2 rest acc a2
            | Except.error e => Except.error e) =
          (match execute_command H (varname_to_value a1.parser raw) a1 with
            | Except.ok (true, a2) =>
              run_commands H pl1 rest (acc ++ [varname_to_value a1.parser raw]) a2
            | Except.ok (false, a2) => run_commands H pl1 rest acc a2
            | Except.error e => Except.error e) := by
        intro h1
        rcases he : execute_command H (varname_to_value a1.parser raw) a1 with e | ⟨m, a2⟩
        · rfl
        · rw [he] at h1
          cases m
          · exact ih _ _ h1
          · exact ih _ _ h1
      rcases hm : match_general_function (varname_to_value a1.parser raw) with _ | ⟨fn, arg⟩
      · rw [hm] at h
        exact hexec h
      · rw [hm] at h
        simp only at h ⊢
        rcases hf : map_find fn a1.parser.funcs with _ | fbody
        · rw [hf] at h
          exact hexec h
        · rw [hf] at h
          simp only [Option.map_some'] at h ⊢
          have h1 : call_function pl1 fn arg fbody a1 ≠ Except.error Stop.out_of_fuel := by
            intro h2
            rw [h2] at h
            exact h rfl
          rw [call_function_more_fuel pl1 pl2 hmono fn arg fbody a1 h1]
          rcases hc : call_function pl1 fn arg fbody a1 with e | a2
          · rfl
          · rw [hc] at h
            exact ih _ _ h

/-- A call of `parse_line` that does not run out of fuel returns the same with
more fuel. -/
theorem parse_line_more_fuel (H : Host) (fuel : ℕ) :
    ∀ input a, parse_line H fuel input a ≠ Except.error Stop.out_of_fuel →
      parse_line H (fuel + 1) input a = parse_line H fuel input a := by
  induction fuel with
  | zero =>
    intro input a h
    exact absurd rfl h
  | succ fuel ih =>
    intro input a h
    rw [parse_line] at h ⊢
    rw [parse_line]
    rcases hm : match_cli_loop (remove_whitespace (first_line input)) with _ | ⟨count, body⟩
    · rw [hm] at h
      exact run_commands_more_fuel H _ _ ih _ _ _ h
    · rw [hm] at h
      simp only at h ⊢
      rcases hn : stoi count with e | n
      · rfl
      · rw [hn] at h
        exact run_loop_more_fuel _ _ ih _ _ _ _ h

theorem parse_line_enough_fuel (H : Host) (fuel : ℕ) (input : Str) (a : App)
    (h : parse_line H fuel input a ≠ Except.error Stop.out_of_fuel) :
    ∀ more, parse_line H (fuel + more) input a = parse_line H fuel input a := by
  intro more
  induction more with
  | zero => rfl
  | succ more ih =>
    rw [← Nat.add_assoc, parse_line_more_fuel H (fuel + more) input a (by rw [ih]; exact h), ih]

/-- C30, counterexample.  The script defines `f` with the body `f()` and calls
`f()`.  The call runs the body, which calls `f()` again, from the same state: no
amount of fuel lets `parse_line` return on `f()`, nor `parse_script` on the
script; in the program the recursion has no end. -/
theorem recursive_function_never_returns :
    (parse_script host0 0 "DEF f() \x7b\nf()\n\x7d".toList (App.new host0 [])).toOption.map
        (fun r => r.2) = some recursive_app ∧
      (∀ fuel : ℕ, parse_line host0 fuel "f()".toList recursive_app =
        Except.error Stop.out_of_fuel) ∧
      ∀ fuel : ℕ, parse_script host0 fuel recursive_script (App.new host0 []) =
        Except.error Stop.out_of_fuel := by
  refine ⟨by decide!, recursive_call_fuel, ?_⟩
  intro fuel
  have hlines : getlines '\n' recursive_script =
      ["DEF f() \x7b".toList, "f()".toList, [rbrace], "f()".toList] := by decide
  have hdef : match_funcdef "DEF f() \x7b".toList = some ("f".toList, []) := by decide
  have hblock : read_block ["f()".toList, [rbrace], "f()".toList] =
      ("f()\n".toList, ["f()".toList]) := by decide
  have hnodef : match_funcdef "f()".toList = none := by decide
  have hnoloop : match_loopdef "f()".toList = none := by decide
  have hcall := recursive_call_fuel fuel
  unfold parse_script
  rw [hlines]
  simp only [List.length_cons, List.length_nil, parse_script_lines, hdef, hblock, hnodef,
    hnoloop, wait_idle host0 (App.new host0 []) rfl]
  have hstate : ({ App.new host0 [] with
      parser := define_function "f".toList [] "f()\n".toList (App.new host0 []).parser } : App) =
      recursive_app := rfl
  simp only [hstate, wait_idle host0 recursive_app rfl, hcall]

/-- C30, amended.  Let no body of the function table contain `}`, as in every
state that `parse_script` builds, and let no function reach itself through the
calls in the bodies: the functions have ranks below `bound` and a body calls
functions of a lower rank only.  Then `parse_line` ends on every input line,
waits for the completion of motions apart: the recursion through inline loops is
bounded by the length of the line and the recursion through the bodies by
`bound`.  With `input.length + bound + 1` levels of fuel the call does not run
out of fuel, and with more fuel it returns the same. -/
theorem parse_line_terminates_without_recursion (H : Host) (rank : Str → ℕ) (bound : ℕ)
    (input : Str) (a : App) (fuel : ℕ)
    (hbodies : bodies_without_brace a.parser) (hdown : calls_go_down a.parser.funcs rank)
    (hbound : ∀ kv ∈ a.parser.funcs, rank kv.1 < bound)
    (hfuel : input.length + bound + 1 ≤ fuel) :
    parse_line H fuel input a ≠ Except.error Stop.out_of_fuel ∧
      parse_line H fuel input a = parse_line H (input.length + bound + 1) input a := by
  have h0 := lines_fuel H a.parser.funcs rank bound hbodies hdown hbound input.length
    (input.length + bound + 1) (le_refl _) input (le_refl _) a rfl
  have h1 := parse_line_enough_fuel H _ input a h0 (fuel - (input.length + bound + 1))
  rw [show input.length + bound + 1 + (fuel - (input.length + bound + 1)) = fuel by omega] at h1
  exact ⟨by rw [h1]; exact h0, h1⟩

theorem parse_line_terminates_without_recursion_witness :
    parse_line host0 17 "LOOP2\x7bf();g()\x7d".toList nested_calls_app ≠
        Except.error Stop.out_of_fuel ∧
      parse_line host0 17 "LOOP2\x7bf();g()\x7d".toList nested_calls_app =
        parse_line host0 ("LOOP2\x7bf();g()\x7d".toList.length + 2 + 1)
          "LOOP2\x7bf();g()\x7d".toList nested_calls_app :=
  parse_line_terminates_without_recursion host0 nested_rank 2 "LOOP2\x7bf();g()\x7d".toList
    nested_calls_app 17 (by unfold bodies_without_brace; decide) (by decide) (by decide)
    (by decide)

end TurtleGraphics
